import Mathlib

/-!
# Mason: recursive-descent parser and canonical serializer

A shallow embedding of `src/src/mason.cc`.

* Bytes are natural numbers (`0..255` for real input); `EOF` is `none`.
* `Reader` is modelled by the bytes not yet consumed together with the
  line/column location; the 128-byte refill buffer of the source is an
  implementation of exactly this interface.
* `int` counters (line, column, hash counts, nesting depth) are unbounded
  integers; documents are assumed shorter than `2^31` bytes.
* Every `while (true)` loop of the source is a function that recurses on a
  fuel argument; the callers supply fuel computed from the length of the
  remaining input.  `Result.outOfFuel` is the only result that does not
  correspond to a return of the source.
* The `double` accumulation of integer digits is modelled on natural
  numbers with round-to-nearest-even to a 53-bit significand (`Dbl`), and
  `%.0f` prints the exact decimal digits.  The library conversions `strtod`
  and `std::to_chars` are parameters: a Number is whatever `strtod` returns
  for the text that `parseNumber` formats.
* An `Object` is the list of its entries; the serializer orders them by
  sequence number, so the order of the list is not observable.
* The error sink `String *err` is left out of the parser functions: a failing
  call is the value `Result.error` with the location and the message.  The
  namespace `WithSink` embeds the same functions with the sink as a
  parameter and a result, as the source passes it; the two are proved to
  agree.
* `printB64` is the function of `src/bin/mason-to-json.cc`.
-/

namespace Mason

/-- Source `struct Location`: one-based line and column. -/
structure Location where
  line : Nat
  ch : Nat
deriving DecidableEq, Repr

/-- The `what` argument of the source function `error`. -/
inductive ErrorKind where
  | unexpectedEOF
  | invalidHexCharacter
  | unexpectedCharacterForIdentifier
  | surrogate
  | unknownEscape
  | binaryAscii
  | expectedQuote
  | expectedDigit
  | invalidDigit
  | numberTooLong
  | expectedColon
  | expectedSeparatorObject
  | expectedOpenBrace
  | expectedOpenBracket
  | expectedSeparatorArray
  | nestingLimit
  | unexpectedKeyword
  | unexpectedCharacter
  | trailingGarbage
deriving DecidableEq, Repr

/-- The message text the source passes to `error` for each kind. -/
def ErrorKind.what : ErrorKind → String
  | .unexpectedEOF => "Unexpected EOF"
  | .invalidHexCharacter => "Invalid hex character"
  | .unexpectedCharacterForIdentifier => "Unexpected character for identifier"
  | .surrogate => "UTF-16 surrogate pair escapes are not allowed"
  | .unknownEscape => "Unknown escape character"
  | .binaryAscii => "Binary strings can only contain ASCII"
  | .expectedQuote => "Expected '\"'"
  | .expectedDigit => "Expected digit"
  | .invalidDigit => "Invalid digit"
  | .numberTooLong => "Number too long"
  | .expectedColon => "Expected ':'"
  | .expectedSeparatorObject => "Expected separator, '\x7d' or EOF"
  | .expectedOpenBrace => "Expected '\x7b'"
  | .expectedOpenBracket => "Expected '['"
  | .expectedSeparatorArray => "Expected separator or ']'"
  | .nestingLimit => "Nesting limit exceeded"
  | .unexpectedKeyword => "Unexpected keyword"
  | .unexpectedCharacter => "Unexpected character"
  | .trailingGarbage => "Trailing garbage after document"

/-- What a failing parse reports: the location and the message kind. -/
structure ParseError where
  loc : Location
  what : ErrorKind
deriving DecidableEq, Repr

/-- Source `error(loc, err, what)`: the value written to the error sink. -/
def error (loc : Location) (what : ErrorKind) : ParseError := ⟨loc, what⟩

/-- The text `"<line>:<col>: <message>"` that `error` stores in the sink. -/
def ParseError.message (e : ParseError) : String :=
  toString e.loc.line ++ ":" ++ toString e.loc.ch ++ ": " ++ e.what.what

/-- Outcome of a parsing function: `ok` is `return true` with the outputs,
`error` is `return false` after a call of `error`, `outOfFuel` means the
fuel of the model ran out. -/
inductive Result (α : Type) where
  | ok (a : α)
  | error (e : ParseError)
  | outOfFuel
deriving DecidableEq, Repr

/-- Source `class Reader`: the unread bytes and the current location. -/
structure Reader where
  input : List Nat
  loc : Location
deriving DecidableEq, Repr

/-- A reader at the start of a document. -/
def Reader.init (input : List Nat) : Reader := ⟨input, ⟨1, 1⟩⟩

/-- Source `Reader::peek`. -/
def Reader.peek (r : Reader) : Option Nat := r.input.head?

/-- Source `Reader::peek2`. -/
def Reader.peek2 (r : Reader) : Option Nat := r.input.tail.head?

/-- Source `Reader::get`: the byte read (or EOF) and the reader after it. -/
def Reader.get (r : Reader) : Option Nat × Reader :=
  (r.peek,
    ⟨r.input.tail,
      if r.peek = some 10 then ⟨r.loc.line + 1, 1⟩ else ⟨r.loc.line, r.loc.ch + 1⟩⟩)

/-- Fuel that is enough for any loop that consumes a byte per iteration. -/
def Reader.fuel (r : Reader) : Nat := r.input.length + 1

/-- The `while (true)` loop of `skipBlockComment`. -/
def skipBlockCommentLoop : Nat → Reader → Result Reader
  | 0, _ => .outOfFuel
  | fuel + 1, r =>
    match r.get.1 with
    | none => .error (error r.get.2.loc .unexpectedEOF)
    | some ch =>
      if ch = 42 ∧ r.get.2.peek = some 47 then .ok r.get.2.get.2
      else skipBlockCommentLoop fuel r.get.2

/-- Source `skipBlockComment`. -/
def skipBlockComment (r : Reader) : Result Reader :=
  skipBlockCommentLoop r.get.2.get.2.fuel r.get.2.get.2

/-- The inner loop of a line comment: read through the next newline or EOF. -/
def skipLineCommentLoop : Nat → Reader → Result Reader
  | 0, _ => .outOfFuel
  | fuel + 1, r =>
    if r.get.1 = some 10 ∨ r.get.1 = none then .ok r.get.2
    else skipLineCommentLoop fuel r.get.2

/-- The outer loop of `skipWhitespace`. -/
def skipWhitespaceLoop : Nat → Reader → Result Reader
  | 0, _ => .outOfFuel
  | fuel + 1, r =>
    if r.peek = some 32 ∨ r.peek = some 13 ∨ r.peek = some 10 ∨ r.peek = some 9 then
      skipWhitespaceLoop fuel r.get.2
    else if r.peek = some 47 ∧ r.peek2 = some 47 then
      match skipLineCommentLoop r.get.2.get.2.fuel r.get.2.get.2 with
      | .ok r1 => skipWhitespaceLoop fuel r1
      | .error e => .error e
      | .outOfFuel => .outOfFuel
    else if r.peek = some 47 ∧ r.peek2 = some 42 then
      match skipBlockComment r with
      | .ok r1 => skipWhitespaceLoop fuel r1
      | .error e => .error e
      | .outOfFuel => .outOfFuel
    else .ok r

/-- Source `skipWhitespace`. -/
def skipWhitespace (r : Reader) : Result Reader := skipWhitespaceLoop r.fuel r

/-- The loop of `skipSpace`. -/
def skipSpaceLoop : Nat → Reader → Result Reader
  | 0, _ => .outOfFuel
  | fuel + 1, r =>
    if r.peek = some 32 ∨ r.peek = some 9 then skipSpaceLoop fuel r.get.2
    else if r.peek = some 47 ∧ r.peek2 = some 42 then
      match skipBlockComment r with
      | .ok r1 => skipSpaceLoop fuel r1
      | .error e => .error e
      | .outOfFuel => .outOfFuel
    else .ok r

/-- Source `skipSpace`. -/
def skipSpace (r : Reader) : Result Reader := skipSpaceLoop r.fuel r

/-- Source `skipSep`: the flag `foundSep` and the reader afterwards. -/
def skipSep (r : Reader) : Result (Bool × Reader) :=
  match skipSpace r with
  | .error e => .error e
  | .outOfFuel => .outOfFuel
  | .ok r =>
    if r.peek = some 44 ∨ r.peek = some 10 then
      match skipWhitespace r.get.2 with
      | .ok r1 => .ok (true, r1)
      | .error e => .error e
      | .outOfFuel => .outOfFuel
    else if r.peek = some 13 ∧ r.peek2 = some 10 then
      match skipWhitespace r.get.2.get.2 with
      | .ok r1 => .ok (true, r1)
      | .error e => .error e
      | .outOfFuel => .outOfFuel
    else if r.peek = some 47 ∧ r.peek2 = some 47 then
      match skipLineCommentLoop r.get.2.get.2.fuel r.get.2.get.2 with
      | .ok r1 => .ok (true, r1)
      | .error e => .error e
      | .outOfFuel => .outOfFuel
    else .ok (false, r)

/-- Source `parseHex`: reads exactly `n` hex digits into a `uint32_t`. -/
def parseHex : Nat → Reader → Nat → Result (Nat × Reader)
  | 0, r, num => .ok (num, r)
  | n + 1, r, num =>
    match r.get.1 with
    | none => .error (error r.get.2.loc .unexpectedEOF)
    | some ch =>
      if 48 ≤ ch ∧ ch ≤ 57 then
        parseHex n r.get.2 ((num * 16 % 2 ^ 32 + (ch - 48)) % 2 ^ 32)
      else if 97 ≤ ch ∧ ch ≤ 102 then
        parseHex n r.get.2 ((num * 16 % 2 ^ 32 + (ch - 97 + 10)) % 2 ^ 32)
      else if 65 ≤ ch ∧ ch ≤ 70 then
        parseHex n r.get.2 ((num * 16 % 2 ^ 32 + (ch - 65 + 10)) % 2 ^ 32)
      else .error (error r.loc .invalidHexCharacter)

/-- The lambda `isFirstIdent` of `parseIdentifier`. -/
def isFirstIdent (ch : Nat) : Bool :=
  (97 ≤ ch && ch ≤ 122) || (65 ≤ ch && ch ≤ 90) || ch == 95

/-- The lambda `isIdent` of `parseIdentifier`. -/
def isIdent (ch : Nat) : Bool :=
  (97 ≤ ch && ch ≤ 122) || (65 ≤ ch && ch ≤ 90) || (48 ≤ ch && ch ≤ 57) ||
    ch == 95 || ch == 45

/-- The `do ... while (isIdent(r.peek()))` loop of `parseIdentifier`;
`ident += r.get()` appends the byte read (EOF converts to the byte 255). -/
def parseIdentifierLoop : Nat → Reader → List Nat → Result (List Nat × Reader)
  | 0, _, _ => .outOfFuel
  | fuel + 1, r, ident =>
    match r.get.2.peek with
    | none => .ok (ident ++ [r.get.1.getD 255], r.get.2)
    | some nx =>
      if isIdent nx then parseIdentifierLoop fuel r.get.2 (ident ++ [r.get.1.getD 255])
      else .ok (ident ++ [r.get.1.getD 255], r.get.2)

/-- Source `parseIdentifier`. -/
def parseIdentifier (r : Reader) : Result (List Nat × Reader) :=
  match r.peek with
  | none => .error (error r.loc .unexpectedEOF)
  | some ch =>
    if isFirstIdent ch then parseIdentifierLoop r.fuel r []
    else .error (error r.loc .unexpectedCharacterForIdentifier)

/-- Source `parseStringEscapeChar`: the byte pushed, or `none` for `false`. -/
def parseStringEscapeChar (ch : Nat) : Option Nat :=
  if ch = 34 then some 34
  else if ch = 92 then some 92
  else if ch = 47 then some 47
  else if ch = 98 then some 8
  else if ch = 102 then some 12
  else if ch = 110 then some 10
  else if ch = 114 then some 13
  else if ch = 116 then some 9
  else none

/-- Source `writeUTF8`: the bytes appended to the string. -/
def writeUTF8 (num : Nat) : List Nat :=
  if num ≥ 0x10000 then
    [(0xf0 ||| ((num &&& 0x1c0000) >>> 18)) % 256,
     (0x80 ||| ((num &&& 0x03f000) >>> 12)) % 256,
     (0x80 ||| ((num &&& 0x000fc0) >>> 6)) % 256,
     (0x80 ||| ((num &&& 0x00003f) >>> 0)) % 256]
  else if num ≥ 0x0800 then
    [(0xe0 ||| ((num &&& 0x00f000) >>> 12)) % 256,
     (0x80 ||| ((num &&& 0x000fc0) >>> 6)) % 256,
     (0x80 ||| ((num &&& 0x00003f) >>> 0)) % 256]
  else if num ≥ 0x0080 then
    [(0xc0 ||| ((num &&& 0x0007c0) >>> 6)) % 256,
     (0x80 ||| ((num &&& 0x00003f) >>> 0)) % 256]
  else [num % 256]

/-- Source `parseStringEscape`: the string after the escape was appended. -/
def parseStringEscape (r : Reader) (str : List Nat) : Result (List Nat × Reader) :=
  match r.get.1 with
  | none => .error (error r.get.2.loc .unexpectedEOF)
  | some ch =>
    match parseStringEscapeChar ch with
    | some c => .ok (str ++ [c], r.get.2)
    | none =>
      if ch = 120 then
        match parseHex 2 r.get.2 0 with
        | .ok (num, r1) => .ok (str ++ [num % 256], r1)
        | .error e => .error e
        | .outOfFuel => .outOfFuel
      else if ch = 117 then
        match parseHex 4 r.get.2 0 with
        | .ok (codepoint, r1) =>
          if codepoint ≥ 0xd800 ∧ codepoint ≤ 0xdfff then
            .error (error r.get.2.loc .surrogate)
          else .ok (str ++ writeUTF8 codepoint, r1)
        | .error e => .error e
        | .outOfFuel => .outOfFuel
      else if ch = 85 then
        match parseHex 6 r.get.2 0 with
        | .ok (codepoint, r1) =>
          if codepoint ≥ 0xd800 ∧ codepoint ≤ 0xdfff then
            .error (error r.get.2.loc .surrogate)
          else .ok (str ++ writeUTF8 codepoint, r1)
        | .error e => .error e
        | .outOfFuel => .outOfFuel
      else .error (error r.get.2.loc .unknownEscape)

/-- The `while (true)` loop of `parseString`. -/
def parseStringLoop : Nat → Reader → List Nat → Result (List Nat × Reader)
  | 0, _, _ => .outOfFuel
  | fuel + 1, r, str =>
    match r.get.1 with
    | none => .error (error r.get.2.loc .unexpectedEOF)
    | some ch =>
      if ch = 34 then .ok (str, r.get.2)
      else if ch = 92 then
        match parseStringEscape r.get.2 str with
        | .ok (str1, r1) => parseStringLoop fuel r1 str1
        | .error e => .error e
        | .outOfFuel => .outOfFuel
      else parseStringLoop fuel r.get.2 (str ++ [ch])

/-- Source `parseString`; the reader stands on the opening quote. -/
def parseString (r : Reader) : Result (List Nat × Reader) :=
  parseStringLoop r.get.2.fuel r.get.2 []

/-- The `while (true)` loop of `parseBinaryString`. -/
def parseBinaryStringLoop : Nat → Reader → List Nat → Result (List Nat × Reader)
  | 0, _, _ => .outOfFuel
  | fuel + 1, r, bytes =>
    match r.get.1 with
    | none => .error (error r.get.2.loc .unexpectedEOF)
    | some ch =>
      if ch = 34 then .ok (bytes, r.get.2)
      else if ch = 92 then
        match r.get.2.get.1 with
        | none => .error (error r.get.2.get.2.loc .unexpectedEOF)
        | some ch2 =>
          if ch2 = 120 then
            match parseHex 2 r.get.2.get.2 0 with
            | .ok (num, r1) => parseBinaryStringLoop fuel r1 (bytes ++ [num % 256])
            | .error e => .error e
            | .outOfFuel => .outOfFuel
          else
            match parseStringEscapeChar ch2 with
            | some c => parseBinaryStringLoop fuel r.get.2.get.2 (bytes ++ [c])
            | none => .error (error r.get.2.get.2.loc .unknownEscape)
      else if ch > 127 then .error (error r.loc .binaryAscii)
      else parseBinaryStringLoop fuel r.get.2 (bytes ++ [ch])

/-- Source `parseBinaryString`; the reader stands on the `b`. -/
def parseBinaryString (r : Reader) : Result (List Nat × Reader) :=
  parseBinaryStringLoop r.get.2.get.2.fuel r.get.2.get.2 []

/-- The loop `while ((ch = r.get()) == '#') hashes += 1` of `parseRawString`:
the count, the first byte that is not `#`, and the reader after that byte. -/
def countHashes : Nat → Reader → Nat → Result (Nat × Option Nat × Reader)
  | 0, _, _ => .outOfFuel
  | fuel + 1, r, hashes =>
    if r.get.1 = some 35 then countHashes fuel r.get.2 (hashes + 1)
    else .ok (hashes, r.get.1, r.get.2)

/-- The content loop of `parseRawString`; `hashState` is the source variable. -/
def parseRawStringLoop (hashes : Nat) : Nat → Reader → List Nat → Int → Result (List Nat × Reader)
  | 0, _, _, _ => .outOfFuel
  | fuel + 1, r, str, hashState =>
    match r.get.1 with
    | none => .error (error r.get.2.loc .unexpectedEOF)
    | some ch =>
      let hashState1 : Int :=
        if ch = 34 then 0
        else if ch = 35 ∧ hashState ≥ 0 then hashState + 1
        else -1
      if hashState1 = (hashes : Int) then
        .ok ((str ++ [ch]).take ((str ++ [ch]).length - hashes - 1), r.get.2)
      else parseRawStringLoop hashes fuel r.get.2 (str ++ [ch]) hashState1

/-- Source `parseRawString`; the reader stands on the `r`. -/
def parseRawString (r : Reader) : Result (List Nat × Reader) :=
  match countHashes r.get.2.fuel r.get.2 0 with
  | .error e => .error e
  | .outOfFuel => .outOfFuel
  | .ok (hashes, ch, r1) =>
    if ch ≠ some 34 then .error (error r1.loc .expectedQuote)
    else parseRawStringLoop hashes r1.fuel r1 [] (-1)

/-- Source `charValue`: the value of a hex digit, `none` for `false`. -/
def charValue (ch : Option Nat) : Option Nat :=
  match ch with
  | none => none
  | some c =>
    if 48 ≤ c ∧ c ≤ 57 then some (c - 48)
    else if 97 ≤ c ∧ c ≤ 102 then some (c - 97 + 10)
    else if 65 ≤ c ∧ c ≤ 70 then some (c - 65 + 10)
    else none

/-- Round a natural number to the nearest binary64 value, ties to even
(53-bit significand); the result is again a natural number. -/
def roundBinary64 (n : Nat) : Nat :=
  if n < 2 ^ 53 then n
  else
    let e := Nat.log2 n - 52
    let q := n / 2 ^ e
    let rest := n % 2 ^ e
    let half := 2 ^ (e - 1)
    if rest > half ∨ (rest = half ∧ q % 2 = 1) then (q + 1) * 2 ^ e else q * 2 ^ e

/-- The `double` values that the digit accumulation of `parseInteger` can
hold: a non-negative integer exactly representable in binary64, or `+inf`. -/
inductive Dbl where
  | fin (n : Nat)
  | inf
deriving DecidableEq, Repr

/-- The `double` nearest to a natural number; a rounded value with a bit at
position 1024 or above (that is, `≥ 2^1024`) overflows to `+inf`. -/
def Dbl.ofNat (n : Nat) : Dbl :=
  if roundBinary64 n >>> 1024 = 0 then .fin (roundBinary64 n) else .inf

/-- Source `num *= radix` on a `double`. -/
def Dbl.mul (x : Dbl) (radix : Nat) : Dbl :=
  match x with
  | .fin n => Dbl.ofNat (n * radix)
  | .inf => .inf

/-- Source `num += digit` on a `double`. -/
def Dbl.add (x : Dbl) (digit : Nat) : Dbl :=
  match x with
  | .fin n => Dbl.ofNat (n + digit)
  | .inf => .inf

/-- Digits of `n` in base `radix`, most significant first, in front of `acc`. -/
def toRadixAux (radix : Nat) : Nat → Nat → List Nat → List Nat
  | 0, _, acc => acc
  | fuel + 1, n, acc =>
    if n < radix then n :: acc
    else toRadixAux radix fuel (n / radix) (n % radix :: acc)

/-- Digits of `n` in base `radix`, most significant first (`[0]` for zero). -/
def toRadix (radix n : Nat) : List Nat := toRadixAux radix (n + 1) n []

/-- The character of a digit value: `0-9`, then `A-F` or `a-f`. -/
def digitChar (upper : Bool) (d : Nat) : Nat :=
  if d < 10 then 48 + d else if upper then 55 + d else 87 + d

/-- The decimal text of a natural number. -/
def toDecimal (n : Nat) : List Nat := (toRadix 10 n).map (digitChar true)

/-- What `snprintf` prints for `%.0f`: the exact decimal digits, or `inf`. -/
def Dbl.format (x : Dbl) : List Nat :=
  match x with
  | .fin n => toDecimal n
  | .inf => [105, 110, 102]

/-- The loop of `parseInteger` after the first digit. -/
def parseIntegerLoop (radix : Nat) : Nat → Reader → Dbl → Result (Dbl × Reader)
  | 0, _, _ => .outOfFuel
  | fuel + 1, r, num =>
    if r.peek = none then .ok (num, r)
    else if r.peek = some 39 then parseIntegerLoop radix fuel r.get.2 num
    else
      match charValue r.peek with
      | none => .ok (num, r)
      | some digit =>
        if digit ≥ radix then .ok (num, r)
        else parseIntegerLoop radix fuel r.get.2 ((num.mul radix).add digit)

/-- Source `parseInteger`. -/
def parseInteger (r : Reader) (radix : Nat) : Result (Dbl × Reader) :=
  match charValue r.peek with
  | none => .error (error r.loc .expectedDigit)
  | some digit =>
    if digit ≥ radix then .error (error r.loc .invalidDigit)
    else parseIntegerLoop radix r.get.2.fuel r.get.2 (.fin digit)

/-- The digit loop of the fractional part in `parseNumber`. -/
def parseFractionLoop : Nat → Reader → List Nat → Result (List Nat × Reader)
  | 0, _, _ => .outOfFuel
  | fuel + 1, r, fractional =>
    match r.peek with
    | none => .ok (fractional, r)
    | some ch =>
      if ch = 39 then parseFractionLoop fuel r.get.2 fractional
      else if 48 ≤ ch ∧ ch ≤ 57 then parseFractionLoop fuel r.get.2 (fractional ++ [ch])
      else .ok (fractional, r)

/-- The fractional part of `parseNumber`; the reader stands on the `.`. -/
def parseFraction (r : Reader) : Result (List Nat × Reader) :=
  match r.get.2.peek with
  | none => .error (error r.get.2.loc .expectedDigit)
  | some ch =>
    if 48 ≤ ch ∧ ch ≤ 57 then parseFractionLoop r.get.2.fuel r.get.2 [46]
    else .error (error r.get.2.loc .expectedDigit)

/-- The exponent part of `parseNumber`; the reader stands on `e` or `E`.
The result is the sign flag (`exponentSign < 0`) and the magnitude. -/
def parseExponent (r : Reader) : Result ((Bool × Dbl) × Reader) :=
  match parseInteger
      (if r.get.2.peek = some 45 ∨ r.get.2.peek = some 43 then r.get.2.get.2 else r.get.2) 10 with
  | .ok (exponent, r1) => .ok ((decide (r.get.2.peek = some 45), exponent), r1)
  | .error e => .error e
  | .outOfFuel => .outOfFuel

/-- The text `snprintf` writes for `"%s%.0f%se%.0f"`. -/
def formatNumber (sign : List Nat) (integral : Dbl) (fractional : List Nat)
    (exponentNegative : Bool) (exponent : Dbl) : List Nat :=
  sign ++ integral.format ++ fractional ++ [101] ++
    (if exponentNegative then [45] else []) ++ exponent.format

/-- The radix selected by the bytes at the start of the digits. -/
def numberRadix (r : Reader) : Nat :=
  if r.peek = some 48 then
    if r.peek2 = some 120 then 16
    else if r.peek2 = some 111 then 8
    else if r.peek2 = some 98 then 2
    else 10
  else 10

/-- Source `parseNumber`; `strtod` converts the formatted text. -/
def parseNumber {F : Type} (strtod : List Nat → F) (r : Reader) : Result (F × Reader) :=
  let sign : List Nat := if r.peek = some 45 then [45] else []
  let r1 := if r.peek = some 45 ∨ r.peek = some 43 then r.get.2 else r
  let radix := numberRadix r1
  let r2 := if radix = 10 then r1 else r1.get.2.get.2
  match (if r2.peek ≠ some 46 then parseInteger r2 radix else .ok (.fin 0, r2)) with
  | .error e => .error e
  | .outOfFuel => .outOfFuel
  | .ok (integral, r3) =>
    match (if radix = 10 ∧ r3.peek = some 46 then parseFraction r3 else .ok ([], r3)) with
    | .error e => .error e
    | .outOfFuel => .outOfFuel
    | .ok (fractional, r4) =>
      match (if radix = 10 ∧ (r4.peek = some 101 ∨ r4.peek = some 69) then parseExponent r4
             else .ok ((false, .fin 0), r4)) with
      | .error e => .error e
      | .outOfFuel => .outOfFuel
      | .ok ((exponentNegative, exponent), r5) =>
        if (formatNumber sign integral fractional exponentNegative exponent).length ≥ 256 then
          .error (error r.loc .numberTooLong)
        else
          .ok (strtod (formatNumber sign integral fractional exponentNegative exponent), r5)

/-- An entry of the source `Object` (an unordered map from key to value);
`index` is the sequence number `index_` of the mapped `Value`. -/
structure Entry (V : Type) where
  key : List Nat
  index : Nat
  value : V
deriving DecidableEq, Repr

/-- Source `class Value`: the seven variants.  `F` is the type of `double`.
The sequence number of an array element is written by the parser and never
read, so only object entries carry it. -/
inductive Value (F : Type) where
  | null
  | bool (b : Bool)
  | number (n : F)
  | string (s : List Nat)
  | bstring (b : List Nat)
  | array (a : List (Value F))
  | object (o : List (Entry (Value F)))

/-- Source `obj[key] = value` followed by `val->index(index)`: an existing
entry with this key is overwritten, otherwise an entry is added. -/
def Object.set {V : Type} (obj : List (Entry V)) (key : List Nat) (index : Nat) (v : V) :
    List (Entry V) :=
  match obj with
  | [] => [⟨key, index, v⟩]
  | e :: rest =>
    if e.key = key then ⟨key, index, v⟩ :: rest
    else e :: Object.set rest key index v

/-- Source `parseKey`. -/
def parseKey (r : Reader) : Result (List Nat × Reader) :=
  if r.peek = some 34 then parseString r else parseIdentifier r

/-- The keyword tail of `parseValue`: `null`, `true`, `false`, or an error
reported at the location where the identifier started. -/
def keywordValue {F : Type} (loc : Location) (ident : List Nat) : Result (Value F) :=
  if ident = [110, 117, 108, 108] then .ok .null
  else if ident = [116, 114, 117, 101] then .ok (.bool true)
  else if ident = [102, 97, 108, 115, 101] then .ok (.bool false)
  else if ident.length > 0 then .error (error loc .unexpectedKeyword)
  else .error (error loc .unexpectedCharacter)

mutual

/-- Source `parseKeyValuePairsAfterKey`, one call per loop iteration: `obj`
and `index` are the loop state (the source starts from the empty object and
index 0). -/
def parseKeyValuePairsAfterKey {F : Type} (strtod : List Nat → F) :
    Nat → Reader → List Nat → List (Entry (Value F)) → Nat → Int →
      Result (List (Entry (Value F)) × Reader)
  | 0, _, _, _, _, _ => .outOfFuel
  | fuel + 1, r, key, obj, index, depth =>
    if r.peek ≠ some 58 then .error (error r.loc .expectedColon)
    else
      match skipWhitespace r.get.2 with
      | .error e => .error e
      | .outOfFuel => .outOfFuel
      | .ok r1 =>
        match parseValue strtod fuel r1 depth false with
        | .error e => .error e
        | .outOfFuel => .outOfFuel
        | .ok (val, r2) =>
          match skipSep r2 with
          | .error e => .error e
          | .outOfFuel => .outOfFuel
          | .ok (hasSep, r3) =>
            match skipWhitespace r3 with
            | .error e => .error e
            | .outOfFuel => .outOfFuel
            | .ok r4 =>
              if r4.peek = some 125 ∨ r4.peek = none then
                .ok (Object.set obj key index val, r4)
              else if hasSep = false then .error (error r4.loc .expectedSeparatorObject)
              else
                match parseKey r4 with
                | .error e => .error e
                | .outOfFuel => .outOfFuel
                | .ok (key1, r5) =>
                  match skipWhitespace r5 with
                  | .error e => .error e
                  | .outOfFuel => .outOfFuel
                  | .ok r6 =>
                    parseKeyValuePairsAfterKey strtod fuel r6 key1
                      (Object.set obj key index val) (index + 1) depth

/-- Source `parseKeyValuePairs`. -/
def parseKeyValuePairs {F : Type} (strtod : List Nat → F) :
    Nat → Reader → Int → Result (List (Entry (Value F)) × Reader)
  | 0, _, _ => .outOfFuel
  | fuel + 1, r, depth =>
    match parseKey r with
    | .error e => .error e
    | .outOfFuel => .outOfFuel
    | .ok (key, r1) =>
      match skipWhitespace r1 with
      | .error e => .error e
      | .outOfFuel => .outOfFuel
      | .ok r2 => parseKeyValuePairsAfterKey strtod fuel r2 key [] 0 depth

/-- Source `parseObject`. -/
def parseObject {F : Type} (strtod : List Nat → F) :
    Nat → Reader → Int → Result (List (Entry (Value F)) × Reader)
  | 0, _, _ => .outOfFuel
  | fuel + 1, r, depth =>
    if r.peek ≠ some 123 then .error (error r.loc .expectedOpenBrace)
    else
      match skipWhitespace r.get.2 with
      | .error e => .error e
      | .outOfFuel => .outOfFuel
      | .ok r1 =>
        if r1.peek = some 125 then .ok ([], r1.get.2)
        else
          match parseKeyValuePairs strtod fuel r1 depth with
          | .error e => .error e
          | .outOfFuel => .outOfFuel
          | .ok (obj, r2) =>
            match skipWhitespace r2 with
            | .error e => .error e
            | .outOfFuel => .outOfFuel
            | .ok r3 =>
              if r3.peek ≠ some 125 then .error (error r3.loc .expectedOpenBrace)
              else .ok (obj, r3.get.2)

/-- The `while (true)` loop of `parseArray`; `arr` is the array so far. -/
def parseArrayLoop {F : Type} (strtod : List Nat → F) :
    Nat → Reader → List (Value F) → Int → Result (List (Value F) × Reader)
  | 0, _, _, _ => .outOfFuel
  | fuel + 1, r, arr, depth =>
    match parseValue strtod fuel r depth false with
    | .error e => .error e
    | .outOfFuel => .outOfFuel
    | .ok (val, r1) =>
      match skipSep r1 with
      | .error e => .error e
      | .outOfFuel => .outOfFuel
      | .ok (hasSep, r2) =>
        if r2.peek = some 93 then .ok (arr ++ [val], r2.get.2)
        else if r2.peek = none then .error (error r2.loc .unexpectedEOF)
        else if hasSep = false then .error (error r2.loc .expectedSeparatorArray)
        else parseArrayLoop strtod fuel r2 (arr ++ [val]) depth

/-- Source `parseArray`. -/
def parseArray {F : Type} (strtod : List Nat → F) :
    Nat → Reader → Int → Result (List (Value F) × Reader)
  | 0, _, _ => .outOfFuel
  | fuel + 1, r, depth =>
    if r.peek ≠ some 91 then .error (error r.loc .expectedOpenBracket)
    else
      match skipWhitespace r.get.2 with
      | .error e => .error e
      | .outOfFuel => .outOfFuel
      | .ok r1 =>
        if r1.peek = some 93 then .ok ([], r1.get.2)
        else parseArrayLoop strtod fuel r1 [] depth

/-- Source `parseValue`. -/
def parseValue {F : Type} (strtod : List Nat → F) :
    Nat → Reader → Int → Bool → Result (Value F × Reader)
  | 0, _, _, _ => .outOfFuel
  | fuel + 1, r, depth, topLevel =>
    if depth ≤ 0 then .error (error r.loc .nestingLimit)
    else if r.peek = none then .error (error r.loc .unexpectedEOF)
    else if r.peek = some 91 then
      match parseArray strtod fuel r (depth - 1) with
      | .error e => .error e
      | .outOfFuel => .outOfFuel
      | .ok (arr, r1) => .ok (.array arr, r1)
    else if r.peek = some 123 then
      match parseObject strtod fuel r (depth - 1) with
      | .error e => .error e
      | .outOfFuel => .outOfFuel
      | .ok (obj, r1) => .ok (.object obj, r1)
    else if r.peek = some 34 then
      match parseString r with
      | .error e => .error e
      | .outOfFuel => .outOfFuel
      | .ok (ident, r1) =>
        if topLevel then
          match skipWhitespace r1 with
          | .error e => .error e
          | .outOfFuel => .outOfFuel
          | .ok r2 =>
            if r2.peek = some 58 then
              match parseKeyValuePairsAfterKey strtod fuel r2 ident [] 0 (depth - 1) with
              | .error e => .error e
              | .outOfFuel => .outOfFuel
              | .ok (obj, r3) => .ok (.object obj, r3)
            else .ok (.string ident, r2)
        else .ok (.string ident, r1)
    else if r.peek = some 114 ∧ (r.peek2 = some 34 ∨ r.peek2 = some 35) then
      match parseRawString r with
      | .error e => .error e
      | .outOfFuel => .outOfFuel
      | .ok (str, r1) => .ok (.string str, r1)
    else if (r.peek.any fun ch => 48 ≤ ch ∧ ch ≤ 57) ∨ r.peek = some 46 ∨ r.peek = some 43 ∨
        r.peek = some 45 then
      match parseNumber strtod r with
      | .error e => .error e
      | .outOfFuel => .outOfFuel
      | .ok (num, r1) => .ok (.number num, r1)
    else if r.peek = some 98 ∧ r.peek2 = some 34 then
      match parseBinaryString r with
      | .error e => .error e
      | .outOfFuel => .outOfFuel
      | .ok (bytes, r1) => .ok (.bstring bytes, r1)
    else
      match parseIdentifier r with
      | .error e => .error e
      | .outOfFuel => .outOfFuel
      | .ok (ident, r1) =>
        if topLevel then
          match skipWhitespace r1 with
          | .error e => .error e
          | .outOfFuel => .outOfFuel
          | .ok r2 =>
            if r2.peek = some 58 then
              match parseKeyValuePairsAfterKey strtod fuel r2 ident [] 0 (depth - 1) with
              | .error e => .error e
              | .outOfFuel => .outOfFuel
              | .ok (obj, r3) => .ok (.object obj, r3)
            else
              match keywordValue r.loc ident with
              | .ok v => .ok (v, r2)
              | .error e => .error e
              | .outOfFuel => .outOfFuel
        else
          match keywordValue r.loc ident with
          | .ok v => .ok (v, r1)
          | .error e => .error e
          | .outOfFuel => .outOfFuel

end

/-- Fuel for a document of `n` bytes: every call in the mutual recursion of
`parseValue` that is given this much fuel has consumed a byte for each four
units it has used. -/
def parseFuel (n : Nat) : Nat := 4 * n + 4

/-- Source `parse`: the parsed document, or the error written to the sink. -/
def parse {F : Type} (strtod : List Nat → F) (input : List Nat) (maxDepth : Int) :
    Result (Value F) :=
  match skipWhitespace (Reader.init input) with
  | .error e => .error e
  | .outOfFuel => .outOfFuel
  | .ok r =>
    match parseValue strtod (parseFuel input.length) r maxDepth true with
    | .error e => .error e
    | .outOfFuel => .outOfFuel
    | .ok (v, r1) =>
      match skipWhitespace r1 with
      | .error e => .error e
      | .outOfFuel => .outOfFuel
      | .ok r2 =>
        if r2.peek ≠ none then .error (error r2.loc .trailingGarbage)
        else .ok v

/-- Source `serializeString`. -/
def serializeString (ident : List Nat) : List Nat :=
  [34] ++ ident.flatMap (fun ch =>
    if ch = 34 ∨ ch = 92 then [92, ch]
    else if ch = 10 then [92, 110]
    else if ch = 13 then [92, 114]
    else if ch = 9 then [92, 116]
    else [ch]) ++ [34]

/-- The table `alphabet` of `serializeBString`, indexed by a nibble. -/
def hexAlphabet (nibble : Nat) : Nat :=
  if nibble < 10 then 48 + nibble else 87 + nibble

/-- Source `serializeBString`. -/
def serializeBString (ident : List Nat) : List Nat :=
  [98, 34] ++ ident.flatMap (fun ch =>
    if ch ≥ 32 ∧ ch < 127 then [ch]
    else [92, 120, hexAlphabet (ch >>> 4), hexAlphabet (ch &&& 0x0f)]) ++ [34]

/-- Source `serializeKey`. -/
def serializeKey (ident : List Nat) : List Nat :=
  match ident with
  | [] => [34, 34]
  | ch :: _ =>
    if isFirstIdent ch = false then serializeString ident
    else if ident.all isIdent then ident
    else serializeString ident

/-- The indentation loop: two spaces per level. -/
def indentation (indent : Nat) : List Nat := List.replicate (2 * indent) 32

/-- Insert a rendered entry into a list ordered by sequence number. -/
def insertByIndex (e : Entry (List Nat)) : List (Entry (List Nat)) → List (Entry (List Nat))
  | [] => [e]
  | x :: rest => if e.index < x.index then e :: x :: rest else x :: insertByIndex e rest

/-- The `std::sort` of `serializeKeyValues`: ascending sequence number. -/
def sortByIndex : List (Entry (List Nat)) → List (Entry (List Nat))
  | [] => []
  | e :: rest => insertByIndex e (sortByIndex rest)

/-- One output line of `serializeKeyValues` for an entry whose value is
already rendered. -/
def serializeEntryLine (indent : Nat) (e : Entry (List Nat)) : List Nat :=
  indentation indent ++ serializeKey e.key ++ [58, 32] ++ e.value ++ [10]

mutual

/-- Source `serializeValue` (with `serializeArray` and `serializeObject`);
`to_chars` renders a `double`. -/
def serializeValue {F : Type} (to_chars : F → List Nat) : Value F → Nat → List Nat
  | .null, _ => [110, 117, 108, 108]
  | .bool b, _ => if b then [116, 114, 117, 101] else [102, 97, 108, 115, 101]
  | .number n, _ => to_chars n
  | .string s, _ => serializeString s
  | .bstring b, _ => serializeBString b
  | .array [], _ => [91, 93]
  | .array (v :: vs), indent =>
    [91, 10] ++ serializeArrayElements to_chars (v :: vs) (indent + 1) ++ [93]
  | .object [], _ => [123, 125]
  | .object (e :: es), indent =>
    [123, 10] ++
      (sortByIndex (renderEntries to_chars (e :: es) (indent + 1))).flatMap
        (serializeEntryLine (indent + 1)) ++ [125]

/-- The element loop of `serializeArray` at the already incremented indent. -/
def serializeArrayElements {F : Type} (to_chars : F → List Nat) :
    List (Value F) → Nat → List Nat
  | [], _ => []
  | v :: vs, indent =>
    indentation indent ++ serializeValue to_chars v indent ++ [10] ++
      serializeArrayElements to_chars vs indent

/-- The values of the entries rendered by `serializeValue` at `indent`.
`serializeKeyValues` sorts the entries and renders each; rendering does not
depend on the order, so the model renders first and sorts afterwards. -/
def renderEntries {F : Type} (to_chars : F → List Nat) :
    List (Entry (Value F)) → Nat → List (Entry (List Nat))
  | [], _ => []
  | e :: es, indent =>
    ⟨e.key, e.index, serializeValue to_chars e.value indent⟩ :: renderEntries to_chars es indent

end

/-- Source `serializeKeyValues`. -/
def serializeKeyValues {F : Type} (to_chars : F → List Nat) (obj : List (Entry (Value F)))
    (indent : Nat) : List Nat :=
  (sortByIndex (renderEntries to_chars obj indent)).flatMap (serializeEntryLine indent)

/-- Source `serialize`. -/
def serialize {F : Type} (to_chars : F → List Nat) (v : Value F) : List Nat :=
  match v with
  | .object obj => serializeKeyValues to_chars obj 0
  | _ => serializeValue to_chars v 0

/-! ## The buffered reader -/

/-- Source `class Reader` with its buffer: `stream` is what the input stream
still holds, `buffer` the bytes `buffer_[0 .. size_)` (so `size_` is the
length of `buffer`), `index` is `index_`. -/
structure BufReader where
  stream : List Nat
  buffer : List Nat
  index : Nat
  loc : Location
deriving DecidableEq, Repr

/-- Source `sizeof(buffer_)`. -/
def bufferSize : Nat := 128

/-- Source `Reader::fill`: unless `index_` is past `size_`, the unread bytes
move to the front and the stream delivers as many bytes as fit (fewer only
when it ends). -/
def BufReader.fill (b : BufReader) : BufReader :=
  if b.index > b.buffer.length then b
  else
    { b with
      stream := b.stream.drop (bufferSize - (b.buffer.drop b.index).length)
      buffer := b.buffer.drop b.index ++
        b.stream.take (bufferSize - (b.buffer.drop b.index).length)
      index := 0 }

/-- The first statement of `peekN`: refill when the lookahead would leave
the buffered bytes. -/
def BufReader.ensure (b : BufReader) (n : Nat) : BufReader :=
  if b.index + n ≥ b.buffer.length then b.fill else b

/-- Source `Reader::peekN`: the byte (or EOF) and the reader after the
refill that the call may have made. -/
def BufReader.peekN (b : BufReader) (n : Nat) : Option Nat × BufReader :=
  if (b.ensure n).index + n ≥ (b.ensure n).buffer.length then (none, b.ensure n)
  else ((b.ensure n).buffer[(b.ensure n).index + n]?, b.ensure n)

/-- Source `Reader::peek`. -/
def BufReader.peek (b : BufReader) : Option Nat × BufReader := b.peekN 0

/-- Source `Reader::peek2`. -/
def BufReader.peek2 (b : BufReader) : Option Nat × BufReader := b.peekN 1

/-- Source `Reader::get` on the buffered reader. -/
def BufReader.get (b : BufReader) : Option Nat × BufReader :=
  (b.peek.1,
    { b.peek.2 with
      index := b.peek.2.index + 1
      loc := if b.peek.1 = some 10 then ⟨b.peek.2.loc.line + 1, 1⟩
        else ⟨b.peek.2.loc.line, b.peek.2.loc.ch + 1⟩ })

/-- Source constructor `Reader(std::istream &is)`: empty buffer, then `fill`. -/
def BufReader.init (input : List Nat) : BufReader :=
  (BufReader.mk input [] 0 ⟨1, 1⟩).fill

/-- The buffered reader after `n` calls of `get`. -/
def BufReader.getN : Nat → BufReader → BufReader
  | 0, b => b
  | n + 1, b => BufReader.getN n b.get.2

/-- What the next `k` calls of `get` return. -/
def BufReader.reads : Nat → BufReader → List (Option Nat)
  | 0, _ => []
  | k + 1, b => b.get.1 :: BufReader.reads k b.get.2

/-- The reader state the buffered reader stands for: the unread bytes of the
buffer followed by the bytes still in the stream. -/
def BufReader.abs (b : BufReader) : Reader := ⟨b.buffer.drop b.index ++ b.stream, b.loc⟩

/-- The state invariant: once `index_` has run past `size_`, which only a
`get` at the end of input does, the stream is exhausted. -/
def BufReader.Inv (b : BufReader) : Prop := b.index > b.buffer.length → b.stream = []

/-- What the next `k` calls of `get` return on the reader of the parser. -/
def Reader.reads : Nat → Reader → List (Option Nat)
  | 0, _ => []
  | k + 1, r => r.get.1 :: Reader.reads k r.get.2

/-! ## The strict-JSON converter: `printB64` of `bin/mason-to-json.cc` -/

/-- The `alphabet` of `printB64`. -/
def b64Alphabet : List Nat :=
  ("ABCDEFGHIJKLMNOPQRSTUVWXYZ" ++ "abcdefghijklmnopqrstuvwxyz" ++ "0123456789+/").toList.map
    Char.toNat

/-- The character `alphabet[k]`. -/
def b64Char (k : Nat) : Nat := b64Alphabet.getD k 0

/-- The four `unsigned char` values `ch4` that `printB64` computes from the
buffer `ch3`. -/
def b64Sextets (ch3 : List Nat) : List Nat :=
  [((ch3.getD 0 0 &&& 0xfc) >>> 2) % 256,
   (((ch3.getD 0 0 &&& 0x03) <<< 4) + ((ch3.getD 1 0 &&& 0xf0) >>> 4)) % 256,
   (((ch3.getD 1 0 &&& 0x0f) <<< 2) + ((ch3.getD 2 0 &&& 0xc0) >>> 6)) % 256,
   (ch3.getD 2 0 &&& 0x3f) % 256]

/-- The `while (n--)` loop of `printB64` over the bytes still to read, with
the buffer `ch3`, the index `i` and the output written so far. -/
def printB64Loop : List Nat → List Nat → Nat → List Nat → List Nat × Nat × List Nat
  | [], ch3, i, os => (ch3, i, os)
  | c :: chars, ch3, i, os =>
    if i + 1 = 3 then
      printB64Loop chars (ch3.set i c) 0 (os ++ (b64Sextets (ch3.set i c)).map b64Char)
    else printB64Loop chars (ch3.set i c) (i + 1) os

/-- The `if (i)` block of `printB64` after the loop: the buffer is filled up
with zero bytes, `i + 1` characters are written and then `3 - i` times `=`. -/
def printB64Rest (ch3 : List Nat) (i : Nat) (os : List Nat) : List Nat :=
  if i ≠ 0 then
    os ++ ((b64Sextets ((List.range' i (3 - i)).foldl (fun a j => a.set j 0) ch3)).take
        (i + 1)).map b64Char
      ++ List.replicate (3 - i) 61
  else os

/-- Source `printB64`: the characters written to the stream. -/
def printB64 (chars : List Nat) : List Nat :=
  match printB64Loop chars [0, 0, 0] 0 [] with
  | (ch3, i, os) => printB64Rest ch3 i os

/-- The byte-string case of `printJSON`: the Base64 text between quotes. -/
def printJSONBString (bs : List Nat) : List Nat := 34 :: (printB64 bs ++ [34])

/-! ## The parser with the error sink

The functions of the parser once more, this time with the parameter
`String *err` of the source: every function takes the sink and gives it
back, `error(loc, err, what)` is the one place that changes it, and
`return false` is the outcome `fail`. -/

/-- The error sink `String *err`: `text` is `none` for the null pointer and
the content of the string otherwise; `writes` counts the calls of `error`
that have assigned to the string. -/
structure Sink where
  text : Option String
  writes : Nat
deriving DecidableEq, Repr

/-- Source `error(loc, err, what)`: nothing happens for the null pointer,
otherwise the string becomes the line, `:`, the column, `: ` and the
message. -/
def Sink.error (err : Sink) (loc : Location) (what : ErrorKind) : Sink :=
  match err.text with
  | none => err
  | some _ =>
    ⟨some (toString loc.line ++ ":" ++ toString loc.ch ++ ": " ++ what.what), err.writes + 1⟩

/-- Outcome of a parsing function with the sink as the call left it: `ret`
is `return true` with the outputs, `fail` is `return false`, `outOfFuel`
means the fuel of the model ran out. -/
inductive Outcome (α : Type) where
  | ret (a : α) (err : Sink)
  | fail (err : Sink)
  | outOfFuel

namespace WithSink

/-- The `while (true)` loop of `skipBlockComment`. -/
def skipBlockCommentLoop : Nat → Reader → Sink → Outcome Reader
  | 0, _, _ => .outOfFuel
  | fuel + 1, r, err =>
    match r.get.1 with
    | none => .fail (err.error r.get.2.loc .unexpectedEOF)
    | some ch =>
      if ch = 42 ∧ r.get.2.peek = some 47 then .ret r.get.2.get.2 err
      else skipBlockCommentLoop fuel r.get.2 err

/-- Source `skipBlockComment`. -/
def skipBlockComment (r : Reader) (err : Sink) : Outcome Reader :=
  skipBlockCommentLoop r.get.2.get.2.fuel r.get.2.get.2 err

/-- The inner loop of a line comment: read through the next newline or EOF. -/
def skipLineCommentLoop : Nat → Reader → Sink → Outcome Reader
  | 0, _, _ => .outOfFuel
  | fuel + 1, r, err =>
    if r.get.1 = some 10 ∨ r.get.1 = none then .ret r.get.2 err
    else skipLineCommentLoop fuel r.get.2 err

/-- The outer loop of `skipWhitespace`. -/
def skipWhitespaceLoop : Nat → Reader → Sink → Outcome Reader
  | 0, _, _ => .outOfFuel
  | fuel + 1, r, err =>
    if r.peek = some 32 ∨ r.peek = some 13 ∨ r.peek = some 10 ∨ r.peek = some 9 then
      skipWhitespaceLoop fuel r.get.2 err
    else if r.peek = some 47 ∧ r.peek2 = some 47 then
      match skipLineCommentLoop r.get.2.get.2.fuel r.get.2.get.2 err with
      | .ret r1 err => skipWhitespaceLoop fuel r1 err
      | .fail err => .fail err
      | .outOfFuel => .outOfFuel
    else if r.peek = some 47 ∧ r.peek2 = some 42 then
      match skipBlockComment r err with
      | .ret r1 err => skipWhitespaceLoop fuel r1 err
      | .fail err => .fail err
      | .outOfFuel => .outOfFuel
    else .ret r err

/-- Source `skipWhitespace`. -/
def skipWhitespace (r : Reader) (err : Sink) : Outcome Reader :=
  skipWhitespaceLoop r.fuel r err

/-- The loop of `skipSpace`. -/
def skipSpaceLoop : Nat → Reader → Sink → Outcome Reader
  | 0, _, _ => .outOfFuel
  | fuel + 1, r, err =>
    if r.peek = some 32 ∨ r.peek = some 9 then skipSpaceLoop fuel r.get.2 err
    else if r.peek = some 47 ∧ r.peek2 = some 42 then
      match skipBlockComment r err with
      | .ret r1 err => skipSpaceLoop fuel r1 err
      | .fail err => .fail err
      | .outOfFuel => .outOfFuel
    else .ret r err

/-- Source `skipSpace`. -/
def skipSpace (r : Reader) (err : Sink) : Outcome Reader := skipSpaceLoop r.fuel r err

/-- Source `skipSep`: the flag `foundSep` and the reader afterwards. -/
def skipSep (r : Reader) (err : Sink) : Outcome (Bool × Reader) :=
  match skipSpace r err with
  | .fail err => .fail err
  | .outOfFuel => .outOfFuel
  | .ret r err =>
    if r.peek = some 44 ∨ r.peek = some 10 then
      match skipWhitespace r.get.2 err with
      | .ret r1 err => .ret (true, r1) err
      | .fail err => .fail err
      | .outOfFuel => .outOfFuel
    else if r.peek = some 13 ∧ r.peek2 = some 10 then
      match skipWhitespace r.get.2.get.2 err with
      | .ret r1 err => .ret (true, r1) err
      | .fail err => .fail err
      | .outOfFuel => .outOfFuel
    else if r.peek = some 47 ∧ r.peek2 = some 47 then
      match skipLineCommentLoop r.get.2.get.2.fuel r.get.2.get.2 err with
      | .ret r1 err => .ret (true, r1) err
      | .fail err => .fail err
      | .outOfFuel => .outOfFuel
    else .ret (false, r) err

/-- Source `parseHex`: reads exactly `n` hex digits into a `uint32_t`. -/
def parseHex : Nat → Reader → Nat → Sink → Outcome (Nat × Reader)
  | 0, r, num, err => .ret (num, r) err
  | n + 1, r, num, err =>
    match r.get.1 with
    | none => .fail (err.error r.get.2.loc .unexpectedEOF)
    | some ch =>
      if 48 ≤ ch ∧ ch ≤ 57 then
        parseHex n r.get.2 ((num * 16 % 2 ^ 32 + (ch - 48)) % 2 ^ 32) err
      else if 97 ≤ ch ∧ ch ≤ 102 then
        parseHex n r.get.2 ((num * 16 % 2 ^ 32 + (ch - 97 + 10)) % 2 ^ 32) err
      else if 65 ≤ ch ∧ ch ≤ 70 then
        parseHex n r.get.2 ((num * 16 % 2 ^ 32 + (ch - 65 + 10)) % 2 ^ 32) err
      else .fail (err.error r.loc .invalidHexCharacter)

/-- The `do ... while (isIdent(r.peek()))` loop of `parseIdentifier`;
`ident += r.get()` appends the byte read (EOF converts to the byte 255). -/
def parseIdentifierLoop : Nat → Reader → List Nat → Sink → Outcome (List Nat × Reader)
  | 0, _, _, _ => .outOfFuel
  | fuel + 1, r, ident, err =>
    match r.get.2.peek with
    | none => .ret (ident ++ [r.get.1.getD 255], r.get.2) err
    | some nx =>
      if isIdent nx then parseIdentifierLoop fuel r.get.2 (ident ++ [r.get.1.getD 255]) err
      else .ret (ident ++ [r.get.1.getD 255], r.get.2) err

/-- Source `parseIdentifier`. -/
def parseIdentifier (r : Reader) (err : Sink) : Outcome (List Nat × Reader) :=
  match r.peek with
  | none => .fail (err.error r.loc .unexpectedEOF)
  | some ch =>
    if isFirstIdent ch then parseIdentifierLoop r.fuel r [] err
    else .fail (err.error r.loc .unexpectedCharacterForIdentifier)

/-- Source `parseStringEscape`: the string after the escape was appended. -/
def parseStringEscape (r : Reader) (str : List Nat) (err : Sink) :
    Outcome (List Nat × Reader) :=
  match r.get.1 with
  | none => .fail (err.error r.get.2.loc .unexpectedEOF)
  | some ch =>
    match parseStringEscapeChar ch with
    | some c => .ret (str ++ [c], r.get.2) err
    | none =>
      if ch = 120 then
        match parseHex 2 r.get.2 0 err with
        | .ret (num, r1) err => .ret (str ++ [num % 256], r1) err
        | .fail err => .fail err
        | .outOfFuel => .outOfFuel
      else if ch = 117 then
        match parseHex 4 r.get.2 0 err with
        | .ret (codepoint, r1) err =>
          if codepoint ≥ 0xd800 ∧ codepoint ≤ 0xdfff then
            .fail (err.error r.get.2.loc .surrogate)
          else .ret (str ++ writeUTF8 codepoint, r1) err
        | .fail err => .fail err
        | .outOfFuel => .outOfFuel
      else if ch = 85 then
        match parseHex 6 r.get.2 0 err with
        | .ret (codepoint, r1) err =>
          if codepoint ≥ 0xd800 ∧ codepoint ≤ 0xdfff then
            .fail (err.error r.get.2.loc .surrogate)
          else .ret (str ++ writeUTF8 codepoint, r1) err
        | .fail err => .fail err
        | .outOfFuel => .outOfFuel
      else .fail (err.error r.get.2.loc .unknownEscape)

/-- The `while (true)` loop of `parseString`. -/
def parseStringLoop : Nat → Reader → List Nat → Sink → Outcome (List Nat × Reader)
  | 0, _, _, _ => .outOfFuel
  | fuel + 1, r, str, err =>
    match r.get.1 with
    | none => .fail (err.error r.get.2.loc .unexpectedEOF)
    | some ch =>
      if ch = 34 then .ret (str, r.get.2) err
      else if ch = 92 then
        match parseStringEscape r.get.2 str err with
        | .ret (str1, r1) err => parseStringLoop fuel r1 str1 err
        | .fail err => .fail err
        | .outOfFuel => .outOfFuel
      else parseStringLoop fuel r.get.2 (str ++ [ch]) err

/-- Source `parseString`; the reader stands on the opening quote. -/
def parseString (r : Reader) (err : Sink) : Outcome (List Nat × Reader) :=
  parseStringLoop r.get.2.fuel r.get.2 [] err

/-- The `while (true)` loop of `parseBinaryString`. -/
def parseBinaryStringLoop : Nat → Reader → List Nat → Sink → Outcome (List Nat × Reader)
  | 0, _, _, _ => .outOfFuel
  | fuel + 1, r, bytes, err =>
    match r.get.1 with
    | none => .fail (err.error r.get.2.loc .unexpectedEOF)
    | some ch =>
      if ch = 34 then .ret (bytes, r.get.2) err
      else if ch = 92 then
        match r.get.2.get.1 with
        | none => .fail (err.error r.get.2.get.2.loc .unexpectedEOF)
        | some ch2 =>
          if ch2 = 120 then
            match parseHex 2 r.get.2.get.2 0 err with
            | .ret (num, r1) err => parseBinaryStringLoop fuel r1 (bytes ++ [num % 256]) err
            | .fail err => .fail err
            | .outOfFuel => .outOfFuel
          else
            match parseStringEscapeChar ch2 with
            | some c => parseBinaryStringLoop fuel r.get.2.get.2 (bytes ++ [c]) err
            | none => .fail (err.error r.get.2.get.2.loc .unknownEscape)
      else if ch > 127 then .fail (err.error r.loc .binaryAscii)
      else parseBinaryStringLoop fuel r.get.2 (bytes ++ [ch]) err

/-- Source `parseBinaryString`; the reader stands on the `b`. -/
def parseBinaryString (r : Reader) (err : Sink) : Outcome (List Nat × Reader) :=
  parseBinaryStringLoop r.get.2.get.2.fuel r.get.2.get.2 [] err

/-- The loop `while ((ch = r.get()) == '#') hashes += 1` of `parseRawString`:
the count, the first byte that is not `#`, and the reader after that byte. -/
def countHashes : Nat → Reader → Nat → Sink → Outcome (Nat × Option Nat × Reader)
  | 0, _, _, _ => .outOfFuel
  | fuel + 1, r, hashes, err =>
    if r.get.1 = some 35 then countHashes fuel r.get.2 (hashes + 1) err
    else .ret (hashes, r.get.1, r.get.2) err

/-- The content loop of `parseRawString`; `hashState` is the source variable. -/
def parseRawStringLoop (hashes : Nat) :
    Nat → Reader → List Nat → Int → Sink → Outcome (List Nat × Reader)
  | 0, _, _, _, _ => .outOfFuel
  | fuel + 1, r, str, hashState, err =>
    match r.get.1 with
    | none => .fail (err.error r.get.2.loc .unexpectedEOF)
    | some ch =>
      let hashState1 : Int :=
        if ch = 34 then 0
        else if ch = 35 ∧ hashState ≥ 0 then hashState + 1
        else -1
      if hashState1 = (hashes : Int) then
        .ret ((str ++ [ch]).take ((str ++ [ch]).length - hashes - 1), r.get.2) err
      else parseRawStringLoop hashes fuel r.get.2 (str ++ [ch]) hashState1 err

/-- Source `parseRawString`; the reader stands on the `r`. -/
def parseRawString (r : Reader) (err : Sink) : Outcome (List Nat × Reader) :=
  match countHashes r.get.2.fuel r.get.2 0 err with
  | .fail err => .fail err
  | .outOfFuel => .outOfFuel
  | .ret (hashes, ch, r1) err =>
    if ch ≠ some 34 then .fail (err.error r1.loc .expectedQuote)
    else parseRawStringLoop hashes r1.fuel r1 [] (-1) err

/-- The loop of `parseInteger` after the first digit. -/
def parseIntegerLoop (radix : Nat) : Nat → Reader → Dbl → Sink → Outcome (Dbl × Reader)
  | 0, _, _, _ => .outOfFuel
  | fuel + 1, r, num, err =>
    if r.peek = none then .ret (num, r) err
    else if r.peek = some 39 then parseIntegerLoop radix fuel r.get.2 num err
    else
      match charValue r.peek with
      | none => .ret (num, r) err
      | some digit =>
        if digit ≥ radix then .ret (num, r) err
        else parseIntegerLoop radix fuel r.get.2 ((num.mul radix).add digit) err

/-- Source `parseInteger`. -/
def parseInteger (r : Reader) (radix : Nat) (err : Sink) : Outcome (Dbl × Reader) :=
  match charValue r.peek with
  | none => .fail (err.error r.loc .expectedDigit)
  | some digit =>
    if digit ≥ radix then .fail (err.error r.loc .invalidDigit)
    else parseIntegerLoop radix r.get.2.fuel r.get.2 (.fin digit) err

/-- The digit loop of the fractional part in `parseNumber`. -/
def parseFractionLoop : Nat → Reader → List Nat → Sink → Outcome (List Nat × Reader)
  | 0, _, _, _ => .outOfFuel
  | fuel + 1, r, fractional, err =>
    match r.peek with
    | none => .ret (fractional, r) err
    | some ch =>
      if ch = 39 then parseFractionLoop fuel r.get.2 fractional err
      else if 48 ≤ ch ∧ ch ≤ 57 then parseFractionLoop fuel r.get.2 (fractional ++ [ch]) err
      else .ret (fractional, r) err

/-- The fractional part of `parseNumber`; the reader stands on the `.`. -/
def parseFraction (r : Reader) (err : Sink) : Outcome (List Nat × Reader) :=
  match r.get.2.peek with
  | none => .fail (err.error r.get.2.loc .expectedDigit)
  | some ch =>
    if 48 ≤ ch ∧ ch ≤ 57 then parseFractionLoop r.get.2.fuel r.get.2 [46] err
    else .fail (err.error r.get.2.loc .expectedDigit)

/-- The exponent part of `parseNumber`; the reader stands on `e` or `E`.
The result is the sign flag (`exponentSign < 0`) and the magnitude. -/
def parseExponent (r : Reader) (err : Sink) : Outcome ((Bool × Dbl) × Reader) :=
  match parseInteger
      (if r.get.2.peek = some 45 ∨ r.get.2.peek = some 43 then r.get.2.get.2 else r.get.2) 10
      err with
  | .ret (exponent, r1) err => .ret ((decide (r.get.2.peek = some 45), exponent), r1) err
  | .fail err => .fail err
  | .outOfFuel => .outOfFuel

/-- Source `parseNumber`; `strtod` converts the formatted text. -/
def parseNumber {F : Type} (strtod : List Nat → F) (r : Reader) (err : Sink) :
    Outcome (F × Reader) :=
  let sign : List Nat := if r.peek = some 45 then [45] else []
  let r1 := if r.peek = some 45 ∨ r.peek = some 43 then r.get.2 else r
  let radix := numberRadix r1
  let r2 := if radix = 10 then r1 else r1.get.2.get.2
  match (if r2.peek ≠ some 46 then parseInteger r2 radix err else .ret (.fin 0, r2) err) with
  | .fail err => .fail err
  | .outOfFuel => .outOfFuel
  | .ret (integral, r3) err =>
    match (if radix = 10 ∧ r3.peek = some 46 then parseFraction r3 err
           else .ret ([], r3) err) with
    | .fail err => .fail err
    | .outOfFuel => .outOfFuel
    | .ret (fractional, r4) err =>
      match (if radix = 10 ∧ (r4.peek = some 101 ∨ r4.peek = some 69) then parseExponent r4 err
             else .ret ((false, .fin 0), r4) err) with
      | .fail err => .fail err
      | .outOfFuel => .outOfFuel
      | .ret ((exponentNegative, exponent), r5) err =>
        if (formatNumber sign integral fractional exponentNegative exponent).length ≥ 256 then
          .fail (err.error r.loc .numberTooLong)
        else
          .ret (strtod (formatNumber sign integral fractional exponentNegative exponent), r5) err

/-- Source `parseKey`. -/
def parseKey (r : Reader) (err : Sink) : Outcome (List Nat × Reader) :=
  if r.peek = some 34 then parseString r err else parseIdentifier r err

/-- The keyword tail of `parseValue`: `null`, `true`, `false`, or an error
reported at the location where the identifier started. -/
def keywordValue {F : Type} (loc : Location) (ident : List Nat) (err : Sink) :
    Outcome (Value F) :=
  if ident = [110, 117, 108, 108] then .ret .null err
  else if ident = [116, 114, 117, 101] then .ret (.bool true) err
  else if ident = [102, 97, 108, 115, 101] then .ret (.bool false) err
  else if ident.length > 0 then .fail (err.error loc .unexpectedKeyword)
  else .fail (err.error loc .unexpectedCharacter)

mutual

/-- Source `parseKeyValuePairsAfterKey`, one call per loop iteration: `obj`
and `index` are the loop state (the source starts from the empty object and
index 0). -/
def parseKeyValuePairsAfterKey {F : Type} (strtod : List Nat → F) :
    Nat → Reader → List Nat → List (Entry (Value F)) → Nat → Int → Sink →
      Outcome (List (Entry (Value F)) × Reader)
  | 0, _, _, _, _, _, _ => .outOfFuel
  | fuel + 1, r, key, obj, index, depth, err =>
    if r.peek ≠ some 58 then .fail (err.error r.loc .expectedColon)
    else
      match skipWhitespace r.get.2 err with
      | .fail err => .fail err
      | .outOfFuel => .outOfFuel
      | .ret r1 err =>
        match parseValue strtod fuel r1 depth false err with
        | .fail err => .fail err
        | .outOfFuel => .outOfFuel
        | .ret (val, r2) err =>
          match skipSep r2 err with
          | .fail err => .fail err
          | .outOfFuel => .outOfFuel
          | .ret (hasSep, r3) err =>
            match skipWhitespace r3 err with
            | .fail err => .fail err
            | .outOfFuel => .outOfFuel
            | .ret r4 err =>
              if r4.peek = some 125 ∨ r4.peek = none then
                .ret (Object.set obj key index val, r4) err
              else if hasSep = false then .fail (err.error r4.loc .expectedSeparatorObject)
              else
                match parseKey r4 err with
                | .fail err => .fail err
                | .outOfFuel => .outOfFuel
                | .ret (key1, r5) err =>
                  match skipWhitespace r5 err with
                  | .fail err => .fail err
                  | .outOfFuel => .outOfFuel
                  | .ret r6 err =>
                    parseKeyValuePairsAfterKey strtod fuel r6 key1
                      (Object.set obj key index val) (index + 1) depth err

/-- Source `parseKeyValuePairs`. -/
def parseKeyValuePairs {F : Type} (strtod : List Nat → F) :
    Nat → Reader → Int → Sink → Outcome (List (Entry (Value F)) × Reader)
  | 0, _, _, _ => .outOfFuel
  | fuel + 1, r, depth, err =>
    match parseKey r err with
    | .fail err => .fail err
    | .outOfFuel => .outOfFuel
    | .ret (key, r1) err =>
      match skipWhitespace r1 err with
      | .fail err => .fail err
      | .outOfFuel => .outOfFuel
      | .ret r2 err => parseKeyValuePairsAfterKey strtod fuel r2 key [] 0 depth err

/-- Source `parseObject`. -/
def parseObject {F : Type} (strtod : List Nat → F) :
    Nat → Reader → Int → Sink → Outcome (List (Entry (Value F)) × Reader)
  | 0, _, _, _ => .outOfFuel
  | fuel + 1, r, depth, err =>
    if r.peek ≠ some 123 then .fail (err.error r.loc .expectedOpenBrace)
    else
      match skipWhitespace r.get.2 err with
      | .fail err => .fail err
      | .outOfFuel => .outOfFuel
      | .ret r1 err =>
        if r1.peek = some 125 then .ret ([], r1.get.2) err
        else
          match parseKeyValuePairs strtod fuel r1 depth err with
          | .fail err => .fail err
          | .outOfFuel => .outOfFuel
          | .ret (obj, r2) err =>
            match skipWhitespace r2 err with
            | .fail err => .fail err
            | .outOfFuel => .outOfFuel
            | .ret r3 err =>
              if r3.peek ≠ some 125 then .fail (err.error r3.loc .expectedOpenBrace)
              else .ret (obj, r3.get.2) err

/-- The `while (true)` loop of `parseArray`; `arr` is the array so far. -/
def parseArrayLoop {F : Type} (strtod : List Nat → F) :
    Nat → Reader → List (Value F) → Int → Sink → Outcome (List (Value F) × Reader)
  | 0, _, _, _, _ => .outOfFuel
  | fuel + 1, r, arr, depth, err =>
    match parseValue strtod fuel r depth false err with
    | .fail err => .fail err
    | .outOfFuel => .outOfFuel
    | .ret (val, r1) err =>
      match skipSep r1 err with
      | .fail err => .fail err
      | .outOfFuel => .outOfFuel
      | .ret (hasSep, r2) err =>
        if r2.peek = some 93 then .ret (arr ++ [val], r2.get.2) err
        else if r2.peek = none then .fail (err.error r2.loc .unexpectedEOF)
        else if hasSep = false then .fail (err.error r2.loc .expectedSeparatorArray)
        else parseArrayLoop strtod fuel r2 (arr ++ [val]) depth err

/-- Source `parseArray`. -/
def parseArray {F : Type} (strtod : List Nat → F) :
    Nat → Reader → Int → Sink → Outcome (List (Value F) × Reader)
  | 0, _, _, _ => .outOfFuel
  | fuel + 1, r, depth, err =>
    if r.peek ≠ some 91 then .fail (err.error r.loc .expectedOpenBracket)
    else
      match skipWhitespace r.get.2 err with
      | .fail err => .fail err
      | .outOfFuel => .outOfFuel
      | .ret r1 err =>
        if r1.peek = some 93 then .ret ([], r1.get.2) err
        else parseArrayLoop strtod fuel r1 [] depth err

/-- Source `parseValue`. -/
def parseValue {F : Type} (strtod : List Nat → F) :
    Nat → Reader → Int → Bool → Sink → Outcome (Value F × Reader)
  | 0, _, _, _, _ => .outOfFuel
  | fuel + 1, r, depth, topLevel, err =>
    if depth ≤ 0 then .fail (err.error r.loc .nestingLimit)
    else if r.peek = none then .fail (err.error r.loc .unexpectedEOF)
    else if r.peek = some 91 then
      match parseArray strtod fuel r (depth - 1) err with
      | .fail err => .fail err
      | .outOfFuel => .outOfFuel
      | .ret (arr, r1) err => .ret (.array arr, r1) err
    else if r.peek = some 123 then
      match parseObject strtod fuel r (depth - 1) err with
      | .fail err => .fail err
      | .outOfFuel => .outOfFuel
      | .ret (obj, r1) err => .ret (.object obj, r1) err
    else if r.peek = some 34 then
      match parseString r err with
      | .fail err => .fail err
      | .outOfFuel => .outOfFuel
      | .ret (ident, r1) err =>
        if topLevel then
          match skipWhitespace r1 err with
          | .fail err => .fail err
          | .outOfFuel => .outOfFuel
          | .ret r2 err =>
            if r2.peek = some 58 then
              match parseKeyValuePairsAfterKey strtod fuel r2 ident [] 0 (depth - 1) err with
              | .fail err => .fail err
              | .outOfFuel => .outOfFuel
              | .ret (obj, r3) err => .ret (.object obj, r3) err
            else .ret (.string ident, r2) err
        else .ret (.string ident, r1) err
    else if r.peek = some 114 ∧ (r.peek2 = some 34 ∨ r.peek2 = some 35) then
      match parseRawString r err with
      | .fail err => .fail err
      | .outOfFuel => .outOfFuel
      | .ret (str, r1) err => .ret (.string str, r1) err
    else if (r.peek.any fun ch => 48 ≤ ch ∧ ch ≤ 57) ∨ r.peek = some 46 ∨ r.peek = some 43 ∨
        r.peek = some 45 then
      match parseNumber strtod r err with
      | .fail err => .fail err
      | .outOfFuel => .outOfFuel
      | .ret (num, r1) err => .ret (.number num, r1) err
    else if r.peek = some 98 ∧ r.peek2 = some 34 then
      match parseBinaryString r err with
      | .fail err => .fail err
      | .outOfFuel => .outOfFuel
      | .ret (bytes, r1) err => .ret (.bstring bytes, r1) err
    else
      match parseIdentifier r err with
      | .fail err => .fail err
      | .outOfFuel => .outOfFuel
      | .ret (ident, r1) err =>
        if topLevel then
          match skipWhitespace r1 err with
          | .fail err => .fail err
          | .outOfFuel => .outOfFuel
          | .ret r2 err =>
            if r2.peek = some 58 then
              match parseKeyValuePairsAfterKey strtod fuel r2 ident [] 0 (depth - 1) err with
              | .fail err => .fail err
              | .outOfFuel => .outOfFuel
              | .ret (obj, r3) err => .ret (.object obj, r3) err
            else
              match keywordValue r.loc ident err with
              | .ret v err => .ret (v, r2) err
              | .fail err => .fail err
              | .outOfFuel => .outOfFuel
        else
          match keywordValue r.loc ident err with
          | .ret v err => .ret (v, r1) err
          | .fail err => .fail err
          | .outOfFuel => .outOfFuel

end

/-- Source `parse`: `return true` with the parsed document, or `return false`
with the sink as the failing call left it. -/
def parse {F : Type} (strtod : List Nat → F) (input : List Nat) (maxDepth : Int)
    (err : Sink) : Outcome (Value F) :=
  match skipWhitespace (Reader.init input) err with
  | .fail err => .fail err
  | .outOfFuel => .outOfFuel
  | .ret r err =>
    match parseValue strtod (parseFuel input.length) r maxDepth true err with
    | .fail err => .fail err
    | .outOfFuel => .outOfFuel
    | .ret (v, r1) err =>
      match skipWhitespace r1 err with
      | .fail err => .fail err
      | .outOfFuel => .outOfFuel
      | .ret r2 err =>
        if r2.peek ≠ none then .fail (err.error r2.loc .trailingGarbage)
        else .ret v err

end WithSink

/-! ## Documents and values used in the statements -/

/-- The location after reading the byte `c`, as `Reader.get` computes it. -/
def Location.next (loc : Location) (c : Nat) : Location :=
  if c = 10 then ⟨loc.line + 1, 1⟩ else ⟨loc.line, loc.ch + 1⟩

/-- The location `k` columns further on the same line. -/
def Location.right (loc : Location) (k : Nat) : Location := ⟨loc.line, loc.ch + k⟩

/-- A byte that `skipWhitespace` and `skipSep` leave alone: not a blank, not
a line break, not the start of a comment, not a comma. -/
def isTokenByte (c : Nat) : Bool :=
  c != 32 && c != 13 && c != 10 && c != 9 && c != 47 && c != 44

/-- The document `[[...[]...]]` with `n` opening and `n` closing brackets. -/
def nestedArrays (n : Nat) : List Nat := List.replicate n 91 ++ List.replicate n 93

/-- The document `inner` inside `n` pairs of array brackets. -/
def wrapArrays (n : Nat) (inner : List Nat) : List Nat :=
  List.replicate n 91 ++ inner ++ List.replicate n 93

/-- The value `v` inside `n` one-element arrays. -/
def wrapValue {F : Type} : Nat → Value F → Value F
  | 0, v => v
  | n + 1, v => .array [wrapValue n v]

/-- Scalar documents and their values: `null`, `true`, `false` and `1`. -/
def scalarDocuments {F : Type} (strtod : List Nat → F) : List (List Nat × Value F) :=
  [([110, 117, 108, 108], .null),
   ([116, 114, 117, 101], .bool true),
   ([102, 97, 108, 115, 101], .bool false),
   ([49], .number (strtod [49, 101, 48]))]

/-- The location after reading the bytes `bs` one by one. -/
def Location.after (loc : Location) (bs : List Nat) : Location := bs.foldl Location.next loc

/-- The number written by a sequence of hex digit characters. -/
def hexDigitsValue (hs : List Nat) : Nat :=
  hs.foldl (fun acc h => acc * 16 + (charValue (some h)).getD 0) 0

/-- The `uint32_t` accumulation of `parseHex` over the digits `hs`. -/
def hexAccumulate (num : Nat) (hs : List Nat) : Nat :=
  hs.foldl (fun acc h => (acc * 16 % 2 ^ 32 + (charValue (some h)).getD 0) % 2 ^ 32) num

/-- The raw-string document `r#..#"content"#..#` with `k` hashes per side. -/
def rawStringDocument (k : Nat) (content : List Nat) : List Nat :=
  114 :: (List.replicate k 35 ++ 34 :: (content ++ 34 :: List.replicate k 35))

/-- The value of a digit character (0 for any other byte). -/
def digitValue (c : Nat) : Nat := (charValue (some c)).getD 0

/-- The byte `c` is a digit character of the radix. -/
def isRadixDigit (radix c : Nat) : Bool :=
  match charValue (some c) with
  | some v => v < radix
  | none => false

/-- The running value of `parseInteger` after the characters `txt`: digit
separators are skipped, every digit is multiplied in as a `double`. -/
def accumulate (radix : Nat) (num : Dbl) (txt : List Nat) : Dbl :=
  txt.foldl (fun acc c => if c = 39 then acc else (acc.mul radix).add (digitValue c)) num

/-- The bytes after a number at which `parseNumber` stops reading: the end
of input, or a byte that is neither a separator, a digit of the radix, `.`,
an exponent letter, nor a radix letter. -/
def numberStops (radix : Nat) (rest : List Nat) : Bool :=
  match rest with
  | [] => true
  | c :: _ =>
    c != 39 && !isRadixDigit radix c && c != 46 && c != 101 && c != 69 && c != 120 &&
      c != 111 && c != 98

/-- The radix marker of an integer literal: `0x`, `0o`, `0b`, or nothing. -/
def radixMarker (radix : Nat) : List Nat :=
  if radix = 16 then [48, 120]
  else if radix = 8 then [48, 111]
  else if radix = 2 then [48, 98]
  else []

/-- The text an integer literal hands to `strtod`: the sign, the decimal
digits of the accumulated value, and the exponent `e0`. -/
def integerText (minus : Bool) (integral : Dbl) : List Nat :=
  formatNumber (if minus then [45] else []) integral [] false (.fin 0)

/-- Horner evaluation of the digit values `ds` in the radix, from `a`. -/
def horner (radix a : Nat) (ds : List Nat) : Nat := ds.foldl (fun acc d => acc * radix + d) a

/-- What `parse` returns for an integer literal whose digits accumulate to
`integral`: the Number of the formatted text, unless the depth budget is
exhausted or the text does not fit the 256-byte buffer. -/
def integerLiteralResult {F : Type} (strtod : List Nat → F) (maxDepth : Int) (minus : Bool)
    (integral : Dbl) : Result (Value F) :=
  if maxDepth ≤ 0 then .error (error ⟨1, 1⟩ .nestingLimit)
  else if (integerText minus integral).length ≥ 256 then .error (error ⟨1, 1⟩ .numberTooLong)
  else .ok (.number (strtod (integerText minus integral)))

/-- A key that matches the identifier grammar `[A-Za-z_][A-Za-z0-9_-]*`. -/
def isIdentifier (key : List Nat) : Bool :=
  match key with
  | [] => false
  | c :: cs => isFirstIdent c && cs.all isIdent

/-- The decimal text of an integer: a minus sign when negative, then the
digits of the magnitude. -/
def decimalInteger (z : Int) : List Nat :=
  (if z < 0 then [45] else []) ++ toDecimal z.natAbs

/-- The text of one pair: the key, `:`, the blanks `sp`, the decimal value. -/
def pairText (sp : List Nat) (p : List Nat × Int) : List Nat :=
  p.1 ++ 58 :: (sp ++ decimalInteger p.2)

/-- The pairs after the first one, each behind the separator byte `sep`,
followed by `term`. -/
def morePairsText (sp : List Nat) (sep : Nat) (term : List Nat) :
    List (List Nat × Int) → List Nat
  | [] => term
  | p :: ps => sep :: (pairText sp p ++ morePairsText sp sep term ps)

/-- The brace-less document: pairs `key: value` separated by newlines. -/
def bareDocument (pairs : List (List Nat × Int)) : List Nat :=
  match pairs with
  | [] => []
  | p :: ps => pairText [32] p ++ morePairsText [32] 10 [] ps

/-- The braced document: pairs `key:value` separated by commas. -/
def bracedDocument (pairs : List (List Nat × Int)) : List Nat :=
  match pairs with
  | [] => [123, 125]
  | p :: ps => 123 :: (pairText [] p ++ morePairsText [] 44 [125] ps)

/-- The `double` that `parseInteger` accumulates from the decimal digits of `n`. -/
def decimalValue (n : Nat) : Dbl := accumulate 10 (.fin 0) (toDecimal n)

/-- The Number the decimal literal for `z` parses to with the given budget;
`none` when the budget is exhausted or the text does not fit the buffer. -/
def expectedNumber {F : Type} (strtod : List Nat → F) (depth : Int) (z : Int) :
    Option (Value F) :=
  if depth ≤ 0 then none
  else if (integerText (decide (z < 0)) (decimalValue z.natAbs)).length ≥ 256 then none
  else some (.number (strtod (integerText (decide (z < 0)) (decimalValue z.natAbs))))

/-- The object built from the pairs in order, continuing from `obj` with
the next sequence number `index`; `none` when a value is refused. -/
def expectedObject {F : Type} (strtod : List Nat → F) (depth : Int) :
    List (List Nat × Int) → List (Entry (Value F)) → Nat → Option (List (Entry (Value F)))
  | [], obj, _ => some obj
  | p :: ps, obj, index =>
    match expectedNumber strtod depth p.2 with
    | none => none
    | some v => expectedObject strtod depth ps (Object.set obj p.1 index v) (index + 1)

/-- The value both documents of the pairs parse to: an Object, unless the
depth budget or the number buffer refuses a value. -/
def expectedDocument {F : Type} (strtod : List Nat → F) (maxDepth : Int)
    (pairs : List (List Nat × Int)) : Option (Value F) :=
  if maxDepth ≤ 0 then none
  else (expectedObject strtod (maxDepth - 1) pairs [] 0).map Value.object

/-- The value of a successful parse, `none` for a failure. -/
def Result.value {α : Type} : Result α → Option α
  | .ok a => some a
  | _ => none

/-- A parsing result agrees with an expectation: success with the expected
output and exactly `rest` left unread, or an error when nothing is expected. -/
def Agrees {α : Type} (res : Result (α × Reader)) (expected : Option α) (rest : List Nat) : Prop :=
  match expected with
  | some a => ∃ loc, res = .ok (a, ⟨rest, loc⟩)
  | none => ∃ e, res = .error e

/-- The object the pairs build when every value is below `2^53` in
magnitude: the pairs in order, a later duplicate key overwriting the earlier
entry, each value the Number of its decimal text followed by `e0`. -/
def objectOfPairs {F : Type} (strtod : List Nat → F) :
    List (List Nat × Int) → List (Entry (Value F)) → Nat → List (Entry (Value F))
  | [], obj, _ => obj
  | p :: ps, obj, index =>
    objectOfPairs strtod ps
      (Object.set obj p.1 index (.number (strtod (decimalInteger p.2 ++ [101, 48])))) (index + 1)

/-- The reader after `n` calls of `get`. -/
def Reader.getN : Nat → Reader → Reader
  | 0, r => r
  | n + 1, r => Reader.getN n r.get.2

/-- The number of bytes of `s` after its last newline (all of `s` when it
has none). -/
def bytesAfterLastNewline (s : List Nat) : Nat := (s.reverse.takeWhile (· ≠ 10)).length

/-- A piece of the content of a binary string literal: a raw byte, a
backslash with a letter, or `\x` with two digit characters. -/
inductive BinaryItem where
  | raw (c : Nat)
  | escape (c : Nat)
  | hex (h1 h2 : Nat)
deriving DecidableEq, Repr

/-- The bytes of the literal that write the item. -/
def BinaryItem.text : BinaryItem → List Nat
  | .raw c => [c]
  | .escape c => [92, c]
  | .hex h1 h2 => [92, 120, h1, h2]

/-- The single-letter escapes of the format and the byte each one stands
for: quote, backslash, slash, and the letters b, f, n, r, t. -/
def escapeByte : Nat → Option Nat
  | 34 => some 34
  | 92 => some 92
  | 47 => some 47
  | 98 => some 8
  | 102 => some 12
  | 110 => some 10
  | 114 => some 13
  | 116 => some 9
  | _ => none

/-- The byte a well-formed item contributes (0 for an ill-formed one). -/
def BinaryItem.byte : BinaryItem → Nat
  | .raw c => c
  | .escape c => (escapeByte c).getD 0
  | .hex h1 h2 => 16 * digitValue h1 + digitValue h2

/-- Well-formed content: a raw ASCII byte other than the quote and the
backslash, one of the single-letter escapes, or `\x` with two hex digits. -/
def BinaryItem.valid : BinaryItem → Bool
  | .raw c => decide (c ≤ 127) && c != 34 && c != 92
  | .escape c => (escapeByte c).isSome
  | .hex h1 h2 => (charValue (some h1)).isSome && (charValue (some h2)).isSome

/-- The error a rejected item is reported with: a raw byte above 127, a
backslash with a letter that is no escape of binary strings (`u` and `U`
among them), or `\x` with a character that is no hex digit. -/
def BinaryItem.rejected : BinaryItem → Option ErrorKind
  | .raw c => if c > 127 then some .binaryAscii else none
  | .escape c => if c ≠ 120 ∧ escapeByte c = none then some .unknownEscape else none
  | .hex h1 h2 =>
    if (charValue (some h1)).isSome && (charValue (some h2)).isSome then none
    else some .invalidHexCharacter

/-- The document `b"..."` with the given content after the opening quote. -/
def binaryDocument (content : List Nat) : List Nat := 98 :: 34 :: content

/-- The object after the loop of `parseKeyValuePairsAfterKey` has stored the
pairs `kvs` one after the other, starting from `obj` with the sequence
number `index` and counting up. -/
def insertAll {V : Type} (obj : List (Entry V)) (index : Nat) :
    List (List Nat × V) → List (Entry V)
  | [] => obj
  | kv :: rest => insertAll (Object.set obj kv.1 index kv.2) (index + 1) rest

/-- The key `k` is written again among the pairs `kvs`. -/
def recurs {V : Type} (k : List Nat) (kvs : List (List Nat × V)) : Bool :=
  kvs.any (fun q => q.1 == k)

/-- The last occurrence of every key: the pairs whose key is not written
again later, each with its position in the sequence (counted from `index`)
as sequence number. -/
def lastEntries {V : Type} (index : Nat) : List (List Nat × V) → List (Entry V)
  | [] => []
  | kv :: rest =>
    if recurs kv.1 rest then lastEntries (index + 1) rest
    else ⟨kv.1, index, kv.2⟩ :: lastEntries (index + 1) rest

/-- The output line for a key and its value at the given indent: the
indentation, the key, a colon and a blank, the value, a newline. -/
def pairLine {F : Type} (to_chars : F → List Nat) (indent : Nat) (key : List Nat)
    (value : Value F) : List Nat :=
  indentation indent ++ serializeKey key ++ [58, 32] ++ serializeValue to_chars value indent ++ [10]

/-- The key and value the parser stores for a pair of the documents
`bareDocument` and `bracedDocument` whose integer is below `2^53` in
magnitude. -/
def storedPair {F : Type} (strtod : List Nat → F) (p : List Nat × Int) : List Nat × Value F :=
  (p.1, .number (strtod (decimalInteger p.2 ++ [101, 48])))

/-- A token that can serve as a key: an identifier, or a quoted string
(here without escapes). -/
inductive KeyToken where
  | bare (k : List Nat)
  | quoted (s : List Nat)
deriving DecidableEq, Repr

/-- The bytes that write the token. -/
def KeyToken.text : KeyToken → List Nat
  | .bare k => k
  | .quoted s => 34 :: (s ++ [34])

/-- The key the token stands for. -/
def KeyToken.key : KeyToken → List Nat
  | .bare k => k
  | .quoted s => s

/-- Well-formed tokens: the identifier grammar, and quoted content that
holds neither a quote nor a backslash. -/
def KeyToken.valid : KeyToken → Bool
  | .bare k => isIdentifier k
  | .quoted s => s.all (fun b => b != 34 && b != 92)

/-- The two bytes `*/` occur in `s`. -/
def hasClose : List Nat → Bool
  | [] => false
  | c :: t => (c == 42 && t.head? == some 47) || hasClose t

/-- A piece of blank text: a whitespace byte, a line comment with its
newline, or a block comment. -/
inductive Blank where
  | byte (c : Nat)
  | line (body : List Nat)
  | block (body : List Nat)
deriving DecidableEq, Repr

/-- The bytes that write the piece. -/
def Blank.text : Blank → List Nat
  | .byte c => [c]
  | .line body => 47 :: 47 :: (body ++ [10])
  | .block body => 47 :: 42 :: (body ++ [42, 47])

/-- Well-formed pieces: the byte is a space, carriage return, newline or
tab; the body of a line comment holds no newline; the `*/` that ends a
block comment is the first one after its opening. -/
def Blank.valid : Blank → Bool
  | .byte c => c == 32 || c == 13 || c == 10 || c == 9
  | .line body => !body.contains 10
  | .block body => !hasClose (body ++ [42])

/-- The pieces that do not separate elements: spaces, tabs and block
comments. -/
def Blank.inline : Blank → Bool
  | .byte c => c == 32 || c == 9
  | .line _ => false
  | .block body => !hasClose (body ++ [42])

/-- The text does not go on with whitespace or a comment: it is empty, or
its first byte is no whitespace byte and does not open a comment. -/
def stopsWhitespace (tail : List Nat) : Bool :=
  match tail with
  | [] => true
  | c :: t =>
    c != 32 && c != 13 && c != 10 && c != 9 &&
      !(c == 47 && (t.head? == some 47 || t.head? == some 42))

/-- The text of a sequence of blank pieces. -/
def blankText (bs : List Blank) : List Nat := bs.flatMap Blank.text

/-- The Number a decimal integer below `2^53` in magnitude parses to. -/
def numberOf {F : Type} (strtod : List Nat → F) (z : Int) : Value F :=
  .number (strtod (decimalInteger z ++ [101, 48]))

/-- The text of array elements that are each followed by a comma. -/
def elementsPrefix (zs : List Int) : List Nat :=
  zs.flatMap (fun z => decimalInteger z ++ [44])

/-- The array document with the elements `pre`, each followed by a comma,
then the element `zl`, then `term`. -/
def arrayDocument (pre : List Int) (zl : Int) (term : List Nat) : List Nat :=
  91 :: (elementsPrefix pre ++ (decimalInteger zl ++ term))

/-- The text of pairs `key:` `sp` `value` that are each followed by a comma. -/
def pairsPrefix (sp : List Nat) (ps : List (List Nat × Int)) : List Nat :=
  ps.flatMap (fun p => p.1 ++ 58 :: (sp ++ (decimalInteger p.2 ++ [44])))

/-- The object document with the pairs `pre`, each followed by a comma, then
the pair `q`, then `term`. -/
def objectDocument (sp : List Nat) (pre : List (List Nat × Int)) (q : List Nat × Int)
    (term : List Nat) : List Nat :=
  123 :: (pairsPrefix sp pre ++ (q.1 ++ 58 :: (sp ++ (decimalInteger q.2 ++ term))))

/-- The reader `r` is `r0` after some number of calls of `get`. -/
def Reader.Reaches (r0 r : Reader) : Prop := ∃ n, r = Reader.getN n r0

/-- A result keeps to the reader `r0`: the reader it returns is `r0` after
some calls of `get`, and an error reports the location of such a reader. -/
def Tracks {α : Type} (r0 : Reader) (rdr : α → Reader) : Result α → Prop
  | .ok a => r0.Reaches (rdr a)
  | .error e => ∃ r, r0.Reaches r ∧ e.loc = r.loc
  | .outOfFuel => True

/-- The text that stands for one byte inside a quoted string, in the words
of the format: the quote and the backslash behind a backslash, newline,
carriage return and tab as `\n`, `\r`, `\t`, every other byte as itself. -/
def stringEscape (ch : Nat) : List Nat :=
  match ch with
  | 34 => [92, 34]
  | 92 => [92, 92]
  | 10 => [92, 110]
  | 13 => [92, 114]
  | 9 => [92, 116]
  | c => [c]

/-- The text that stands for one byte inside a binary string, in the words
of the format: printable ASCII (32 to 126) as itself, every other byte as
`\x` and two lower-case hex digits. -/
def byteEscape (ch : Nat) : List Nat :=
  if 32 ≤ ch ∧ ch ≤ 126 then [ch]
  else [92, 120, digitChar false (ch / 16), digitChar false (ch % 16)]

/-- The item of binary string content that `serializeBString` writes for a
byte. -/
def writtenItem (ch : Nat) : BinaryItem :=
  if 32 ≤ ch ∧ ch ≤ 126 then .raw ch
  else .hex (digitChar false (ch / 16)) (digitChar false (ch % 16))

/-- The UTF-8 encoding of a code point as RFC 3629 defines it: one byte below
`0x80`, two below `0x800`, three below `0x10000`, four from there on. -/
def utf8Encode (cp : Nat) : List Nat :=
  if cp < 0x80 then [cp]
  else if cp < 0x800 then [0xC0 + cp / 64, 0x80 + cp % 64]
  else if cp < 0x10000 then [0xE0 + cp / 4096, 0x80 + cp / 64 % 64, 0x80 + cp % 64]
  else [0xF0 + cp / 262144, 0x80 + cp / 4096 % 64, 0x80 + cp / 64 % 64, 0x80 + cp % 64]

/-- Whether a byte is a UTF-8 continuation byte `10xxxxxx`. -/
def isContinuation (b : Nat) : Bool := decide (0x80 ≤ b) && decide (b < 0xC0)

/-- Decoding the UTF-8 encoding of one code point as RFC 3629 defines it:
overlong forms, surrogates and values above `0x10FFFF` are not UTF-8. -/
def utf8Decode (bs : List Nat) : Option Nat :=
  match bs with
  | [b0] => if b0 < 0x80 then some b0 else none
  | [b0, b1] =>
    if 0xC0 ≤ b0 ∧ b0 < 0xE0 ∧ isContinuation b1 = true then
      if 0x80 ≤ (b0 - 0xC0) * 64 + (b1 - 0x80) then
        some ((b0 - 0xC0) * 64 + (b1 - 0x80))
      else none
    else none
  | [b0, b1, b2] =>
    if 0xE0 ≤ b0 ∧ b0 < 0xF0 ∧ isContinuation b1 = true ∧ isContinuation b2 = true then
      if 0x800 ≤ (b0 - 0xE0) * 4096 + (b1 - 0x80) * 64 + (b2 - 0x80)
          ∧ ¬ (0xD800 ≤ (b0 - 0xE0) * 4096 + (b1 - 0x80) * 64 + (b2 - 0x80)
            ∧ (b0 - 0xE0) * 4096 + (b1 - 0x80) * 64 + (b2 - 0x80) ≤ 0xDFFF) then
        some ((b0 - 0xE0) * 4096 + (b1 - 0x80) * 64 + (b2 - 0x80))
      else none
    else none
  | [b0, b1, b2, b3] =>
    if 0xF0 ≤ b0 ∧ b0 < 0xF8 ∧ isContinuation b1 = true ∧ isContinuation b2 = true
        ∧ isContinuation b3 = true then
      if 0x10000 ≤ (b0 - 0xF0) * 262144 + (b1 - 0x80) * 4096 + (b2 - 0x80) * 64 + (b3 - 0x80)
          ∧ (b0 - 0xF0) * 262144 + (b1 - 0x80) * 4096 + (b2 - 0x80) * 64 + (b3 - 0x80)
            ≤ 0x10FFFF then
        some ((b0 - 0xF0) * 262144 + (b1 - 0x80) * 4096 + (b2 - 0x80) * 64 + (b3 - 0x80))
      else none
    else none
  | _ => none

/-- The quoted string with the plain text `pre`, then the escape `\u` or `\U`
(the byte `u`) with the hex digits `hs`, then the plain text `post`. -/
def escapeDocument (pre : List Nat) (u : Nat) (hs post : List Nat) : List Nat :=
  34 :: (pre ++ 92 :: u :: (hs ++ (post ++ [34])))

/-- The value of a character of the Base64 alphabet (RFC 4648, table 1). -/
def b64Value (c : Nat) : Option Nat :=
  if 65 ≤ c ∧ c ≤ 90 then some (c - 65)
  else if 97 ≤ c ∧ c ≤ 122 then some (c - 97 + 26)
  else if 48 ≤ c ∧ c ≤ 57 then some (c - 48 + 52)
  else if c = 43 then some 62
  else if c = 47 then some 63
  else none

/-- The standard padded Base64 encoding (RFC 4648, section 4): three bytes
give four characters, a last group of one byte gives two characters and
`==`, of two bytes three characters and `=`. -/
def b64Encode : List Nat → List Nat
  | [] => []
  | [a] => [b64Char (a / 4), b64Char (a % 4 * 16), 61, 61]
  | [a, b] => [b64Char (a / 4), b64Char (a % 4 * 16 + b / 16), b64Char (b % 16 * 4), 61]
  | a :: b :: c :: rest =>
    b64Char (a / 4) :: b64Char (a % 4 * 16 + b / 16) :: b64Char (b % 16 * 4 + c / 64)
      :: b64Char (c % 64) :: b64Encode rest

/-- Decoding of standard padded Base64 (RFC 4648, section 4): groups of four
characters, padding in the last group only, unused bits zero. -/
def b64Decode : List Nat → Option (List Nat)
  | [] => some []
  | a :: b :: c :: d :: rest =>
    if rest = [] ∧ c = 61 ∧ d = 61 then
      match b64Value a, b64Value b with
      | some x, some y => if y % 16 = 0 then some [x * 4 + y / 16] else none
      | _, _ => none
    else if rest = [] ∧ d = 61 then
      match b64Value a, b64Value b, b64Value c with
      | some x, some y, some z =>
        if z % 4 = 0 then some [x * 4 + y / 16, y % 16 * 16 + z / 4] else none
      | _, _, _ => none
    else
      match b64Value a, b64Value b, b64Value c, b64Value d, b64Decode rest with
      | some x, some y, some z, some w, some tl =>
        some ((x * 4 + y / 16) :: (y % 16 * 16 + z / 4) :: (z % 4 * 64 + w) :: tl)
      | _, _, _, _, _ => none
  | _ => none

/-- A call that returned within its fuel: a failure, or a success whose
reader `rdr a` has at most `m - k a` bytes left to read. -/
def Stops {α : Type} (rdr : α → Reader) (k : α → Nat) (m : Nat) : Result α → Prop
  | .ok a => (rdr a).input.length + k a ≤ m
  | .error _ => True
  | .outOfFuel => False

mutual

/-- The nesting height of a value: 1 for a scalar, one more than the highest
member for an array or object. -/
def Value.height {F : Type} : Value F → Nat
  | .null => 1
  | .bool _ => 1
  | .number _ => 1
  | .string _ => 1
  | .bstring _ => 1
  | .array a => heightList a + 1
  | .object o => heightEntries o + 1

/-- The highest nesting height among the elements of an array. -/
def heightList {F : Type} : List (Value F) → Nat
  | [] => 0
  | v :: vs => max v.height (heightList vs)

/-- The highest nesting height among the values of an object. -/
def heightEntries {F : Type} : List (Entry (Value F)) → Nat
  | [] => 0
  | e :: es => max e.value.height (heightEntries es)

end

/-- A property of what a call returned, when it succeeded. -/
def Result.Holds {α : Type} (P : α → Prop) : Result α → Prop
  | .ok a => P a
  | .error _ => True
  | .outOfFuel => True

/-- A separator as `skipSep` recognises it: a comma, a newline, a carriage
return with a newline, or a line comment with its newline. -/
inductive Separator where
  | comma
  | newline
  | crlf
  | comment (body : List Nat)
deriving DecidableEq, Repr

/-- The bytes that write the separator. -/
def Separator.text : Separator → List Nat
  | .comma => [44]
  | .newline => [10]
  | .crlf => [13, 10]
  | .comment body => 47 :: 47 :: (body ++ [10])

/-- Well-formed separators: the body of a line comment holds no newline. -/
def Separator.valid : Separator → Bool
  | .comment body => !body.contains 10
  | _ => true

/-- The separator is a line comment. -/
def Separator.isComment : Separator → Bool
  | .comment _ => true
  | _ => false

/-- The text between the last element and the closing bracket: a gap of
spaces, tabs and block comments, one separator, and blank text. -/
def trailingSeparator (gap : List Blank) (s : Separator) (ws : List Blank) : List Nat :=
  blankText gap ++ (s.text ++ blankText ws)

/-- The outcome that a result of the parser without the sink stands for, when
the sink is `err` before the call: a success returns and leaves the sink, an
error is one call of `error` followed by `return false`. -/
def Result.run {α : Type} (res : Result α) (err : Sink) : Outcome α :=
  match res with
  | .ok a => .ret a err
  | .error e => .fail (err.error e.loc e.what)
  | .outOfFuel => .outOfFuel

/-- The value the call returned: `true` or `false`. -/
def Outcome.returned {α : Type} : Outcome α → Bool
  | .ret _ _ => true
  | _ => false

/-- The sink after the call, given the sink before it. -/
def Outcome.sinkAfter {α : Type} (o : Outcome α) (before : Sink) : Sink :=
  match o with
  | .ret _ err => err
  | .fail err => err
  | .outOfFuel => before

/-! ## Reader and whitespace lemmas -/

theorem Reader.get_cons (c : Nat) (i : List Nat) (l : Location) :
    (Reader.mk (c :: i) l).get = (some c, ⟨i, l.next c⟩) := by
  simp [Reader.get, Reader.peek, Location.next]

theorem Location.right_right (l : Location) (a b : Nat) :
    (l.right a).right b = l.right (a + b) := by
  simp [Location.right, Nat.add_assoc]

theorem Location.next_eq_right (l : Location) (c : Nat) (h : c ≠ 10) :
    l.next c = l.right 1 := by
  simp [Location.next, Location.right, h]

theorem isTokenByte_iff (c : Nat) :
    isTokenByte c = true ↔ c ≠ 32 ∧ c ≠ 13 ∧ c ≠ 10 ∧ c ≠ 9 ∧ c ≠ 47 ∧ c ≠ 44 := by
  simp [isTokenByte, and_assoc]

theorem skipWhitespace_nil (l : Location) : skipWhitespace ⟨[], l⟩ = .ok ⟨[], l⟩ := by
  simp [skipWhitespace, Reader.fuel, skipWhitespaceLoop, Reader.peek]

theorem skipWhitespace_token (c : Nat) (i : List Nat) (l : Location)
    (h : isTokenByte c = true) : skipWhitespace ⟨c :: i, l⟩ = .ok ⟨c :: i, l⟩ := by
  rw [isTokenByte_iff] at h
  simp [skipWhitespace, Reader.fuel, skipWhitespaceLoop, Reader.peek, h]

theorem skipSep_nil (l : Location) : skipSep ⟨[], l⟩ = .ok (false, ⟨[], l⟩) := by
  simp [skipSep, skipSpace, Reader.fuel, skipSpaceLoop, Reader.peek]

theorem skipSep_token (c : Nat) (i : List Nat) (l : Location)
    (h : isTokenByte c = true) : skipSep ⟨c :: i, l⟩ = .ok (false, ⟨c :: i, l⟩) := by
  rw [isTokenByte_iff] at h
  simp [skipSep, skipSpace, Reader.fuel, skipSpaceLoop, Reader.peek, h]

theorem replicate_append_cons (n a : Nat) (l : List Nat) :
    List.replicate n a ++ a :: l = a :: (List.replicate n a ++ l) := by
  induction n with
  | zero => rfl
  | succ n ih => simp [List.replicate_succ, ih]

theorem replicate_add_succ (a b x : Nat) :
    List.replicate (a + 1 + b) x = List.replicate a x ++ x :: List.replicate b x := by
  rw [show a + 1 + b = a + (b + 1) by omega, List.replicate_add, List.replicate_succ]

/-! ## Nested arrays and the depth budget -/

/-- One array around a value that parses at depth `depth - 1`. -/
theorem parseValue_array_one {F : Type} (strtod : List Nat → F) (fuel : Nat) (depth : Int)
    (tl : Bool) (c : Nat) (i rest : List Nat) (loc loc1 : Location) (v : Value F)
    (hd : 1 ≤ depth) (hc : isTokenByte c = true) (hc93 : c ≠ 93)
    (hv : parseValue strtod fuel ⟨c :: i, loc.right 1⟩ (depth - 1) false
      = .ok (v, ⟨93 :: rest, loc1⟩)) :
    parseValue strtod (fuel + 3) ⟨91 :: c :: i, loc⟩ depth tl
      = .ok (.array [v], ⟨rest, loc1.right 1⟩) := by
  have hd' : ¬ depth ≤ 0 := by omega
  rw [parseValue]
  simp only [hd', Reader.peek, List.head?_cons, if_false, reduceCtorEq, if_true]
  rw [parseArray]
  simp only [Reader.peek, List.head?_cons, ne_eq, not_true_eq_false, if_false, Reader.get_cons,
    Location.next_eq_right loc 91 (by decide), skipWhitespace_token c i _ hc,
    Option.some.injEq, hc93]
  rw [parseArrayLoop]
  simp only [hv, skipSep_token 93 rest loc1 (by decide)]
  simp [Reader.peek, Reader.get_cons, Location.next_eq_right]

/-- An array bracket in front of a value whose parse fails. -/
theorem parseValue_array_error {F : Type} (strtod : List Nat → F) (fuel : Nat) (depth : Int)
    (tl : Bool) (c : Nat) (i : List Nat) (loc : Location) (e : ParseError)
    (hd : 1 ≤ depth) (hc : isTokenByte c = true) (hc93 : c ≠ 93)
    (hv : parseValue strtod fuel ⟨c :: i, loc.right 1⟩ (depth - 1) false = .error e) :
    parseValue strtod (fuel + 3) ⟨91 :: c :: i, loc⟩ depth tl = .error e := by
  have hd' : ¬ depth ≤ 0 := by omega
  rw [parseValue]
  simp only [hd', Reader.peek, List.head?_cons, if_false, reduceCtorEq, if_true]
  rw [parseArray]
  simp only [Reader.peek, List.head?_cons, ne_eq, not_true_eq_false, if_false, Reader.get_cons,
    Location.next_eq_right loc 91 (by decide), skipWhitespace_token c i _ hc,
    Option.some.injEq, hc93]
  rw [parseArrayLoop]
  simp only [hv]

/-- Wrapping a value that parses in front of `]` into `n + 1` arrays. -/
theorem parseValue_wrapArrays {F : Type} (strtod : List Nat → F) (c : Nat) (i : List Nat)
    (v : Value F) (fuel0 : Nat) (hc : isTokenByte c = true) (hc93 : c ≠ 93)
    (hinner : ∀ (fuel : Nat) (depth : Int) (rest : List Nat) (loc : Location),
      fuel0 ≤ fuel → 1 ≤ depth →
      parseValue strtod fuel ⟨c :: i ++ 93 :: rest, loc⟩ depth false
        = .ok (v, ⟨93 :: rest, loc.right (c :: i).length⟩)) (n : Nat) :
    ∀ (fuel : Nat) (depth : Int) (tl : Bool) (rest : List Nat) (loc : Location),
      fuel0 + 3 * (n + 1) ≤ fuel → (n : Int) + 2 ≤ depth →
      parseValue strtod fuel
          ⟨List.replicate (n + 1) 91 ++ (c :: i) ++ List.replicate (n + 1) 93 ++ rest, loc⟩ depth tl
        = .ok (wrapValue (n + 1) v, ⟨rest, loc.right (2 * (n + 1) + (c :: i).length)⟩) := by
  induction n with
  | zero =>
    intro fuel depth tl rest loc hf hd
    obtain ⟨f, rfl⟩ : ∃ f, fuel = f + 3 := ⟨fuel - 3, by omega⟩
    have h := parseValue_array_one strtod f depth tl c (i ++ 93 :: rest) rest loc _ v
      (by omega) hc hc93 (hinner f (depth - 1) rest (loc.right 1) (by omega) (by omega))
    simpa [wrapValue, Location.right_right, Nat.add_comm, Nat.add_left_comm] using h
  | succ n ih =>
    intro fuel depth tl rest loc hf hd
    obtain ⟨f, rfl⟩ : ∃ f, fuel = f + 3 := ⟨fuel - 3, by omega⟩
    have e1 : List.replicate (n + 1 + 1) 91 ++ (c :: i) ++ List.replicate (n + 1 + 1) 93 ++ rest
        = 91 :: 91 :: (List.replicate n 91 ++ (c :: i) ++ List.replicate (n + 1) 93 ++ 93 :: rest)
        := by
      simp [List.replicate_succ, replicate_append_cons]
    have ih' := ih f (depth - 1) false (93 :: rest) (loc.right 1) (by omega)
      (by push_cast at hd ⊢; omega)
    have e2 : List.replicate (n + 1) 91 ++ (c :: i) ++ List.replicate (n + 1) 93 ++ 93 :: rest
        = 91 :: (List.replicate n 91 ++ (c :: i) ++ List.replicate (n + 1) 93 ++ 93 :: rest) := by
      simp [List.replicate_succ]
    rw [e2] at ih'
    have h := parseValue_array_one strtod f depth tl 91 _ rest loc _ (wrapValue (n + 1) v)
      (by omega) (by decide) (by decide) ih'
    rw [e1, h]
    have harith : 1 + (2 * (n + 1) + (i.length + 1)) + 1
        = 2 * (n + 1 + 1) + (i.length + 1) := by omega
    simp [wrapValue, Location.right_right, harith]

/-- With a budget of `n`, the value behind `n` opening brackets is refused. -/
theorem parseValue_nestingLimit {F : Type} (strtod : List Nat → F) (n : Nat) :
    ∀ (fuel : Nat) (tl : Bool) (c : Nat) (i : List Nat) (loc : Location),
      3 * n + 1 ≤ fuel → isTokenByte c = true → c ≠ 93 →
      parseValue strtod fuel ⟨List.replicate n 91 ++ c :: i, loc⟩ (n : Int) tl
        = .error (error (loc.right n) .nestingLimit) := by
  induction n with
  | zero =>
    intro fuel tl c i loc hf _ _
    obtain ⟨f, rfl⟩ : ∃ f, fuel = f + 1 := ⟨fuel - 1, by omega⟩
    rw [parseValue]
    simp [Location.right]
  | succ n ih =>
    intro fuel tl c i loc hf hc hc93
    obtain ⟨f, rfl⟩ : ∃ f, fuel = f + 3 := ⟨fuel - 3, by omega⟩
    have ih' := ih f false c i (loc.right 1) (by omega) hc hc93
    have hcast : ((n + 1 : Nat) : Int) - 1 = (n : Int) := by push_cast; omega
    cases n with
    | zero =>
      have h := parseValue_array_error strtod f ((0 + 1 : Nat) : Int) tl c i loc _ (by simp) hc hc93
        (by rw [hcast]; simpa using ih')
      simpa [Location.right_right] using h
    | succ m =>
      have e2 : List.replicate (m + 1) 91 ++ c :: i = 91 :: (List.replicate m 91 ++ c :: i) := by
        simp [List.replicate_succ]
      rw [e2] at ih'
      have h := parseValue_array_error strtod f ((m + 1 + 1 : Nat) : Int) tl 91 _ loc _
        (by push_cast; omega) (by decide) (by decide) (by rw [hcast]; exact ih')
      have e1 : List.replicate (m + 1 + 1) 91 ++ c :: i
          = 91 :: 91 :: (List.replicate m 91 ++ c :: i) := by
        simp [List.replicate_succ]
      rw [e1, h]
      simp [Location.right_right, Nat.add_comm]

/-! ## From `parseValue` to `parse` -/

theorem parse_of_parseValue_ok {F : Type} (strtod : List Nat → F) (c : Nat) (i : List Nat)
    (d : Int) (v : Value F) (loc : Location) (hc : isTokenByte c = true)
    (h : parseValue strtod (parseFuel (c :: i).length) ⟨c :: i, ⟨1, 1⟩⟩ d true
      = .ok (v, ⟨[], loc⟩)) :
    parse strtod (c :: i) d = .ok v := by
  unfold parse
  simp only [Reader.init, skipWhitespace_token c i _ hc, h, skipWhitespace_nil, Reader.peek,
    List.head?_nil, ne_eq, not_true_eq_false, if_false]

theorem parse_of_parseValue_error {F : Type} (strtod : List Nat → F) (c : Nat) (i : List Nat)
    (d : Int) (e : ParseError) (hc : isTokenByte c = true)
    (h : parseValue strtod (parseFuel (c :: i).length) ⟨c :: i, ⟨1, 1⟩⟩ d true = .error e) :
    parse strtod (c :: i) d = .error e := by
  unfold parse
  simp only [Reader.init, skipWhitespace_token c i _ hc, h]

theorem parseValue_emptyArray {F : Type} (strtod : List Nat → F) (fuel : Nat) (depth : Int)
    (tl : Bool) (rest : List Nat) (loc : Location) (hf : 2 ≤ fuel) (hd : 1 ≤ depth) :
    parseValue strtod fuel ⟨91 :: 93 :: rest, loc⟩ depth tl
      = .ok (.array [], ⟨rest, loc.right 2⟩) := by
  obtain ⟨f, rfl⟩ : ∃ f, fuel = f + 2 := ⟨fuel - 2, by omega⟩
  have hd' : ¬ depth ≤ 0 := by omega
  rw [parseValue, parseArray]
  simp [hd', Reader.get, Reader.peek, skipWhitespace, skipWhitespaceLoop, Reader.fuel,
    Location.right]

/-! ## C9: the depth limit on nested arrays -/

/-- C9. Depth limit: for every maxDepth `d ≥ 1` and every `n ≥ 1`, the
document of `n` nested arrays whose innermost array is empty parses to the
nested value when `n ≤ d` (so exactly at the limit it succeeds), and fails
with "Nesting limit exceeded", reported at the bracket number `d + 1`, when
`n > d`. -/
theorem depth_limit_nested_arrays {F : Type} (strtod : List Nat → F) (d n : Nat)
    (hd : 1 ≤ d) (hn : 1 ≤ n) :
    (n ≤ d → parse strtod (nestedArrays n) (d : Int)
      = .ok (wrapValue (n - 1) (.array []))) ∧
    (d < n → parse strtod (nestedArrays n) (d : Int)
      = .error (error ⟨1, d + 1⟩ .nestingLimit)) := by
  constructor
  · intro hnd
    obtain ⟨m, rfl⟩ : ∃ m, n = m + 1 := ⟨n - 1, by omega⟩
    have e0 : nestedArrays (m + 1)
        = 91 :: (List.replicate m 91 ++ List.replicate (m + 1) 93) := by
      simp [nestedArrays, List.replicate_succ]
    rw [e0]
    apply parse_of_parseValue_ok strtod 91 _ (d : Int) _ (Location.right ⟨1, 1⟩ (2 * (m + 1)))
      (by decide)
    cases m with
    | zero =>
      simpa using parseValue_emptyArray strtod _ (d : Int) true [] ⟨1, 1⟩
        (by simp [parseFuel]) (by omega)
    | succ k =>
      have h := parseValue_wrapArrays strtod 91 [93] (.array []) 2 (by decide) (by decide)
        (fun fuel depth rest loc hf hdep => by
          simpa using parseValue_emptyArray strtod fuel depth false (93 :: rest) loc hf hdep)
        k (parseFuel (91 :: (List.replicate (k + 1) 91 ++ List.replicate (k + 1 + 1) 93)).length)
        (d : Int) true [] ⟨1, 1⟩ (by simp [parseFuel]; omega) (by omega)
      have e1 : List.replicate (k + 1) 91 ++ [91, 93] ++ List.replicate (k + 1) 93 ++ []
          = 91 :: (List.replicate (k + 1) 91 ++ List.replicate (k + 1 + 1) 93) := by
        simp [List.replicate_succ, replicate_append_cons]
      rw [e1] at h
      rw [h]
      have harith : 2 * (k + 1) + [91, 93].length = 2 * (k + 1 + 1) := by
        simp only [List.length_cons, List.length_nil]; omega
      rw [harith]
      rfl
  · intro hdn
    obtain ⟨k, rfl⟩ : ∃ k, n = d + 1 + k := ⟨n - d - 1, by omega⟩
    have e0 : nestedArrays (d + 1 + k)
        = List.replicate d 91 ++ 91 :: (List.replicate k 91 ++ List.replicate (d + 1 + k) 93) := by
      rw [nestedArrays, replicate_add_succ]
      simp only [List.append_assoc, List.cons_append]
    have h := parseValue_nestingLimit strtod d (parseFuel (nestedArrays (d + 1 + k)).length) true
      91 (List.replicate k 91 ++ List.replicate (d + 1 + k) 93) ⟨1, 1⟩
      (by simp [parseFuel, nestedArrays]; omega) (by decide) (by decide)
    rw [← e0] at h
    obtain ⟨m, hm⟩ : ∃ m, d = m + 1 := ⟨d - 1, by omega⟩
    have e2 : nestedArrays (d + 1 + k)
        = 91 :: (List.replicate (m + 1 + k) 91 ++ List.replicate (d + 1 + k) 93) := by
      subst hm
      rw [nestedArrays, show m + 1 + 1 + k = (m + 1 + k) + 1 by omega, List.replicate_succ]
      simp only [List.cons_append]
    have h2 := parse_of_parseValue_error strtod 91 _ (d : Int) _ (by decide) (e2 ▸ h)
    rw [e2, h2]
    simp [Location.right, Nat.add_comm]

/-- C9 at a concrete limit: with `maxDepth = 2` the document `[[]]` parses
and `[[[]]]` is refused at its third bracket. -/
theorem depth_limit_nested_arrays_witness :
    (1 ≤ 2 ∧ 1 ≤ 2 ∧ parse (fun t => t) [91, 91, 93, 93] 2 = .ok (.array [.array []])) ∧
    parse (fun t => t) [91, 91, 91, 93, 93, 93] 2 = .error (error ⟨1, 3⟩ .nestingLimit) :=
  ⟨⟨by decide, by decide,
    (depth_limit_nested_arrays (fun t => t) 2 2 (by decide) (by decide)).1 (by decide)⟩,
   (depth_limit_nested_arrays (fun t => t) 2 3 (by decide) (by decide)).2 (by decide)⟩

/-! ## C10: scalars and the depth budget -/

theorem parseValue_scalar {F : Type} (strtod : List Nat → F) (p : List Nat × Value F)
    (hp : p ∈ scalarDocuments strtod) (fuel : Nat) (depth : Int) (rest : List Nat)
    (loc : Location) (hf : 1 ≤ fuel) (hd : 1 ≤ depth) :
    parseValue strtod fuel ⟨p.1 ++ 93 :: rest, loc⟩ depth false
      = .ok (p.2, ⟨93 :: rest, loc.right p.1.length⟩) := by
  obtain ⟨f, rfl⟩ : ∃ f, fuel = f + 1 := ⟨fuel - 1, by omega⟩
  have hd' : ¬ depth ≤ 0 := by omega
  simp only [scalarDocuments, List.mem_cons, List.mem_singleton, List.not_mem_nil, or_false] at hp
  rcases hp with rfl | rfl | rfl | rfl
  · rw [parseValue]
    simp [hd', Reader.peek, Reader.peek2, Reader.get, parseIdentifier, parseIdentifierLoop,
      Reader.fuel, isFirstIdent, isIdent, keywordValue, Location.right]
  · rw [parseValue]
    simp [hd', Reader.peek, Reader.peek2, Reader.get, parseIdentifier, parseIdentifierLoop,
      Reader.fuel, isFirstIdent, isIdent, keywordValue, Location.right]
  · rw [parseValue]
    simp [hd', Reader.peek, Reader.peek2, Reader.get, parseIdentifier, parseIdentifierLoop,
      Reader.fuel, isFirstIdent, isIdent, keywordValue, Location.right]
  · rw [parseValue]
    simp [hd', Reader.peek, Reader.peek2, Reader.get, parseNumber, numberRadix, parseInteger,
      parseIntegerLoop, charValue, Reader.fuel, formatNumber, Dbl.format, Location.right,
      show toDecimal 1 = [49] from rfl, show toDecimal 0 = [48] from rfl]

/-- C10 as stated fails: with `maxDepth = 1` the document `[1]`, whose only
array holds a scalar, is refused with "Nesting limit exceeded" at the
scalar. -/
theorem scalar_at_depth_limit_refused :
    parse (fun t => t) [91, 49, 93] 1 = .error (error ⟨1, 2⟩ .nestingLimit) := by
  rfl

/-- C10, amended. `parseValue` checks the budget before every value, scalar
or aggregate: for every `d ≥ 1`, a scalar (`null`, `true`, `false`, `1`)
inside exactly `d` nested arrays is refused with "Nesting limit exceeded"
(reported at the scalar) when `maxDepth = d`, and parses to the nested value
for every `maxDepth > d`. -/
theorem scalar_consumes_depth {F : Type} (strtod : List Nat → F) (d : Nat) (hd : 1 ≤ d)
    (p : List Nat × Value F) (hp : p ∈ scalarDocuments strtod) :
    parse strtod (wrapArrays d p.1) (d : Int) = .error (error ⟨1, d + 1⟩ .nestingLimit) ∧
    ∀ m : Int, (d : Int) < m → parse strtod (wrapArrays d p.1) m = .ok (wrapValue d p.2) := by
  obtain ⟨k, rfl⟩ : ∃ k, d = k + 1 := ⟨d - 1, by omega⟩
  obtain ⟨c, i, hci, hc, hc93⟩ : ∃ c i, p.1 = c :: i ∧ isTokenByte c = true ∧ c ≠ 93 := by
    simp only [scalarDocuments, List.mem_cons, List.mem_singleton, List.not_mem_nil,
      or_false] at hp
    rcases hp with rfl | rfl | rfl | rfl
    · exact ⟨_, _, rfl, by decide, by decide⟩
    · exact ⟨_, _, rfl, by decide, by decide⟩
    · exact ⟨_, _, rfl, by decide, by decide⟩
    · exact ⟨_, _, rfl, by decide, by decide⟩
  have e0 : wrapArrays (k + 1) p.1
      = 91 :: (List.replicate k 91 ++ c :: i ++ List.replicate (k + 1) 93) := by
    simp [wrapArrays, hci, List.replicate_succ]
  constructor
  · have h := parseValue_nestingLimit strtod (k + 1) (parseFuel (wrapArrays (k + 1) p.1).length)
      true c (i ++ List.replicate (k + 1) 93) ⟨1, 1⟩
      (by simp [parseFuel, wrapArrays]; omega) hc hc93
    have e1 : List.replicate (k + 1) 91 ++ c :: (i ++ List.replicate (k + 1) 93)
        = 91 :: (List.replicate k 91 ++ c :: i ++ List.replicate (k + 1) 93) := by
      simp [List.replicate_succ]
    rw [e1, ← e0] at h
    have h2 := parse_of_parseValue_error strtod 91 _ ((k + 1 : Nat) : Int) _ (by decide)
      (e0 ▸ h)
    rw [e0, h2]
    simp [Location.right, Nat.add_comm]
  · intro m hm
    have h := parseValue_wrapArrays strtod c i p.2 1 hc hc93
      (fun fuel depth rest loc hf hdep => by
        have := parseValue_scalar strtod p hp fuel depth rest loc hf hdep
        rw [hci] at this
        simpa using this)
      k (parseFuel (wrapArrays (k + 1) p.1).length) m true [] ⟨1, 1⟩
      (by simp [parseFuel, wrapArrays]; omega) (by push_cast at hm; omega)
    have e1 : List.replicate (k + 1) 91 ++ c :: i ++ List.replicate (k + 1) 93 ++ []
        = 91 :: (List.replicate k 91 ++ c :: i ++ List.replicate (k + 1) 93) := by
      simp [List.replicate_succ]
    rw [e1, ← e0] at h
    exact e0 ▸ parse_of_parseValue_ok strtod 91 _ m _ _ (by decide) (e0 ▸ h)

/-- C10, amended, at `d = 1` with the scalar `1`: `[1]` is refused with
`maxDepth = 1` and parses with `maxDepth = 2`. -/
theorem scalar_consumes_depth_witness :
    1 ≤ 1 ∧
    parse (fun t => t) [91, 49, 93] 1 = .error (error ⟨1, 2⟩ .nestingLimit) ∧
    parse (fun t => t) [91, 49, 93] 2 = .ok (.array [.number [49, 101, 48]]) :=
  ⟨by decide,
   (scalar_consumes_depth (fun t => t) 1 (by decide) ([49], .number [49, 101, 48])
      (by simp [scalarDocuments])).1,
   (scalar_consumes_depth (fun t => t) 1 (by decide) ([49], .number [49, 101, 48])
      (by simp [scalarDocuments])).2 2 (by decide)⟩

/-! ## C8: surrogate escapes -/

theorem Location.after_cons (l : Location) (c : Nat) (bs : List Nat) :
    l.after (c :: bs) = (l.next c).after bs := rfl

theorem Location.after_append (l : Location) (as bs : List Nat) :
    l.after (as ++ bs) = (l.after as).after bs := by
  simp [Location.after, List.foldl_append]

theorem charValue_lt (h v : Nat) (hv : charValue (some h) = some v) : v < 16 ∧ h ≠ 10 := by
  simp only [charValue] at hv
  split_ifs at hv with h1 h2 h3 <;> simp at hv <;> omega

theorem parseHex_succ_of_charValue (n h v : Nat) (i : List Nat) (loc : Location) (num : Nat)
    (hv : charValue (some h) = some v) :
    parseHex (n + 1) ⟨h :: i, loc⟩ num
      = parseHex n ⟨i, loc.right 1⟩ ((num * 16 % 2 ^ 32 + v) % 2 ^ 32) := by
  have hne := (charValue_lt h v hv).2
  rw [parseHex]
  simp only [Reader.get_cons, Location.next_eq_right loc h hne]
  simp only [charValue] at hv
  split_ifs at hv with h1 h2 h3
  · simp only [Option.some.injEq] at hv
    simp only [h1, and_self, if_true, hv]
  · simp only [Option.some.injEq] at hv
    simp only [h1, h2, and_self, if_true, if_false, hv]
  · simp only [Option.some.injEq] at hv
    simp only [h1, h2, h3, and_self, if_true, if_false, hv]

theorem parseHex_zero (r : Reader) (num : Nat) : parseHex 0 r num = .ok (num, r) := rfl

theorem parseStringLoop_plain (pre : List Nat) :
    ∀ (fuel : Nat) (rest str : List Nat) (loc : Location),
      (∀ b ∈ pre, b ≠ 34 ∧ b ≠ 92) →
      parseStringLoop (fuel + pre.length) ⟨pre ++ rest, loc⟩ str
        = parseStringLoop fuel ⟨rest, loc.after pre⟩ (str ++ pre) := by
  induction pre with
  | nil => intro fuel rest str loc _; simp [Location.after]
  | cons b pre ih =>
    intro fuel rest str loc hpre
    have hb := hpre b (by simp)
    have e : fuel + (b :: pre).length = (fuel + pre.length) + 1 := by simp; omega
    rw [e, parseStringLoop]
    simp only [List.cons_append, Reader.get_cons, hb.1, hb.2, if_false]
    rw [ih fuel rest (str ++ [b]) (loc.next b) (fun x hx => hpre x (by simp [hx]))]
    simp [Location.after_cons]

theorem parseHex_digits (hs : List Nat) :
    ∀ (rest : List Nat) (loc : Location) (num : Nat),
      (∀ h ∈ hs, (charValue (some h)).isSome = true) →
      parseHex hs.length ⟨hs ++ rest, loc⟩ num
        = .ok (hexAccumulate num hs, ⟨rest, loc.right hs.length⟩) := by
  induction hs with
  | nil => intro rest loc num _; simp [parseHex_zero, hexAccumulate, Location.right]
  | cons h hs ih =>
    intro rest loc num hhex
    obtain ⟨v, hv⟩ := Option.isSome_iff_exists.mp (hhex h (by simp))
    rw [List.length_cons, List.cons_append, parseHex_succ_of_charValue _ _ _ _ _ _ hv,
      ih rest _ _ (fun x hx => hhex x (by simp [hx]))]
    simp [hexAccumulate, hv, Location.right_right, Nat.add_comm]

theorem hexAccumulate_eq (hs : List Nat) (hlen : hs.length = 4 ∨ hs.length = 6)
    (hhex : ∀ h ∈ hs, (charValue (some h)).isSome = true) :
    hexAccumulate 0 hs = hexDigitsValue hs := by
  rcases hlen with hlen | hlen
  · match hs, hlen with
    | [a, b, c, d], _ =>
      obtain ⟨va, ha⟩ := Option.isSome_iff_exists.mp (hhex a (by simp))
      obtain ⟨vb, hb⟩ := Option.isSome_iff_exists.mp (hhex b (by simp))
      obtain ⟨vc, hc⟩ := Option.isSome_iff_exists.mp (hhex c (by simp))
      obtain ⟨vd, hd⟩ := Option.isSome_iff_exists.mp (hhex d (by simp))
      have la := (charValue_lt a va ha).1
      have lb := (charValue_lt b vb hb).1
      have lc := (charValue_lt c vc hc).1
      have ld := (charValue_lt d vd hd).1
      simp only [hexAccumulate, hexDigitsValue, List.foldl_cons, List.foldl_nil, ha, hb, hc, hd,
        Option.getD_some]
      omega
  · match hs, hlen with
    | [a, b, c, d, e, f], _ =>
      obtain ⟨va, ha⟩ := Option.isSome_iff_exists.mp (hhex a (by simp))
      obtain ⟨vb, hb⟩ := Option.isSome_iff_exists.mp (hhex b (by simp))
      obtain ⟨vc, hc⟩ := Option.isSome_iff_exists.mp (hhex c (by simp))
      obtain ⟨vd, hd⟩ := Option.isSome_iff_exists.mp (hhex d (by simp))
      obtain ⟨ve, he⟩ := Option.isSome_iff_exists.mp (hhex e (by simp))
      obtain ⟨vf, hf⟩ := Option.isSome_iff_exists.mp (hhex f (by simp))
      have la := (charValue_lt a va ha).1
      have lb := (charValue_lt b vb hb).1
      have lc := (charValue_lt c vc hc).1
      have ld := (charValue_lt d vd hd).1
      have le := (charValue_lt e ve he).1
      have lf := (charValue_lt f vf hf).1
      simp only [hexAccumulate, hexDigitsValue, List.foldl_cons, List.foldl_nil, ha, hb, hc, hd,
        he, hf, Option.getD_some]
      omega

theorem parseStringEscape_surrogate (u : Nat) (hs rest str : List Nat) (loc : Location)
    (hu : (u = 117 ∧ hs.length = 4) ∨ (u = 85 ∧ hs.length = 6))
    (hhex : ∀ h ∈ hs, (charValue (some h)).isSome = true)
    (hsur : 0xD800 ≤ hexDigitsValue hs ∧ hexDigitsValue hs ≤ 0xDFFF) :
    parseStringEscape ⟨u :: hs ++ rest, loc⟩ str = .error (error (loc.next u) .surrogate) := by
  have hacc := hexAccumulate_eq hs (hu.imp (fun h => h.2) (fun h => h.2)) hhex
  rcases hu with ⟨rfl, hlen⟩ | ⟨rfl, hlen⟩
  · have h4 := parseHex_digits hs rest (loc.next 117) 0 hhex
    rw [hlen, hacc] at h4
    unfold parseStringEscape
    simp only [Reader.get_cons, List.cons_append, show parseStringEscapeChar 117 = none from rfl,
      h4]
    simp [hsur]
  · have h6 := parseHex_digits hs rest (loc.next 85) 0 hhex
    rw [hlen, hacc] at h6
    unfold parseStringEscape
    simp only [Reader.get_cons, List.cons_append, show parseStringEscapeChar 85 = none from rfl,
      h6]
    simp [hsur]

/-- C8. Surrogate rejection: a quoted string whose plain content `pre` is
followed by an escape `\u` with four hex digits or `\U` with six hex digits
that write a code point in `0xD800..0xDFFF` fails to parse, whatever follows,
with "UTF-16 surrogate pair escapes are not allowed" reported at the first
hex digit. -/
theorem surrogate_escape_rejected {F : Type} (strtod : List Nat → F) (pre hs rest : List Nat)
    (u : Nat) (d : Int) (hd : 1 ≤ d)
    (hpre : ∀ b ∈ pre, b ≠ 34 ∧ b ≠ 92)
    (hu : (u = 117 ∧ hs.length = 4) ∨ (u = 85 ∧ hs.length = 6))
    (hhex : ∀ h ∈ hs, (charValue (some h)).isSome = true)
    (hsur : 0xD800 ≤ hexDigitsValue hs ∧ hexDigitsValue hs ≤ 0xDFFF) :
    parse strtod (34 :: (pre ++ 92 :: u :: (hs ++ rest))) d
      = .error (error (Location.after ⟨1, 1⟩ (34 :: (pre ++ [92, u]))) .surrogate) := by
  have hd' : ¬ d ≤ 0 := by omega
  apply parse_of_parseValue_error strtod 34 _ d _ (by decide)
  have hfuel : parseFuel (34 :: (pre ++ 92 :: u :: (hs ++ rest))).length
      = (4 * (pre ++ 92 :: u :: (hs ++ rest)).length + 7) + 1 := by
    simp [parseFuel]; omega
  have hloop := parseStringLoop_plain pre ((92 :: u :: (hs ++ rest)).length + 1)
    (92 :: u :: (hs ++ rest)) [] (Location.next ⟨1, 1⟩ 34) hpre
  have hlen : (pre ++ 92 :: u :: (hs ++ rest)).length + 1
      = (92 :: u :: (hs ++ rest)).length + 1 + pre.length := by
    simp; omega
  rw [hfuel, parseValue]
  simp only [hd', Reader.peek, List.head?_cons, if_false, reduceCtorEq, if_true,
    Option.some.injEq, Nat.reduceEqDiff, parseString, Reader.get_cons, Reader.fuel]
  rw [hlen, hloop, List.length_cons, parseStringLoop]
  have hesc := parseStringEscape_surrogate u hs rest ([] ++ pre)
    (((Location.next ⟨1, 1⟩ 34).after pre).next 92) hu hhex hsur
  rw [List.cons_append] at hesc
  simp only [Reader.get_cons, Nat.reduceEqDiff, if_false, if_true, hesc]
  simp [Location.after_cons, Location.after_append, Location.after]

/-- C8 on the document `"\ud800"`: the parse fails with the surrogate error
at line 1, column 4. -/
theorem surrogate_escape_rejected_witness :
    parse (fun t => t) [34, 92, 117, 100, 56, 48, 48, 34] 5
      = .error (error ⟨1, 4⟩ .surrogate) :=
  surrogate_escape_rejected (fun t => t) [] [100, 56, 48, 48] [34] 117 5 (by decide)
    (by simp) (by simp) (by decide) (by decide)

/-! ## C7: raw strings -/

theorem countHashes_replicate (k : Nat) :
    ∀ (fuel : Nat) (rest : List Nat) (loc : Location) (hashes : Nat), k + 1 ≤ fuel →
      countHashes fuel ⟨List.replicate k 35 ++ 34 :: rest, loc⟩ hashes
        = .ok (hashes + k, some 34, ⟨rest, loc.right (k + 1)⟩) := by
  induction k with
  | zero =>
    intro fuel rest loc hashes hf
    obtain ⟨f, rfl⟩ : ∃ f, fuel = f + 1 := ⟨fuel - 1, by omega⟩
    simp [countHashes, Reader.get_cons, Location.next_eq_right]
  | succ k ih =>
    intro fuel rest loc hashes hf
    obtain ⟨f, rfl⟩ : ∃ f, fuel = f + 1 := ⟨fuel - 1, by omega⟩
    rw [List.replicate_succ, List.cons_append, countHashes]
    simp only [Reader.get_cons, if_true, Location.next_eq_right loc 35 (by decide)]
    rw [ih f rest _ (hashes + 1) (by omega)]
    simp [Location.right_right, Nat.add_comm, Nat.add_left_comm]

/-- The closing hashes: from state `j` with `m` hashes still to come. -/
theorem parseRawStringLoop_hashes (hashes : Nat) (rest : List Nat) (m : Nat) :
    ∀ (fuel j : Nat) (str : List Nat) (loc : Location),
      j + (m + 1) = hashes → m + 1 ≤ fuel →
      parseRawStringLoop hashes fuel ⟨List.replicate (m + 1) 35 ++ rest, loc⟩ str (j : Int)
        = .ok ((str ++ List.replicate (m + 1) 35).take
            ((str ++ List.replicate (m + 1) 35).length - hashes - 1), ⟨rest, loc.right (m + 1)⟩) := by
  induction m with
  | zero =>
    intro fuel j str loc hj hf
    obtain ⟨f, rfl⟩ : ∃ f, fuel = f + 1 := ⟨fuel - 1, by omega⟩
    have hj' : (j : Int) + 1 = (hashes : Int) := by omega
    rw [parseRawStringLoop]
    simp [Reader.get_cons, Location.next_eq_right, hj']
  | succ m ih =>
    intro fuel j str loc hj hf
    obtain ⟨f, rfl⟩ : ∃ f, fuel = f + 1 := ⟨fuel - 1, by omega⟩
    have hj' : ¬ (j : Int) + 1 = (hashes : Int) := by omega
    rw [List.replicate_succ, List.cons_append, parseRawStringLoop]
    simp only [Reader.get_cons, Location.next_eq_right loc 35 (by decide)]
    have h := ih f (j + 1) (str ++ [35]) (loc.right 1) (by omega) (by omega)
    simp only [Nat.cast_add, Nat.cast_one] at h
    simp [hj', h, Location.right_right, Nat.add_comm]

/-- The content loop: `c` holds no terminator, so the loop runs through `c`
and stops at the terminator that follows it. -/
theorem parseRawStringLoop_content (hashes : Nat) (rest : List Nat) (c : List Nat) :
    ∀ (fuel : Nat) (str : List Nat) (loc : Location) (hs : Int),
      c.length + hashes + 1 ≤ fuel →
      ¬ (34 :: List.replicate hashes 35) <:+: c →
      (hs = -1 ∨ ∃ j : Nat, hs = (j : Int) ∧ j < hashes ∧
        ¬ List.replicate (hashes - j) 35 <+: c) →
      parseRawStringLoop hashes fuel ⟨c ++ 34 :: (List.replicate hashes 35 ++ rest), loc⟩ str hs
        = .ok (str ++ c, ⟨rest, (loc.after c).right (hashes + 1)⟩) := by
  induction c with
  | nil =>
    intro fuel str loc hs hf _ _
    obtain ⟨f, rfl⟩ : ∃ f, fuel = f + 1 := ⟨fuel - 1, by omega⟩
    rw [List.nil_append, parseRawStringLoop]
    simp only [Reader.get_cons, if_true, Location.next_eq_right loc 34 (by decide)]
    cases hashes with
    | zero => simp [Location.after]
    | succ m =>
      have h := parseRawStringLoop_hashes (m + 1) rest m f 0 (str ++ [34]) (loc.right 1)
        (by omega) (by omega)
      have hne : ¬ (0 : Int) = ((m + 1 : Nat) : Int) := by push_cast; omega
      simp only [Nat.cast_zero] at h
      simp only [hne, if_false, h]
      have e : (str ++ [34] ++ List.replicate (m + 1) 35).length - (m + 1) - 1 = str.length := by
        simp only [List.length_append, List.length_replicate, List.length_cons, List.length_nil]
        omega
      rw [e, List.append_assoc, List.take_left]
      simp [Location.after, Location.right_right, Nat.add_comm]
  | cons x c ih =>
    intro fuel str loc hs hf hno hinv
    obtain ⟨f, rfl⟩ : ∃ f, fuel = f + 1 := ⟨fuel - 1, by omega⟩
    have hno' : ¬ (34 :: List.replicate hashes 35) <:+: c := fun h =>
      hno (h.trans (List.suffix_cons x c).isInfix)
    rw [List.cons_append, parseRawStringLoop]
    simp only [Reader.get_cons]
    have hf' : c.length + hashes + 1 ≤ f := by simp at hf; omega
    by_cases hx : x = 34
    · subst hx
      have hpos : 0 < hashes := by
        rcases Nat.eq_zero_or_pos hashes with h0 | h0
        · exfalso; apply hno; subst h0
          exact ⟨[], c, by simp⟩
        · exact h0
      have hne : ¬ (0 : Int) = (hashes : Int) := by omega
      simp only [if_true, hne, if_false]
      rw [ih f (str ++ [34]) _ 0 hf' hno' (Or.inr ⟨0, by simp, hpos, fun hp => hno
        ((List.cons_prefix_cons.mpr ⟨rfl, by simpa using hp⟩).isInfix)⟩)]
      simp [Location.after_cons]
    · rcases hinv with rfl | ⟨j, rfl, hj, hpre⟩
      · have hne : ¬ (-1 : Int) = (hashes : Int) := by omega
        simp only [hx, if_false, show ¬ ((-1 : Int) ≥ 0) by decide, and_false, hne]
        rw [ih f (str ++ [x]) _ (-1) hf' hno' (Or.inl rfl)]
        simp [Location.after_cons]
      · by_cases hx35 : x = 35
        · subst hx35
          have hj1 : j + 1 < hashes := by
            rcases Nat.lt_or_ge (j + 1) hashes with h | h
            · exact h
            · exfalso; apply hpre
              have : hashes - j = 1 := by omega
              rw [this]
              exact ⟨c, by simp⟩
          have hne : ¬ (j : Int) + 1 = (hashes : Int) := by omega
          have hge : (j : Int) ≥ 0 := by omega
          simp only [hx, if_false, hge, and_self, if_true, hne]
          rw [ih f (str ++ [35]) _ ((j : Int) + 1) hf' hno' (Or.inr ⟨j + 1, by simp, hj1, fun hp =>
            hpre (by
              have : hashes - j = (hashes - (j + 1)) + 1 := by omega
              rw [this, List.replicate_succ]
              exact List.cons_prefix_cons.mpr ⟨rfl, hp⟩)⟩)]
          simp [Location.after_cons]
        · have hne : ¬ (-1 : Int) = (hashes : Int) := by omega
          simp only [hx, hx35, if_false, false_and, hne]
          rw [ih f (str ++ [x]) _ (-1) hf' hno' (Or.inl rfl)]
          simp [Location.after_cons]

/-- C7. Raw string delimiter matching: for every `k` and every content `c`
that holds no `"` immediately followed by `k` hashes, the document
`r`, `k` hashes, `"`, `c`, `"`, `k` hashes parses to the String `c` itself:
nothing is unescaped and the terminator is not part of it. -/
theorem raw_string_delimiter {F : Type} (strtod : List Nat → F) (k : Nat) (c : List Nat)
    (d : Int) (hd : 1 ≤ d) (hc : ¬ (34 :: List.replicate k 35) <:+: c) :
    parse strtod (rawStringDocument k c) d = .ok (.string c) := by
  have hd' : ¬ d ≤ 0 := by omega
  unfold rawStringDocument
  apply parse_of_parseValue_ok strtod 114 _ d _
    ((((Location.right ⟨1, 1⟩ 1).right (k + 1)).after c).right (k + 1)) (by decide)
  have hfuel : parseFuel (114 :: (List.replicate k 35 ++ 34 :: (c ++ 34 :: List.replicate k 35))).length
      = (4 * (List.replicate k 35 ++ 34 :: (c ++ 34 :: List.replicate k 35)).length + 7) + 1 := by
    simp [parseFuel]; omega
  have hp2 : (List.replicate k 35 ++ 34 :: (c ++ 34 :: List.replicate k 35)).head? = some 34 ∨
      (List.replicate k 35 ++ 34 :: (c ++ 34 :: List.replicate k 35)).head? = some 35 := by
    cases k with
    | zero => left; simp
    | succ k => right; simp [List.replicate_succ]
  have hcount := countHashes_replicate k
    ((List.replicate k 35 ++ 34 :: (c ++ 34 :: List.replicate k 35)).length + 1)
    (c ++ 34 :: List.replicate k 35) (Location.right ⟨1, 1⟩ 1) 0 (by simp)
  have hloop := parseRawStringLoop_content k [] c ((c ++ 34 :: List.replicate k 35).length + 1) []
    ((Location.right ⟨1, 1⟩ 1).right (k + 1)) (-1) (by simp) hc (Or.inl rfl)
  rw [List.append_nil] at hloop
  rw [hfuel, parseValue]
  simp only [hd', Reader.peek, Reader.peek2, List.head?_cons, List.tail_cons, if_false,
    reduceCtorEq, Option.some.injEq, Nat.reduceEqDiff, true_and, hp2, if_true, parseRawString,
    Reader.get_cons, Reader.fuel, Location.next_eq_right _ 114 (by decide), hcount, Nat.zero_add,
    ne_eq, not_true_eq_false, hloop, List.nil_append]

/-- C7 at `k = 1`: the document `r#"a"b"#` yields the String `a"b`. -/
theorem raw_string_delimiter_witness :
    ¬ (34 :: List.replicate 1 35) <:+: [97, 34, 98] ∧
    parse (fun t => t) [114, 35, 34, 97, 34, 98, 34, 35] 5 = .ok (.string [97, 34, 98]) :=
  ⟨by decide, raw_string_delimiter (fun t => t) 1 [97, 34, 98] 5 (by decide) (by decide)⟩

/-! ## Integer literals -/

theorem isRadixDigit_iff (radix c : Nat) :
    isRadixDigit radix c = true ↔ ∃ v, charValue (some c) = some v ∧ v < radix := by
  unfold isRadixDigit
  cases h : charValue (some c) <;> simp

theorem parseIntegerLoop_digits (radix : Nat) (txt : List Nat) :
    ∀ (fuel : Nat) (rest : List Nat) (loc : Location) (num : Dbl),
      txt.length + 1 ≤ fuel →
      (∀ c ∈ txt, c = 39 ∨ isRadixDigit radix c = true) →
      numberStops radix rest = true →
      parseIntegerLoop radix fuel ⟨txt ++ rest, loc⟩ num
        = .ok (accumulate radix num txt, ⟨rest, loc.right txt.length⟩) := by
  induction txt with
  | nil =>
    intro fuel rest loc num hf _ hstop
    obtain ⟨f, rfl⟩ : ∃ f, fuel = f + 1 := ⟨fuel - 1, by omega⟩
    rw [List.nil_append, parseIntegerLoop]
    cases rest with
    | nil => simp [Reader.peek, accumulate, Location.right]
    | cons c rest =>
      simp only [numberStops, Bool.and_eq_true, bne_iff_ne, ne_eq, Bool.not_eq_true',
        ] at hstop
      have hc39 : c ≠ 39 := hstop.1.1.1.1.1.1.1
      have hnd : isRadixDigit radix c = false := hstop.1.1.1.1.1.1.2
      simp only [Reader.peek, List.head?_cons, reduceCtorEq, if_false, Option.some.injEq, hc39]
      unfold isRadixDigit at hnd
      cases hv : charValue (some c) with
      | none => simp [accumulate, Location.right]
      | some v =>
        rw [hv] at hnd
        have : v ≥ radix := by simpa using hnd
        simp [this, accumulate, Location.right]
  | cons c txt ih =>
    intro fuel rest loc num hf htxt hstop
    obtain ⟨f, rfl⟩ : ∃ f, fuel = f + 1 := ⟨fuel - 1, by omega⟩
    have hf' : txt.length + 1 ≤ f := by simp at hf; omega
    have htxt' : ∀ x ∈ txt, x = 39 ∨ isRadixDigit radix x = true :=
      fun x hx => htxt x (by simp [hx])
    rw [List.cons_append, parseIntegerLoop]
    simp only [Reader.peek, List.head?_cons, reduceCtorEq, if_false, Option.some.injEq,
      Reader.get_cons]
    by_cases hc : c = 39
    · subst hc
      rw [if_pos rfl, ih f rest _ num hf' htxt' hstop]
      simp [accumulate, Location.next_eq_right, Location.right_right, Nat.add_comm]
    · rcases htxt c (by simp) with h39 | hdig
      · exact absurd h39 hc
      · obtain ⟨v, hv, hlt⟩ := (isRadixDigit_iff radix c).mp hdig
        have hne := (charValue_lt c v hv).2
        have hnlt : ¬ v ≥ radix := by omega
        simp only [hc, if_false, hv, hnlt]
        rw [ih f rest _ _ hf' htxt' hstop]
        simp [accumulate, hc, digitValue, hv, Location.next_eq_right _ c hne,
          Location.right_right, Nat.add_comm]

theorem parseInteger_digits (radix d0 : Nat) (txt rest : List Nat) (loc : Location)
    (hd0 : isRadixDigit radix d0 = true)
    (htxt : ∀ c ∈ txt, c = 39 ∨ isRadixDigit radix c = true)
    (hstop : numberStops radix rest = true) :
    parseInteger ⟨d0 :: (txt ++ rest), loc⟩ radix
      = .ok (accumulate radix (.fin (digitValue d0)) txt,
          ⟨rest, loc.right (txt.length + 1)⟩) := by
  obtain ⟨v, hv, hlt⟩ := (isRadixDigit_iff radix d0).mp hd0
  have hne := (charValue_lt d0 v hv).2
  have hnlt : ¬ v ≥ radix := by omega
  unfold parseInteger
  simp only [Reader.peek, List.head?_cons, hv, hnlt, if_false, Reader.get_cons, Reader.fuel]
  rw [parseIntegerLoop_digits radix txt _ rest _ _ (by simp) htxt hstop]
  simp [digitValue, hv, Location.next_eq_right _ d0 hne, Location.right_right, Nat.add_comm]

theorem numberStops_head (radix : Nat) (rest : List Nat) (h : numberStops radix rest = true) :
    rest.head? ≠ some 46 ∧ rest.head? ≠ some 101 ∧ rest.head? ≠ some 69 ∧
      rest.head? ≠ some 120 ∧ rest.head? ≠ some 111 ∧ rest.head? ≠ some 98 := by
  cases rest with
  | nil => simp
  | cons c rest =>
    simp only [numberStops, Bool.and_eq_true, bne_iff_ne, ne_eq] at h
    simp only [List.head?_cons, ne_eq, Option.some.injEq]
    tauto

theorem decimal_head (txt rest : List Nat)
    (htxt : ∀ c ∈ txt, c = 39 ∨ isRadixDigit 10 c = true)
    (hstop : numberStops 10 rest = true) :
    (txt ++ rest).head? ≠ some 120 ∧ (txt ++ rest).head? ≠ some 111 ∧
      (txt ++ rest).head? ≠ some 98 := by
  cases txt with
  | nil =>
    have h := numberStops_head 10 rest hstop
    simp only [List.nil_append]
    tauto
  | cons c txt =>
    have hc := htxt c (by simp)
    simp only [List.cons_append, List.head?_cons, ne_eq, Option.some.injEq]
    refine ⟨?_, ?_, ?_⟩ <;> intro h <;> subst h <;> revert hc <;> decide

theorem parseNumber_integer {F : Type} (strtod : List Nat → F) (sign : List Nat)
    (radix d0 : Nat) (txt rest : List Nat) (loc : Location)
    (hsign : sign = [] ∨ sign = [43] ∨ sign = [45])
    (hradix : radix = 2 ∨ radix = 8 ∨ radix = 10 ∨ radix = 16)
    (hd0 : isRadixDigit radix d0 = true)
    (htxt : ∀ c ∈ txt, c = 39 ∨ isRadixDigit radix c = true)
    (hstop : numberStops radix rest = true) :
    parseNumber strtod ⟨sign ++ (radixMarker radix ++ d0 :: (txt ++ rest)), loc⟩
      = if (integerText (decide (sign = [45]))
            (accumulate radix (.fin (digitValue d0)) txt)).length ≥ 256 then
          .error (error loc .numberTooLong)
        else
          .ok (strtod (integerText (decide (sign = [45]))
              (accumulate radix (.fin (digitValue d0)) txt)),
            ⟨rest, loc.right (sign.length + (radixMarker radix).length + (txt.length + 1))⟩) := by
  obtain ⟨v, hv, hlt⟩ := (isRadixDigit_iff radix d0).mp hd0
  have hr := numberStops_head radix rest hstop
  have hd0r : 48 ≤ d0 ∧ (radix = 10 → d0 ≤ 57) := by
    simp only [charValue] at hv
    split_ifs at hv with h1 h2 h3 <;> simp at hv <;> constructor <;> omega
  have h46 : d0 ≠ 46 := by omega
  have h45 : d0 ≠ 45 := by omega
  have h43 : d0 ≠ 43 := by omega
  have hint := fun l => parseInteger_digits radix d0 txt rest l hd0 htxt hstop
  rcases hsign with rfl | rfl | rfl <;> rcases hradix with rfl | rfl | rfl | rfl
  case inl.inr.inr.inl | inr.inl.inr.inr.inl | inr.inr.inr.inr.inl =>
    have hh := decimal_head txt rest htxt hstop
    have hnr : ∀ l, numberRadix ⟨d0 :: (txt ++ rest), l⟩ = 10 := by
      intro l
      unfold numberRadix
      simp only [Reader.peek, Reader.peek2, List.head?_cons, List.tail_cons, hh.1, hh.2.1,
        hh.2.2, if_false, ite_self]
    simp [parseNumber, hnr, radixMarker, Reader.peek, Reader.get_cons,
      hint, hr, integerText, Location.next_eq_right, Location.right_right, h46, h45, h43]
  all_goals
    simp [parseNumber, numberRadix, radixMarker, Reader.peek, Reader.peek2, Reader.get_cons,
      hint, hr, integerText, Location.next_eq_right, Location.right_right, h46, h45, h43]

theorem parseValue_number_start {F : Type} (strtod : List Nat → F) (fuel : Nat) (b : Nat)
    (tail : List Nat) (loc : Location) (depth : Int) (tl : Bool) (hd : 1 ≤ depth)
    (hb : (48 ≤ b ∧ b ≤ 57) ∨ b = 43 ∨ b = 45) :
    parseValue strtod (fuel + 1) ⟨b :: tail, loc⟩ depth tl
      = match parseNumber strtod ⟨b :: tail, loc⟩ with
        | .error e => .error e
        | .outOfFuel => .outOfFuel
        | .ok (num, r1) => .ok (.number num, r1) := by
  have hd' : ¬ depth ≤ 0 := by omega
  have h91 : b ≠ 91 := by omega
  have h123 : b ≠ 123 := by omega
  have h34 : b ≠ 34 := by omega
  have h114 : b ≠ 114 := by omega
  have hnum : decide (48 ≤ b ∧ b ≤ 57) = true ∨ b = 46 ∨ b = 43 ∨ b = 45 := by
    simp only [decide_eq_true_eq]; omega
  rw [parseValue]
  simp only [hd', Reader.peek, List.head?_cons, if_false, reduceCtorEq, Option.some.injEq, h91,
    h123, h34, h114, false_and, Option.any_some]
  rw [if_pos hnum]

theorem literal_start (sign : List Nat) (radix d0 : Nat) (tail : List Nat)
    (hsign : sign = [] ∨ sign = [43] ∨ sign = [45])
    (hradix : radix = 2 ∨ radix = 8 ∨ radix = 10 ∨ radix = 16)
    (hd0 : isRadixDigit radix d0 = true) :
    ∃ b t, sign ++ (radixMarker radix ++ d0 :: tail) = b :: t ∧
      ((48 ≤ b ∧ b ≤ 57) ∨ b = 43 ∨ b = 45) := by
  rcases hsign with rfl | rfl | rfl
  · rcases hradix with rfl | rfl | rfl | rfl
    · exact ⟨48, _, rfl, by omega⟩
    · exact ⟨48, _, rfl, by omega⟩
    · obtain ⟨v, hv, hlt⟩ := (isRadixDigit_iff 10 d0).mp hd0
      refine ⟨d0, tail, rfl, Or.inl ?_⟩
      simp only [charValue] at hv
      split_ifs at hv with h1 h2 h3 <;> simp at hv <;> omega
    · exact ⟨48, _, rfl, by omega⟩
  · exact ⟨43, _, rfl, by omega⟩
  · exact ⟨45, _, rfl, by omega⟩

theorem parse_integer_literal {F : Type} (strtod : List Nat → F) (sign : List Nat)
    (radix d0 : Nat) (txt : List Nat) (d : Int)
    (hsign : sign = [] ∨ sign = [43] ∨ sign = [45])
    (hradix : radix = 2 ∨ radix = 8 ∨ radix = 10 ∨ radix = 16)
    (hd0 : isRadixDigit radix d0 = true)
    (htxt : ∀ c ∈ txt, c = 39 ∨ isRadixDigit radix c = true) :
    parse strtod (sign ++ (radixMarker radix ++ d0 :: txt)) d
      = integerLiteralResult strtod d (decide (sign = [45]))
          (accumulate radix (.fin (digitValue d0)) txt) := by
  obtain ⟨b, t, hbt, hb⟩ := literal_start sign radix d0 txt hsign hradix hd0
  have htok : isTokenByte b = true := by
    rw [isTokenByte_iff]; omega
  have hnum := parseNumber_integer strtod sign radix d0 txt [] ⟨1, 1⟩ hsign hradix hd0 htxt rfl
  rw [List.append_nil, hbt] at hnum
  rw [hbt]
  unfold integerLiteralResult
  by_cases hd : d ≤ 0
  · rw [if_pos hd]
    apply parse_of_parseValue_error strtod b t d _ htok
    simp [parseFuel, parseValue, hd]
  · have hd1 : 1 ≤ d := by omega
    rw [if_neg hd]
    have hpv := parseValue_number_start strtod (parseFuel (b :: t).length - 1) b t ⟨1, 1⟩ d true
      hd1 hb
    rw [show parseFuel (b :: t).length - 1 + 1 = parseFuel (b :: t).length by
      simp [parseFuel], hnum] at hpv
    split_ifs with hlen
    · apply parse_of_parseValue_error strtod b t d _ htok
      rw [hpv, if_pos hlen]
    · exact parse_of_parseValue_ok strtod b t d _ _ htok (by rw [hpv, if_neg hlen])

theorem accumulate_filter (radix : Nat) (txt : List Nat) :
    ∀ num : Dbl, accumulate radix num (txt.filter (· ≠ 39)) = accumulate radix num txt := by
  induction txt with
  | nil => intro num; rfl
  | cons c txt ih =>
    intro num
    by_cases hc : c = 39
    · subst hc
      simpa [accumulate] using ih num
    · have h := ih ((num.mul radix).add (digitValue c))
      simpa [accumulate, hc] using h

/-! ## C6: digit separators -/

/-- C6. Digit separators are cosmetic: an integer literal of any radix
(optional sign, radix marker, first digit `d0`) whose remaining characters
`body` are digits of the radix and `'` separators in any positions parses to
exactly what the literal without the separators parses to, namely the
Number of the text formatted from the accumulated digits (or, for both, the
same error when the depth budget is zero or the text is too long). -/
theorem digit_separators_cosmetic {F : Type} (strtod : List Nat → F) (sign : List Nat)
    (radix d0 : Nat) (body : List Nat) (d : Int)
    (hsign : sign = [] ∨ sign = [43] ∨ sign = [45])
    (hradix : radix = 2 ∨ radix = 8 ∨ radix = 10 ∨ radix = 16)
    (hd0 : isRadixDigit radix d0 = true)
    (hbody : ∀ c ∈ body, c = 39 ∨ isRadixDigit radix c = true) :
    parse strtod (sign ++ (radixMarker radix ++ d0 :: body)) d
        = parse strtod (sign ++ (radixMarker radix ++ d0 :: body.filter (· ≠ 39))) d ∧
      parse strtod (sign ++ (radixMarker radix ++ d0 :: body.filter (· ≠ 39))) d
        = integerLiteralResult strtod d (decide (sign = [45]))
            (accumulate radix (.fin (digitValue d0)) (body.filter (· ≠ 39))) := by
  have hfil : ∀ c ∈ body.filter (· ≠ 39), c = 39 ∨ isRadixDigit radix c = true :=
    fun c hc => hbody c (List.mem_filter.mp hc).1
  rw [parse_integer_literal strtod sign radix d0 body d hsign hradix hd0 hbody,
    parse_integer_literal strtod sign radix d0 _ d hsign hradix hd0 hfil,
    accumulate_filter]
  exact ⟨rfl, rfl⟩

/-- C6 on `1'000`: it parses, like `1000`, to the Number of the text
`1000e0`. -/
theorem digit_separators_cosmetic_witness :
    parse (fun t => t) [49, 39, 48, 48, 48] 5 = parse (fun t => t) [49, 48, 48, 48] 5 ∧
    parse (fun t => t) [49, 48, 48, 48] 5 = .ok (.number [49, 48, 48, 48, 101, 48]) :=
  digit_separators_cosmetic (fun t => t) [] 10 49 [39, 48, 48, 48] 5 (by simp) (by simp)
    (by decide) (by decide)

/-! ## C5: radix equivalence -/

theorem charValue_digitChar (upper : Bool) (d : Nat) (h : d < 16) :
    charValue (some (digitChar upper d)) = some d := by
  interval_cases d <;> cases upper <;> rfl

theorem digitChar_ne_separator (upper : Bool) (d : Nat) : digitChar upper d ≠ 39 := by
  unfold digitChar
  split_ifs <;> omega

theorem Dbl.ofNat_small (n : Nat) (h : n < 2 ^ 53) : Dbl.ofNat n = .fin n := by
  have hr : roundBinary64 n = n := by
    unfold roundBinary64
    rw [if_pos h]
  have hs : n >>> 1024 = 0 := by
    rw [show (1024 : Nat) = 53 + 971 from rfl, Nat.shiftRight_add, Nat.shiftRight_eq_div_pow n 53,
      Nat.div_eq_of_lt h, Nat.zero_shiftRight]
  unfold Dbl.ofNat
  rw [hr, if_pos hs]

theorem le_horner (radix : Nat) (hr : 1 ≤ radix) (ds : List Nat) :
    ∀ a, a ≤ horner radix a ds := by
  induction ds with
  | nil => intro a; exact Nat.le_refl a
  | cons d ds ih =>
    intro a
    have h := ih (a * radix + d)
    have h2 : a ≤ a * radix := Nat.le_mul_of_pos_right a hr
    simp only [horner, List.foldl_cons] at h ⊢
    omega

theorem accumulate_exact (radix : Nat) (upper : Bool) (hr16 : radix ≤ 16) (ds : List Nat) :
    ∀ a, (∀ d ∈ ds, d < radix) → horner radix a ds < 2 ^ 53 →
      accumulate radix (.fin a) (ds.map (digitChar upper)) = .fin (horner radix a ds) := by
  induction ds with
  | nil => intro a _ _; rfl
  | cons d ds ih =>
    intro a hds hlt
    have hd : d < radix := hds d (by simp)
    have hmono := le_horner radix (by omega) ds (a * radix + d)
    have hstep : horner radix a (d :: ds) = horner radix (a * radix + d) ds := rfl
    rw [hstep] at hlt ⊢
    have h1 : a * radix < 2 ^ 53 := by omega
    have h2 : a * radix + d < 2 ^ 53 := by omega
    have hv : digitValue (digitChar upper d) = d := by
      simp [digitValue, charValue_digitChar upper d (by omega)]
    have hacc : accumulate radix (.fin a) ((d :: ds).map (digitChar upper))
        = accumulate radix (.fin (a * radix + d)) (ds.map (digitChar upper)) := by
      simp [accumulate, digitChar_ne_separator, hv, Dbl.mul, Dbl.add, Dbl.ofNat_small _ h1,
        Dbl.ofNat_small _ h2]
    rw [hacc, ih (a * radix + d) (fun x hx => hds x (by simp [hx])) hlt]

theorem toRadixAux_horner (radix : Nat) (hr : 2 ≤ radix) (fuel : Nat) :
    ∀ (n : Nat) (acc : List Nat), n < fuel →
      horner radix 0 (toRadixAux radix fuel n acc) = horner radix n acc := by
  induction fuel with
  | zero => intro n acc h; omega
  | succ fuel ih =>
    intro n acc hn
    rw [toRadixAux]
    split_ifs with hlt
    · simp [horner]
    · have hdiv : n / radix < n := Nat.div_lt_self (by omega) (by omega)
      rw [ih (n / radix) _ (by omega)]
      simp only [horner, List.foldl_cons]
      rw [Nat.div_add_mod']

theorem toRadixAux_lt (radix : Nat) (hr : 2 ≤ radix) (fuel : Nat) :
    ∀ (n : Nat) (acc : List Nat), (∀ d ∈ acc, d < radix) →
      ∀ d ∈ toRadixAux radix fuel n acc, d < radix := by
  induction fuel with
  | zero => intro n acc h; simpa [toRadixAux] using h
  | succ fuel ih =>
    intro n acc hacc
    rw [toRadixAux]
    split_ifs with hlt
    · intro d hd
      rcases List.mem_cons.mp hd with rfl | hd
      · exact hlt
      · exact hacc d hd
    · apply ih
      intro d hd
      rcases List.mem_cons.mp hd with rfl | hd
      · exact Nat.mod_lt _ (by omega)
      · exact hacc d hd

theorem toRadixAux_length (radix : Nat) (hr : 2 ≤ radix) (fuel : Nat) :
    ∀ (n k : Nat) (acc : List Nat), n < radix ^ (k + 1) →
      (toRadixAux radix (fuel + 1) n acc).length ≤ k + 1 + acc.length ∧
      1 ≤ (toRadixAux radix (fuel + 1) n acc).length := by
  induction fuel with
  | zero =>
    intro n k acc _
    rw [toRadixAux]
    split_ifs <;> simp [toRadixAux] <;> omega
  | succ fuel ih =>
    intro n k acc hn
    rw [toRadixAux]
    split_ifs with hlt
    · simp; omega
    · cases k with
      | zero => simp at hn; omega
      | succ k =>
        have hdiv : n / radix < radix ^ (k + 1) := by
          rw [Nat.div_lt_iff_lt_mul (by omega)]
          calc n < radix ^ (k + 1 + 1) := hn
            _ = radix ^ (k + 1) * radix := by ring
        have h := ih (n / radix) k (n % radix :: acc) hdiv
        simp only [List.length_cons] at h
        omega

theorem toRadix_cons (radix n : Nat) (hr : 2 ≤ radix) :
    ∃ d0 ds, toRadix radix n = d0 :: ds ∧ horner radix d0 ds = n ∧
      (∀ d ∈ d0 :: ds, d < radix) := by
  have hlen := (toRadixAux_length radix hr n n n [] (by
    calc n < 2 ^ n := Nat.lt_two_pow n
      _ ≤ radix ^ n := Nat.pow_le_pow_left hr n
      _ ≤ radix ^ (n + 1) := Nat.pow_le_pow_right (by omega) (by omega))).2
  have hh := toRadixAux_horner radix hr (n + 1) n [] (by omega)
  have hl := toRadixAux_lt radix hr (n + 1) n [] (by simp)
  unfold toRadix
  cases hds : toRadixAux radix (n + 1) n [] with
  | nil => rw [hds] at hlen; simp at hlen
  | cons d0 ds =>
    rw [hds] at hh hl
    refine ⟨d0, ds, rfl, ?_, hl⟩
    simpa [horner] using hh

theorem toDecimal_length (n : Nat) (h : n < 2 ^ 53) : (toDecimal n).length ≤ 16 := by
  have hlen := (toRadixAux_length 10 (by decide) n n 15 [] (by
    calc n < 2 ^ 53 := h
      _ ≤ 10 ^ (15 + 1) := by norm_num)).1
  simpa [toDecimal, toRadix] using hlen

/-- C5. Radix equivalence: for every `n < 2^53` the literal that writes `n`
in base 16 after `0x`, in base 8 after `0o`, in base 2 after `0b`, or in
base 10 without a marker (hex letters in either case) parses to one and
the same Number: the one `strtod` returns for the decimal text of `n`
followed by `e0`. -/
theorem radix_equivalence {F : Type} (strtod : List Nat → F) (n : Nat) (hn : n < 2 ^ 53)
    (d : Int) (hd : 1 ≤ d) (radix : Nat)
    (hradix : radix = 2 ∨ radix = 8 ∨ radix = 10 ∨ radix = 16) (upper : Bool) :
    parse strtod (radixMarker radix ++ (toRadix radix n).map (digitChar upper)) d
      = .ok (.number (strtod (toDecimal n ++ [101, 48]))) := by
  have hr2 : 2 ≤ radix := by omega
  have hr16 : radix ≤ 16 := by omega
  obtain ⟨d0, ds, hds, hval, hlt⟩ := toRadix_cons radix n hr2
  have hd0 : d0 < radix := hlt d0 (by simp)
  have hcv := charValue_digitChar upper d0 (by omega)
  have hlit := parse_integer_literal strtod [] radix (digitChar upper d0)
    (ds.map (digitChar upper)) d (Or.inl rfl) hradix
    ((isRadixDigit_iff _ _).mpr ⟨d0, hcv, hd0⟩)
    (fun c hc => by
      obtain ⟨x, hx, rfl⟩ := List.mem_map.mp hc
      have hxlt : x < radix := hlt x (by simp [hx])
      exact Or.inr ((isRadixDigit_iff _ _).mpr
        ⟨x, charValue_digitChar upper x (by omega), hxlt⟩))
  have hacc := accumulate_exact radix upper hr16 ds d0 (fun x hx => hlt x (by simp [hx]))
    (by rw [hval]; exact hn)
  have hdv : digitValue (digitChar upper d0) = d0 := by simp [digitValue, hcv]
  rw [hds, List.map_cons]
  rw [List.nil_append, hdv, hacc, hval] at hlit
  rw [hlit]
  have hlen := toDecimal_length n hn
  have htext : integerText false (.fin n) = toDecimal n ++ [101, 48] := by
    simp [integerText, formatNumber, Dbl.format, show toDecimal 0 = [48] from rfl]
  have hd' : ¬ d ≤ 0 := by omega
  have hshort : ¬ (toDecimal n ++ [101, 48]).length ≥ 256 := by
    simp only [List.length_append, List.length_cons, List.length_nil]; omega
  simp only [integerLiteralResult, hd', if_false, htext, hshort, decide_False,
    show decide (([] : List Nat) = [45]) = false from rfl]

/-- C5 on 31: `0x1F`, `0o37`, `0b11111` and `31` all parse to the Number of
the text `31e0`. -/
theorem radix_equivalence_witness :
    31 < 2 ^ 53 ∧
    parse (fun t => t) [48, 120, 49, 70] 5 = .ok (.number [51, 49, 101, 48]) ∧
    parse (fun t => t) [48, 111, 51, 55] 5 = .ok (.number [51, 49, 101, 48]) ∧
    parse (fun t => t) [48, 98, 49, 49, 49, 49, 49] 5 = .ok (.number [51, 49, 101, 48]) ∧
    parse (fun t => t) [51, 49] 5 = .ok (.number [51, 49, 101, 48]) :=
  ⟨by decide,
   radix_equivalence (fun t => t) 31 (by decide) 5 (by decide) 16 (by simp) true,
   radix_equivalence (fun t => t) 31 (by decide) 5 (by decide) 8 (by simp) true,
   radix_equivalence (fun t => t) 31 (by decide) 5 (by decide) 2 (by simp) true,
   radix_equivalence (fun t => t) 31 (by decide) 5 (by decide) 10 (by simp) true⟩

/-! ## C4: bare objects -/

theorem isIdent_ne_newline (c : Nat) (h : isIdent c = true) : c ≠ 10 ∧ c ≠ 58 := by
  simp only [isIdent, Bool.or_eq_true, Bool.and_eq_true, decide_eq_true_eq, beq_iff_eq] at h
  omega

theorem isFirstIdent_isIdent (c : Nat) (h : isFirstIdent c = true) : isIdent c = true := by
  simp only [isFirstIdent, isIdent, Bool.or_eq_true, Bool.and_eq_true, decide_eq_true_eq,
    beq_iff_eq] at h ⊢
  omega

theorem isFirstIdent_facts (c : Nat) (h : isFirstIdent c = true) :
    isTokenByte c = true ∧ c ≠ 91 ∧ c ≠ 123 ∧ c ≠ 34 ∧ c ≠ 46 ∧ c ≠ 43 ∧ c ≠ 45 ∧ c ≠ 125 ∧
      ¬ (48 ≤ c ∧ c ≤ 57) := by
  rw [isTokenByte_iff]
  simp only [isFirstIdent, Bool.or_eq_true, Bool.and_eq_true, decide_eq_true_eq,
    beq_iff_eq] at h
  omega

theorem parseIdentifierLoop_ident (cs : List Nat) :
    ∀ (fuel c : Nat) (rest ident : List Nat) (loc : Location),
      cs.length + 1 ≤ fuel → isIdent c = true → cs.all isIdent = true →
      parseIdentifierLoop fuel ⟨c :: (cs ++ 58 :: rest), loc⟩ ident
        = .ok (ident ++ c :: cs, ⟨58 :: rest, loc.right (cs.length + 1)⟩) := by
  induction cs with
  | nil =>
    intro fuel c rest ident loc hf hc _
    obtain ⟨f, rfl⟩ : ∃ f, fuel = f + 1 := ⟨fuel - 1, by omega⟩
    rw [parseIdentifierLoop]
    simp [Reader.get_cons, Reader.peek, isIdent, Location.next_eq_right _ c
      (isIdent_ne_newline c hc).1]
  | cons x cs ih =>
    intro fuel c rest ident loc hf hc hcs
    obtain ⟨f, rfl⟩ : ∃ f, fuel = f + 1 := ⟨fuel - 1, by omega⟩
    have hx : isIdent x = true := by simp at hcs; exact hcs.1
    have hcs' : cs.all isIdent = true := by simp at hcs ⊢; exact hcs.2
    rw [List.cons_append, parseIdentifierLoop]
    simp only [Reader.get_cons, Reader.peek, List.head?_cons, hx, if_true, Option.getD_some,
      Location.next_eq_right _ c (isIdent_ne_newline c hc).1]
    rw [ih f x rest _ _ (by simp at hf; omega) hx hcs']
    simp [Location.right_right, Nat.add_comm]

theorem parseIdentifier_key (key rest : List Nat) (loc : Location)
    (hkey : isIdentifier key = true) :
    parseIdentifier ⟨key ++ 58 :: rest, loc⟩
      = .ok (key, ⟨58 :: rest, loc.right key.length⟩) := by
  cases key with
  | nil => simp [isIdentifier] at hkey
  | cons c cs =>
    simp only [isIdentifier, Bool.and_eq_true] at hkey
    unfold parseIdentifier
    simp only [List.cons_append, Reader.peek, List.head?_cons, hkey.1, if_true, Reader.fuel]
    rw [parseIdentifierLoop_ident cs _ c rest [] loc (by simp; omega)
      (isFirstIdent_isIdent c hkey.1) hkey.2]
    simp

theorem parseKey_key (key rest : List Nat) (loc : Location) (hkey : isIdentifier key = true) :
    parseKey ⟨key ++ 58 :: rest, loc⟩ = .ok (key, ⟨58 :: rest, loc.right key.length⟩) := by
  cases key with
  | nil => simp [isIdentifier] at hkey
  | cons c cs =>
    have hc : isFirstIdent c = true := by
      simp only [isIdentifier, Bool.and_eq_true] at hkey; exact hkey.1
    have h34 := (isFirstIdent_facts c hc).2.2.2.1
    unfold parseKey
    simp only [List.cons_append, Reader.peek, List.head?_cons, Option.some.injEq, h34, if_false]
    exact parseIdentifier_key (c :: cs) rest loc hkey

theorem skipWhitespace_space (c : Nat) (i : List Nat) (loc : Location)
    (hc : isTokenByte c = true) :
    skipWhitespace ⟨32 :: c :: i, loc⟩ = .ok ⟨c :: i, loc.right 1⟩ := by
  have h := skipWhitespace_token c i (loc.right 1) hc
  rw [isTokenByte_iff] at hc
  unfold skipWhitespace at h ⊢
  simp only [Reader.fuel, List.length_cons] at h ⊢
  rw [skipWhitespaceLoop]
  simp only [Reader.peek, List.head?_cons, true_or, if_true, Reader.get_cons,
    Location.next_eq_right loc 32 (by decide)]
  rw [skipWhitespaceLoop]
  simp [Reader.peek, hc]

theorem toDecimal_cons (n : Nat) :
    ∃ d0 txt, toDecimal n = d0 :: txt ∧ isRadixDigit 10 d0 = true ∧
      (∀ c ∈ txt, c = 39 ∨ isRadixDigit 10 c = true) ∧
      accumulate 10 (.fin (digitValue d0)) txt = decimalValue n ∧
      isTokenByte d0 = true ∧ 48 ≤ d0 ∧ d0 ≤ 57 := by
  obtain ⟨d0, ds, hds, -, hlt⟩ := toRadix_cons 10 n (by decide)
  have hd0 : d0 < 10 := hlt d0 (by simp)
  have hcv := charValue_digitChar true d0 (by omega)
  have hdig : ∀ x, x < 10 → isRadixDigit 10 (digitChar true x) = true := fun x hx =>
    (isRadixDigit_iff _ _).mpr ⟨x, charValue_digitChar true x (by omega), hx⟩
  have hch : digitChar true d0 = 48 + d0 := by simp [digitChar, hd0]
  refine ⟨digitChar true d0, ds.map (digitChar true), ?_, hdig d0 hd0, ?_, ?_, ?_, ?_, ?_⟩
  · simp [toDecimal, hds]
  · intro c hc
    obtain ⟨x, hx, rfl⟩ := List.mem_map.mp hc
    exact Or.inr (hdig x (hlt x (by simp [hx])))
  · have hdv : digitValue (digitChar true d0) = d0 := by simp [digitValue, hcv]
    have h0 : Dbl.ofNat 0 = .fin 0 := Dbl.ofNat_small 0 (by decide)
    have h1 : Dbl.ofNat d0 = .fin d0 :=
      Dbl.ofNat_small d0 (lt_of_lt_of_le hd0 (by decide))
    simp [decimalValue, toDecimal, hds, accumulate, digitChar_ne_separator, hdv, Dbl.mul,
      Dbl.add, h0, h1]
  · rw [hch, isTokenByte_iff]; omega
  · omega
  · omega

theorem decimalInteger_cons (z : Int) :
    ∃ b t, decimalInteger z = b :: t ∧ isTokenByte b = true := by
  obtain ⟨d0, txt, htd, -, -, -, htok, -, -⟩ := toDecimal_cons z.natAbs
  unfold decimalInteger
  by_cases hz : z < 0
  · exact ⟨45, toDecimal z.natAbs, by simp [hz], by decide⟩
  · exact ⟨d0, txt, by simp [hz, htd], htok⟩

theorem parseValue_decimal {F : Type} (strtod : List Nat → F) (fuel : Nat) (z : Int)
    (rest : List Nat) (loc : Location) (depth : Int) (tl : Bool)
    (hstop : numberStops 10 rest = true) :
    Agrees (parseValue strtod (fuel + 1) ⟨decimalInteger z ++ rest, loc⟩ depth tl)
      (expectedNumber strtod depth z) rest := by
  obtain ⟨d0, txt, htd, hd0, htxt, hacc, -, h48, h57⟩ := toDecimal_cons z.natAbs
  unfold expectedNumber
  by_cases hd : depth ≤ 0
  · rw [if_pos hd, parseValue]
    simp only [hd, if_true]
    exact ⟨_, rfl⟩
  · rw [if_neg hd]
    by_cases hz : z < 0
    · have hin : decimalInteger z ++ rest = 45 :: (d0 :: (txt ++ rest)) := by
        simp [decimalInteger, hz, htd]
      rw [hin, parseValue_number_start strtod fuel 45 (d0 :: (txt ++ rest)) loc depth tl
        (by omega) (Or.inr (Or.inr rfl))]
      have hnum := parseNumber_integer strtod [45] 10 d0 txt rest loc (Or.inr (Or.inr rfl))
        (Or.inr (Or.inr (Or.inl rfl))) hd0 htxt hstop
      simp only [radixMarker, List.nil_append, Nat.reduceEqDiff, if_false, hacc,
        List.cons_append, decide_True] at hnum
      rw [hnum]
      simp only [hz, decide_True]
      split_ifs with hlen
      · exact ⟨_, rfl⟩
      · exact ⟨_, rfl⟩
    · have hin : decimalInteger z ++ rest = d0 :: (txt ++ rest) := by
        simp [decimalInteger, hz, htd]
      rw [hin, parseValue_number_start strtod fuel d0 (txt ++ rest) loc depth tl (by omega)
        (Or.inl ⟨h48, h57⟩)]
      have hnum := parseNumber_integer strtod [] 10 d0 txt rest loc (Or.inl rfl)
        (Or.inr (Or.inr (Or.inl rfl))) hd0 htxt hstop
      simp only [radixMarker, List.nil_append, Nat.reduceEqDiff, if_false, hacc,
        show decide (([] : List Nat) = [45]) = false from rfl] at hnum
      rw [hnum]
      simp only [hz, decide_False]
      split_ifs with hlen
      · exact ⟨_, rfl⟩
      · exact ⟨_, rfl⟩

theorem skipSep_separator (sep c : Nat) (i : List Nat) (loc : Location)
    (hsep : sep = 44 ∨ sep = 10) (hc : isTokenByte c = true) :
    skipSep ⟨sep :: c :: i, loc⟩ = .ok (true, ⟨c :: i, loc.next sep⟩) := by
  have hws := skipWhitespace_token c i (loc.next sep) hc
  have hp : ¬ (sep = 32 ∨ sep = 9) := by omega
  have h47 : sep ≠ 47 := by omega
  unfold skipSep skipSpace
  simp only [Reader.fuel, List.length_cons]
  rw [skipSpaceLoop]
  simp only [Reader.peek, List.head?_cons, Option.some.injEq, hp, if_false, h47, false_and,
    hsep, if_true, Reader.get_cons, hws]

theorem numberStops_morePairs (sp : List Nat) (sep : Nat) (term : List Nat)
    (ps : List (List Nat × Int)) (hsep : sep = 44 ∨ sep = 10)
    (hterm : term = [] ∨ ∃ t, term = 125 :: t) :
    numberStops 10 (morePairsText sp sep term ps) = true := by
  cases ps with
  | nil =>
    rcases hterm with rfl | ⟨t, rfl⟩
    · rfl
    · rfl
  | cons q qs =>
    rcases hsep with rfl | rfl
    · rfl
    · rfl

theorem skipWhitespace_blanks (sp : List Nat) (c : Nat) (i : List Nat) (loc : Location)
    (hsp : sp = [] ∨ sp = [32]) (hc : isTokenByte c = true) :
    ∃ loc1, skipWhitespace ⟨sp ++ c :: i, loc⟩ = .ok ⟨c :: i, loc1⟩ := by
  rcases hsp with rfl | rfl
  · exact ⟨loc, skipWhitespace_token c i loc hc⟩
  · exact ⟨loc.right 1, skipWhitespace_space c i loc hc⟩

theorem parseKeyValuePairsAfterKey_pairs {F : Type} (strtod : List Nat → F) (sp : List Nat)
    (sep : Nat) (term : List Nat) (depth : Int) (hsp : sp = [] ∨ sp = [32])
    (hsep : sep = 44 ∨ sep = 10) (hterm : term = [] ∨ ∃ t, term = 125 :: t)
    (ps : List (List Nat × Int)) :
    ∀ (p : List Nat × Int) (fuel : Nat) (loc : Location) (obj : List (Entry (Value F)))
      (index : Nat), ps.length + 2 ≤ fuel → (∀ q ∈ ps, isIdentifier q.1 = true) →
      Agrees (parseKeyValuePairsAfterKey strtod fuel
          ⟨58 :: (sp ++ (decimalInteger p.2 ++ morePairsText sp sep term ps)), loc⟩ p.1 obj index depth)
        (expectedObject strtod depth (p :: ps) obj index) term := by
  induction ps with
  | nil =>
    intro p fuel loc obj index hf _
    obtain ⟨f, rfl⟩ : ∃ f, fuel = f + 2 := ⟨fuel - 2, by omega⟩
    obtain ⟨d0, txt, htd, htok⟩ := decimalInteger_cons p.2
    obtain ⟨loc1, hws⟩ := skipWhitespace_blanks sp d0 (txt ++ term) (loc.next 58) hsp htok
    have hval := parseValue_decimal strtod f p.2 term loc1 depth false
      (numberStops_morePairs sp sep term [] hsep hterm)
    rw [parseKeyValuePairsAfterKey]
    simp only [Reader.peek, List.head?_cons, ne_eq, not_true_eq_false, if_false, Reader.get_cons,
      morePairsText, htd, List.cons_append, hws]
    rw [htd, List.cons_append] at hval
    simp only [expectedObject]
    cases hexp : expectedNumber strtod depth p.2 with
    | none =>
      rw [hexp] at hval
      obtain ⟨e, he⟩ := hval
      simp only [he]
      exact ⟨e, rfl⟩
    | some v =>
      rw [hexp] at hval
      obtain ⟨loc2, hok⟩ := hval
      simp only [hok]
      rcases hterm with rfl | ⟨t, rfl⟩
      · simp only [skipSep_nil, skipWhitespace_nil, Reader.peek, List.head?_nil, or_true, if_true]
        exact ⟨loc2, rfl⟩
      · simp only [skipSep_token 125 t loc2 (by decide), skipWhitespace_token 125 t loc2
          (by decide), Reader.peek, List.head?_cons, true_or, if_true]
        exact ⟨loc2, rfl⟩
  | cons q qs ih =>
    intro p fuel loc obj index hf hkeys
    obtain ⟨f, rfl⟩ : ∃ f, fuel = f + 2 := ⟨fuel - 2, by omega⟩
    obtain ⟨d0, txt, htd, htok⟩ := decimalInteger_cons p.2
    have hq : isIdentifier q.1 = true := hkeys q (by simp)
    obtain ⟨c, cs, hqc⟩ : ∃ c cs, q.1 = c :: cs := by
      cases hk : q.1 with
      | nil => rw [hk] at hq; simp [isIdentifier] at hq
      | cons c cs => exact ⟨c, cs, rfl⟩
    have hc : isFirstIdent c = true := by
      rw [hqc] at hq; simp only [isIdentifier, Bool.and_eq_true] at hq; exact hq.1
    have hcf := isFirstIdent_facts c hc
    have hmore : morePairsText sp sep term (q :: qs)
        = sep :: c :: (cs ++ 58 :: (sp ++ (decimalInteger q.2 ++ morePairsText sp sep term qs))) := by
      simp [morePairsText, pairText, hqc]
    obtain ⟨loc1, hws⟩ := skipWhitespace_blanks sp d0
      (txt ++ morePairsText sp sep term (q :: qs)) (loc.next 58) hsp htok
    have hval := parseValue_decimal strtod f p.2 (morePairsText sp sep term (q :: qs)) loc1
      depth false (numberStops_morePairs sp sep term (q :: qs) hsep hterm)
    rw [parseKeyValuePairsAfterKey]
    simp only [Reader.peek, List.head?_cons, ne_eq, not_true_eq_false, if_false, Reader.get_cons,
      htd, List.cons_append, hws]
    rw [htd, List.cons_append] at hval
    simp only [expectedObject]
    cases hexp : expectedNumber strtod depth p.2 with
    | none =>
      rw [hexp] at hval
      obtain ⟨e, he⟩ := hval
      simp only [he]
      exact ⟨e, rfl⟩
    | some v =>
      rw [hexp] at hval
      obtain ⟨loc2, hok⟩ := hval
      have hkey := parseKey_key q.1 (sp ++ (decimalInteger q.2 ++ morePairsText sp sep term qs))
        (loc2.next sep) hq
      rw [hqc, List.cons_append] at hkey
      have hih := ih q (f + 1) ((loc2.next sep).right (c :: cs).length)
        (Object.set obj p.1 index v) (index + 1) (by simp at hf ⊢; omega)
        (fun x hx => hkeys x (by simp [hx]))
      rw [hmore] at hok
      simp only [hok, hmore, skipSep_separator sep c _ loc2 hsep hcf.1,
        skipWhitespace_token c _ (loc2.next sep) hcf.1, Reader.peek, List.head?_cons,
        Option.some.injEq, hcf.2.2.2.2.2.2.2.1, reduceCtorEq, or_self, if_false, hkey,
        skipWhitespace_token 58 _ _ (by decide : isTokenByte 58 = true)]
      simp only [expectedObject] at hih
      simp only [hqc] at hih ⊢
      exact hih

theorem morePairsText_length (sp : List Nat) (sep : Nat) (term : List Nat)
    (ps : List (List Nat × Int)) : ps.length ≤ (morePairsText sp sep term ps).length := by
  induction ps with
  | nil => simp
  | cons q qs ih =>
    simp only [morePairsText, List.length_cons, List.length_append]
    omega

theorem parseValue_depth_zero {F : Type} (strtod : List Nat → F) (fuel : Nat) (r : Reader)
    (d : Int) (tl : Bool) (hd : d ≤ 0) :
    parseValue strtod (fuel + 1) r d tl = .error (error r.loc .nestingLimit) := by
  rw [parseValue, if_pos hd]

theorem parse_bareDocument {F : Type} (strtod : List Nat → F) (p : List Nat × Int)
    (ps : List (List Nat × Int)) (d : Int)
    (hkeys : ∀ q ∈ p :: ps, isIdentifier q.1 = true) :
    (parse strtod (bareDocument (p :: ps)) d).value = expectedDocument strtod d (p :: ps) := by
  have hp : isIdentifier p.1 = true := hkeys p (by simp)
  obtain ⟨c, cs, hpc⟩ : ∃ c cs, p.1 = c :: cs := by
    cases hk : p.1 with
    | nil => rw [hk] at hp; simp [isIdentifier] at hp
    | cons c cs => exact ⟨c, cs, rfl⟩
  have hc : isFirstIdent c ∧ cs.all isIdent = true := by
    rw [hpc] at hp; simpa only [isIdentifier, Bool.and_eq_true] using hp
  have hcf := isFirstIdent_facts c hc.1
  have hdoc : bareDocument (p :: ps)
      = c :: (cs ++ 58 :: ([32] ++ (decimalInteger p.2 ++ morePairsText [32] 10 [] ps))) := by
    simp [bareDocument, pairText, hpc]
  have hid := parseIdentifier_key p.1 ([32] ++ (decimalInteger p.2 ++ morePairsText [32] 10 [] ps))
    ⟨1, 1⟩ hp
  rw [hpc, List.cons_append] at hid
  have hp2 : (cs ++ 58 :: ([32] ++ (decimalInteger p.2 ++ morePairsText [32] 10 [] ps))).head? ≠ some 34
      ∧ (cs ++ 58 :: ([32] ++ (decimalInteger p.2 ++ morePairsText [32] 10 [] ps))).head? ≠ some 35 := by
    cases cs with
    | nil => simp
    | cons x xs =>
      have hx : isIdent x = true := by have := hc.2; simp at this; exact this.1
      simp only [isIdent, Bool.or_eq_true, Bool.and_eq_true, decide_eq_true_eq,
        beq_iff_eq] at hx
      simp only [List.cons_append, List.head?_cons, ne_eq, Option.some.injEq]
      omega
  rw [hdoc]
  unfold expectedDocument
  have hlen := morePairsText_length [32] 10 [] ps
  obtain ⟨f, hf, hfl⟩ : ∃ f, parseFuel (c :: (cs ++ 58 :: ([32] ++ (decimalInteger p.2 ++
      morePairsText [32] 10 [] ps)))).length = f + 1 ∧ ps.length + 2 ≤ f := by
    refine ⟨parseFuel (c :: (cs ++ 58 :: ([32] ++ (decimalInteger p.2 ++
      morePairsText [32] 10 [] ps)))).length - 1, ?_, ?_⟩
    · simp [parseFuel]
    · simp only [parseFuel, List.length_cons, List.length_append]
      omega
  by_cases hd : d ≤ 0
  · rw [if_pos hd, parse_of_parseValue_error strtod c _ d (error ⟨1, 1⟩ .nestingLimit) hcf.1
      (by rw [hf]; exact parseValue_depth_zero strtod f _ d true hd)]
    rfl
  · rw [if_neg hd]
    have hloop := parseKeyValuePairsAfterKey_pairs strtod [32] 10 [] (d - 1) (Or.inr rfl)
      (Or.inr rfl) (Or.inl rfl) ps p f (Location.right ⟨1, 1⟩ (c :: cs).length) [] 0 hfl
      (fun q hq => hkeys q (by simp [hq]))
    rw [hpc] at hloop
    have hpv : parseValue strtod (f + 1)
        ⟨c :: (cs ++ 58 :: ([32] ++ (decimalInteger p.2 ++ morePairsText [32] 10 [] ps))), ⟨1, 1⟩⟩ d true
        = match parseKeyValuePairsAfterKey strtod f
            ⟨58 :: ([32] ++ (decimalInteger p.2 ++ morePairsText [32] 10 [] ps)),
              Location.right ⟨1, 1⟩ (c :: cs).length⟩ (c :: cs) [] 0 (d - 1) with
          | .error e => .error e
          | .outOfFuel => .outOfFuel
          | .ok (obj, r3) => .ok (.object obj, r3) := by
      rw [parseValue]
      simp only [hd, Reader.peek, Reader.peek2, List.head?_cons, List.tail_cons, if_false,
        reduceCtorEq, Option.some.injEq, hcf.2.1, hcf.2.2.1, hcf.2.2.2.1, hp2.1, hp2.2, or_self,
        and_false, Option.any_some, hcf.2.2.2.2.1, hcf.2.2.2.2.2.1, hcf.2.2.2.2.2.2.1,
        hcf.2.2.2.2.2.2.2.2, decide_False, Bool.false_eq_true, hid, if_true,
        skipWhitespace_token 58 _ _ (by decide : isTokenByte 58 = true)]
    cases hexp : expectedObject strtod (d - 1) (p :: ps) [] 0 with
    | none =>
      rw [hexp] at hloop
      obtain ⟨e, he⟩ := hloop
      rw [parse_of_parseValue_error strtod c _ d e hcf.1 (by rw [hf, hpv, he])]
      rfl
    | some o =>
      rw [hexp] at hloop
      obtain ⟨loc, hok⟩ := hloop
      rw [parse_of_parseValue_ok strtod c _ d (.object o) loc hcf.1 (by rw [hf, hpv, hok])]
      rfl

theorem parse_bracedDocument {F : Type} (strtod : List Nat → F) (p : List Nat × Int)
    (ps : List (List Nat × Int)) (d : Int)
    (hkeys : ∀ q ∈ p :: ps, isIdentifier q.1 = true) :
    (parse strtod (bracedDocument (p :: ps)) d).value = expectedDocument strtod d (p :: ps) := by
  have hp : isIdentifier p.1 = true := hkeys p (by simp)
  obtain ⟨c, cs, hpc⟩ : ∃ c cs, p.1 = c :: cs := by
    cases hk : p.1 with
    | nil => rw [hk] at hp; simp [isIdentifier] at hp
    | cons c cs => exact ⟨c, cs, rfl⟩
  have hc : isFirstIdent c ∧ cs.all isIdent = true := by
    rw [hpc] at hp; simpa only [isIdentifier, Bool.and_eq_true] using hp
  have hcf := isFirstIdent_facts c hc.1
  have hdoc : bracedDocument (p :: ps)
      = 123 :: c :: (cs ++ 58 :: ([] ++ (decimalInteger p.2 ++ morePairsText [] 44 [125] ps))) := by
    simp [bracedDocument, pairText, hpc]
  have hkey := parseKey_key p.1 ([] ++ (decimalInteger p.2 ++ morePairsText [] 44 [125] ps))
    (Location.right ⟨1, 1⟩ 1) hp
  rw [hpc, List.cons_append] at hkey
  rw [hdoc]
  unfold expectedDocument
  have hlen := morePairsText_length [] 44 [125] ps
  obtain ⟨f, hf, hfl⟩ : ∃ f, parseFuel (123 :: c :: (cs ++ 58 :: ([] ++ (decimalInteger p.2 ++
      morePairsText [] 44 [125] ps)))).length = f + 3 ∧ ps.length + 2 ≤ f := by
    refine ⟨parseFuel (123 :: c :: (cs ++ 58 :: ([] ++ (decimalInteger p.2 ++
      morePairsText [] 44 [125] ps)))).length - 3, ?_, ?_⟩
    · simp [parseFuel]
    · simp only [parseFuel, List.length_cons, List.length_append]
      omega
  by_cases hd : d ≤ 0
  · rw [if_pos hd, parse_of_parseValue_error strtod 123 _ d (error ⟨1, 1⟩ .nestingLimit)
      (by decide) (by rw [hf]; exact parseValue_depth_zero strtod (f + 2) _ d true hd)]
    rfl
  · rw [if_neg hd]
    have hloop := parseKeyValuePairsAfterKey_pairs strtod [] 44 [125] (d - 1) (Or.inl rfl)
      (Or.inl rfl) (Or.inr ⟨[], rfl⟩) ps p f
      ((Location.right ⟨1, 1⟩ 1).right (c :: cs).length) [] 0 hfl
      (fun q hq => hkeys q (by simp [hq]))
    rw [hpc] at hloop
    have hpv : parseValue strtod (f + 3)
        ⟨123 :: c :: (cs ++ 58 :: ([] ++ (decimalInteger p.2 ++ morePairsText [] 44 [125] ps))),
          ⟨1, 1⟩⟩ d true
        = match parseKeyValuePairsAfterKey strtod f
            ⟨58 :: ([] ++ (decimalInteger p.2 ++ morePairsText [] 44 [125] ps)),
              (Location.right ⟨1, 1⟩ 1).right (c :: cs).length⟩ (c :: cs) [] 0 (d - 1) with
          | .error e => .error e
          | .outOfFuel => .outOfFuel
          | .ok (obj, r2) =>
            match skipWhitespace r2 with
            | .error e => .error e
            | .outOfFuel => .outOfFuel
            | .ok r3 =>
              if r3.peek ≠ some 125 then .error (error r3.loc .expectedOpenBrace)
              else .ok (.object obj, r3.get.2) := by
      rw [parseValue]
      simp only [hd, Reader.peek, List.head?_cons, if_false, reduceCtorEq, Option.some.injEq,
        Nat.reduceEqDiff, if_true]
      rw [parseObject]
      simp only [Reader.peek, List.head?_cons, ne_eq, not_true_eq_false, if_false,
        Reader.get_cons, Location.next_eq_right _ 123 (by decide),
        skipWhitespace_token c _ _ hcf.1, Option.some.injEq, hcf.2.2.2.2.2.2.2.1]
      rw [parseKeyValuePairs]
      simp only [hkey, skipWhitespace_token 58 _ _ (by decide : isTokenByte 58 = true)]
      cases parseKeyValuePairsAfterKey strtod f
          ⟨58 :: ([] ++ (decimalInteger p.2 ++ morePairsText [] 44 [125] ps)),
            (Location.right ⟨1, 1⟩ 1).right (c :: cs).length⟩ (c :: cs) [] 0 (d - 1) with
      | error e => rfl
      | outOfFuel => rfl
      | ok a =>
        obtain ⟨obj, r2⟩ := a
        simp only
        cases skipWhitespace r2 with
        | error e => rfl
        | outOfFuel => rfl
        | ok r3 =>
          simp only [ne_eq]
          split_ifs <;> rfl
    cases hexp : expectedObject strtod (d - 1) (p :: ps) [] 0 with
    | none =>
      rw [hexp] at hloop
      obtain ⟨e, he⟩ := hloop
      rw [parse_of_parseValue_error strtod 123 _ d e (by decide) (by rw [hf, hpv, he])]
      rfl
    | some o =>
      rw [hexp] at hloop
      obtain ⟨loc, hok⟩ := hloop
      rw [parse_of_parseValue_ok strtod 123 _ d (.object o) (loc.next 125) (by decide)
        (by
          rw [hf, hpv, hok]
          simp only [skipWhitespace_token 125 [] loc (by decide), Reader.peek, List.head?_cons,
            ne_eq, not_true_eq_false, if_false, Reader.get_cons])]
      rfl

theorem decimalValue_small (n : Nat) (h : n < 2 ^ 53) : decimalValue n = .fin n := by
  have hh := toRadixAux_horner 10 (by decide) (n + 1) n [] (by omega)
  have hl := toRadixAux_lt 10 (by decide) (n + 1) n [] (by simp)
  have hacc := accumulate_exact 10 true (by decide) (toRadix 10 n) 0 hl
    (by unfold toRadix; rw [hh]; simpa [horner] using h)
  unfold decimalValue toDecimal
  rw [hacc]
  unfold toRadix
  rw [hh]
  simp [horner]

theorem expectedNumber_small {F : Type} (strtod : List Nat → F) (depth : Int) (z : Int)
    (hd : 1 ≤ depth) (h : z.natAbs < 2 ^ 53) :
    expectedNumber strtod depth z = some (.number (strtod (decimalInteger z ++ [101, 48]))) := by
  have hlen := toDecimal_length z.natAbs h
  have htext : integerText (decide (z < 0)) (.fin z.natAbs) = decimalInteger z ++ [101, 48] := by
    by_cases hz : z < 0 <;>
      simp [integerText, formatNumber, Dbl.format, decimalInteger, hz,
        show toDecimal 0 = [48] from rfl]
  have hd' : ¬ depth ≤ 0 := by omega
  have hshort : ¬ (decimalInteger z ++ [101, 48]).length ≥ 256 := by
    unfold decimalInteger
    split_ifs <;>
      simp only [List.length_append, List.length_cons, List.length_nil] <;> omega
  simp only [expectedNumber, hd', if_false, decimalValue_small z.natAbs h, htext, hshort]

theorem expectedObject_small {F : Type} (strtod : List Nat → F) (depth : Int) (hd : 1 ≤ depth)
    (pairs : List (List Nat × Int)) :
    ∀ (obj : List (Entry (Value F))) (index : Nat), (∀ p ∈ pairs, p.2.natAbs < 2 ^ 53) →
      expectedObject strtod depth pairs obj index = some (objectOfPairs strtod pairs obj index) := by
  induction pairs with
  | nil => intro obj index _; rfl
  | cons p ps ih =>
    intro obj index h
    simp only [expectedObject, objectOfPairs,
      expectedNumber_small strtod depth p.2 hd (h p (by simp))]
    exact ih _ _ (fun q hq => h q (by simp [hq]))

theorem Result.eq_ok_of_value {α : Type} {res : Result α} {a : α} (h : res.value = some a) :
    res = .ok a := by
  cases res with
  | ok b => simp only [Result.value, Option.some.injEq] at h; rw [h]
  | error e => simp [Result.value] at h
  | outOfFuel => simp [Result.value] at h

/-- C4. Bare-object equivalence: for every non-empty list of pairs of an
identifier key and a decimal integer, the brace-less document (`key: value`
lines separated by newlines) and the braced document (`key:value` separated
by commas) yield the same value; when `maxDepth ≥ 2` and the integers are
below `2^53` in magnitude both parses succeed with the Object that holds
the pairs in order. -/
theorem bare_object_equivalence {F : Type} (strtod : List Nat → F)
    (pairs : List (List Nat × Int)) (d : Int) (hne : pairs ≠ [])
    (hkeys : ∀ p ∈ pairs, isIdentifier p.1 = true) :
    (parse strtod (bareDocument pairs) d).value = (parse strtod (bracedDocument pairs) d).value ∧
    (2 ≤ d → (∀ p ∈ pairs, p.2.natAbs < 2 ^ 53) →
      parse strtod (bareDocument pairs) d = .ok (.object (objectOfPairs strtod pairs [] 0)) ∧
      parse strtod (bracedDocument pairs) d = .ok (.object (objectOfPairs strtod pairs [] 0))) := by
  cases pairs with
  | nil => exact absurd rfl hne
  | cons p ps =>
    have hb := parse_bareDocument strtod p ps d hkeys
    have hc := parse_bracedDocument strtod p ps d hkeys
    refine ⟨by rw [hb, hc], fun hd hsmall => ?_⟩
    have hexp : expectedDocument strtod d (p :: ps)
        = some (.object (objectOfPairs strtod (p :: ps) [] 0)) := by
      have hd' : ¬ d ≤ 0 := by omega
      simp only [expectedDocument, hd', if_false,
        expectedObject_small strtod (d - 1) (by omega) (p :: ps) [] 0 hsmall, Option.map_some']
    exact ⟨Result.eq_ok_of_value (hb.trans hexp), Result.eq_ok_of_value (hc.trans hexp)⟩

/-- C4 on the documents `a: 1`, newline, `b: 2` and `{a:1,b:2}`: both
parse to the Object with `a` then `b`. -/
theorem bare_object_equivalence_witness :
    parse (fun t => t) [97, 58, 32, 49, 10, 98, 58, 32, 50] 5
      = .ok (.object [⟨[97], 0, .number [49, 101, 48]⟩, ⟨[98], 1, .number [50, 101, 48]⟩]) ∧
    parse (fun t => t) [123, 97, 58, 49, 44, 98, 58, 50, 125] 5
      = .ok (.object [⟨[97], 0, .number [49, 101, 48]⟩, ⟨[98], 1, .number [50, 101, 48]⟩]) :=
  (bare_object_equivalence (fun t => t) [([97], 1), ([98], 2)] 5 (by simp) (by decide)).2
    (by decide) (by decide)

/-! ## C1, C2, C3: serializing and parsing again -/

/-- C1 fails on the code. The document `b"\\n"` parses to the ByteString
with the two bytes backslash and `n`; `serialize` writes them raw, as
`b"\n"`, and parsing that text succeeds with a different value, the
ByteString that holds one newline byte. Likewise the ByteString holding one
quote byte is written as `b"""`, which no longer parses. -/
theorem roundtrip_breaks_on_byte_string {F : Type} (strtod : List Nat → F)
    (to_chars : F → List Nat) :
    parse strtod [98, 34, 92, 92, 110, 34] 8 = .ok (.bstring [92, 110]) ∧
    parse strtod (serialize to_chars (.bstring [92, 110] : Value F)) 8 = .ok (.bstring [10]) ∧
    (.bstring [10] : Value F) ≠ .bstring [92, 110] ∧
    parse strtod [98, 34, 92, 34, 34] 8 = .ok (.bstring [34]) ∧
    serialize to_chars (.bstring [34] : Value F) = [98, 34, 34, 34] ∧
    parse strtod (serialize to_chars (.bstring [34] : Value F)) 8
      = .error (error ⟨1, 4⟩ .trailingGarbage) :=
  ⟨rfl, rfl, fun h => (by cases h), rfl, rfl, rfl⟩

/-- C2 fails on the code. For the ByteString `v` with the two bytes
backslash and `n` (parsed from `b"\\n"`), `serialize v` is `b"\n"`, its
parse is the ByteString with one newline byte, and serializing that gives
`b"\x0a"`: the second serialization differs from the first. -/
theorem serialize_not_idempotent_on_byte_string {F : Type} (strtod : List Nat → F)
    (to_chars : F → List Nat) :
    parse strtod [98, 34, 92, 92, 110, 34] 8 = .ok (.bstring [92, 110]) ∧
    serialize to_chars (.bstring [92, 110] : Value F) = [98, 34, 92, 110, 34] ∧
    parse strtod (serialize to_chars (.bstring [92, 110] : Value F)) 8 = .ok (.bstring [10]) ∧
    serialize to_chars (.bstring [10] : Value F) = [98, 34, 92, 120, 48, 97, 34] ∧
    serialize to_chars (.bstring [10] : Value F)
      ≠ serialize to_chars (.bstring [92, 110] : Value F) :=
  ⟨rfl, rfl, rfl, rfl, fun h =>
    absurd (show [98, 34, 92, 120, 48, 97, 34] = [98, 34, 92, 110, 34] from h) (by decide)⟩

/-- C3 fails on the code. The document `{}` parses to the empty Object;
`serialize` emits nothing at all for it (no entries, no braces), and the
empty text does not parse: "Unexpected EOF" at line 1, column 1. -/
theorem empty_root_object_does_not_reparse {F : Type} (strtod : List Nat → F)
    (to_chars : F → List Nat) :
    parse strtod [123, 125] 8 = .ok (.object []) ∧
    serialize to_chars (.object [] : Value F) = [] ∧
    parse strtod (serialize to_chars (.object [] : Value F)) 8
      = .error (error ⟨1, 1⟩ .unexpectedEOF) :=
  ⟨rfl, rfl, rfl⟩

/-! ## C19: the location of the reader -/

theorem Reader.getN_append (s : List Nat) :
    ∀ (rest : List Nat) (loc : Location),
      Reader.getN s.length ⟨s ++ rest, loc⟩ = ⟨rest, loc.after s⟩ := by
  induction s with
  | nil => intro rest loc; rfl
  | cons c s ih =>
    intro rest loc
    simp only [List.length_cons, Reader.getN, List.cons_append, Reader.get_cons, ih,
      Location.after_cons]

theorem takeWhile_append_of_mem (l m : List Nat) (h : 10 ∈ l) :
    (l ++ m).takeWhile (· ≠ 10) = l.takeWhile (· ≠ 10) := by
  induction l with
  | nil => simp at h
  | cons x l ih =>
    by_cases hx : x = 10
    · subst hx; simp [List.takeWhile]
    · have hl : 10 ∈ l := by
        rcases List.mem_cons.mp h with h1 | h1
        · exact absurd h1.symm hx
        · exact h1
      have hd : decide (x ≠ 10) = true := by simpa using hx
      simp only [List.cons_append, List.takeWhile_cons, hd, ih hl, if_true]

theorem takeWhile_of_not_mem (l : List Nat) (h : 10 ∉ l) :
    l.takeWhile (· ≠ 10) = l := by
  induction l with
  | nil => rfl
  | cons x l ih =>
    have hx : x ≠ 10 := fun e => h (by simp [e])
    have hl : 10 ∉ l := fun e => h (by simp [e])
    have hd : decide (x ≠ 10) = true := by simpa using hx
    simp only [List.takeWhile_cons, hd, ih hl, if_true]

theorem bytesAfterLastNewline_cons (c : Nat) (s : List Nat) :
    bytesAfterLastNewline (c :: s)
      = if 10 ∈ s then bytesAfterLastNewline s
        else if c = 10 then s.length else s.length + 1 := by
  unfold bytesAfterLastNewline
  rw [List.reverse_cons]
  split_ifs with h1 h2
  · rw [takeWhile_append_of_mem _ _ (by simpa using h1)]
  · subst h2
    have hr : 10 ∉ s.reverse := by simpa using h1
    rw [List.takeWhile_append, takeWhile_of_not_mem _ hr]
    simp [List.takeWhile]
  · have hr : 10 ∉ s.reverse := by simpa using h1
    rw [List.takeWhile_append, takeWhile_of_not_mem _ hr]
    simp [List.takeWhile, h2]

theorem Location.after_eq (s : List Nat) :
    ∀ loc : Location, loc.after s
      = ⟨loc.line + s.count 10,
          if 10 ∈ s then 1 + bytesAfterLastNewline s else loc.ch + s.length⟩ := by
  induction s with
  | nil => intro loc; simp [Location.after]
  | cons c s ih =>
    intro loc
    rw [Location.after_cons, ih, bytesAfterLastNewline_cons]
    by_cases hc : c = 10
    · subst hc
      by_cases hs : 10 ∈ s
      · simp [Location.next, hs, Nat.add_assoc, Nat.add_comm 1]
      · simp [Location.next, hs, Nat.add_assoc, Nat.add_comm 1]
    · have hc' : ¬ 10 = c := fun e => hc e.symm
      by_cases hs : 10 ∈ s
      · simp [Location.next, hc, hc', hs, List.count_cons]
      · simp [Location.next, hc, hc', hs, List.count_cons]
        omega

/-- C19. Reader location tracking: after `get` has consumed a prefix `s` of
the input, the reader stands at the rest of the input and `loc()` is line
`1 +` the number of newline bytes in `s`, column `1 +` the number of bytes of
`s` after its last newline; a tab (like every byte other than newline)
advances the column by exactly 1 and leaves the line alone. -/
theorem reader_location_tracking (s rest : List Nat) :
    Reader.getN s.length (Reader.init (s ++ rest))
        = ⟨rest, ⟨1 + s.count 10, 1 + bytesAfterLastNewline s⟩⟩ ∧
      ∀ (i : List Nat) (loc : Location),
        (Reader.mk (9 :: i) loc).get.2.loc = ⟨loc.line, loc.ch + 1⟩ := by
  constructor
  · rw [Reader.init, Reader.getN_append, Location.after_eq]
    by_cases hs : 10 ∈ s
    · simp [hs]
    · have : bytesAfterLastNewline s = s.length := by
        unfold bytesAfterLastNewline
        rw [takeWhile_of_not_mem _ (by simpa using hs), List.length_reverse]
      simp [hs, this]
  · intro i loc
    simp [Reader.get_cons, Location.next]

/-! ## C14: whitespace after a separator -/

/-- C14 fails on the code. In the array document `[1 // c`, newline,
`  2]` the line comment is taken as the separator, but the two blanks that
follow it are not skipped: the next element is parsed at the blank and the
parse fails with "Unexpected character for identifier" at line 2, column 1.
The same document with `,` in place of the comment parses to the Array of
the two Numbers, and the Object `{a: 1 // c`, newline, `  b: 2}` parses. -/
theorem line_comment_separator_keeps_whitespace {F : Type} (strtod : List Nat → F) :
    parse strtod [91, 49, 32, 47, 47, 32, 99, 10, 32, 32, 50, 93] 8
      = .error (error ⟨2, 1⟩ .unexpectedCharacterForIdentifier) ∧
    parse strtod [91, 49, 44, 10, 32, 32, 50, 93] 8
      = .ok (.array [.number (strtod [49, 101, 48]), .number (strtod [50, 101, 48])]) ∧
    parse strtod [123, 97, 58, 32, 49, 32, 47, 47, 32, 99, 10, 32, 32, 98, 58, 32, 50, 125] 8
      = .ok (.object [⟨[97], 0, .number (strtod [49, 101, 48])⟩,
          ⟨[98], 1, .number (strtod [50, 101, 48])⟩]) :=
  ⟨rfl, rfl, rfl⟩

/-! ## C20: the buffered reader -/

theorem BufReader.fill_spec (b : BufReader) (hinv : b.Inv) :
    b.fill.abs = b.abs ∧ b.fill.Inv ∧
      (b.fill.index ≤ b.fill.buffer.length → b.fill.buffer.length < bufferSize →
        b.fill.stream = []) ∧
      (b.index ≤ b.buffer.length → b.fill.index = 0) := by
  unfold BufReader.fill
  split_ifs with h
  · refine ⟨rfl, hinv, fun h2 => by omega, fun h2 => by omega⟩
  · refine ⟨?_, ?_, ?_, fun _ => rfl⟩
    · simp [BufReader.abs]
    · intro h2; simp at h2
    · intro _ hlen
      simp only [List.length_append, List.length_take, List.length_drop] at hlen
      simp only [List.length_drop, List.drop_eq_nil_iff]
      omega

theorem BufReader.peekN_spec (b : BufReader) (n : Nat) (hinv : b.Inv) (hn : n < bufferSize) :
    (b.peekN n).1 = b.abs.input[n]? ∧ (b.peekN n).2.abs = b.abs ∧ (b.peekN n).2.Inv ∧
      ((b.peekN n).1 ≠ none → (b.peekN n).2.index + n < (b.peekN n).2.buffer.length) ∧
      ((b.peekN n).1 = none → (b.peekN n).2.stream = []) := by
  have hfill := b.fill_spec hinv
  have hens : (b.ensure n).abs = b.abs ∧ (b.ensure n).Inv := by
    unfold BufReader.ensure
    split_ifs
    · exact ⟨hfill.1, hfill.2.1⟩
    · exact ⟨rfl, hinv⟩
  unfold BufReader.peekN
  split_ifs with h
  · refine ⟨?_, hens.1, hens.2, fun h2 => absurd rfl h2, fun _ => ?_⟩
    · rw [← hens.1]
      symm
      simp only [BufReader.abs, List.getElem?_eq_none_iff, List.length_append, List.length_drop]
      unfold BufReader.ensure at h ⊢
      split_ifs at h ⊢ with h1
      · by_cases h2 : b.index > b.buffer.length
        · have hs : b.stream = [] := hinv h2
          have hf : b.fill = b := by simp [BufReader.fill, h2]
          rw [hf, hs]
          simp only [List.length_nil]; omega
        · have hi := hfill.2.2.2 (by omega)
          rw [hi] at h
          have hst := hfill.2.2.1 (by omega) (by unfold bufferSize at hn ⊢; omega)
          rw [hst, hi]
          simp only [List.length_nil]; omega
      · omega
    · unfold BufReader.ensure at h ⊢
      split_ifs at h ⊢ with h1
      · by_cases h2 : b.index > b.buffer.length
        · have hf : b.fill = b := by simp [BufReader.fill, h2]
          rw [hf]; exact hinv h2
        · have hi := hfill.2.2.2 (by omega)
          rw [hi] at h
          exact hfill.2.2.1 (by omega) (by unfold bufferSize at hn ⊢; omega)
      · omega
  · have h' : (b.ensure n).index + n < (b.ensure n).buffer.length := by omega
    refine ⟨?_, hens.1, hens.2, fun _ => h', fun h2 => ?_⟩
    · rw [← hens.1]
      simp only [BufReader.abs]
      rw [List.getElem?_append_left (by simp only [List.length_drop]; omega),
        List.getElem?_drop]
    · exfalso
      simp only [List.getElem?_eq_none_iff] at h2
      omega

theorem BufReader.get_spec (b : BufReader) (hinv : b.Inv) :
    b.get.1 = b.abs.get.1 ∧ b.get.2.abs = b.abs.get.2 ∧ b.get.2.Inv := by
  obtain ⟨h1, h2, h3, h4, h5⟩ := b.peekN_spec 0 hinv (by decide)
  have hhead : b.abs.input[0]? = b.abs.peek := by
    simp [Reader.peek, List.head?_eq_getElem?]
  have hp : b.peek.1 = b.abs.peek := by rw [← hhead]; exact h1
  refine ⟨by simp only [BufReader.get, Reader.get, hp], ?_, ?_⟩
  · simp only [BufReader.get, Reader.get, hp]
    have hloc : b.peek.2.loc = b.abs.loc := by
      have := congrArg Reader.loc h2
      simpa [BufReader.abs, BufReader.peek] using this
    have hin : b.peek.2.buffer.drop b.peek.2.index ++ b.peek.2.stream = b.abs.input := by
      have := congrArg Reader.input h2
      simpa [BufReader.abs, BufReader.peek] using this
    simp only [BufReader.abs, hloc, Reader.mk.injEq, and_true]
    show List.drop (b.peek.2.index + 1) b.peek.2.buffer ++ b.peek.2.stream
      = (List.drop b.index b.buffer ++ b.stream).tail
    have hin' : List.drop b.index b.buffer ++ b.stream
        = b.peek.2.buffer.drop b.peek.2.index ++ b.peek.2.stream := hin.symm
    rw [hin']
    by_cases hnone : b.peek.1 = none
    · have hs := h5 hnone
      have hlen : b.peek.2.buffer.length ≤ b.peek.2.index := by
        by_contra hc
        have : (b.peek.2.buffer.drop b.peek.2.index ++ b.peek.2.stream)[0]? ≠ none := by
          simp only [ne_eq, List.getElem?_eq_none_iff, List.length_append, List.length_drop]
          omega
        rw [hin, ← h1] at this
        exact this hnone
      simp only [BufReader.peek] at hs hlen ⊢
      rw [hs, List.drop_eq_nil_of_le (by omega), List.drop_eq_nil_of_le hlen]
      rfl
    · have hlt := h4 hnone
      simp only [BufReader.peek] at hlt ⊢
      rw [← List.drop_drop, List.drop_one, List.tail_append_of_ne_nil]
      intro hnil
      rw [List.drop_eq_nil_iff] at hnil
      omega
  · intro hidx
    simp only [BufReader.get] at hidx ⊢
    by_cases hnone : b.peek.1 = none
    · exact h5 hnone
    · have hlt := h4 hnone
      simp only [BufReader.peek] at hidx
      omega

theorem BufReader.init_spec (input : List Nat) :
    (BufReader.init input).abs = Reader.init input ∧ (BufReader.init input).Inv := by
  have h := BufReader.fill_spec (BufReader.mk input [] 0 ⟨1, 1⟩) (fun h => by simp at h)
  exact ⟨by rw [BufReader.init, h.1]; rfl, h.2.1⟩

theorem BufReader.getN_spec (i : Nat) :
    ∀ b : BufReader, b.Inv →
      (BufReader.getN i b).abs = Reader.getN i b.abs ∧ (BufReader.getN i b).Inv := by
  induction i with
  | zero => intro b hinv; exact ⟨rfl, hinv⟩
  | succ i ih =>
    intro b hinv
    obtain ⟨-, h2, h3⟩ := b.get_spec hinv
    have := ih b.get.2 h3
    simp only [BufReader.getN, Reader.getN]
    rw [this.1, h2]
    exact ⟨rfl, this.2⟩

theorem BufReader.reads_spec (k : Nat) :
    ∀ b : BufReader, b.Inv → BufReader.reads k b = Reader.reads k b.abs := by
  induction k with
  | zero => intro b _; rfl
  | succ k ih =>
    intro b hinv
    obtain ⟨h1, h2, h3⟩ := b.get_spec hinv
    simp only [BufReader.reads, Reader.reads, h1, ih b.get.2 h3, h2]

theorem Reader.getN_input (i : Nat) :
    ∀ r : Reader, (Reader.getN i r).input = r.input.drop i := by
  induction i with
  | zero => intro r; rfl
  | succ i ih =>
    intro r
    simp only [Reader.getN, ih, Reader.get, List.drop_tail]

theorem Reader.reads_eq (k : Nat) :
    ∀ r : Reader, Reader.reads k r = (List.range k).map (fun j => r.input[j]?) := by
  induction k with
  | zero => intro r; rfl
  | succ k ih =>
    intro r
    rw [Reader.reads, ih, List.range_succ_eq_map, List.map_cons, List.map_map]
    congr 1
    · simp [Reader.get, Reader.peek, List.head?_eq_getElem?]
    · apply List.map_congr_left
      intro j _
      cases hr : r.input with
      | nil => simp [Reader.get, hr]
      | cons c t => simp [Reader.get, hr]

/-- C20. Buffered lookahead equals direct indexing: for every input, of any
length, and after any number `i` of `get` calls on the buffered reader,
`peek` returns input byte `i` and `peek2` returns input byte `i + 1` (EOF
when the position is past the end); after either call the next `k` calls of
`get` return what they return without it, namely the input bytes from `i`
on; and the buffered reader stands for the reader state of the parser. -/
theorem buffered_lookahead_is_indexing (input : List Nat) (i k : Nat) :
    (BufReader.getN i (BufReader.init input)).peek.1 = input[i]? ∧
    (BufReader.getN i (BufReader.init input)).peek2.1 = input[i + 1]? ∧
    BufReader.reads k (BufReader.getN i (BufReader.init input)).peek.2
      = (List.range k).map (fun j => input[i + j]?) ∧
    BufReader.reads k (BufReader.getN i (BufReader.init input)).peek2.2
      = (List.range k).map (fun j => input[i + j]?) ∧
    BufReader.reads k (BufReader.getN i (BufReader.init input))
      = (List.range k).map (fun j => input[i + j]?) ∧
    (BufReader.getN i (BufReader.init input)).abs = Reader.getN i (Reader.init input) := by
  obtain ⟨hinit, hinv0⟩ := BufReader.init_spec input
  obtain ⟨habs, hinv⟩ := BufReader.getN_spec i (BufReader.init input) hinv0
  rw [hinit] at habs
  have hin : (BufReader.getN i (BufReader.init input)).abs.input = input.drop i := by
    rw [habs, Reader.getN_input]; rfl
  obtain ⟨p1, p2, p3, -, -⟩ := (BufReader.getN i (BufReader.init input)).peekN_spec 0 hinv
    (by decide)
  obtain ⟨q1, q2, q3, -, -⟩ := (BufReader.getN i (BufReader.init input)).peekN_spec 1 hinv
    (by decide)
  have hreads : ∀ b : BufReader, b.Inv → b.abs.input = input.drop i →
      BufReader.reads k b = (List.range k).map (fun j => input[i + j]?) := by
    intro b hb hbin
    rw [BufReader.reads_spec k b hb, Reader.reads_eq, hbin]
    apply List.map_congr_left
    intro j _
    rw [List.getElem?_drop]
  refine ⟨?_, ?_, ?_, ?_, ?_, habs⟩
  · rw [BufReader.peek, p1, hin, List.getElem?_drop]; rfl
  · rw [BufReader.peek2, q1, hin, List.getElem?_drop]
  · exact hreads _ p3 (by rw [show (BufReader.getN i (BufReader.init input)).peek.2.abs
      = (BufReader.getN i (BufReader.init input)).abs from p2, hin])
  · exact hreads _ q3 (by rw [show (BufReader.getN i (BufReader.init input)).peek2.2.abs
      = (BufReader.getN i (BufReader.init input)).abs from q2, hin])
  · exact hreads _ hinv hin

/-! ## C17: binary strings -/

theorem escapeByte_eq (c : Nat) : escapeByte c = parseStringEscapeChar c := by
  unfold parseStringEscapeChar
  split_ifs with h1 h2 h3 h4 h5 h6 h7 h8
  · subst h1; rfl
  · subst h2; rfl
  · subst h3; rfl
  · subst h4; rfl
  · subst h5; rfl
  · subst h6; rfl
  · subst h7; rfl
  · subst h8; rfl
  · unfold escapeByte
    split <;> first | rfl | omega

theorem escapeByte_ne_newline (c v : Nat) (h : escapeByte c = some v) : c ≠ 10 ∧ c ≠ 120 := by
  constructor <;> intro hc <;> subst hc <;> simp [escapeByte] at h

theorem parseBinaryStringLoop_item (it : BinaryItem) (hv : it.valid = true) (fuel : Nat)
    (rest bytes : List Nat) (loc : Location) :
    parseBinaryStringLoop (fuel + 1) ⟨it.text ++ rest, loc⟩ bytes
      = parseBinaryStringLoop fuel ⟨rest, loc.after it.text⟩ (bytes ++ [it.byte]) := by
  cases it with
  | raw c =>
    simp only [BinaryItem.valid, Bool.and_eq_true, decide_eq_true_eq, bne_iff_ne, ne_eq] at hv
    rw [parseBinaryStringLoop]
    simp only [BinaryItem.text, List.cons_append, List.nil_append, Reader.get_cons, hv.1.2, hv.2,
      if_false, show ¬ c > 127 by omega, BinaryItem.byte, Location.after, List.foldl_cons,
      List.foldl_nil]
  | escape c =>
    simp only [BinaryItem.valid] at hv
    obtain ⟨v, hv⟩ := Option.isSome_iff_exists.mp hv
    have hne := escapeByte_ne_newline c v hv
    rw [parseBinaryStringLoop]
    simp only [BinaryItem.text, List.cons_append, List.nil_append, Reader.get_cons,
      Nat.reduceEqDiff, if_false, if_true, hne.2, ← escapeByte_eq, hv, BinaryItem.byte,
      Option.getD_some, Location.after, List.foldl_cons, List.foldl_nil]
  | hex h1 h2 =>
    simp only [BinaryItem.valid, Bool.and_eq_true] at hv
    obtain ⟨v1, hv1⟩ := Option.isSome_iff_exists.mp hv.1
    obtain ⟨v2, hv2⟩ := Option.isSome_iff_exists.mp hv.2
    have l1 := charValue_lt h1 v1 hv1
    have l2 := charValue_lt h2 v2 hv2
    have hhex := parseHex_digits [h1, h2] rest ((loc.next 92).next 120) 0
      (by intro h hh; simp at hh; rcases hh with rfl | rfl <;> simp [hv1, hv2])
    have hacc : hexAccumulate 0 [h1, h2] = 16 * v1 + v2 := by
      simp only [hexAccumulate, List.foldl_cons, List.foldl_nil, hv1, hv2, Option.getD_some]
      omega
    rw [hacc] at hhex
    have hmod : (16 * v1 + v2) % 256 = 16 * v1 + v2 := by omega
    rw [parseBinaryStringLoop]
    simp only [BinaryItem.text, List.cons_append, List.nil_append, Reader.get_cons,
      Nat.reduceEqDiff, if_false, if_true]
    simp only [List.length_cons, List.length_nil, List.cons_append, List.nil_append] at hhex
    simp only [hhex, hmod, BinaryItem.byte, digitValue, hv1, hv2, Option.getD_some,
      Location.after, List.foldl_cons, List.foldl_nil, Location.next_eq_right _ h1 l1.2,
      Location.next_eq_right _ h2 l2.2, Location.right_right]

theorem parseBinaryStringLoop_items (items : List BinaryItem) :
    ∀ (fuel : Nat) (rest bytes : List Nat) (loc : Location),
      (∀ it ∈ items, it.valid = true) →
      parseBinaryStringLoop (fuel + items.length) ⟨items.flatMap BinaryItem.text ++ rest, loc⟩ bytes
        = parseBinaryStringLoop fuel
            ⟨rest, loc.after (items.flatMap BinaryItem.text)⟩
            (bytes ++ items.map BinaryItem.byte) := by
  induction items with
  | nil => intro fuel rest bytes loc _; simp [Location.after]
  | cons it items ih =>
    intro fuel rest bytes loc hv
    have e : fuel + (it :: items).length = (fuel + items.length) + 1 := by simp; omega
    rw [e, List.flatMap_cons, List.append_assoc,
      parseBinaryStringLoop_item it (hv it (by simp)),
      ih fuel rest _ _ (fun x hx => hv x (by simp [hx]))]
    simp [Location.after_append]

theorem parseHex_invalid (n h : Nat) (i : List Nat) (loc : Location) (num : Nat)
    (hv : (charValue (some h)).isSome = false) :
    parseHex (n + 1) ⟨h :: i, loc⟩ num = .error (error loc .invalidHexCharacter) := by
  rw [parseHex]
  simp only [Reader.get_cons]
  simp only [charValue] at hv
  split_ifs at hv with h1 h2 h3 <;> simp at hv
  simp only [h1, h2, h3, if_false]

theorem BinaryItem.length_flatMap_text (items : List BinaryItem) :
    items.length ≤ (items.flatMap BinaryItem.text).length := by
  induction items with
  | nil => simp
  | cons it items ih =>
    simp only [List.flatMap_cons, List.length_append, List.length_cons]
    cases it <;> simp only [BinaryItem.text, List.length_cons, List.length_nil] <;> omega

theorem parseBinaryStringLoop_rejected (it : BinaryItem) (k : ErrorKind)
    (hk : it.rejected = some k) (fuel : Nat) (rest bytes : List Nat) (loc : Location) :
    ∃ l, parseBinaryStringLoop (fuel + 1) ⟨it.text ++ rest, loc⟩ bytes = .error ⟨l, k⟩ := by
  cases it with
  | raw c =>
    simp only [BinaryItem.rejected] at hk
    split_ifs at hk with hc
    cases hk
    refine ⟨loc, ?_⟩
    rw [parseBinaryStringLoop]
    simp only [BinaryItem.text, List.cons_append, List.nil_append, Reader.get_cons,
      show ¬ c = 34 by omega, show ¬ c = 92 by omega, hc, if_false, if_true, error]
  | escape c =>
    simp only [BinaryItem.rejected] at hk
    split_ifs at hk with hc
    cases hk
    refine ⟨(loc.next 92).next c, ?_⟩
    rw [parseBinaryStringLoop]
    simp only [BinaryItem.text, List.cons_append, List.nil_append, Reader.get_cons,
      Nat.reduceEqDiff, if_false, if_true, hc.1, ← escapeByte_eq, hc.2, error]
  | hex h1 h2 =>
    simp only [BinaryItem.rejected] at hk
    split_ifs at hk with hc
    cases hk
    rw [parseBinaryStringLoop]
    simp only [BinaryItem.text, List.cons_append, List.nil_append, Reader.get_cons,
      Nat.reduceEqDiff, if_false, if_true]
    cases hv1 : (charValue (some h1)).isSome with
    | false =>
      refine ⟨(loc.next 92).next 120, ?_⟩
      rw [parseHex_invalid 1 h1 _ _ 0 hv1]
      rfl
    | true =>
      have hv2 : (charValue (some h2)).isSome = false := by
        simpa [hv1] using hc
      obtain ⟨v1, hv1⟩ := Option.isSome_iff_exists.mp hv1
      refine ⟨((loc.next 92).next 120).right 1, ?_⟩
      rw [parseHex_succ_of_charValue 1 h1 v1 _ _ 0 hv1, parseHex_invalid 0 h2 _ _ _ hv2]
      rfl

theorem parseValue_binary_start {F : Type} (strtod : List Nat → F) (fuel : Nat)
    (content : List Nat) (loc : Location) (d : Int) (tl : Bool) (hd : 1 ≤ d) :
    parseValue strtod (fuel + 1) ⟨binaryDocument content, loc⟩ d tl
      = match parseBinaryStringLoop (content.length + 1) ⟨content, loc.right 2⟩ [] with
        | .error e => .error e
        | .outOfFuel => .outOfFuel
        | .ok (bytes, r1) => .ok (.bstring bytes, r1) := by
  have hd' : ¬ d ≤ 0 := by omega
  rw [parseValue]
  simp [binaryDocument, hd', Reader.peek, Reader.peek2, parseBinaryString, Reader.get,
    Reader.fuel, Location.right, Nat.add_assoc]

/-- C17. Binary string content rules: for content made of well-formed items
(raw ASCII bytes other than the quote and the backslash, the single-letter
escapes for quote, backslash, slash, b, f, n, r, t, and `\x` with two hex
digits) the document `b"..."` parses to the byte string holding, in order,
each raw byte and each decoded escape; and when such content is followed by
a rejected item (a raw byte above 127, a backslash with any other letter,
`u` and `U` among them, or `\x` with a character that is no hex digit) the
parse fails with that item's error, whatever follows it. -/
theorem binary_string_content {F : Type} (strtod : List Nat → F) (items : List BinaryItem)
    (bad : BinaryItem) (k : ErrorKind) (rest : List Nat) (d : Int) (hd : 1 ≤ d)
    (hv : ∀ it ∈ items, it.valid = true) :
    parse strtod (binaryDocument (items.flatMap BinaryItem.text ++ [34])) d
        = .ok (.bstring (items.map BinaryItem.byte)) ∧
      (bad.rejected = some k →
        ∃ loc, parse strtod
            (binaryDocument (items.flatMap BinaryItem.text ++ (bad.text ++ rest))) d
          = .error ⟨loc, k⟩) := by
  have hlen := BinaryItem.length_flatMap_text items
  have start : ∀ content : List Nat,
      parseValue strtod (parseFuel (binaryDocument content).length)
          ⟨binaryDocument content, ⟨1, 1⟩⟩ d true
        = match parseBinaryStringLoop (content.length + 1)
            ⟨content, (⟨1, 1⟩ : Location).right 2⟩ [] with
          | .error e => .error e
          | .outOfFuel => .outOfFuel
          | .ok (bytes, r1) => .ok (.bstring bytes, r1) := fun content =>
    parseValue_binary_start strtod (4 * (binaryDocument content).length + 3) content ⟨1, 1⟩ d
      true hd
  constructor
  · apply parse_of_parseValue_ok strtod 98 _ d _
      (((⟨1, 1⟩ : Location).right 2).after (items.flatMap BinaryItem.text ++ [34])) (by decide)
    obtain ⟨f, hf⟩ : ∃ f, (items.flatMap BinaryItem.text ++ [34]).length + 1
        = (f + 1) + items.length :=
      ⟨(items.flatMap BinaryItem.text).length - items.length + 1, by
        simp only [List.length_append, List.length_cons, List.length_nil]; omega⟩
    refine (start _).trans ?_
    rw [hf, parseBinaryStringLoop_items items (f + 1) [34] [] _ hv, parseBinaryStringLoop]
    simp [Reader.get_cons, Location.after_append, Location.after]
  · intro hk
    obtain ⟨f, hf⟩ : ∃ f, (items.flatMap BinaryItem.text ++ (bad.text ++ rest)).length + 1
        = (f + 1) + items.length :=
      ⟨(items.flatMap BinaryItem.text).length - items.length
        + (bad.text ++ rest).length, by
        simp only [List.length_append, List.length_cons, List.length_nil]; omega⟩
    obtain ⟨l, hl⟩ := parseBinaryStringLoop_rejected bad k hk f rest (items.map BinaryItem.byte)
      (((⟨1, 1⟩ : Location).right 2).after (items.flatMap BinaryItem.text))
    refine ⟨l, ?_⟩
    apply parse_of_parseValue_error strtod 98 _ d _ (by decide)
    refine (start _).trans ?_
    rw [hf, parseBinaryStringLoop_items items (f + 1) (bad.text ++ rest) [] _ hv]
    simp only [List.nil_append, hl]

/-- C17 at a concrete input: `b"A\n\x41"` holds the bytes 65, 10, 65, and
`b"AA"` is refused for its `\u`. -/
theorem binary_string_content_witness :
    parse (fun s => s) (binaryDocument ([65, 92, 110, 92, 120, 52, 49] ++ [34])) 8
        = .ok (.bstring [65, 10, 65]) ∧
      ∃ loc, parse (fun s => s)
          (binaryDocument ([65] ++ ([92, 117] ++ [48, 48, 52, 49, 34]))) 8
        = .error ⟨loc, .unknownEscape⟩ :=
  ⟨(binary_string_content (fun s => s) [.raw 65, .escape 110, .hex 52 49]
      (.escape 117) .unknownEscape [] 8 (by decide) (by decide)).1,
    (binary_string_content (fun s => s) [.raw 65]
      (.escape 117) .unknownEscape [48, 48, 52, 49, 34] 8 (by decide) (by decide)).2 rfl⟩

/-! ## Objects: insertion, storage order and the order of the output -/

theorem Object.set_perm {V : Type} (k : List Nat) (i : Nat) (v : V) :
    ∀ obj : List (Entry V), obj.Pairwise (fun a b => a.key ≠ b.key) →
      (Object.set obj k i v).Perm (⟨k, i, v⟩ :: obj.filter (fun e => e.key != k)) := by
  intro obj
  induction obj with
  | nil => intro _; simp [Object.set]
  | cons e rest ih =>
    intro h
    rw [List.pairwise_cons] at h
    by_cases he : e.key = k
    · have hrest : rest.filter (fun x => x.key != k) = rest := by
        rw [List.filter_eq_self]
        intro x hx
        have := h.1 x hx
        rw [he] at this
        simpa [bne_iff_ne] using fun hxk => this hxk.symm
      simp only [Object.set, he, if_true, List.filter_cons, bne_self_eq_false, Bool.false_eq_true,
        if_false, hrest]
      exact List.Perm.refl _
    · have hb : (e.key != k) = true := by simpa [bne_iff_ne] using he
      simp only [Object.set, he, if_false, List.filter_cons, hb, if_true]
      exact (List.Perm.cons e (ih h.2)).trans (List.Perm.swap _ _ _)

theorem Object.set_pairwise {V : Type} (k : List Nat) (i : Nat) (v : V)
    (obj : List (Entry V)) (h : obj.Pairwise (fun a b => a.key ≠ b.key)) :
    (Object.set obj k i v).Pairwise (fun a b => a.key ≠ b.key) := by
  have hp := Object.set_perm k i v obj h
  refine (List.Perm.pairwise_iff (fun hab => Ne.symm hab) hp).mpr ?_
  rw [List.pairwise_cons]
  refine ⟨fun x hx => ?_, List.Pairwise.filter _ h⟩
  have := (List.mem_filter.mp hx).2
  simpa [bne_iff_ne] using fun hxk : k = x.key => (by simpa [bne_iff_ne] using this : x.key ≠ k) hxk.symm

theorem insertAll_perm {V : Type} (kvs : List (List Nat × V)) :
    ∀ (obj : List (Entry V)) (i : Nat), obj.Pairwise (fun a b => a.key ≠ b.key) →
      (insertAll obj i kvs).Perm
        (obj.filter (fun e => !recurs e.key kvs) ++ lastEntries i kvs) := by
  induction kvs with
  | nil => intro obj i _; simp [insertAll, lastEntries, recurs]
  | cons kv rest ih =>
    intro obj i h
    have h1 := ih (Object.set obj kv.1 i kv.2) (i + 1) (Object.set_pairwise kv.1 i kv.2 obj h)
    have h2 := (Object.set_perm kv.1 i kv.2 obj h).filter (fun e => !recurs e.key rest)
    have hf : (obj.filter (fun e => e.key != kv.1)).filter (fun e => !recurs e.key rest)
        = obj.filter (fun e => !recurs e.key (kv :: rest)) := by
      rw [List.filter_filter]
      congr 1
      funext e
      by_cases hk : kv.1 = e.key
      · simp [recurs, hk]
      · have hb : (kv.1 == e.key) = false := by simpa using hk
        have hb' : (e.key != kv.1) = true := by simpa [bne_iff_ne] using Ne.symm hk
        simp [recurs, hb, hb']
    rw [insertAll]
    refine h1.trans (List.Perm.trans (List.Perm.append_right _ h2) ?_)
    rw [List.filter_cons, hf]
    by_cases hr : recurs kv.1 rest = true
    · simp only [hr, Bool.not_true, Bool.false_eq_true, if_false, lastEntries, if_true]
      exact List.Perm.refl _
    · simp only [Bool.not_eq_true] at hr
      simp only [hr, Bool.not_false, if_true, lastEntries, Bool.false_eq_true, if_false]
      exact (List.perm_middle).symm

theorem lastEntries_index {V : Type} (kvs : List (List Nat × V)) :
    ∀ (i : Nat), ∀ e ∈ lastEntries i kvs, i ≤ e.index := by
  induction kvs with
  | nil => intro i e he; simp [lastEntries] at he
  | cons kv rest ih =>
    intro i e he
    simp only [lastEntries] at he
    split_ifs at he with hr
    · exact Nat.le_of_succ_le (ih (i + 1) e he)
    · rcases List.mem_cons.mp he with rfl | he
      · exact Nat.le_refl _
      · exact Nat.le_of_succ_le (ih (i + 1) e he)

theorem lastEntries_sorted {V : Type} (kvs : List (List Nat × V)) :
    ∀ (i : Nat), (lastEntries i kvs).Pairwise (fun a b => a.index < b.index) := by
  induction kvs with
  | nil => intro i; simp [lastEntries]
  | cons kv rest ih =>
    intro i
    simp only [lastEntries]
    split_ifs with hr
    · exact ih (i + 1)
    · rw [List.pairwise_cons]
      exact ⟨fun e he => lastEntries_index rest (i + 1) e he, ih (i + 1)⟩

theorem insertByIndex_perm (e : Entry (List Nat)) (l : List (Entry (List Nat))) :
    (insertByIndex e l).Perm (e :: l) := by
  induction l with
  | nil => simp [insertByIndex]
  | cons x rest ih =>
    simp only [insertByIndex]
    split_ifs with h
    · exact List.Perm.refl _
    · exact (List.Perm.cons x ih).trans (List.Perm.swap _ _ _)

theorem sortByIndex_perm (l : List (Entry (List Nat))) : (sortByIndex l).Perm l := by
  induction l with
  | nil => simp [sortByIndex]
  | cons e rest ih =>
    simp only [sortByIndex]
    exact (insertByIndex_perm e _).trans (List.Perm.cons e ih)

theorem insertByIndex_sorted (e : Entry (List Nat)) (l : List (Entry (List Nat)))
    (h : l.Pairwise (fun a b => a.index ≤ b.index)) :
    (insertByIndex e l).Pairwise (fun a b => a.index ≤ b.index) := by
  induction l with
  | nil => simp [insertByIndex]
  | cons x rest ih =>
    rw [List.pairwise_cons] at h
    simp only [insertByIndex]
    split_ifs with hlt
    · rw [List.pairwise_cons]
      refine ⟨fun y hy => ?_, List.pairwise_cons.mpr h⟩
      rcases List.mem_cons.mp hy with rfl | hy
      · omega
      · have := h.1 y hy
        omega
    · rw [List.pairwise_cons]
      refine ⟨fun y hy => ?_, ih h.2⟩
      rcases List.mem_cons.mp ((insertByIndex_perm e rest).subset hy) with rfl | hy
      · omega
      · exact h.1 y hy

theorem sortByIndex_sorted (l : List (Entry (List Nat))) :
    (sortByIndex l).Pairwise (fun a b => a.index ≤ b.index) := by
  induction l with
  | nil => simp [sortByIndex]
  | cons e rest ih => exact insertByIndex_sorted e _ ih

theorem sortByIndex_eq_of_perm (l l' : List (Entry (List Nat))) (hp : l.Perm l')
    (hs : l'.Pairwise (fun a b => a.index < b.index)) : sortByIndex l = l' := by
  have hperm : (sortByIndex l).Perm l' := (sortByIndex_perm l).trans hp
  have hne : l'.Pairwise (fun a b => a.index ≠ b.index) :=
    hs.imp (fun h => Nat.ne_of_lt h)
  have hne' : (sortByIndex l).Pairwise (fun a b => a.index ≠ b.index) :=
    (List.Perm.pairwise_iff (fun h => Ne.symm h) hperm).mpr hne
  have hlt : (sortByIndex l).Pairwise (fun a b => a.index < b.index) :=
    ((sortByIndex_sorted l).and hne').imp (fun h => Nat.lt_of_le_of_ne h.1 h.2)
  haveI : IsAntisymm (Entry (List Nat)) (fun a b => a.index < b.index) :=
    ⟨fun a b h1 h2 => absurd h1 (Nat.lt_asymm h2)⟩
  exact List.eq_of_perm_of_sorted hperm hlt hs

theorem renderEntries_eq_map {F : Type} (to_chars : F → List Nat) (indent : Nat)
    (l : List (Entry (Value F))) :
    renderEntries to_chars l indent
      = l.map (fun e => ⟨e.key, e.index, serializeValue to_chars e.value indent⟩) := by
  induction l with
  | nil => simp [renderEntries]
  | cons e rest ih => simp [renderEntries, ih]

theorem serializeKeyValues_of_perm {F : Type} (to_chars : F → List Nat) (indent : Nat)
    (kvs : List (List Nat × Value F)) (stored : List (Entry (Value F)))
    (hperm : stored.Perm (insertAll [] 0 kvs)) :
    serializeKeyValues to_chars stored indent
      = (lastEntries 0 kvs).flatMap (fun e => pairLine to_chars indent e.key e.value) := by
  have hp : stored.Perm (lastEntries 0 kvs) := by
    have := insertAll_perm kvs [] 0 List.Pairwise.nil
    simpa using hperm.trans this
  unfold serializeKeyValues
  rw [renderEntries_eq_map, sortByIndex_eq_of_perm _ _ (hp.map _)
    ((List.pairwise_map).mpr (lastEntries_sorted kvs 0)), List.flatMap_map]
  rfl

theorem parseKeyValuePairsAfterKey_insertAll {F : Type} (strtod : List Nat → F) (fuel : Nat) :
    ∀ (r : Reader) (key : List Nat) (obj : List (Entry (Value F))) (index : Nat) (depth : Int)
      (obj' : List (Entry (Value F))) (r' : Reader),
      parseKeyValuePairsAfterKey strtod fuel r key obj index depth = .ok (obj', r') →
      ∃ kvs, obj' = insertAll obj index kvs := by
  induction fuel with
  | zero =>
    intro r key obj index depth obj' r' h
    simp [parseKeyValuePairsAfterKey] at h
  | succ f ih =>
    intro r key obj index depth obj' r' h
    rw [parseKeyValuePairsAfterKey] at h
    repeat' split at h
    all_goals first
      | contradiction
      | (obtain ⟨kvs, hk⟩ := ih _ _ _ _ _ _ _ h
         exact ⟨(key, _) :: kvs, hk⟩)
      | (simp only [Result.ok.injEq, Prod.mk.injEq] at h
         exact ⟨[(key, _)], h.1.symm⟩)

theorem parseKeyValuePairs_insertAll {F : Type} (strtod : List Nat → F) (fuel : Nat)
    (r : Reader) (depth : Int) (obj : List (Entry (Value F))) (r' : Reader)
    (h : parseKeyValuePairs strtod fuel r depth = .ok (obj, r')) :
    ∃ kvs, obj = insertAll [] 0 kvs := by
  cases fuel with
  | zero => simp [parseKeyValuePairs] at h
  | succ f =>
    rw [parseKeyValuePairs] at h
    repeat' split at h
    all_goals first
      | contradiction
      | exact parseKeyValuePairsAfterKey_insertAll strtod _ _ _ _ _ _ _ _ h

theorem parseObject_insertAll {F : Type} (strtod : List Nat → F) (fuel : Nat)
    (r : Reader) (depth : Int) (obj : List (Entry (Value F))) (r' : Reader)
    (h : parseObject strtod fuel r depth = .ok (obj, r')) :
    ∃ kvs, obj = insertAll [] 0 kvs := by
  cases fuel with
  | zero => simp [parseObject] at h
  | succ f =>
    rw [parseObject] at h
    repeat' split at h
    all_goals first
      | contradiction
      | (simp only [Result.ok.injEq, Prod.mk.injEq] at h
         exact ⟨[], h.1.symm⟩)
      | (rename_i hkv _ _ _ _
         simp only [Result.ok.injEq, Prod.mk.injEq] at h
         rw [← h.1]
         exact parseKeyValuePairs_insertAll strtod _ _ _ _ _ hkv)

theorem keywordValue_ne_object {F : Type} (loc : Location) (ident : List Nat)
    (obj : List (Entry (Value F))) : keywordValue loc ident ≠ .ok (.object obj) := by
  unfold keywordValue
  intro h
  repeat' split at h
  all_goals cases h

theorem parseValue_object {F : Type} (strtod : List Nat → F) (fuel : Nat)
    (r : Reader) (depth : Int) (tl : Bool) (obj : List (Entry (Value F))) (r' : Reader)
    (h : parseValue strtod fuel r depth tl = .ok (.object obj, r')) :
    (∃ kvs, obj = insertAll [] 0 kvs) ∧ (tl = false → r.peek = some 123) := by
  cases fuel with
  | zero => simp [parseValue] at h
  | succ f =>
    rw [parseValue] at h
    by_cases h0 : depth ≤ 0
    · rw [if_pos h0] at h; cases h
    rw [if_neg h0] at h
    by_cases h1 : r.peek = none
    · rw [if_pos h1] at h; cases h
    rw [if_neg h1] at h
    by_cases h2 : r.peek = some 91
    · rw [if_pos h2] at h
      generalize parseArray strtod f r (depth - 1) = res at h
      rcases res with ⟨⟨arr, r1⟩⟩ | e | _ <;> cases h
    rw [if_neg h2] at h
    by_cases h3 : r.peek = some 123
    · rw [if_pos h3] at h
      generalize hx : parseObject strtod f r (depth - 1) = res at h
      rcases res with ⟨⟨o, r1⟩⟩ | e | _ <;> cases h
      exact ⟨parseObject_insertAll strtod _ _ _ _ _ hx, fun _ => h3⟩
    rw [if_neg h3] at h
    by_cases h4 : r.peek = some 34
    · rw [if_pos h4] at h
      generalize parseString r = res at h
      rcases res with ⟨⟨ident, r1⟩⟩ | e | _ <;> try contradiction
      cases tl with
      | false => cases h
      | true =>
        simp only [if_true] at h
        generalize skipWhitespace r1 = res at h
        rcases res with r2 | e | _ <;> try contradiction
        by_cases h5 : r2.peek = some 58
        · simp only [if_pos h5] at h
          generalize hx : parseKeyValuePairsAfterKey strtod f r2 ident [] 0 (depth - 1) = res at h
          rcases res with ⟨⟨o, r3⟩⟩ | e | _ <;> cases h
          exact ⟨parseKeyValuePairsAfterKey_insertAll strtod _ _ _ _ _ _ _ _ hx,
            fun hf => (by cases hf)⟩
        · simp only [if_neg h5] at h
          cases h
    rw [if_neg h4] at h
    by_cases h6 : r.peek = some 114 ∧ (r.peek2 = some 34 ∨ r.peek2 = some 35)
    · rw [if_pos h6] at h
      generalize parseRawString r = res at h
      rcases res with ⟨⟨str, r1⟩⟩ | e | _ <;> cases h
    rw [if_neg h6] at h
    by_cases h7 : (r.peek.any fun ch => 48 ≤ ch ∧ ch ≤ 57) ∨ r.peek = some 46 ∨
        r.peek = some 43 ∨ r.peek = some 45
    · rw [if_pos h7] at h
      generalize parseNumber strtod r = res at h
      rcases res with ⟨⟨num, r1⟩⟩ | e | _ <;> cases h
    rw [if_neg h7] at h
    by_cases h8 : r.peek = some 98 ∧ r.peek2 = some 34
    · rw [if_pos h8] at h
      generalize parseBinaryString r = res at h
      rcases res with ⟨⟨bytes, r1⟩⟩ | e | _ <;> cases h
    rw [if_neg h8] at h
    generalize parseIdentifier r = res at h
    rcases res with ⟨⟨ident, r1⟩⟩ | e | _ <;> try contradiction
    cases tl with
    | false =>
      simp only [Bool.false_eq_true, if_false] at h
      generalize hx : (keywordValue r.loc ident : Result (Value F)) = res at h
      rcases res with v | e | _ <;> try contradiction
      simp only [Result.ok.injEq, Prod.mk.injEq] at h
      rw [h.1] at hx
      exact absurd hx (keywordValue_ne_object _ _ _)
    | true =>
      simp only [if_true] at h
      generalize skipWhitespace r1 = res at h
      rcases res with r2 | e | _ <;> try contradiction
      by_cases h5 : r2.peek = some 58
      · simp only [if_pos h5] at h
        generalize hx : parseKeyValuePairsAfterKey strtod f r2 ident [] 0 (depth - 1) = res at h
        rcases res with ⟨⟨o, r3⟩⟩ | e | _ <;> cases h
        exact ⟨parseKeyValuePairsAfterKey_insertAll strtod _ _ _ _ _ _ _ _ hx,
          fun hf => (by cases hf)⟩
      · simp only [if_neg h5] at h
        generalize hx : (keywordValue r.loc ident : Result (Value F)) = res at h
        rcases res with v | e | _ <;> try contradiction
        simp only [Result.ok.injEq, Prod.mk.injEq] at h
        rw [h.1] at hx
        exact absurd hx (keywordValue_ne_object _ _ _)

theorem parse_object_insertAll {F : Type} (strtod : List Nat → F) (input : List Nat)
    (d : Int) (obj : List (Entry (Value F))) (h : parse strtod input d = .ok (.object obj)) :
    ∃ kvs, obj = insertAll [] 0 kvs := by
  unfold parse at h
  repeat' split at h
  all_goals first
    | contradiction
    | (rename_i hv _ _ _ _
       simp only [Result.ok.injEq] at h
       rw [h] at hv
       exact (parseValue_object strtod _ _ _ _ _ _ hv).1)

theorem recurs_eq_false_iff {V : Type} (k : List Nat) (kvs : List (List Nat × V)) :
    recurs k kvs = false ↔ k ∉ kvs.map Prod.fst := by
  induction kvs with
  | nil => simp [recurs]
  | cons kv rest ih =>
    simp only [recurs, List.any_cons, Bool.or_eq_false_iff, beq_eq_false_iff_ne, ne_eq,
      List.map_cons, List.mem_cons, not_or] at ih ⊢
    constructor
    · intro h; exact ⟨fun hk => h.1 hk.symm, ih.mp h.2⟩
    · intro h; exact ⟨fun hk => h.1 hk.symm, ih.mpr h.2⟩

theorem lastEntries_distinct {V : Type} (g : List Nat → V → List Nat)
    (kvs : List (List Nat × V)) :
    ∀ (i : Nat), (kvs.map Prod.fst).Nodup →
      (lastEntries i kvs).flatMap (fun e => g e.key e.value)
        = kvs.flatMap (fun kv => g kv.1 kv.2) := by
  induction kvs with
  | nil => intro i _; rfl
  | cons kv rest ih =>
    intro i h
    rw [List.map_cons, List.nodup_cons] at h
    have hr : recurs kv.1 rest = false := (recurs_eq_false_iff kv.1 rest).mpr h.1
    simp only [lastEntries, hr, Bool.false_eq_true, if_false, List.flatMap_cons, ih (i + 1) h.2]

theorem lastEntries_key {V : Type} (kvs : List (List Nat × V)) :
    ∀ (i : Nat), ∀ e ∈ lastEntries i kvs, e.key ∈ kvs.map Prod.fst := by
  induction kvs with
  | nil => intro i e he; simp [lastEntries] at he
  | cons kv rest ih =>
    intro i e he
    simp only [lastEntries] at he
    split_ifs at he with hr
    · exact List.mem_cons_of_mem _ (ih (i + 1) e he)
    · rcases List.mem_cons.mp he with rfl | he
      · simp
      · exact List.mem_cons_of_mem _ (ih (i + 1) e he)

theorem lastEntries_filter_key {V : Type} (k : List Nat) (v : V) (post : List (List Nat × V))
    (hpost : recurs k post = false) (pre : List (List Nat × V)) :
    ∀ (i : Nat), (lastEntries i (pre ++ (k, v) :: post)).filter (fun e => e.key == k)
      = [⟨k, i + pre.length, v⟩] := by
  have hk : k ∉ post.map Prod.fst := (recurs_eq_false_iff k post).mp hpost
  induction pre with
  | nil =>
    intro i
    have hnil : (lastEntries (i + 1) post).filter (fun e => e.key == k) = [] := by
      rw [List.filter_eq_nil_iff]
      intro e he hek
      have := lastEntries_key post (i + 1) e he
      rw [beq_iff_eq] at hek
      rw [hek] at this
      exact hk this
    simp only [List.nil_append, lastEntries, hpost, Bool.false_eq_true, if_false,
      List.filter_cons, beq_self_eq_true, if_true, hnil, List.length_nil, Nat.add_zero]
  | cons q pre ih =>
    intro i
    have hlen : i + (q :: pre).length = i + 1 + pre.length := by simp; omega
    rw [List.cons_append, lastEntries, hlen]
    split_ifs with hr
    · exact ih (i + 1)
    · have hq : (q.1 == k) = false := by
        rw [beq_eq_false_iff_ne]
        intro hqk
        rw [Bool.not_eq_true, recurs_eq_false_iff] at hr
        apply hr
        rw [hqk]
        simp
      simp only [List.filter_cons, hq, Bool.false_eq_true, if_false]
      exact ih (i + 1)

theorem objectOfPairs_eq_insertAll {F : Type} (strtod : List Nat → F)
    (pairs : List (List Nat × Int)) :
    ∀ (obj : List (Entry (Value F))) (i : Nat),
      objectOfPairs strtod pairs obj i = insertAll obj i (pairs.map (storedPair strtod)) := by
  induction pairs with
  | nil => intro obj i; rfl
  | cons p ps ih =>
    intro obj i
    simp only [objectOfPairs, List.map_cons, insertAll, storedPair, ih]

theorem serializeKey_identifier (key : List Nat) (h : isIdentifier key = true) :
    serializeKey key = key := by
  cases key with
  | nil => simp [isIdentifier] at h
  | cons c cs =>
    simp only [isIdentifier, Bool.and_eq_true] at h
    have hall : (c :: cs).all isIdent = true := by
      simp only [List.all_cons, Bool.and_eq_true]
      exact ⟨isFirstIdent_isIdent c h.1, h.2⟩
    simp only [serializeKey, h.1, hall, Bool.true_eq_false, if_false, if_true]

theorem insertAll_eq_nil {V : Type} (kvs : List (List Nat × V)) (h : kvs ≠ []) :
    ∀ (obj : List (Entry V)) (i : Nat), insertAll obj i kvs ≠ [] := by
  have hset : ∀ (obj : List (Entry V)) (k : List Nat) (i : Nat) (v : V),
      Object.set obj k i v ≠ [] := by
    intro obj k i v
    cases obj with
    | nil => simp [Object.set]
    | cons e rest => simp only [Object.set]; split_ifs <;> simp
  have hkeep : ∀ (l : List (List Nat × V)) (obj : List (Entry V)) (i : Nat),
      obj ≠ [] → insertAll obj i l ≠ [] := by
    intro l
    induction l with
    | nil => intro obj i ho; exact ho
    | cons kv rest ih => intro obj i _; exact ih _ _ (hset _ _ _ _)
  intro obj i
  cases kvs with
  | nil => exact absurd rfl h
  | cons kv rest => exact hkeep rest _ _ (hset _ _ _ _)

theorem serializeValue_object {F : Type} (to_chars : F → List Nat)
    (stored : List (Entry (Value F))) (indent : Nat) (h : stored ≠ []) :
    serializeValue to_chars (.object stored) indent
      = [123, 10] ++ serializeKeyValues to_chars stored (indent + 1) ++ [125] := by
  cases stored with
  | nil => exact absurd rfl h
  | cons e es => rw [serializeValue]; rfl

theorem parse_documents_small {F : Type} (strtod : List Nat → F)
    (pairs : List (List Nat × Int)) (d : Int) (hne : pairs ≠ [])
    (hkeys : ∀ p ∈ pairs, isIdentifier p.1 = true) (hd : 2 ≤ d)
    (hsmall : ∀ p ∈ pairs, p.2.natAbs < 2 ^ 53) :
    parse strtod (bareDocument pairs) d
        = .ok (.object (insertAll [] 0 (pairs.map (storedPair strtod)))) ∧
      parse strtod (bracedDocument pairs) d
        = .ok (.object (insertAll [] 0 (pairs.map (storedPair strtod)))) := by
  cases pairs with
  | nil => exact absurd rfl hne
  | cons p ps =>
    have hexp : expectedDocument strtod d (p :: ps)
        = some (.object (insertAll [] 0 ((p :: ps).map (storedPair strtod)))) := by
      have hd' : ¬ d ≤ 0 := by omega
      simp only [expectedDocument, hd', if_false,
        expectedObject_small strtod (d - 1) (by omega) (p :: ps) [] 0 hsmall, Option.map_some',
        objectOfPairs_eq_insertAll]
    exact ⟨Result.eq_ok_of_value ((parse_bareDocument strtod p ps d hkeys).trans hexp),
      Result.eq_ok_of_value ((parse_bracedDocument strtod p ps d hkeys).trans hexp)⟩

/-! ## C12: the order of the keys in the output -/

/-- C12. Key order survives unordered storage. Let an object be built the
way the parser builds it, by storing the pairs `kvs` in reading order, and
let `stored` hold its entries in any iteration order. When the keys are
pairwise distinct, `serializeKeyValues` (at any indent), `serialize` of the
root object and `serializeValue` of a nested object all write one line per
pair in the order of `kvs`. Every Object that `parseValue` returns, at the
root or nested, is built in this way; and for the documents `{k:v,...}` of
distinct identifier keys with integers below `2^53` the parse succeeds and
the serialized text lists the keys in the order of the document. -/
theorem key_order_survives_storage {F : Type} (strtod : List Nat → F)
    (to_chars : F → List Nat) (kvs : List (List Nat × Value F))
    (stored : List (Entry (Value F))) (indent : Nat)
    (hdistinct : (kvs.map Prod.fst).Nodup) (hperm : stored.Perm (insertAll [] 0 kvs)) :
    serializeKeyValues to_chars stored indent
        = kvs.flatMap (fun kv => pairLine to_chars indent kv.1 kv.2) ∧
      serialize to_chars (.object stored)
        = kvs.flatMap (fun kv => pairLine to_chars 0 kv.1 kv.2) ∧
      (kvs ≠ [] → serializeValue to_chars (.object stored) indent
        = [123, 10] ++ kvs.flatMap (fun kv => pairLine to_chars (indent + 1) kv.1 kv.2)
          ++ [125]) ∧
      (∀ (fuel : Nat) (r r' : Reader) (depth : Int) (tl : Bool)
          (obj : List (Entry (Value F))),
        parseValue strtod fuel r depth tl = .ok (.object obj, r') →
          ∃ kvs', obj = insertAll [] 0 kvs') ∧
      (∀ (pairs : List (List Nat × Int)) (d : Int), kvs = pairs.map (storedPair strtod) →
        pairs ≠ [] → (∀ p ∈ pairs, isIdentifier p.1 = true) → 2 ≤ d →
        (∀ p ∈ pairs, p.2.natAbs < 2 ^ 53) →
        parse strtod (bracedDocument pairs) d = .ok (.object (insertAll [] 0 kvs)) ∧
        serialize to_chars (.object stored) = pairs.flatMap (fun p =>
          p.1 ++ [58, 32] ++ to_chars (strtod (decimalInteger p.2 ++ [101, 48])) ++ [10])) := by
  have hkv : ∀ n, serializeKeyValues to_chars stored n
      = kvs.flatMap (fun kv => pairLine to_chars n kv.1 kv.2) := fun n => by
    rw [serializeKeyValues_of_perm to_chars n kvs stored hperm]
    exact lastEntries_distinct (pairLine to_chars n) kvs 0 hdistinct
  refine ⟨hkv indent, hkv 0, fun hne => ?_, ?_, ?_⟩
  · have hs : stored ≠ [] := fun h0 => by
      rw [h0] at hperm
      exact insertAll_eq_nil kvs hne [] 0 (List.nil_perm.mp hperm)
    rw [serializeValue_object to_chars stored indent hs, hkv]
  · intro fuel r r' depth tl obj h
    exact (parseValue_object strtod fuel r depth tl obj r' h).1
  · intro pairs d hk hne hkeys hd hsmall
    refine ⟨hk ▸ (parse_documents_small strtod pairs d hne hkeys hd hsmall).2, ?_⟩
    show serializeKeyValues to_chars stored 0 = _
    rw [hkv 0, hk, List.flatMap_map]
    apply List.flatMap_congr
    intro p hp
    simp only [storedPair, pairLine, indentation, Nat.mul_zero, List.replicate_zero,
      List.nil_append, serializeKey_identifier p.1 (hkeys p hp), serializeValue]

/-- C12 on the keys `z`, `a`, `m`: the document `{z:1,a:2,m:3}` parses, and
its entries stored in the order `m`, `z`, `a` are written as the lines
`z: 1e0`, `a: 2e0`, `m: 3e0`. -/
theorem key_order_survives_storage_witness :
    parse (fun t => t) [123, 122, 58, 49, 44, 97, 58, 50, 44, 109, 58, 51, 125] 5
        = .ok (.object [⟨[122], 0, .number [49, 101, 48]⟩, ⟨[97], 1, .number [50, 101, 48]⟩,
            ⟨[109], 2, .number [51, 101, 48]⟩]) ∧
      serialize (fun t => t) (.object [⟨[109], 2, .number [51, 101, 48]⟩,
          ⟨[122], 0, .number [49, 101, 48]⟩, ⟨[97], 1, .number [50, 101, 48]⟩])
        = [122, 58, 32, 49, 101, 48, 10, 97, 58, 32, 50, 101, 48, 10,
            109, 58, 32, 51, 101, 48, 10] :=
  (key_order_survives_storage (fun t => t) (fun t => t)
    [([122], .number [49, 101, 48]), ([97], .number [50, 101, 48]),
      ([109], .number [51, 101, 48])]
    [⟨[109], 2, .number [51, 101, 48]⟩, ⟨[122], 0, .number [49, 101, 48]⟩,
      ⟨[97], 1, .number [50, 101, 48]⟩] 0 (by decide)
    (List.perm_append_comm :
      ([⟨[109], 2, .number [51, 101, 48]⟩] ++ [⟨[122], 0, .number [49, 101, 48]⟩,
        ⟨[97], 1, .number [50, 101, 48]⟩] : List (Entry (Value (List Nat)))).Perm _)).2.2.2.2
    [([122], 1), ([97], 2), ([109], 3)] 5 rfl (by simp) (by decide) (by decide) (by decide)

/-! ## C13: duplicate keys -/

/-- C13. Duplicate keys overwrite. Let an object be built the way the
parser builds it, by storing the pairs `kvs` in reading order (a key may
occur several times), and let `stored` hold its entries in any iteration
order. Then for the last occurrence of a key, at position `pre.length` with
value `v`, the object holds exactly one entry with that key; its value is
`v` and its sequence number is `pre.length`. The serializer writes one line
per key, placed by the last occurrence of the key. The documents of pairs
with identifier keys and integers below `2^53` parse successfully to this
object whether or not keys repeat. -/
theorem duplicate_keys_overwrite {F : Type} (strtod : List Nat → F)
    (to_chars : F → List Nat) (kvs : List (List Nat × Value F))
    (stored : List (Entry (Value F))) (indent : Nat)
    (hperm : stored.Perm (insertAll [] 0 kvs)) :
    (∀ (pre post : List (List Nat × Value F)) (k : List Nat) (v : Value F),
        kvs = pre ++ (k, v) :: post → recurs k post = false →
        stored.filter (fun e => e.key == k) = [⟨k, pre.length, v⟩]) ∧
      serializeKeyValues to_chars stored indent
        = (lastEntries 0 kvs).flatMap (fun e => pairLine to_chars indent e.key e.value) ∧
      (∀ (pairs : List (List Nat × Int)) (d : Int), kvs = pairs.map (storedPair strtod) →
        pairs ≠ [] → (∀ p ∈ pairs, isIdentifier p.1 = true) → 2 ≤ d →
        (∀ p ∈ pairs, p.2.natAbs < 2 ^ 53) →
        parse strtod (bareDocument pairs) d = .ok (.object (insertAll [] 0 kvs)) ∧
        parse strtod (bracedDocument pairs) d = .ok (.object (insertAll [] 0 kvs))) := by
  have hp : stored.Perm (lastEntries 0 kvs) := by
    have := insertAll_perm kvs [] 0 List.Pairwise.nil
    simpa using hperm.trans this
  refine ⟨fun pre post k v hk hpost => ?_,
    serializeKeyValues_of_perm to_chars indent kvs stored hperm, ?_⟩
  · have h1 := hp.filter (fun e => e.key == k)
    rw [hk, lastEntries_filter_key k v post hpost pre 0, Nat.zero_add] at h1
    exact List.perm_singleton.mp h1
  · intro pairs d hk hne hkeys hd hsmall
    rw [hk]
    exact parse_documents_small strtod pairs d hne hkeys hd hsmall

/-- C13 on the document `{z:1,a:2,m:3,z:4}`: it parses, the object holds
one entry for `z` with the value `4` and the sequence number 3, and the
entries stored in the order `m`, `z`, `a` are written as the lines `a: 2e0`,
`m: 3e0`, `z: 4e0`. -/
theorem duplicate_keys_overwrite_witness :
    parse (fun t => t)
        [123, 122, 58, 49, 44, 97, 58, 50, 44, 109, 58, 51, 44, 122, 58, 52, 125] 5
        = .ok (.object [⟨[122], 3, .number [52, 101, 48]⟩, ⟨[97], 1, .number [50, 101, 48]⟩,
            ⟨[109], 2, .number [51, 101, 48]⟩]) ∧
      ([⟨[109], 2, .number [51, 101, 48]⟩, ⟨[122], 3, .number [52, 101, 48]⟩,
          ⟨[97], 1, .number [50, 101, 48]⟩] : List (Entry (Value (List Nat)))).filter
          (fun e => e.key == [122])
        = [⟨[122], 3, .number [52, 101, 48]⟩] ∧
      serializeKeyValues (fun t => t) [⟨[109], 2, .number [51, 101, 48]⟩,
          ⟨[122], 3, .number [52, 101, 48]⟩, ⟨[97], 1, .number [50, 101, 48]⟩] 0
        = [97, 58, 32, 50, 101, 48, 10, 109, 58, 32, 51, 101, 48, 10,
            122, 58, 32, 52, 101, 48, 10] :=
  have h := duplicate_keys_overwrite (fun t => t) (fun t => t)
    [([122], .number [49, 101, 48]), ([97], .number [50, 101, 48]),
      ([109], .number [51, 101, 48]), ([122], .number [52, 101, 48])]
    [⟨[109], 2, .number [51, 101, 48]⟩, ⟨[122], 3, .number [52, 101, 48]⟩,
      ⟨[97], 1, .number [50, 101, 48]⟩] 0
    (List.perm_append_comm :
      ([⟨[109], 2, .number [51, 101, 48]⟩] ++ [⟨[122], 3, .number [52, 101, 48]⟩,
        ⟨[97], 1, .number [50, 101, 48]⟩] : List (Entry (Value (List Nat)))).Perm _)
  ⟨(h.2.2 [([122], 1), ([97], 2), ([109], 3), ([122], 4)] 5 rfl (by simp) (by decide)
      (by decide) (by decide)).2,
    h.1 [([122], .number [49, 101, 48]), ([97], .number [50, 101, 48]),
      ([109], .number [51, 101, 48])] [] [122] (.number [52, 101, 48]) rfl rfl,
    h.2.1⟩

/-! ## C16: keys outside the top level -/

theorem KeyToken.text_cons (tok : KeyToken) (h : tok.valid = true) (tail : List Nat) :
    ∃ c i, tok.text ++ tail = c :: i ∧ isTokenByte c = true ∧ c ≠ 93 := by
  cases tok with
  | bare k =>
    cases k with
    | nil => simp [KeyToken.valid, isIdentifier] at h
    | cons c cs =>
      simp only [KeyToken.valid, isIdentifier, Bool.and_eq_true] at h
      refine ⟨c, cs ++ tail, rfl, (isFirstIdent_facts c h.1).1, ?_⟩
      have := h.1
      simp only [isFirstIdent, Bool.or_eq_true, Bool.and_eq_true, decide_eq_true_eq,
        beq_iff_eq] at this
      omega
  | quoted s => exact ⟨34, s ++ [34] ++ tail, by simp [KeyToken.text], by decide, by decide⟩

theorem parseValue_keyToken {F : Type} (strtod : List Nat → F) (tok : KeyToken)
    (h : tok.valid = true) (f : Nat) (rest : List Nat) (loc : Location) (d : Int)
    (hd : ¬ d ≤ 0) :
    ∃ loc',
      parseValue strtod (f + 1) ⟨tok.text ++ 58 :: rest, loc⟩ d true
          = (match parseKeyValuePairsAfterKey strtod f ⟨58 :: rest, loc'⟩ tok.key [] 0
              (d - 1) with
            | .error e => .error e
            | .outOfFuel => .outOfFuel
            | .ok (obj, r3) => .ok (.object obj, r3)) ∧
        ((∃ e, parseValue strtod (f + 1) ⟨tok.text ++ 58 :: rest, loc⟩ d false = .error e) ∨
          ∃ v, parseValue strtod (f + 1) ⟨tok.text ++ 58 :: rest, loc⟩ d false
              = .ok (v, ⟨58 :: rest, loc'⟩) ∧ ∀ obj, v ≠ .object obj) := by
  cases tok with
  | bare k =>
    simp only [KeyToken.valid] at h
    obtain ⟨c, cs, hk⟩ : ∃ c cs, k = c :: cs := by
      cases k with
      | nil => simp [isIdentifier] at h
      | cons c cs => exact ⟨c, cs, rfl⟩
    have hc : isFirstIdent c ∧ cs.all isIdent = true := by
      rw [hk] at h; simpa only [isIdentifier, Bool.and_eq_true] using h
    have hcf := isFirstIdent_facts c hc.1
    have hid := parseIdentifier_key k rest loc h
    rw [hk, List.cons_append] at hid
    have hp2 : (cs ++ 58 :: rest).head? ≠ some 34 ∧ (cs ++ 58 :: rest).head? ≠ some 35 := by
      cases cs with
      | nil => simp
      | cons x xs =>
        have hx : isIdent x = true := by have := hc.2; simp at this; exact this.1
        simp only [isIdent, Bool.or_eq_true, Bool.and_eq_true, decide_eq_true_eq,
          beq_iff_eq] at hx
        simp only [List.cons_append, List.head?_cons, ne_eq, Option.some.injEq]
        omega
    have hstart : ∀ tl, parseValue strtod (f + 1) ⟨c :: (cs ++ 58 :: rest), loc⟩ d tl
        = if tl = true then
            (match parseKeyValuePairsAfterKey strtod f ⟨58 :: rest, loc.right (c :: cs).length⟩
                (c :: cs) [] 0 (d - 1) with
              | .error e => .error e
              | .outOfFuel => .outOfFuel
              | .ok (obj, r3) => .ok (.object obj, r3))
          else
            (match (keywordValue loc (c :: cs) : Result (Value F)) with
              | .ok v => .ok (v, ⟨58 :: rest, loc.right (c :: cs).length⟩)
              | .error e => .error e
              | .outOfFuel => .outOfFuel) := by
      intro tl
      rw [parseValue]
      simp only [hd, Reader.peek, Reader.peek2, List.head?_cons, List.tail_cons, if_false,
        reduceCtorEq, Option.some.injEq, hcf.2.1, hcf.2.2.1, hcf.2.2.2.1, hp2.1, hp2.2, or_self,
        and_false, Option.any_some, hcf.2.2.2.2.1, hcf.2.2.2.2.2.1, hcf.2.2.2.2.2.2.1,
        hcf.2.2.2.2.2.2.2.2, decide_False, Bool.false_eq_true, hid, if_true,
        skipWhitespace_token 58 _ _ (by decide : isTokenByte 58 = true)]
    refine ⟨loc.right (c :: cs).length, ?_, ?_⟩
    · simp only [KeyToken.text, KeyToken.key, hk, List.cons_append]
      rw [hstart true]
      simp only [if_true]
    · simp only [KeyToken.text, hk, List.cons_append]
      rw [hstart false]
      simp only [Bool.false_eq_true, if_false]
      cases hkw : (keywordValue loc (c :: cs) : Result (Value F)) with
      | ok v =>
        right
        exact ⟨v, rfl, fun obj hv => keywordValue_ne_object loc (c :: cs) obj (hv ▸ hkw)⟩
      | error e => left; exact ⟨e, rfl⟩
      | outOfFuel =>
        exfalso
        unfold keywordValue at hkw
        split_ifs at hkw
  | quoted s =>
    simp only [KeyToken.valid, List.all_eq_true, Bool.and_eq_true, bne_iff_ne, ne_eq] at h
    have hstr : parseString ⟨34 :: (s ++ 34 :: 58 :: rest), loc⟩
        = .ok (s, ⟨58 :: rest, (((loc.next 34).after s).next 34)⟩) := by
      unfold parseString
      simp only [Reader.get_cons, Reader.fuel]
      have e : (s ++ 34 :: 58 :: rest).length + 1 = ((58 :: rest).length + 1 + 1) + s.length := by
        simp; omega
      rw [e, parseStringLoop_plain s _ (34 :: 58 :: rest) [] _ h, parseStringLoop]
      simp [Reader.get_cons]
    have hstart : ∀ tl, parseValue strtod (f + 1) ⟨34 :: (s ++ 34 :: 58 :: rest), loc⟩ d tl
        = if tl = true then
            (match parseKeyValuePairsAfterKey strtod f
                ⟨58 :: rest, (((loc.next 34).after s).next 34)⟩ s [] 0 (d - 1) with
              | .error e => .error e
              | .outOfFuel => .outOfFuel
              | .ok (obj, r3) => .ok (.object obj, r3))
          else .ok (.string s, ⟨58 :: rest, (((loc.next 34).after s).next 34)⟩) := by
      intro tl
      rw [parseValue]
      simp only [hd, Reader.peek, List.head?_cons, if_false, reduceCtorEq, Option.some.injEq,
        Nat.reduceEqDiff, if_true, hstr,
        skipWhitespace_token 58 _ _ (by decide : isTokenByte 58 = true)]
    have htext : (KeyToken.quoted s).text ++ 58 :: rest = 34 :: (s ++ 34 :: 58 :: rest) := by
      simp [KeyToken.text]
    refine ⟨((loc.next 34).after s).next 34, ?_, ?_⟩
    · rw [htext, hstart true]
      simp only [if_true, KeyToken.key]
    · right
      refine ⟨.string s, ?_, fun obj hv => (by cases hv)⟩
      rw [htext, hstart false]
      simp only [Bool.false_eq_true, if_false]

theorem parseValue_keyToken_element {F : Type} (strtod : List Nat → F) (tok : KeyToken)
    (h : tok.valid = true) (f : Nat) (rest : List Nat) (loc : Location) (d : Int) :
    (∃ e, parseValue strtod (f + 1) ⟨tok.text ++ 58 :: rest, loc⟩ d false = .error e) ∨
      ∃ v loc', parseValue strtod (f + 1) ⟨tok.text ++ 58 :: rest, loc⟩ d false
        = .ok (v, ⟨58 :: rest, loc'⟩) := by
  by_cases hd : d ≤ 0
  · exact Or.inl ⟨_, parseValue_depth_zero strtod f _ d false hd⟩
  · obtain ⟨loc', -, he | ⟨v, hv, -⟩⟩ := parseValue_keyToken strtod tok h f rest loc d hd
    · exact Or.inl he
    · exact Or.inr ⟨v, loc', hv⟩

theorem parseArrayLoop_colon {F : Type} (strtod : List Nat → F) (f : Nat) (r : Reader)
    (arr : List (Value F)) (depth : Int) (rest : List Nat)
    (h : (∃ e, parseValue strtod f r depth false = .error e) ∨
      ∃ v loc, parseValue strtod f r depth false = .ok (v, ⟨58 :: rest, loc⟩)) :
    ∃ e, parseArrayLoop strtod (f + 1) r arr depth = .error e := by
  rw [parseArrayLoop]
  rcases h with ⟨e, he⟩ | ⟨v, loc, hv⟩
  · exact ⟨e, by rw [he]⟩
  · refine ⟨error loc .expectedSeparatorArray, ?_⟩
    rw [hv]
    simp [skipSep_token 58 rest loc (by decide), Reader.peek]

theorem parseKeyValuePairsAfterKey_colon {F : Type} (strtod : List Nat → F) (f : Nat)
    (c : Nat) (i rest : List Nat) (loc : Location) (key : List Nat)
    (obj : List (Entry (Value F))) (index : Nat) (depth : Int) (hc : isTokenByte c = true)
    (h : (∃ e, parseValue strtod f ⟨c :: i, loc.right 2⟩ depth false = .error e) ∨
      ∃ v loc', parseValue strtod f ⟨c :: i, loc.right 2⟩ depth false
        = .ok (v, ⟨58 :: rest, loc'⟩)) :
    ∃ e, parseKeyValuePairsAfterKey strtod (f + 1) ⟨58 :: 32 :: c :: i, loc⟩ key obj index depth
      = .error e := by
  have hws : skipWhitespace ⟨32 :: c :: i, loc.next 58⟩ = .ok ⟨c :: i, loc.right 2⟩ := by
    rw [skipWhitespace_space c i _ hc, Location.next_eq_right loc 58 (by decide),
      Location.right_right]
  rw [parseKeyValuePairsAfterKey]
  simp only [Reader.peek, List.head?_cons, ne_eq, not_true_eq_false, if_false, Reader.get_cons,
    hws]
  rcases h with ⟨e, he⟩ | ⟨v, loc', hv⟩
  · exact ⟨e, by rw [he]⟩
  · refine ⟨error loc' .expectedSeparatorObject, ?_⟩
    rw [hv]
    simp [skipSep_token 58 rest loc' (by decide), skipWhitespace_token 58 rest loc' (by decide),
      Reader.peek]

theorem parse_array_key_fails {F : Type} (strtod : List Nat → F) (tok : KeyToken)
    (h : tok.valid = true) (rest : List Nat) (d : Int) :
    ∃ e, parse strtod (91 :: (tok.text ++ 58 :: rest)) d = .error e := by
  obtain ⟨f, hf⟩ : ∃ f, parseFuel (91 :: (tok.text ++ 58 :: rest)).length = f + 4 :=
    ⟨parseFuel (91 :: (tok.text ++ 58 :: rest)).length - 4, by simp [parseFuel]⟩
  suffices hs : ∃ e, parseValue strtod (f + 4) ⟨91 :: (tok.text ++ 58 :: rest), ⟨1, 1⟩⟩ d true
      = .error e by
    obtain ⟨e, he⟩ := hs
    exact ⟨e, parse_of_parseValue_error strtod 91 _ d e (by decide) (by rw [hf, he])⟩
  by_cases hd : d ≤ 0
  · exact ⟨_, parseValue_depth_zero strtod (f + 3) _ d true hd⟩
  obtain ⟨c, i, hci, hc, hc93⟩ := KeyToken.text_cons tok h (58 :: rest)
  obtain ⟨e, he⟩ := parseArrayLoop_colon strtod (f + 1) ⟨tok.text ++ 58 :: rest,
    Location.next ⟨1, 1⟩ 91⟩ [] (d - 1) rest
    (parseValue_keyToken_element strtod tok h f rest _ (d - 1))
  refine ⟨e, ?_⟩
  rw [parseValue, parseArray]
  rw [hci] at he ⊢
  simp only [hd, if_false, Reader.peek, List.head?_cons, reduceCtorEq, ne_eq,
    not_true_eq_false, Reader.get_cons, skipWhitespace_token c i _ hc, Option.some.injEq, hc93,
    if_true, he]

theorem parse_value_key_fails {F : Type} (strtod : List Nat → F) (tok0 tok : KeyToken)
    (h0 : tok0.valid = true) (h : tok.valid = true) (rest : List Nat) (d : Int) :
    ∃ e, parse strtod (tok0.text ++ 58 :: 32 :: (tok.text ++ 58 :: rest)) d = .error e := by
  obtain ⟨c0, i0, hci0, hc0, -⟩ :=
    KeyToken.text_cons tok0 h0 (58 :: 32 :: (tok.text ++ 58 :: rest))
  obtain ⟨f, hf⟩ : ∃ f,
      parseFuel (tok0.text ++ 58 :: 32 :: (tok.text ++ 58 :: rest)).length = f + 3 :=
    ⟨parseFuel (tok0.text ++ 58 :: 32 :: (tok.text ++ 58 :: rest)).length - 3, by
      simp [parseFuel]⟩
  suffices hs : ∃ e, parseValue strtod (f + 3)
      ⟨tok0.text ++ 58 :: 32 :: (tok.text ++ 58 :: rest), ⟨1, 1⟩⟩ d true = .error e by
    obtain ⟨e, he⟩ := hs
    rw [hci0] at he hf ⊢
    exact ⟨e, parse_of_parseValue_error strtod c0 _ d e hc0 (by rw [hf, he])⟩
  by_cases hd : d ≤ 0
  · exact ⟨_, parseValue_depth_zero strtod (f + 2) _ d true hd⟩
  obtain ⟨loc', htop, -⟩ := parseValue_keyToken strtod tok0 h0 (f + 2)
    (32 :: (tok.text ++ 58 :: rest)) ⟨1, 1⟩ d hd
  obtain ⟨c, i, hci, hc, -⟩ := KeyToken.text_cons tok h (58 :: rest)
  have helem := parseValue_keyToken_element strtod tok h f rest (loc'.right 2) (d - 1)
  rw [hci] at helem
  obtain ⟨e, he⟩ := parseKeyValuePairsAfterKey_colon strtod (f + 1) c i rest loc' tok0.key [] 0
    (d - 1) hc helem
  refine ⟨e, ?_⟩
  rw [htop, hci, he]

theorem parse_top_level_key {F : Type} (strtod : List Nat → F) (tok : KeyToken)
    (h : tok.valid = true) (d : Int) (hd : 2 ≤ d) :
    parse strtod (tok.text ++ 58 :: 32 :: [49]) d
      = .ok (.object [⟨tok.key, 0, .number (strtod [49, 101, 48])⟩]) := by
  obtain ⟨c, i, hci, hc, -⟩ := KeyToken.text_cons tok h (58 :: 32 :: [49])
  obtain ⟨f, hf⟩ : ∃ f, parseFuel (tok.text ++ 58 :: 32 :: [49]).length = f + 3 :=
    ⟨parseFuel (tok.text ++ 58 :: 32 :: [49]).length - 3, by simp [parseFuel]⟩
  obtain ⟨loc', htop, -⟩ := parseValue_keyToken strtod tok h (f + 2) (32 :: [49]) ⟨1, 1⟩ d
    (by omega)
  have hloop := parseKeyValuePairsAfterKey_pairs strtod [32] 10 [] (d - 1) (Or.inr rfl)
    (Or.inr rfl) (Or.inl rfl) [] (tok.key, 1) (f + 2) loc' ([] : List (Entry (Value F))) 0
    (by simp) (by simp)
  rw [expectedObject_small strtod (d - 1) (by omega) [(tok.key, 1)] [] 0
    (by intro p hp; simp at hp; subst hp; show (1 : Int).natAbs < 2 ^ 53; decide)] at hloop
  obtain ⟨loc2, hok⟩ := hloop
  have hok' : parseKeyValuePairsAfterKey strtod (f + 2) ⟨58 :: 32 :: [49], loc'⟩ tok.key [] 0
      (d - 1) = .ok ([⟨tok.key, 0, .number (strtod [49, 101, 48])⟩], ⟨[], loc2⟩) := hok
  rw [hok'] at htop
  rw [hci] at htop hf ⊢
  exact parse_of_parseValue_ok strtod c i d _ loc2 hc (by rw [hf, htop])

/-- C16. Bare-object reinterpretation is top-level only. Let `tok` be a key
token, an identifier or a quoted string. As the first token of the document,
`tok: 1` parses to the Object with the one key. As an array element
(`[tok: ...`) or as the value of a key (`tok0: tok: ...`) it makes the parse
fail, whatever follows and whatever the depth limit: `["a": 1]` reports a
missing separator and `a: b: 1` an unexpected keyword. In general a call of
`parseValue` that is not at the top level returns an Object only when the
reader stands on an opening brace. -/
theorem bare_object_top_level_only {F : Type} (strtod : List Nat → F) (tok0 tok : KeyToken)
    (rest : List Nat) (d : Int) (h0 : tok0.valid = true) (h : tok.valid = true) :
    (∃ e, parse strtod (91 :: (tok.text ++ 58 :: rest)) d = .error e) ∧
      (∃ e, parse strtod (tok0.text ++ 58 :: 32 :: (tok.text ++ 58 :: rest)) d = .error e) ∧
      (2 ≤ d → parse strtod (tok.text ++ 58 :: 32 :: [49]) d
        = .ok (.object [⟨tok.key, 0, .number (strtod [49, 101, 48])⟩])) ∧
      parse strtod [91, 34, 97, 34, 58, 32, 49, 93] 8
        = .error (error ⟨1, 5⟩ .expectedSeparatorArray) ∧
      parse strtod [97, 58, 32, 98, 58, 32, 49] 8 = .error (error ⟨1, 4⟩ .unexpectedKeyword) ∧
      (∀ (fuel : Nat) (r r' : Reader) (depth : Int) (obj : List (Entry (Value F))),
        parseValue strtod fuel r depth false = .ok (.object obj, r') → r.peek = some 123) :=
  ⟨parse_array_key_fails strtod tok h rest d, parse_value_key_fails strtod tok0 tok h0 h rest d,
    parse_top_level_key strtod tok h d, rfl, rfl,
    fun fuel r r' depth obj hv => (parseValue_object strtod fuel r depth false obj r' hv).2 rfl⟩

/-- C16 on the documents of the claim: `["a": 1]` and `a: b: 1` fail, while
`"a": 1` at the top level is the Object with the key `a`. -/
theorem bare_object_top_level_only_witness :
    (∃ e, parse (fun t => t) [91, 34, 97, 34, 58, 32, 49, 93] 8 = .error e) ∧
      (∃ e, parse (fun t => t) [97, 58, 32, 98, 58, 32, 49] 8 = .error e) ∧
      parse (fun t => t) [34, 97, 34, 58, 32, 49] 8
        = .ok (.object [⟨[97], 0, .number [49, 101, 48]⟩]) :=
  have h := bare_object_top_level_only (fun t => t) (.bare [97]) (.quoted [97]) [32, 49, 93] 8
    (by decide) (by decide)
  ⟨h.1, (bare_object_top_level_only (fun t => t) (.bare [97]) (.bare [98]) [32, 49] 8
    (by decide) (by decide)).2.1, h.2.2.1 (by decide)⟩

/-! ## Whitespace and comments -/

theorem skipBlockCommentLoop_body (body : List Nat) :
    ∀ (fuel : Nat) (rest : List Nat) (loc : Location),
      hasClose (body ++ [42]) = false → body.length + 1 ≤ fuel →
      skipBlockCommentLoop fuel ⟨body ++ 42 :: 47 :: rest, loc⟩
        = .ok ⟨rest, loc.after (body ++ [42, 47])⟩ := by
  induction body with
  | nil =>
    intro fuel rest loc _ hf
    obtain ⟨f, rfl⟩ : ∃ f, fuel = f + 1 := ⟨fuel - 1, by simp at hf; omega⟩
    rw [skipBlockCommentLoop]
    simp [Reader.get_cons, Reader.peek, Location.after]
  | cons b body ih =>
    intro fuel rest loc hc hf
    obtain ⟨f, rfl⟩ : ∃ f, fuel = f + 1 := ⟨fuel - 1, by simp at hf; omega⟩
    simp only [List.cons_append, hasClose, Bool.or_eq_false_iff, Bool.and_eq_false_imp,
      beq_iff_eq] at hc
    have hne : ¬ (b = 42 ∧ (body ++ 42 :: 47 :: rest).head? = some 47) := by
      rintro ⟨hb, hh⟩
      have := hc.1 hb
      cases body with
      | nil => simp at hh
      | cons x xs => simp at hh this; exact this hh
    rw [skipBlockCommentLoop]
    simp only [List.cons_append, Reader.get_cons, Reader.peek, hne, if_false]
    rw [ih f rest _ hc.2 (by simp at hf; omega)]
    simp [Location.after_cons]

theorem skipLineCommentLoop_body (body : List Nat) :
    ∀ (fuel : Nat) (rest : List Nat) (loc : Location),
      body.contains 10 = false → body.length + 1 ≤ fuel →
      skipLineCommentLoop fuel ⟨body ++ 10 :: rest, loc⟩
        = .ok ⟨rest, loc.after (body ++ [10])⟩ := by
  induction body with
  | nil =>
    intro fuel rest loc _ hf
    obtain ⟨f, rfl⟩ : ∃ f, fuel = f + 1 := ⟨fuel - 1, by simp at hf; omega⟩
    rw [skipLineCommentLoop]
    simp [Reader.get_cons, Location.after]
  | cons b body ih =>
    intro fuel rest loc hc hf
    obtain ⟨f, rfl⟩ : ∃ f, fuel = f + 1 := ⟨fuel - 1, by simp at hf; omega⟩
    have hb : b ≠ 10 ∧ body.contains 10 = false := by
      simp only [List.contains_cons, Bool.or_eq_false_iff, beq_eq_false_iff_ne, ne_eq] at hc
      exact ⟨fun h => hc.1 h.symm, hc.2⟩
    rw [skipLineCommentLoop]
    simp only [List.cons_append, Reader.get_cons, Option.some.injEq, hb.1, reduceCtorEq,
      or_self, if_false]
    rw [ih f rest _ hb.2 (by simp at hf; omega)]
    simp [Location.after_cons]

theorem skipLineCommentLoop_eof (body : List Nat) :
    ∀ (fuel : Nat) (loc : Location), body.contains 10 = false → body.length + 1 ≤ fuel →
      ∃ loc', skipLineCommentLoop fuel ⟨body, loc⟩ = .ok ⟨[], loc'⟩ := by
  induction body with
  | nil =>
    intro fuel loc _ hf
    obtain ⟨f, rfl⟩ : ∃ f, fuel = f + 1 := ⟨fuel - 1, by simp at hf; omega⟩
    rw [skipLineCommentLoop]
    simp [Reader.get, Reader.peek]
  | cons b body ih =>
    intro fuel loc hc hf
    obtain ⟨f, rfl⟩ : ∃ f, fuel = f + 1 := ⟨fuel - 1, by simp at hf; omega⟩
    have hb : b ≠ 10 ∧ body.contains 10 = false := by
      simp only [List.contains_cons, Bool.or_eq_false_iff, beq_eq_false_iff_ne, ne_eq] at hc
      exact ⟨fun h => hc.1 h.symm, hc.2⟩
    rw [skipLineCommentLoop]
    simp only [Reader.get_cons, Option.some.injEq, hb.1, reduceCtorEq, or_self, if_false]
    exact ih f _ hb.2 (by simp at hf; omega)

theorem skipWhitespaceLoop_blank (b : Blank) (hb : b.valid = true) (fuel : Nat)
    (tail : List Nat) (loc : Location) :
    skipWhitespaceLoop (fuel + 1) ⟨b.text ++ tail, loc⟩
      = skipWhitespaceLoop fuel ⟨tail, loc.after b.text⟩ := by
  cases b with
  | byte c =>
    simp only [Blank.valid, Bool.or_eq_true, beq_iff_eq] at hb
    rw [skipWhitespaceLoop]
    have hp : (c = 32 ∨ c = 13 ∨ c = 10 ∨ c = 9) := by omega
    simp [Blank.text, Reader.peek, hp, Reader.get_cons, Location.after]
  | line body =>
    simp only [Blank.valid, Bool.not_eq_true'] at hb
    rw [skipWhitespaceLoop]
    simp only [Blank.text, List.cons_append, Reader.peek, Reader.peek2, List.head?_cons,
      List.tail_cons, Option.some.injEq, Nat.reduceEqDiff, or_self, if_false, and_self, if_true,
      Reader.get_cons, Reader.fuel, List.append_assoc, List.singleton_append, List.nil_append]
    rw [skipLineCommentLoop_body body _ tail _ hb (by simp)]
    simp [Location.after_cons, Location.after_append]
  | block body =>
    simp only [Blank.valid, Bool.not_eq_true'] at hb
    rw [skipWhitespaceLoop]
    simp only [Blank.text, List.cons_append, Reader.peek, Reader.peek2, List.head?_cons,
      List.tail_cons, Option.some.injEq, Nat.reduceEqDiff, or_self, if_false, and_self, if_true,
      and_false, skipBlockComment, Reader.get_cons, Reader.fuel, List.append_assoc,
      List.nil_append]
    rw [skipBlockCommentLoop_body body _ tail _ hb (by simp)]
    simp [Location.after_cons, Location.after_append]

theorem skipWhitespaceLoop_blanks (bs : List Blank) :
    ∀ (fuel : Nat) (tail : List Nat) (loc : Location), (∀ b ∈ bs, b.valid = true) →
      skipWhitespaceLoop (fuel + bs.length) ⟨blankText bs ++ tail, loc⟩
        = skipWhitespaceLoop fuel ⟨tail, loc.after (blankText bs)⟩ := by
  induction bs with
  | nil => intro fuel tail loc _; simp [blankText, Location.after]
  | cons b bs ih =>
    intro fuel tail loc hv
    have e : fuel + (b :: bs).length = (fuel + bs.length) + 1 := by simp; omega
    rw [e, blankText, List.flatMap_cons, List.append_assoc,
      skipWhitespaceLoop_blank b (hv b (by simp)), ← blankText,
      ih fuel tail _ (fun x hx => hv x (by simp [hx])), Location.after_append]

theorem skipWhitespaceLoop_stop (fuel : Nat) (tail : List Nat) (loc : Location)
    (h : stopsWhitespace tail = true) :
    skipWhitespaceLoop (fuel + 1) ⟨tail, loc⟩ = .ok ⟨tail, loc⟩ := by
  rw [skipWhitespaceLoop]
  cases tail with
  | nil => simp [Reader.peek]
  | cons c t =>
    simp only [stopsWhitespace, Bool.and_eq_true, bne_iff_ne, ne_eq, Bool.not_eq_true',
      Bool.and_eq_false_imp, beq_iff_eq, Bool.or_eq_false_iff, beq_eq_false_iff_ne] at h
    obtain ⟨⟨⟨⟨h1, h2⟩, h3⟩, h4⟩, h5⟩ := h
    have h6 : ¬ (c = 47 ∧ t.head? = some 47) := fun hh => (h5 hh.1).1 hh.2
    have h7 : ¬ (c = 47 ∧ t.head? = some 42) := fun hh => (h5 hh.1).2 hh.2
    simp [Reader.peek, Reader.peek2, h1, h2, h3, h4, h6, h7]

theorem Blank.length_blankText (bs : List Blank) : bs.length ≤ (blankText bs).length := by
  induction bs with
  | nil => simp [blankText]
  | cons b bs ih =>
    simp only [blankText, List.flatMap_cons, List.length_append, List.length_cons] at ih ⊢
    cases b <;> simp only [Blank.text, List.length_cons, List.length_nil] <;> omega

theorem skipWhitespace_blankText (bs : List Blank) (tail : List Nat) (loc : Location)
    (hv : ∀ b ∈ bs, b.valid = true) (hs : stopsWhitespace tail = true) :
    skipWhitespace ⟨blankText bs ++ tail, loc⟩ = .ok ⟨tail, loc.after (blankText bs)⟩ := by
  have hlen := Blank.length_blankText bs
  obtain ⟨f, hf⟩ : ∃ f, (blankText bs ++ tail).length + 1 = (f + 1) + bs.length :=
    ⟨(blankText bs).length - bs.length + tail.length, by
      simp only [List.length_append]; omega⟩
  unfold skipWhitespace
  simp only [Reader.fuel]
  rw [hf, skipWhitespaceLoop_blanks bs (f + 1) tail loc hv, skipWhitespaceLoop_stop f tail _ hs]

theorem skipWhitespace_blankText_comment (bs : List Blank) (body : List Nat) (loc : Location)
    (hv : ∀ b ∈ bs, b.valid = true) (hb : body.contains 10 = false) :
    ∃ loc', skipWhitespace ⟨blankText bs ++ 47 :: 47 :: body, loc⟩ = .ok ⟨[], loc'⟩ := by
  have hlen := Blank.length_blankText bs
  obtain ⟨f, hf⟩ : ∃ f, (blankText bs ++ 47 :: 47 :: body).length + 1 = (f + 2) + bs.length :=
    ⟨(blankText bs).length - bs.length + body.length + 1, by
      simp only [List.length_append, List.length_cons]; omega⟩
  obtain ⟨loc', hl⟩ := skipLineCommentLoop_eof body (body.length + 1)
    (((loc.after (blankText bs)).next 47).next 47) hb (Nat.le_refl _)
  refine ⟨loc', ?_⟩
  unfold skipWhitespace
  simp only [Reader.fuel]
  rw [hf, skipWhitespaceLoop_blanks bs (f + 2) _ loc hv, skipWhitespaceLoop]
  simp only [Reader.peek, Reader.peek2, List.head?_cons, List.tail_cons, Option.some.injEq,
    Nat.reduceEqDiff, or_self, if_false, and_self, if_true, Reader.get_cons, Reader.fuel, hl]
  exact skipWhitespaceLoop_stop f [] loc' rfl

theorem skipLineCommentLoop_inv (fuel : Nat) :
    ∀ (r r' : Reader), skipLineCommentLoop fuel r = .ok r' →
      ∃ body, body.contains 10 = false ∧
        (r.input = body ++ 10 :: r'.input ∨ (r.input = body ∧ r'.input = [])) := by
  induction fuel with
  | zero => intro r r' h; simp [skipLineCommentLoop] at h
  | succ f ih =>
    intro r r' h
    obtain ⟨input, loc⟩ := r
    rw [skipLineCommentLoop] at h
    cases input with
    | nil =>
      simp only [Reader.get, Reader.peek, List.head?_nil, or_true, if_true, Result.ok.injEq] at h
      subst h
      exact ⟨[], rfl, Or.inr ⟨rfl, rfl⟩⟩
    | cons c t =>
      simp only [Reader.get_cons, Option.some.injEq, reduceCtorEq, or_false] at h
      by_cases hc : c = 10
      · simp only [hc, if_true, Result.ok.injEq] at h
        subst h
        exact ⟨[], rfl, Or.inl (by simp [hc])⟩
      · simp only [hc, if_false] at h
        obtain ⟨body, hb, hcase⟩ := ih _ r' h
        have hcb : (c :: body).contains 10 = false := by
          simp only [List.contains_cons, Bool.or_eq_false_iff, beq_eq_false_iff_ne, ne_eq]
          exact ⟨fun h10 => hc h10.symm, hb⟩
        refine ⟨c :: body, hcb, ?_⟩
        rcases hcase with h1 | ⟨h1, h2⟩
        · left; simp only [] at h1; simp [h1]
        · right; simp only [] at h1; exact ⟨by simp [h1], h2⟩

theorem skipBlockCommentLoop_inv (fuel : Nat) :
    ∀ (r r' : Reader), skipBlockCommentLoop fuel r = .ok r' →
      ∃ body, hasClose (body ++ [42]) = false ∧ r.input = body ++ 42 :: 47 :: r'.input := by
  induction fuel with
  | zero => intro r r' h; simp [skipBlockCommentLoop] at h
  | succ f ih =>
    intro r r' h
    obtain ⟨input, loc⟩ := r
    rw [skipBlockCommentLoop] at h
    cases input with
    | nil => simp [Reader.get, Reader.peek] at h
    | cons c t =>
      simp only [Reader.get_cons, Reader.peek] at h
      by_cases hc : c = 42 ∧ t.head? = some 47
      · simp only [hc, and_self, if_true, Result.ok.injEq] at h
        subst h
        cases t with
        | nil => simp at hc
        | cons x xs =>
          have hx : x = 47 := by simpa using hc.2
          exact ⟨[], by simp [hasClose], by simp [hc.1, hx, Reader.get, Reader.peek]⟩
      · simp only [hc, if_false] at h
        obtain ⟨body, hb, hin⟩ := ih _ r' h
        simp only [] at hin
        refine ⟨c :: body, ?_, by simp [hin]⟩
        simp only [List.cons_append, hasClose, Bool.or_eq_false_iff, Bool.and_eq_false_imp,
          beq_iff_eq]
        refine ⟨fun hc42 => ?_, hb⟩
        have hne : t.head? ≠ some 47 := fun hh => hc ⟨hc42, hh⟩
        rw [hin] at hne
        cases body with
        | nil => simp
        | cons x xs => simpa using hne

theorem skipWhitespaceLoop_inv (fuel : Nat) :
    ∀ (r r' : Reader), skipWhitespaceLoop fuel r = .ok r' →
      ∃ bs : List Blank, (∀ b ∈ bs, b.valid = true) ∧
        ((r.input = blankText bs ++ r'.input ∧ stopsWhitespace r'.input = true) ∨
          (r'.input = [] ∧ ∃ body, body.contains 10 = false ∧
            r.input = blankText bs ++ 47 :: 47 :: body)) := by
  induction fuel with
  | zero => intro r r' h; simp [skipWhitespaceLoop] at h
  | succ f ih =>
    intro r r' h
    obtain ⟨input, loc⟩ := r
    rw [skipWhitespaceLoop] at h
    cases input with
    | nil =>
      simp only [Reader.peek, Reader.peek2, List.head?_nil, reduceCtorEq, or_self, if_false,
        false_and, Result.ok.injEq] at h
      subst h
      exact ⟨[], by simp, Or.inl ⟨rfl, rfl⟩⟩
    | cons c t =>
      simp only [Reader.peek, Reader.peek2, List.head?_cons, List.tail_cons,
        Option.some.injEq] at h
      by_cases hws : c = 32 ∨ c = 13 ∨ c = 10 ∨ c = 9
      · simp only [hws, if_true, Reader.get_cons] at h
        obtain ⟨bs, hv, hcase⟩ := ih _ r' h
        have hvb : (Blank.byte c).valid = true := by
          simp only [Blank.valid, Bool.or_eq_true, beq_iff_eq]; omega
        refine ⟨.byte c :: bs, fun b hb => ?_, ?_⟩
        · rcases List.mem_cons.mp hb with rfl | hb
          · exact hvb
          · exact hv b hb
        · rcases hcase with ⟨h1, h2⟩ | ⟨h1, body, h2, h3⟩
          · left; simp only [] at h1; exact ⟨by simp [blankText, Blank.text, h1], h2⟩
          · right; simp only [] at h3
            exact ⟨h1, body, h2, by simp [blankText, Blank.text, h3]⟩
      · simp only [hws, if_false] at h
        by_cases hl : c = 47 ∧ t.head? = some 47
        · simp only [hl, and_self, if_true, Reader.get_cons] at h
          obtain ⟨hc47, hh47⟩ := hl
          subst hc47
          cases t with
          | nil => simp at hh47
          | cons x xs =>
            have hx : x = 47 := by simpa using hh47
            subst hx
            simp only [Reader.get_cons, Reader.fuel] at h
            cases hline : skipLineCommentLoop (xs.length + 1)
                ⟨xs, (Location.next (loc.next 47) 47)⟩ with
            | error e => simp [hline] at h
            | outOfFuel => simp [hline] at h
            | ok r1 =>
              simp only [hline] at h
              obtain ⟨body, hb, hcase1⟩ := skipLineCommentLoop_inv _ _ r1 hline
              obtain ⟨bs, hv, hcase⟩ := ih r1 r' h
              simp only [] at hcase1
              rcases hcase1 with h1 | ⟨h1, h2⟩
              · have hvb : (Blank.line body).valid = true := by
                  simp only [Blank.valid, hb, Bool.not_false]
                refine ⟨.line body :: bs, fun b hb' => ?_, ?_⟩
                · rcases List.mem_cons.mp hb' with rfl | hb'
                  · exact hvb
                  · exact hv b hb'
                · rcases hcase with ⟨h3, h4⟩ | ⟨h3, body2, h4, h5⟩
                  · left
                    exact ⟨by simp [blankText, Blank.text, h1, h3], h4⟩
                  · right
                    exact ⟨h3, body2, h4, by simp [blankText, Blank.text, h1, h5]⟩
              · have hr' : r'.input = [] := by
                  rcases hcase with ⟨h3, -⟩ | ⟨h3, -⟩
                  · rw [h2] at h3
                    have := congrArg List.length h3
                    simp only [List.length_nil, List.length_append] at this
                    exact List.eq_nil_of_length_eq_zero (by omega)
                  · exact h3
                exact ⟨[], by simp, Or.inr ⟨hr', body, hb, by simp [blankText, h1]⟩⟩
        · simp only [hl, if_false] at h
          by_cases hbk : c = 47 ∧ t.head? = some 42
          · simp only [hbk, and_self, if_true] at h
            obtain ⟨hc47, hh42⟩ := hbk
            subst hc47
            cases t with
            | nil => simp at hh42
            | cons x xs =>
              have hx : x = 42 := by simpa using hh42
              subst hx
              cases hblock : skipBlockComment ⟨47 :: 42 :: xs, loc⟩ with
              | error e => simp [hblock] at h
              | outOfFuel => simp [hblock] at h
              | ok r1 =>
                simp only [hblock] at h
                unfold skipBlockComment at hblock
                simp only [Reader.get_cons] at hblock
                obtain ⟨body, hb, h1⟩ := skipBlockCommentLoop_inv _ _ r1 hblock
                obtain ⟨bs, hv, hcase⟩ := ih r1 r' h
                simp only [] at h1
                have hvb : (Blank.block body).valid = true := by
                  simp only [Blank.valid, hb, Bool.not_false]
                refine ⟨.block body :: bs, fun b hb' => ?_, ?_⟩
                · rcases List.mem_cons.mp hb' with rfl | hb'
                  · exact hvb
                  · exact hv b hb'
                · rcases hcase with ⟨h3, h4⟩ | ⟨h3, body2, h4, h5⟩
                  · left
                    exact ⟨by simp [blankText, Blank.text, h1, h3], h4⟩
                  · right
                    exact ⟨h3, body2, h4, by simp [blankText, Blank.text, h1, h5]⟩
          · simp only [hbk, if_false, Result.ok.injEq] at h
            subst h
            refine ⟨[], by simp, Or.inl ⟨by simp [blankText], ?_⟩⟩
            simp only [stopsWhitespace, Bool.and_eq_true, bne_iff_ne, ne_eq, Bool.not_eq_true',
              Bool.and_eq_false_imp, beq_iff_eq, Bool.or_eq_false_iff, beq_eq_false_iff_ne]
            refine ⟨⟨⟨⟨?_, ?_⟩, ?_⟩, ?_⟩, fun h47 => ⟨fun hh => hl ⟨h47, hh⟩,
              fun hh => hbk ⟨h47, hh⟩⟩⟩ <;> omega

theorem skipWhitespace_eof_iff (r : Reader) :
    (∃ loc, skipWhitespace r = .ok ⟨[], loc⟩) ↔
      ∃ bs : List Blank, (∀ b ∈ bs, b.valid = true) ∧
        (r.input = blankText bs ∨
          ∃ body, body.contains 10 = false ∧ r.input = blankText bs ++ 47 :: 47 :: body) := by
  obtain ⟨input, loc⟩ := r
  constructor
  · rintro ⟨loc', h⟩
    obtain ⟨bs, hv, hcase⟩ := skipWhitespaceLoop_inv _ _ _ h
    refine ⟨bs, hv, ?_⟩
    rcases hcase with ⟨h1, -⟩ | ⟨-, body, h2, h3⟩
    · left; simpa using h1
    · right; exact ⟨body, h2, h3⟩
  · rintro ⟨bs, hv, h1 | ⟨body, h2, h3⟩⟩
    · simp only [] at h1
      subst h1
      have := skipWhitespace_blankText bs [] loc hv rfl
      rw [List.append_nil] at this
      exact ⟨_, this⟩
    · simp only [] at h3
      subst h3
      exact skipWhitespace_blankText_comment bs body loc hv h2

/-! ## C11: trailing garbage -/

/-- C11. Trailing garbage detection. When `parse` succeeds, `parseValue` has
read the top-level value and what it left unread is blank text: whitespace
bytes, line comments and block comments, possibly ending in a line comment
that the end of the input closes. Given the value that `parseValue` read,
`parse` succeeds exactly when the unread rest is such blank text; and when
blank text is followed by a byte that is neither whitespace nor the opening
of a comment, `parse` fails with the trailing-garbage error at the location
of that byte. The document `1 2` fails in this way at column 3; a block
comment that is not closed is reported as `Unexpected EOF` instead. -/
theorem trailing_garbage_detection {F : Type} (strtod : List Nat → F) (input : List Nat)
    (d : Int) (v : Value F) (r0 r1 : Reader)
    (h0 : skipWhitespace (Reader.init input) = .ok r0)
    (hv : parseValue strtod (parseFuel input.length) r0 d true = .ok (v, r1)) :
    (parse strtod input d = .ok v ↔
        ∃ bs : List Blank, (∀ b ∈ bs, b.valid = true) ∧
          (r1.input = blankText bs ∨
            ∃ body, body.contains 10 = false ∧ r1.input = blankText bs ++ 47 :: 47 :: body)) ∧
      (∀ (bs : List Blank) (c : Nat) (t : List Nat), (∀ b ∈ bs, b.valid = true) →
        r1.input = blankText bs ++ c :: t → stopsWhitespace (c :: t) = true →
        parse strtod input d = .error (error (r1.loc.after (blankText bs)) .trailingGarbage)) ∧
      (∀ (input' : List Nat) (d' : Int) (v' : Value F), parse strtod input' d' = .ok v' →
        ∃ (r0' r1' : Reader) (bs : List Blank),
          skipWhitespace (Reader.init input') = .ok r0' ∧
          parseValue strtod (parseFuel input'.length) r0' d' true = .ok (v', r1') ∧
          (∀ b ∈ bs, b.valid = true) ∧
          (r1'.input = blankText bs ∨
            ∃ body, body.contains 10 = false ∧ r1'.input = blankText bs ++ 47 :: 47 :: body)) ∧
      parse strtod [49, 32, 50] 8 = .error (error ⟨1, 3⟩ .trailingGarbage) ∧
      parse strtod [49, 32, 47, 42] 8 = .error (error ⟨1, 6⟩ .unexpectedEOF) := by
  have hparse : parse strtod input d
      = match skipWhitespace r1 with
        | .error e => .error e
        | .outOfFuel => .outOfFuel
        | .ok r2 => if r2.peek ≠ none then .error (error r2.loc .trailingGarbage) else .ok v := by
    unfold parse
    simp only [h0, hv]
  refine ⟨?_, ?_, ?_, rfl, rfl⟩
  · rw [← skipWhitespace_eof_iff r1, hparse]
    constructor
    · intro h
      cases hs : skipWhitespace r1 with
      | error e => rw [hs] at h; cases h
      | outOfFuel => rw [hs] at h; cases h
      | ok r2 =>
        obtain ⟨i2, l2⟩ := r2
        rw [hs] at h
        cases i2 with
        | nil => exact ⟨l2, rfl⟩
        | cons c t => simp [Reader.peek] at h
    · rintro ⟨loc, hs⟩
      rw [hs]
      simp [Reader.peek]
  · intro bs c t hvb hin hstop
    obtain ⟨i1, l1⟩ := r1
    simp only [] at hin
    subst hin
    rw [hparse, skipWhitespace_blankText bs (c :: t) l1 hvb hstop]
    simp [Reader.peek]
  · intro input' d' v' h
    unfold parse at h
    cases h0' : skipWhitespace (Reader.init input') with
    | error e => rw [h0'] at h; cases h
    | outOfFuel => rw [h0'] at h; cases h
    | ok r0' =>
      rw [h0'] at h
      simp only [] at h
      cases hv' : parseValue strtod (parseFuel input'.length) r0' d' true with
      | error e => rw [hv'] at h; cases h
      | outOfFuel => rw [hv'] at h; cases h
      | ok p =>
        obtain ⟨w, r1'⟩ := p
        rw [hv'] at h
        simp only [] at h
        cases hs : skipWhitespace r1' with
        | error e => rw [hs] at h; cases h
        | outOfFuel => rw [hs] at h; cases h
        | ok r2 =>
          obtain ⟨i2, l2⟩ := r2
          rw [hs] at h
          cases i2 with
          | cons c t => simp [Reader.peek] at h
          | nil =>
            simp only [Reader.peek, List.head?_nil, ne_eq, not_true_eq_false, if_false,
              Result.ok.injEq] at h
            subst h
            obtain ⟨bs, hb, hcase⟩ := (skipWhitespace_eof_iff r1').mp ⟨l2, hs⟩
            exact ⟨r0', r1', bs, rfl, hv', hb, hcase⟩

/-- C11 on the document `1 2`: the value `1` is read, a blank and the byte
`2` follow, and the parse fails with trailing garbage at line 1, column 3. -/
theorem trailing_garbage_detection_witness :
    parse (fun t => t) [49, 32, 50] 8 = .error (error ⟨1, 3⟩ .trailingGarbage) ∧
      (parse (fun t => t) [49, 32, 50] 8 = .ok (.number [49, 101, 48]) ↔
        ∃ bs : List Blank, (∀ b ∈ bs, b.valid = true) ∧
          ([32, 50] = blankText bs ∨
            ∃ body, body.contains 10 = false ∧ [32, 50] = blankText bs ++ 47 :: 47 :: body)) :=
  have h := trailing_garbage_detection (fun t => t) [49, 32, 50] 8 (.number [49, 101, 48])
    ⟨[49, 32, 50], ⟨1, 1⟩⟩ ⟨[32, 50], ⟨1, 2⟩⟩ rfl rfl
  ⟨h.2.1 [.byte 32] 50 [] (by decide) rfl rfl, h.1⟩

/-! ## C15: separators between elements -/

theorem skipSpaceLoop_blank (b : Blank) (hb : b.inline = true) (fuel : Nat)
    (tail : List Nat) (loc : Location) :
    skipSpaceLoop (fuel + 1) ⟨b.text ++ tail, loc⟩
      = skipSpaceLoop fuel ⟨tail, loc.after b.text⟩ := by
  cases b with
  | byte c =>
    simp only [Blank.inline, Bool.or_eq_true, beq_iff_eq] at hb
    rw [skipSpaceLoop]
    simp [Blank.text, Reader.peek, hb, Reader.get_cons, Location.after]
  | line body => simp [Blank.inline] at hb
  | block body =>
    simp only [Blank.inline, Bool.not_eq_true'] at hb
    rw [skipSpaceLoop]
    simp only [Blank.text, List.cons_append, Reader.peek, Reader.peek2, List.head?_cons,
      List.tail_cons, Option.some.injEq, Nat.reduceEqDiff, or_self, if_false, and_self, if_true,
      skipBlockComment, Reader.get_cons, Reader.fuel, List.append_assoc, List.nil_append]
    rw [skipBlockCommentLoop_body body _ tail _ hb (by simp)]
    simp [Location.after_cons, Location.after_append]

theorem skipSpaceLoop_blanks (bs : List Blank) :
    ∀ (fuel : Nat) (tail : List Nat) (loc : Location), (∀ b ∈ bs, b.inline = true) →
      skipSpaceLoop (fuel + bs.length) ⟨blankText bs ++ tail, loc⟩
        = skipSpaceLoop fuel ⟨tail, loc.after (blankText bs)⟩ := by
  induction bs with
  | nil => intro fuel tail loc _; simp [blankText, Location.after]
  | cons b bs ih =>
    intro fuel tail loc hv
    have e : fuel + (b :: bs).length = (fuel + bs.length) + 1 := by simp; omega
    rw [e, blankText, List.flatMap_cons, List.append_assoc,
      skipSpaceLoop_blank b (hv b (by simp)), ← blankText,
      ih fuel tail _ (fun x hx => hv x (by simp [hx])), Location.after_append]

theorem skipSpace_gap (gap : List Blank) (c : Nat) (t : List Nat) (loc : Location)
    (hg : ∀ b ∈ gap, b.inline = true) (hc : c ≠ 32 ∧ c ≠ 9 ∧ c ≠ 47) :
    skipSpace ⟨blankText gap ++ c :: t, loc⟩ = .ok ⟨c :: t, loc.after (blankText gap)⟩ := by
  have hlen := Blank.length_blankText gap
  obtain ⟨f, hf⟩ : ∃ f, (blankText gap ++ c :: t).length + 1 = (f + 1) + gap.length :=
    ⟨(blankText gap).length - gap.length + (c :: t).length, by
      simp only [List.length_append]; omega⟩
  unfold skipSpace
  simp only [Reader.fuel]
  rw [hf, skipSpaceLoop_blanks gap (f + 1) (c :: t) loc hg, skipSpaceLoop]
  simp [Reader.peek, hc.1, hc.2.1, hc.2.2]

theorem skipSep_gap (gap : List Blank) (c : Nat) (t : List Nat) (loc : Location)
    (hg : ∀ b ∈ gap, b.inline = true) (hc : isTokenByte c = true) :
    skipSep ⟨blankText gap ++ c :: t, loc⟩
      = .ok (false, ⟨c :: t, loc.after (blankText gap)⟩) := by
  have h := (isTokenByte_iff c).mp hc
  unfold skipSep
  rw [skipSpace_gap gap c t loc hg ⟨by omega, by omega, by omega⟩]
  simp [Reader.peek, h]

theorem parseValue_small {F : Type} (strtod : List Nat → F) (fuel : Nat) (z : Int)
    (rest : List Nat) (loc : Location) (depth : Int) (tl : Bool) (hd : 1 ≤ depth)
    (hz : z.natAbs < 2 ^ 53) (hstop : numberStops 10 rest = true) :
    ∃ loc', parseValue strtod (fuel + 1) ⟨decimalInteger z ++ rest, loc⟩ depth tl
      = .ok (numberOf strtod z, ⟨rest, loc'⟩) := by
  have h := parseValue_decimal strtod fuel z rest loc depth tl hstop
  rw [expectedNumber_small strtod depth z hd hz] at h
  exact h

theorem parseArrayLoop_missing {F : Type} (strtod : List Nat → F) (f : Nat) (r : Reader)
    (arr : List (Value F)) (depth : Int) (v : Value F) (gap : List Blank) (c : Nat)
    (t : List Nat) (loc : Location) (hg : ∀ b ∈ gap, b.inline = true)
    (hc : isTokenByte c = true) (hc93 : c ≠ 93)
    (hv : parseValue strtod f r depth false = .ok (v, ⟨blankText gap ++ c :: t, loc⟩)) :
    parseArrayLoop strtod (f + 1) r arr depth
      = .error (error (loc.after (blankText gap)) .expectedSeparatorArray) := by
  rw [parseArrayLoop]
  simp [hv, skipSep_gap gap c t loc hg hc, Reader.peek, hc93]

theorem parseArrayLoop_last {F : Type} (strtod : List Nat → F) (f : Nat) (r : Reader)
    (arr : List (Value F)) (depth : Int) (v : Value F) (sep t : List Nat) (loc : Location)
    (hsep : sep = [] ∨ sep = [44])
    (hv : parseValue strtod f r depth false = .ok (v, ⟨sep ++ 93 :: t, loc⟩)) :
    ∃ loc', parseArrayLoop strtod (f + 1) r arr depth = .ok (arr ++ [v], ⟨t, loc'⟩) := by
  rw [parseArrayLoop]
  rcases hsep with rfl | rfl
  · refine ⟨loc.next 93, ?_⟩
    simp [hv, skipSep_token 93 t loc (by decide), Reader.peek, Reader.get_cons]
  · refine ⟨(loc.next 44).next 93, ?_⟩
    simp [hv, skipSep_separator 44 93 t loc (Or.inl rfl) (by decide), Reader.peek,
      Reader.get_cons]

theorem parseKeyValuePairsAfterKey_missing {F : Type} (strtod : List Nat → F) (f : Nat)
    (r r1 : Reader) (key : List Nat) (obj : List (Entry (Value F))) (index : Nat)
    (depth : Int) (v : Value F) (gap : List Blank) (c : Nat) (t : List Nat) (loc : Location)
    (hg : ∀ b ∈ gap, b.inline = true) (hc : isTokenByte c = true) (hc125 : c ≠ 125)
    (hcolon : r.peek = some 58) (hws : skipWhitespace r.get.2 = .ok r1)
    (hv : parseValue strtod f r1 depth false = .ok (v, ⟨blankText gap ++ c :: t, loc⟩)) :
    parseKeyValuePairsAfterKey strtod (f + 1) r key obj index depth
      = .error (error (loc.after (blankText gap)) .expectedSeparatorObject) := by
  rw [parseKeyValuePairsAfterKey]
  simp only [hcolon, ne_eq, not_true_eq_false, if_false, hws, hv,
    skipSep_gap gap c t loc hg hc, skipWhitespace_token c t _ hc]
  simp [Reader.peek, hc125]

theorem parseKeyValuePairsAfterKey_last {F : Type} (strtod : List Nat → F) (f : Nat)
    (r r1 : Reader) (key : List Nat) (obj : List (Entry (Value F))) (index : Nat)
    (depth : Int) (v : Value F) (sep t : List Nat) (loc : Location)
    (hsep : sep = [] ∨ sep = [44])
    (hcolon : r.peek = some 58) (hws : skipWhitespace r.get.2 = .ok r1)
    (hv : parseValue strtod f r1 depth false = .ok (v, ⟨sep ++ 125 :: t, loc⟩)) :
    ∃ loc', parseKeyValuePairsAfterKey strtod (f + 1) r key obj index depth
      = .ok (Object.set obj key index v, ⟨125 :: t, loc'⟩) := by
  rw [parseKeyValuePairsAfterKey]
  rcases hsep with rfl | rfl
  · refine ⟨loc, ?_⟩
    simp only [hcolon, ne_eq, not_true_eq_false, if_false, hws, hv, List.nil_append,
      skipSep_token 125 t loc (by decide), skipWhitespace_token 125 t loc (by decide)]
    simp [Reader.peek]
  · refine ⟨loc.next 44, ?_⟩
    simp only [hcolon, ne_eq, not_true_eq_false, if_false, hws, hv, List.singleton_append,
      skipSep_separator 44 125 t loc (Or.inl rfl) (by decide),
      skipWhitespace_token 125 t _ (by decide)]
    simp [Reader.peek]

theorem numberStops_comma (radix : Nat) (rest : List Nat)
    (hradix : radix = 10) : numberStops radix (44 :: rest) = true := by
  subst hradix
  rfl

theorem decimalInteger_head (z : Int) :
    ∃ b t, decimalInteger z = b :: t ∧ isTokenByte b = true ∧ b ≠ 93 ∧ b ≠ 125 := by
  obtain ⟨d0, txt, htd, -, -, -, htok, h48, h57⟩ := toDecimal_cons z.natAbs
  unfold decimalInteger
  by_cases hz : z < 0
  · exact ⟨45, toDecimal z.natAbs, by simp [hz], by decide, by decide, by decide⟩
  · exact ⟨d0, txt, by simp [hz, htd], htok, by omega, by omega⟩

theorem parseArrayLoop_step {F : Type} (strtod : List Nat → F) (f : Nat) (z : Int) (c : Nat)
    (rest : List Nat) (loc : Location) (arr : List (Value F)) (depth : Int) (hd : 1 ≤ depth)
    (hz : z.natAbs < 2 ^ 53) (hc : isTokenByte c = true) (hc93 : c ≠ 93) :
    ∃ loc', parseArrayLoop strtod (f + 2) ⟨decimalInteger z ++ 44 :: c :: rest, loc⟩ arr depth
      = parseArrayLoop strtod (f + 1) ⟨c :: rest, loc'⟩ (arr ++ [numberOf strtod z]) depth := by
  obtain ⟨loc1, hv⟩ := parseValue_small strtod f z (44 :: c :: rest) loc depth false hd hz
    (numberStops_comma 10 _ rfl)
  refine ⟨loc1.next 44, ?_⟩
  rw [parseArrayLoop]
  simp only [hv, skipSep_separator 44 c rest loc1 (Or.inl rfl) hc]
  simp [Reader.peek, hc93]

theorem parseArrayLoop_prefix {F : Type} (strtod : List Nat → F) (depth : Int) (hd : 1 ≤ depth)
    (c : Nat) (rest : List Nat) (hc : isTokenByte c = true) (hc93 : c ≠ 93) (pre : List Int) :
    ∀ (fuel : Nat) (loc : Location) (arr : List (Value F)),
      (∀ z ∈ pre, z.natAbs < 2 ^ 53) →
      ∃ loc', parseArrayLoop strtod (fuel + 1 + pre.length)
          ⟨elementsPrefix pre ++ c :: rest, loc⟩ arr depth
        = parseArrayLoop strtod (fuel + 1) ⟨c :: rest, loc'⟩
            (arr ++ pre.map (numberOf strtod)) depth := by
  induction pre with
  | nil => intro fuel loc arr _; exact ⟨loc, by simp [elementsPrefix]⟩
  | cons z zs ih =>
    intro fuel loc arr hz
    obtain ⟨b, tb, hb, hbt⟩ : ∃ b tb, elementsPrefix zs ++ c :: rest = b :: tb ∧
        isTokenByte b = true ∧ b ≠ 93 := by
      cases zs with
      | nil => exact ⟨c, rest, by simp [elementsPrefix], hc, hc93⟩
      | cons y ys =>
        obtain ⟨d0, txt, htd, htok, h93, -⟩ := decimalInteger_head y
        exact ⟨d0, txt ++ [44] ++ (elementsPrefix ys ++ c :: rest), by
          simp [elementsPrefix, htd], htok, h93⟩
    obtain ⟨loc1, h1⟩ := parseArrayLoop_step strtod (fuel + zs.length) z b tb loc arr depth hd
      (hz z (by simp)) hbt.1 hbt.2
    obtain ⟨loc2, h2⟩ := ih fuel loc1 (arr ++ [numberOf strtod z])
      (fun x hx => hz x (by simp [hx]))
    refine ⟨loc2, ?_⟩
    have e1 : elementsPrefix (z :: zs) ++ c :: rest
        = decimalInteger z ++ 44 :: (elementsPrefix zs ++ c :: rest) := by
      simp [elementsPrefix]
    have e2 : fuel + 1 + (z :: zs).length = fuel + zs.length + 2 := by simp; omega
    have e3 : fuel + zs.length + 1 = fuel + 1 + zs.length := by omega
    rw [e1, e2, hb, h1, ← hb, e3, h2]
    simp

theorem parseKeyValuePairsAfterKey_step {F : Type} (strtod : List Nat → F) (f : Nat)
    (sp : List Nat) (hsp : sp = [] ∨ sp = [32]) (z : Int) (k rest : List Nat) (loc : Location)
    (key : List Nat) (obj : List (Entry (Value F))) (index : Nat) (depth : Int)
    (hd : 1 ≤ depth) (hz : z.natAbs < 2 ^ 53) (hk : isIdentifier k = true) :
    ∃ loc', parseKeyValuePairsAfterKey strtod (f + 2)
        ⟨58 :: (sp ++ (decimalInteger z ++ 44 :: (k ++ 58 :: rest))), loc⟩ key obj index depth
      = parseKeyValuePairsAfterKey strtod (f + 1) ⟨58 :: rest, loc'⟩ k
          (Object.set obj key index (numberOf strtod z)) (index + 1) depth := by
  obtain ⟨c, cs, hkc⟩ : ∃ c cs, k = c :: cs := by
    cases k with
    | nil => simp [isIdentifier] at hk
    | cons c cs => exact ⟨c, cs, rfl⟩
  subst hkc
  have hc : isFirstIdent c = true := by
    simp only [isIdentifier, Bool.and_eq_true] at hk; exact hk.1
  have hcf := isFirstIdent_facts c hc
  obtain ⟨d0, txt, htd, htok⟩ := decimalInteger_cons z
  obtain ⟨loc1, hws⟩ := skipWhitespace_blanks sp d0 (txt ++ 44 :: (c :: cs ++ 58 :: rest))
    (loc.next 58) hsp htok
  obtain ⟨loc2, hv⟩ := parseValue_small strtod f z (44 :: (c :: cs ++ 58 :: rest)) loc1 depth
    false hd hz (numberStops_comma 10 _ rfl)
  have hkey := parseKey_key (c :: cs) rest (loc2.next 44) hk
  refine ⟨(loc2.next 44).right (c :: cs).length, ?_⟩
  rw [parseKeyValuePairsAfterKey]
  rw [htd] at hv
  simp only [List.cons_append] at hv hws hkey
  simp only [Reader.peek, List.head?_cons, ne_eq, not_true_eq_false, if_false, Reader.get_cons,
    htd, List.cons_append, hws, hv, skipSep_separator 44 c _ loc2 (Or.inl rfl) hcf.1,
    skipWhitespace_token c _ (loc2.next 44) hcf.1, Option.some.injEq,
    hcf.2.2.2.2.2.2.2.1, reduceCtorEq, or_self, hkey,
    skipWhitespace_token 58 _ _ (by decide : isTokenByte 58 = true)]

theorem parseKeyValuePairsAfterKey_prefix {F : Type} (strtod : List Nat → F) (depth : Int)
    (hd : 1 ≤ depth) (sp : List Nat) (hsp : sp = [] ∨ sp = [32]) (q rest : List Nat)
    (hq : isIdentifier q = true) (pre : List (List Nat × Int)) :
    ∀ (fuel : Nat) (loc : Location) (cur : List Nat × Int) (obj : List (Entry (Value F)))
      (index : Nat), (∀ p ∈ cur :: pre, p.2.natAbs < 2 ^ 53) →
      (∀ p ∈ pre, isIdentifier p.1 = true) →
      ∃ loc', parseKeyValuePairsAfterKey strtod (fuel + 2 + pre.length)
          ⟨58 :: (sp ++ (decimalInteger cur.2 ++ 44 :: (pairsPrefix sp pre ++ (q ++ 58 :: rest)))),
            loc⟩ cur.1 obj index depth
        = parseKeyValuePairsAfterKey strtod (fuel + 1) ⟨58 :: rest, loc'⟩ q
            (insertAll obj index ((cur :: pre).map (storedPair strtod)))
            (index + pre.length + 1) depth := by
  induction pre with
  | nil =>
    intro fuel loc cur obj index hz _
    obtain ⟨loc1, h1⟩ := parseKeyValuePairsAfterKey_step strtod fuel sp hsp cur.2 q rest loc
      cur.1 obj index depth hd (hz cur (by simp)) hq
    exact ⟨loc1, by simpa [pairsPrefix, insertAll, storedPair, numberOf] using h1⟩
  | cons p ps ih =>
    intro fuel loc cur obj index hz hk
    obtain ⟨loc1, h1⟩ := parseKeyValuePairsAfterKey_step strtod (fuel + 1 + ps.length) sp hsp
      cur.2 p.1 (sp ++ (decimalInteger p.2 ++ 44 :: (pairsPrefix sp ps ++ (q ++ 58 :: rest))))
      loc cur.1 obj index depth hd (hz cur (by simp)) (hk p (by simp))
    obtain ⟨loc2, h2⟩ := ih fuel loc1 p (Object.set obj cur.1 index (numberOf strtod cur.2))
      (index + 1) (fun x hx => hz x (by simp at hx ⊢; tauto))
      (fun x hx => hk x (by simp [hx]))
    refine ⟨loc2, ?_⟩
    have e1 : pairsPrefix sp (p :: ps) ++ (q ++ 58 :: rest)
        = p.1 ++ 58 :: (sp ++ (decimalInteger p.2 ++ 44 ::
            (pairsPrefix sp ps ++ (q ++ 58 :: rest)))) := by
      simp [pairsPrefix]
    have e2 : fuel + 2 + (p :: ps).length = fuel + 1 + ps.length + 2 := by simp; omega
    have e3 : fuel + 1 + ps.length + 1 = fuel + 2 + ps.length := by omega
    have e4 : index + 1 + ps.length + 1 = index + (p :: ps).length + 1 := by simp; omega
    rw [e1, e2, h1, e3, h2, e4]
    simp [insertAll, storedPair, numberOf]

theorem parseValue_array_start {F : Type} (strtod : List Nat → F) (f : Nat) (b : Nat)
    (tb : List Nat) (loc : Location) (d : Int) (tl : Bool) (hd : 1 ≤ d)
    (hb : isTokenByte b = true) (hb93 : b ≠ 93) :
    (∀ arr r1, parseArrayLoop strtod f ⟨b :: tb, loc.next 91⟩ [] (d - 1) = .ok (arr, r1) →
        parseValue strtod (f + 2) ⟨91 :: b :: tb, loc⟩ d tl = .ok (.array arr, r1)) ∧
      (∀ e, parseArrayLoop strtod f ⟨b :: tb, loc.next 91⟩ [] (d - 1) = .error e →
        parseValue strtod (f + 2) ⟨91 :: b :: tb, loc⟩ d tl = .error e) := by
  have hd' : ¬ d ≤ 0 := by omega
  constructor
  · intro arr r1 h
    rw [parseValue]
    simp only [hd', Reader.peek, List.head?_cons, if_false, reduceCtorEq, if_true]
    rw [parseArray]
    simp only [Reader.peek, List.head?_cons, ne_eq, not_true_eq_false, if_false,
      Reader.get_cons, skipWhitespace_token b tb _ hb, Option.some.injEq, hb93, h]
  · intro e h
    rw [parseValue]
    simp only [hd', Reader.peek, List.head?_cons, if_false, reduceCtorEq, if_true]
    rw [parseArray]
    simp only [Reader.peek, List.head?_cons, ne_eq, not_true_eq_false, if_false,
      Reader.get_cons, skipWhitespace_token b tb _ hb, Option.some.injEq, hb93, h]

theorem elementsPrefix_length (pre : List Int) : pre.length ≤ (elementsPrefix pre).length := by
  induction pre with
  | nil => simp [elementsPrefix]
  | cons z zs ih =>
    simp only [elementsPrefix, List.flatMap_cons, List.length_append, List.length_cons] at ih ⊢
    omega

theorem arrayDocument_reduce {F : Type} (strtod : List Nat → F) (pre : List Int) (zl : Int)
    (term : List Nat) (d : Int) (hd : 2 ≤ d) (hpre : ∀ z ∈ pre, z.natAbs < 2 ^ 53) :
    ∃ (b : Nat) (tb : List Nat) (g : Nat) (loc : Location),
      arrayDocument pre zl term = 91 :: b :: tb ∧ isTokenByte b = true ∧ b ≠ 93 ∧
      parseFuel (arrayDocument pre zl term).length = g + 2 + pre.length + 2 ∧
      parseArrayLoop strtod (g + 2 + pre.length) ⟨b :: tb, Location.next ⟨1, 1⟩ 91⟩ [] (d - 1)
        = parseArrayLoop strtod (g + 2) ⟨decimalInteger zl ++ term, loc⟩
            (pre.map (numberOf strtod)) (d - 1) := by
  obtain ⟨c, tc, hc, hct, hc93, -⟩ := decimalInteger_head zl
  have hlen := elementsPrefix_length pre
  obtain ⟨g, hg⟩ : ∃ g, parseFuel (arrayDocument pre zl term).length = g + 2 + pre.length + 2 :=
    ⟨parseFuel (arrayDocument pre zl term).length - 4 - pre.length, by
      simp only [parseFuel, arrayDocument, List.length_cons, List.length_append]; omega⟩
  obtain ⟨loc, hl⟩ := parseArrayLoop_prefix strtod (d - 1) (by omega) c (tc ++ term) hct hc93 pre
    (g + 1) (Location.next ⟨1, 1⟩ 91) [] hpre
  have hbody : ∃ b tb, elementsPrefix pre ++ (decimalInteger zl ++ term) = b :: tb ∧
      isTokenByte b = true ∧ b ≠ 93 := by
    cases pre with
    | nil => exact ⟨c, tc ++ term, by simp [elementsPrefix, hc], hct, hc93⟩
    | cons y ys =>
      obtain ⟨d0, txt, htd, htok, h93, -⟩ := decimalInteger_head y
      exact ⟨d0, txt ++ [44] ++ (elementsPrefix ys ++ (decimalInteger zl ++ term)), by
        simp [elementsPrefix, htd], htok, h93⟩
  obtain ⟨b, tb, hb, hbt, hb93⟩ := hbody
  refine ⟨b, tb, g, loc, by simp [arrayDocument, hb], hbt, hb93, hg, ?_⟩
  rw [← hb, hc, List.cons_append]
  simpa using hl

theorem parse_arrayDocument_ok {F : Type} (strtod : List Nat → F) (pre : List Int) (zl : Int)
    (term : List Nat) (d : Int) (hd : 2 ≤ d) (hpre : ∀ z ∈ pre, z.natAbs < 2 ^ 53)
    (hlast : ∀ (g : Nat) (loc : Location) (arr : List (Value F)),
      ∃ loc', parseArrayLoop strtod (g + 2) ⟨decimalInteger zl ++ term, loc⟩ arr (d - 1)
        = .ok (arr ++ [numberOf strtod zl], ⟨[], loc'⟩)) :
    parse strtod (arrayDocument pre zl term) d
      = .ok (.array ((pre ++ [zl]).map (numberOf strtod))) := by
  obtain ⟨b, tb, g, loc, hdoc, hb, hb93, hf, hred⟩ :=
    arrayDocument_reduce strtod pre zl term d hd hpre
  obtain ⟨loc', hl⟩ := hlast g loc (pre.map (numberOf strtod))
  rw [hdoc] at hf ⊢
  apply parse_of_parseValue_ok strtod 91 _ d _ loc' (by decide)
  rw [hf]
  have := (parseValue_array_start strtod (g + 2 + pre.length) b tb ⟨1, 1⟩ d true (by omega)
    hb hb93).1 _ _ (hred.trans hl)
  simpa using this

theorem parse_arrayDocument_error {F : Type} (strtod : List Nat → F) (pre : List Int)
    (zl : Int) (term : List Nat) (d : Int) (k : ErrorKind) (hd : 2 ≤ d)
    (hpre : ∀ z ∈ pre, z.natAbs < 2 ^ 53)
    (hlast : ∀ (g : Nat) (loc : Location) (arr : List (Value F)),
      ∃ loc', parseArrayLoop strtod (g + 2) ⟨decimalInteger zl ++ term, loc⟩ arr (d - 1)
        = .error ⟨loc', k⟩) :
    ∃ loc, parse strtod (arrayDocument pre zl term) d = .error ⟨loc, k⟩ := by
  obtain ⟨b, tb, g, loc, hdoc, hb, hb93, hf, hred⟩ :=
    arrayDocument_reduce strtod pre zl term d hd hpre
  obtain ⟨loc', hl⟩ := hlast g loc (pre.map (numberOf strtod))
  refine ⟨loc', ?_⟩
  rw [hdoc] at hf ⊢
  apply parse_of_parseValue_error strtod 91 _ d _ (by decide)
  rw [hf]
  exact (parseValue_array_start strtod (g + 2 + pre.length) b tb ⟨1, 1⟩ d true (by omega)
    hb hb93).2 _ (hred.trans hl)

theorem parseArrayLoop_lastElement {F : Type} (strtod : List Nat → F) (zl : Int) (depth : Int)
    (hd : 1 ≤ depth) (hz : zl.natAbs < 2 ^ 53) (sep : List Nat) (hsep : sep = [] ∨ sep = [44])
    (g : Nat) (loc : Location) (arr : List (Value F)) :
    ∃ loc', parseArrayLoop strtod (g + 2) ⟨decimalInteger zl ++ (sep ++ [93]), loc⟩ arr depth
      = .ok (arr ++ [numberOf strtod zl], ⟨[], loc'⟩) := by
  obtain ⟨loc1, hv⟩ := parseValue_small strtod g zl (sep ++ [93]) loc depth false hd hz
    (by rcases hsep with rfl | rfl <;> rfl)
  exact parseArrayLoop_last strtod (g + 1) _ arr depth _ sep [] loc1 hsep hv

theorem parseArrayLoop_missingSeparator {F : Type} (strtod : List Nat → F) (zl : Int)
    (depth : Int) (hd : 1 ≤ depth) (hz : zl.natAbs < 2 ^ 53) (gap : List Blank) (c : Nat)
    (t : List Nat) (hg : ∀ b ∈ gap, b.inline = true) (hc : isTokenByte c = true)
    (hc93 : c ≠ 93) (hstop : numberStops 10 (blankText gap ++ c :: t) = true)
    (g : Nat) (loc : Location) (arr : List (Value F)) :
    ∃ loc', parseArrayLoop strtod (g + 2) ⟨decimalInteger zl ++ (blankText gap ++ c :: t), loc⟩
        arr depth
      = .error ⟨loc', .expectedSeparatorArray⟩ := by
  obtain ⟨loc1, hv⟩ := parseValue_small strtod g zl (blankText gap ++ c :: t) loc depth false
    hd hz hstop
  exact ⟨_, parseArrayLoop_missing strtod (g + 1) _ arr depth _ gap c t loc1 hg hc hc93 hv⟩

theorem parseValue_object_start {F : Type} (strtod : List Nat → F) (f : Nat) (k rest : List Nat)
    (loc : Location) (d : Int) (tl : Bool) (hd : 1 ≤ d) (hk : isIdentifier k = true) :
    (∀ obj t loc2,
        parseKeyValuePairsAfterKey strtod f ⟨58 :: rest, (loc.next 123).right k.length⟩ k [] 0
          (d - 1) = .ok (obj, ⟨125 :: t, loc2⟩) →
        parseValue strtod (f + 3) ⟨123 :: (k ++ 58 :: rest), loc⟩ d tl
          = .ok (.object obj, ⟨t, loc2.next 125⟩)) ∧
      (∀ e,
        parseKeyValuePairsAfterKey strtod f ⟨58 :: rest, (loc.next 123).right k.length⟩ k [] 0
          (d - 1) = .error e →
        parseValue strtod (f + 3) ⟨123 :: (k ++ 58 :: rest), loc⟩ d tl = .error e) := by
  have hd' : ¬ d ≤ 0 := by omega
  obtain ⟨c, cs, hkc⟩ : ∃ c cs, k = c :: cs := by
    cases k with
    | nil => simp [isIdentifier] at hk
    | cons c cs => exact ⟨c, cs, rfl⟩
  subst hkc
  have hc : isFirstIdent c = true := by
    simp only [isIdentifier, Bool.and_eq_true] at hk; exact hk.1
  have hcf := isFirstIdent_facts c hc
  have hkey := parseKey_key (c :: cs) rest (loc.next 123) hk
  simp only [List.cons_append] at hkey
  constructor
  · intro obj t loc2 h
    rw [parseValue]
    simp only [hd', Reader.peek, List.head?_cons, if_false, reduceCtorEq, Option.some.injEq,
      Nat.reduceEqDiff, if_true]
    rw [parseObject]
    simp only [Reader.peek, List.head?_cons, ne_eq, not_true_eq_false, if_false,
      Reader.get_cons, List.cons_append, skipWhitespace_token c _ _ hcf.1, Option.some.injEq,
      hcf.2.2.2.2.2.2.2.1]
    rw [parseKeyValuePairs]
    simp only [hkey, skipWhitespace_token 58 _ _ (by decide : isTokenByte 58 = true), h,
      skipWhitespace_token 125 t loc2 (by decide), Reader.peek, List.head?_cons, ne_eq,
      not_true_eq_false, if_false, Reader.get_cons]
  · intro e h
    rw [parseValue]
    simp only [hd', Reader.peek, List.head?_cons, if_false, reduceCtorEq, Option.some.injEq,
      Nat.reduceEqDiff, if_true]
    rw [parseObject]
    simp only [Reader.peek, List.head?_cons, ne_eq, not_true_eq_false, if_false,
      Reader.get_cons, List.cons_append, skipWhitespace_token c _ _ hcf.1, Option.some.injEq,
      hcf.2.2.2.2.2.2.2.1]
    rw [parseKeyValuePairs]
    simp only [hkey, skipWhitespace_token 58 _ _ (by decide : isTokenByte 58 = true), h]

theorem pairsPrefix_length (sp : List Nat) (pre : List (List Nat × Int)) :
    pre.length ≤ (pairsPrefix sp pre).length := by
  induction pre with
  | nil => simp [pairsPrefix]
  | cons p ps ih =>
    simp only [pairsPrefix, List.flatMap_cons, List.length_append, List.length_cons] at ih ⊢
    omega

theorem objectDocument_reduce {F : Type} (strtod : List Nat → F) (sp : List Nat)
    (hsp : sp = [] ∨ sp = [32]) (pre : List (List Nat × Int)) (q : List Nat × Int)
    (term : List Nat) (d : Int) (hd : 2 ≤ d) (hpre : ∀ p ∈ pre, p.2.natAbs < 2 ^ 53)
    (hkeys : ∀ p ∈ pre ++ [q], isIdentifier p.1 = true) :
    ∃ (first firstRest : List Nat) (g : Nat) (loc : Location),
      objectDocument sp pre q term = 123 :: (first ++ 58 :: firstRest) ∧
      isIdentifier first = true ∧
      parseFuel (objectDocument sp pre q term).length = g + 2 + pre.length + 3 ∧
      parseKeyValuePairsAfterKey strtod (g + 2 + pre.length)
          ⟨58 :: firstRest, (Location.next ⟨1, 1⟩ 123).right first.length⟩ first [] 0 (d - 1)
        = parseKeyValuePairsAfterKey strtod (g + 2)
            ⟨58 :: (sp ++ (decimalInteger q.2 ++ term)), loc⟩ q.1
            (insertAll [] 0 (pre.map (storedPair strtod))) pre.length (d - 1) := by
  have hlen := pairsPrefix_length sp pre
  have hq : isIdentifier q.1 = true := hkeys q (by simp)
  obtain ⟨g, hg⟩ : ∃ g,
      parseFuel (objectDocument sp pre q term).length = g + 2 + pre.length + 3 :=
    ⟨parseFuel (objectDocument sp pre q term).length - 5 - pre.length, by
      simp only [parseFuel, objectDocument, List.length_cons, List.length_append]; omega⟩
  cases pre with
  | nil =>
    exact ⟨q.1, sp ++ (decimalInteger q.2 ++ term), g, _, by simp [objectDocument, pairsPrefix],
      hq, hg, rfl⟩
  | cons p ps =>
    obtain ⟨loc, hl⟩ := parseKeyValuePairsAfterKey_prefix strtod (d - 1) (by omega) sp hsp q.1
      (sp ++ (decimalInteger q.2 ++ term)) hq ps (g + 1)
      ((Location.next ⟨1, 1⟩ 123).right p.1.length) p [] 0 hpre
      (fun x hx => hkeys x (by simp [hx]))
    refine ⟨p.1, sp ++ (decimalInteger p.2 ++ 44 :: (pairsPrefix sp ps ++
      (q.1 ++ 58 :: (sp ++ (decimalInteger q.2 ++ term))))), g, loc, by
        simp [objectDocument, pairsPrefix], hkeys p (by simp), hg, ?_⟩
    have e1 : g + 2 + (p :: ps).length = g + 1 + 2 + ps.length := by simp; omega
    have e2 : g + 1 + 1 = g + 2 := rfl
    have e3 : 0 + ps.length + 1 = (p :: ps).length := by simp
    rw [e1, hl, e2, e3]

theorem insertAll_append_singleton {V : Type} (kvs : List (List Nat × V)) (kv : List Nat × V) :
    ∀ (obj : List (Entry V)) (i : Nat),
      insertAll obj i (kvs ++ [kv]) = Object.set (insertAll obj i kvs) kv.1 (i + kvs.length) kv.2 := by
  induction kvs with
  | nil => intro obj i; simp [insertAll]
  | cons x xs ih =>
    intro obj i
    have e := ih (Object.set obj x.1 i x.2) (i + 1)
    rw [show i + 1 + xs.length = i + (x :: xs).length from by simp; omega] at e
    exact e

theorem parse_objectDocument_ok {F : Type} (strtod : List Nat → F) (sp : List Nat)
    (hsp : sp = [] ∨ sp = [32]) (pre : List (List Nat × Int)) (q : List Nat × Int)
    (term : List Nat) (d : Int) (hd : 2 ≤ d) (hpre : ∀ p ∈ pre, p.2.natAbs < 2 ^ 53)
    (hkeys : ∀ p ∈ pre ++ [q], isIdentifier p.1 = true)
    (hlast : ∀ (g : Nat) (loc : Location) (obj : List (Entry (Value F))) (index : Nat),
      ∃ loc', parseKeyValuePairsAfterKey strtod (g + 2)
          ⟨58 :: (sp ++ (decimalInteger q.2 ++ term)), loc⟩ q.1 obj index (d - 1)
        = .ok (Object.set obj q.1 index (numberOf strtod q.2), ⟨[125], loc'⟩)) :
    parse strtod (objectDocument sp pre q term) d
      = .ok (.object (insertAll [] 0 ((pre ++ [q]).map (storedPair strtod)))) := by
  obtain ⟨first, firstRest, g, loc, hdoc, hfirst, hf, hred⟩ :=
    objectDocument_reduce strtod sp hsp pre q term d hd hpre hkeys
  obtain ⟨loc', hl⟩ := hlast g loc (insertAll [] 0 (pre.map (storedPair strtod))) pre.length
  rw [hdoc] at hf ⊢
  apply parse_of_parseValue_ok strtod 123 _ d _ (loc'.next 125) (by decide)
  rw [hf]
  have := (parseValue_object_start strtod (g + 2 + pre.length) first firstRest ⟨1, 1⟩ d true
    (by omega) hfirst).1 _ _ _ (hred.trans hl)
  rw [this, List.map_append, List.map_singleton, insertAll_append_singleton]
  simp [storedPair, numberOf]

theorem parse_objectDocument_error {F : Type} (strtod : List Nat → F) (sp : List Nat)
    (hsp : sp = [] ∨ sp = [32]) (pre : List (List Nat × Int)) (q : List Nat × Int)
    (term : List Nat) (d : Int) (k : ErrorKind) (hd : 2 ≤ d)
    (hpre : ∀ p ∈ pre, p.2.natAbs < 2 ^ 53)
    (hkeys : ∀ p ∈ pre ++ [q], isIdentifier p.1 = true)
    (hlast : ∀ (g : Nat) (loc : Location) (obj : List (Entry (Value F))) (index : Nat),
      ∃ loc', parseKeyValuePairsAfterKey strtod (g + 2)
          ⟨58 :: (sp ++ (decimalInteger q.2 ++ term)), loc⟩ q.1 obj index (d - 1)
        = .error ⟨loc', k⟩) :
    ∃ loc, parse strtod (objectDocument sp pre q term) d = .error ⟨loc, k⟩ := by
  obtain ⟨first, firstRest, g, loc, hdoc, hfirst, hf, hred⟩ :=
    objectDocument_reduce strtod sp hsp pre q term d hd hpre hkeys
  obtain ⟨loc', hl⟩ := hlast g loc (insertAll [] 0 (pre.map (storedPair strtod))) pre.length
  refine ⟨loc', ?_⟩
  rw [hdoc] at hf ⊢
  apply parse_of_parseValue_error strtod 123 _ d _ (by decide)
  rw [hf]
  exact (parseValue_object_start strtod (g + 2 + pre.length) first firstRest ⟨1, 1⟩ d true
    (by omega) hfirst).2 _ (hred.trans hl)

theorem parseKeyValuePairsAfterKey_lastPair {F : Type} (strtod : List Nat → F) (sp : List Nat)
    (hsp : sp = [] ∨ sp = [32]) (z : Int) (depth : Int) (hd : 1 ≤ depth)
    (hz : z.natAbs < 2 ^ 53) (sep : List Nat) (hsep : sep = [] ∨ sep = [44]) (g : Nat)
    (loc : Location) (key : List Nat) (obj : List (Entry (Value F))) (index : Nat) :
    ∃ loc', parseKeyValuePairsAfterKey strtod (g + 2)
        ⟨58 :: (sp ++ (decimalInteger z ++ (sep ++ [125]))), loc⟩ key obj index depth
      = .ok (Object.set obj key index (numberOf strtod z), ⟨[125], loc'⟩) := by
  obtain ⟨d0, txt, htd, htok⟩ := decimalInteger_cons z
  obtain ⟨loc1, hws⟩ := skipWhitespace_blanks sp d0 (txt ++ (sep ++ [125])) (loc.next 58) hsp
    htok
  obtain ⟨loc2, hv⟩ := parseValue_small strtod g z (sep ++ [125]) loc1 depth false hd hz
    (by rcases hsep with rfl | rfl <;> rfl)
  rw [htd, List.cons_append] at hv
  exact parseKeyValuePairsAfterKey_last strtod (g + 1) ⟨58 :: (sp ++ (decimalInteger z ++
    (sep ++ [125]))), loc⟩ _ key obj index depth _ sep [] loc2 hsep rfl
    (by simpa [Reader.get_cons, htd] using hws) hv

theorem parseKeyValuePairsAfterKey_missingSeparator {F : Type} (strtod : List Nat → F)
    (sp : List Nat) (hsp : sp = [] ∨ sp = [32]) (z : Int) (depth : Int) (hd : 1 ≤ depth)
    (hz : z.natAbs < 2 ^ 53) (gap : List Blank) (c : Nat) (t : List Nat)
    (hg : ∀ b ∈ gap, b.inline = true) (hc : isTokenByte c = true) (hc125 : c ≠ 125)
    (hstop : numberStops 10 (blankText gap ++ c :: t) = true) (g : Nat)
    (loc : Location) (key : List Nat) (obj : List (Entry (Value F))) (index : Nat) :
    ∃ loc', parseKeyValuePairsAfterKey strtod (g + 2)
        ⟨58 :: (sp ++ (decimalInteger z ++ (blankText gap ++ c :: t))), loc⟩ key obj index depth
      = .error ⟨loc', .expectedSeparatorObject⟩ := by
  obtain ⟨d0, txt, htd, htok⟩ := decimalInteger_cons z
  obtain ⟨loc1, hws⟩ := skipWhitespace_blanks sp d0 (txt ++ (blankText gap ++ c :: t))
    (loc.next 58) hsp htok
  obtain ⟨loc2, hv⟩ := parseValue_small strtod g z (blankText gap ++ c :: t) loc1 depth false
    hd hz hstop
  rw [htd, List.cons_append] at hv
  exact ⟨_, parseKeyValuePairsAfterKey_missing strtod (g + 1) ⟨58 :: (sp ++ (decimalInteger z ++
    (blankText gap ++ c :: t))), loc⟩ _ key obj index depth _ gap c t loc2 hg hc hc125 rfl
    (by simpa [Reader.get_cons, htd] using hws) hv⟩

theorem skipSpace_gap_lineComment (gap : List Blank) (t : List Nat) (loc : Location)
    (hg : ∀ b ∈ gap, b.inline = true) :
    skipSpace ⟨blankText gap ++ 47 :: 47 :: t, loc⟩
      = .ok ⟨47 :: 47 :: t, loc.after (blankText gap)⟩ := by
  have hlen := Blank.length_blankText gap
  obtain ⟨f, hf⟩ : ∃ f, (blankText gap ++ 47 :: 47 :: t).length + 1 = (f + 1) + gap.length :=
    ⟨(blankText gap).length - gap.length + (47 :: 47 :: t).length, by
      simp only [List.length_append]; omega⟩
  unfold skipSpace
  simp only [Reader.fuel]
  rw [hf, skipSpaceLoop_blanks gap (f + 1) (47 :: 47 :: t) loc hg, skipSpaceLoop]
  simp [Reader.peek, Reader.peek2]

/-- A comma, a newline or a carriage return with a newline, behind a gap: it
is read as the separator together with the blank text that follows it. -/
theorem skipSep_trailing (gap : List Blank) (s : Separator) (ws : List Blank)
    (tail : List Nat) (loc : Location) (hg : ∀ b ∈ gap, b.inline = true)
    (hs : s.isComment = false) (hws : ∀ b ∈ ws, b.valid = true)
    (htail : stopsWhitespace tail = true) :
    ∃ loc', skipSep ⟨blankText gap ++ (s.text ++ (blankText ws ++ tail)), loc⟩
      = .ok (true, ⟨tail, loc'⟩) := by
  cases s with
  | comma =>
    refine ⟨((loc.after (blankText gap)).next 44).after (blankText ws), ?_⟩
    unfold skipSep
    simp only [Separator.text, List.singleton_append]
    rw [skipSpace_gap gap 44 _ loc hg ⟨by decide, by decide, by decide⟩]
    simp [Reader.peek, Reader.get_cons, skipWhitespace_blankText ws tail _ hws htail]
  | newline =>
    refine ⟨((loc.after (blankText gap)).next 10).after (blankText ws), ?_⟩
    unfold skipSep
    simp only [Separator.text, List.singleton_append]
    rw [skipSpace_gap gap 10 _ loc hg ⟨by decide, by decide, by decide⟩]
    simp [Reader.peek, Reader.get_cons, skipWhitespace_blankText ws tail _ hws htail]
  | crlf =>
    refine ⟨(((loc.after (blankText gap)).next 13).next 10).after (blankText ws), ?_⟩
    unfold skipSep
    simp only [Separator.text, List.cons_append, List.nil_append]
    rw [skipSpace_gap gap 13 _ loc hg ⟨by decide, by decide, by decide⟩]
    simp [Reader.peek, Reader.peek2, Reader.get_cons,
      skipWhitespace_blankText ws tail _ hws htail]
  | comment body => simp [Separator.isComment] at hs

/-- A line comment behind a gap is read as the separator through its newline,
and nothing after the newline is read. -/
theorem skipSep_trailing_comment (gap : List Blank) (body rest : List Nat) (loc : Location)
    (hg : ∀ b ∈ gap, b.inline = true) (hb : body.contains 10 = false) :
    ∃ loc', skipSep ⟨blankText gap ++ (47 :: 47 :: (body ++ 10 :: rest)), loc⟩
      = .ok (true, ⟨rest, loc'⟩) := by
  refine ⟨(((loc.after (blankText gap)).next 47).next 47).after (body ++ [10]), ?_⟩
  unfold skipSep
  rw [skipSpace_gap_lineComment gap _ loc hg]
  simp only [Reader.peek, Reader.peek2, List.head?_cons, List.tail_cons, Option.some.injEq,
    Nat.reduceEqDiff, or_self, if_false, false_and, and_self, if_true, Reader.get_cons,
    Reader.fuel]
  rw [skipLineCommentLoop_body body _ rest _ hb (by simp)]

theorem numberStops_blankText (gap : List Blank) (tail : List Nat)
    (hg : ∀ b ∈ gap, b.inline = true) (htail : numberStops 10 tail = true) :
    numberStops 10 (blankText gap ++ tail) = true := by
  cases gap with
  | nil => simpa [blankText] using htail
  | cons b bs =>
    have hb := hg b (by simp)
    cases b with
    | byte c =>
      simp only [Blank.inline, Bool.or_eq_true, beq_iff_eq] at hb
      rcases hb with rfl | rfl <;> rfl
    | line body => simp [Blank.inline] at hb
    | block body => rfl

theorem numberStops_separator (s : Separator) (rest : List Nat) :
    numberStops 10 (s.text ++ rest) = true := by
  cases s <;> rfl

theorem numberStops_trailingSeparator (gap : List Blank) (s : Separator) (ws : List Blank)
    (rest : List Nat) (hg : ∀ b ∈ gap, b.inline = true) :
    numberStops 10 (trailingSeparator gap s ws ++ rest) = true := by
  unfold trailingSeparator
  rw [List.append_assoc, List.append_assoc]
  exact numberStops_blankText gap _ hg (numberStops_separator s _)

theorem trailingSeparator_comment (gap : List Blank) (body rest : List Nat) (ws : List Blank) :
    trailingSeparator gap (.comment body) ws ++ rest
      = blankText gap ++ (47 :: 47 :: (body ++ 10 :: (blankText ws ++ rest))) := by
  simp [trailingSeparator, Separator.text]

theorem trailingSeparator_assoc (gap : List Blank) (s : Separator) (ws : List Blank)
    (rest : List Nat) :
    trailingSeparator gap s ws ++ rest = blankText gap ++ (s.text ++ (blankText ws ++ rest)) := by
  simp [trailingSeparator]

/-- After the last element of an array: a gap, one separator of any form and
the blank text that `skipSep` reads with it, then `]`. -/
theorem parseArrayLoop_trailing {F : Type} (strtod : List Nat → F) (f : Nat) (r : Reader)
    (arr : List (Value F)) (depth : Int) (v : Value F) (gap : List Blank) (s : Separator)
    (ws : List Blank) (t : List Nat) (loc : Location) (hg : ∀ b ∈ gap, b.inline = true)
    (hs : s.valid = true) (hws : ∀ b ∈ ws, b.valid = true)
    (hc : s.isComment = true → ws = [])
    (hv : parseValue strtod f r depth false
      = .ok (v, ⟨trailingSeparator gap s ws ++ 93 :: t, loc⟩)) :
    ∃ loc', parseArrayLoop strtod (f + 1) r arr depth = .ok (arr ++ [v], ⟨t, loc'⟩) := by
  cases hcs : s.isComment with
  | false =>
    rw [trailingSeparator_assoc] at hv
    obtain ⟨loc1, hsep⟩ := skipSep_trailing gap s ws (93 :: t) loc hg hcs hws (by rfl)
    refine ⟨loc1.next 93, ?_⟩
    rw [parseArrayLoop]
    simp [hv, hsep, Reader.peek, Reader.get_cons]
  | true =>
    cases s with
    | comment body =>
      have hb : body.contains 10 = false := by simpa [Separator.valid] using hs
      rw [hc hcs, trailingSeparator_comment] at hv
      rw [show blankText ([] : List Blank) = [] from rfl, List.nil_append] at hv
      obtain ⟨loc1, hsep⟩ := skipSep_trailing_comment gap body (93 :: t) loc hg hb
      refine ⟨loc1.next 93, ?_⟩
      rw [parseArrayLoop]
      simp [hv, hsep, Reader.peek, Reader.get_cons]
    | comma => simp [Separator.isComment] at hcs
    | newline => simp [Separator.isComment] at hcs
    | crlf => simp [Separator.isComment] at hcs

/-- After the last pair of an object: a gap, one separator of any form and
any blank text, then the closing brace. -/
theorem parseKeyValuePairsAfterKey_trailing {F : Type} (strtod : List Nat → F) (f : Nat)
    (r r1 : Reader) (key : List Nat) (obj : List (Entry (Value F))) (index : Nat)
    (depth : Int) (v : Value F) (gap : List Blank) (s : Separator) (ws : List Blank)
    (t : List Nat) (loc : Location) (hg : ∀ b ∈ gap, b.inline = true)
    (hs : s.valid = true) (hws : ∀ b ∈ ws, b.valid = true)
    (hcolon : r.peek = some 58) (hsk : skipWhitespace r.get.2 = .ok r1)
    (hv : parseValue strtod f r1 depth false
      = .ok (v, ⟨trailingSeparator gap s ws ++ 125 :: t, loc⟩)) :
    ∃ loc', parseKeyValuePairsAfterKey strtod (f + 1) r key obj index depth
      = .ok (Object.set obj key index v, ⟨125 :: t, loc'⟩) := by
  cases hcs : s.isComment with
  | false =>
    rw [trailingSeparator_assoc] at hv
    obtain ⟨loc1, hsep⟩ := skipSep_trailing gap s ws (125 :: t) loc hg hcs hws (by rfl)
    refine ⟨loc1, ?_⟩
    rw [parseKeyValuePairsAfterKey]
    simp only [hcolon, ne_eq, not_true_eq_false, if_false, hsk, hv, hsep,
      skipWhitespace_token 125 t _ (by decide)]
    simp [Reader.peek]
  | true =>
    cases s with
    | comment body =>
      have hb : body.contains 10 = false := by simpa [Separator.valid] using hs
      rw [trailingSeparator_comment] at hv
      obtain ⟨loc1, hsep⟩ := skipSep_trailing_comment gap body (blankText ws ++ 125 :: t) loc
        hg hb
      refine ⟨loc1.after (blankText ws), ?_⟩
      rw [parseKeyValuePairsAfterKey]
      simp only [hcolon, ne_eq, not_true_eq_false, if_false, hsk, hv, hsep,
        skipWhitespace_blankText ws (125 :: t) _ hws (by rfl)]
      simp [Reader.peek]
    | comma => simp [Separator.isComment] at hcs
    | newline => simp [Separator.isComment] at hcs
    | crlf => simp [Separator.isComment] at hcs

theorem parseArrayLoop_lastTrailing {F : Type} (strtod : List Nat → F) (zl : Int)
    (depth : Int) (hd : 1 ≤ depth) (hz : zl.natAbs < 2 ^ 53) (gap : List Blank)
    (s : Separator) (ws : List Blank) (hg : ∀ b ∈ gap, b.inline = true)
    (hs : s.valid = true) (hws : ∀ b ∈ ws, b.valid = true)
    (hc : s.isComment = true → ws = []) (g : Nat) (loc : Location) (arr : List (Value F)) :
    ∃ loc', parseArrayLoop strtod (g + 2)
        ⟨decimalInteger zl ++ (trailingSeparator gap s ws ++ [93]), loc⟩ arr depth
      = .ok (arr ++ [numberOf strtod zl], ⟨[], loc'⟩) := by
  obtain ⟨loc1, hv⟩ := parseValue_small strtod g zl (trailingSeparator gap s ws ++ [93]) loc
    depth false hd hz (numberStops_trailingSeparator gap s ws [93] hg)
  exact parseArrayLoop_trailing strtod (g + 1) _ arr depth _ gap s ws [] loc1 hg hs hws hc hv

theorem parseKeyValuePairsAfterKey_lastTrailing {F : Type} (strtod : List Nat → F)
    (sp : List Nat) (hsp : sp = [] ∨ sp = [32]) (z : Int) (depth : Int) (hd : 1 ≤ depth)
    (hz : z.natAbs < 2 ^ 53) (gap : List Blank) (s : Separator) (ws : List Blank)
    (hg : ∀ b ∈ gap, b.inline = true) (hs : s.valid = true) (hws : ∀ b ∈ ws, b.valid = true)
    (g : Nat) (loc : Location) (key : List Nat) (obj : List (Entry (Value F))) (index : Nat) :
    ∃ loc', parseKeyValuePairsAfterKey strtod (g + 2)
        ⟨58 :: (sp ++ (decimalInteger z ++ (trailingSeparator gap s ws ++ [125]))), loc⟩
        key obj index depth
      = .ok (Object.set obj key index (numberOf strtod z), ⟨[125], loc'⟩) := by
  obtain ⟨d0, txt, htd, htok⟩ := decimalInteger_cons z
  obtain ⟨loc1, hsk⟩ := skipWhitespace_blanks sp d0
    (txt ++ (trailingSeparator gap s ws ++ [125])) (loc.next 58) hsp htok
  obtain ⟨loc2, hv⟩ := parseValue_small strtod g z (trailingSeparator gap s ws ++ [125]) loc1
    depth false hd hz (numberStops_trailingSeparator gap s ws [125] hg)
  rw [htd, List.cons_append] at hv
  exact parseKeyValuePairsAfterKey_trailing strtod (g + 1) ⟨58 :: (sp ++ (decimalInteger z ++
    (trailingSeparator gap s ws ++ [125]))), loc⟩ _ key obj index depth _ gap s ws [] loc2 hg
    hs hws rfl (by simpa [Reader.get_cons, htd] using hsk) hv

/-- C15. Separator rules. Take an array of decimal integers (`pre`, each
followed by a comma, then `zl`) and an object of pairs with identifier keys
(`ppre`, each followed by a comma, then `q`), all integers below `2^53` in
magnitude, and `maxDepth ≥ 2`. Closed directly (`]`, `}`) or after one
trailing comma (`,]`, `,}`) the document parses, and to the same value in
both cases. When instead the last element is followed only by a gap of
spaces, tabs and block comments and then by the first byte of a further
element, the parse fails: with `Expected separator or ']'` in the array and
with `Expected separator, '}' or EOF` in the object. The trailing separator
may have any of the four forms (a comma, a newline, a carriage return with a
newline, a line comment with its newline) behind a gap: the array parses to
the same value when the separator is followed by any blank text and then `]`,
except that after a line comment the `]` has to follow at once; the object
parses to the same value for every form followed by any blank text and the
closing brace. The exception is a failure of the code: the array document
`[1 // c`, newline, ` ]`, where one blank stands between the comment
separator and `]`, fails with "Unexpected character for identifier" at line
2, column 1. -/
theorem separator_rules {F : Type} (strtod : List Nat → F) (pre : List Int) (zl : Int)
    (ppre : List (List Nat × Int)) (q : List Nat × Int) (sp : List Nat) (gap : List Blank)
    (c1 : Nat) (t1 : List Nat) (c2 : Nat) (t2 : List Nat) (d : Int) (hd : 2 ≤ d)
    (hpre : ∀ z ∈ pre ++ [zl], z.natAbs < 2 ^ 53)
    (hppre : ∀ p ∈ ppre ++ [q], p.2.natAbs < 2 ^ 53)
    (hkeys : ∀ p ∈ ppre ++ [q], isIdentifier p.1 = true) (hsp : sp = [] ∨ sp = [32])
    (hgap : ∀ b ∈ gap, b.inline = true)
    (hc1 : isTokenByte c1 = true) (h93 : c1 ≠ 93)
    (hstop1 : numberStops 10 (blankText gap ++ c1 :: t1) = true)
    (hc2 : isTokenByte c2 = true) (h125 : c2 ≠ 125)
    (hstop2 : numberStops 10 (blankText gap ++ c2 :: t2) = true) :
    parse strtod (arrayDocument pre zl [93]) d
        = .ok (.array ((pre ++ [zl]).map (numberOf strtod))) ∧
      parse strtod (arrayDocument pre zl [44, 93]) d
        = .ok (.array ((pre ++ [zl]).map (numberOf strtod))) ∧
      (∃ loc, parse strtod (arrayDocument pre zl (blankText gap ++ c1 :: t1)) d
        = .error ⟨loc, .expectedSeparatorArray⟩) ∧
      parse strtod (objectDocument sp ppre q [125]) d
        = .ok (.object (insertAll [] 0 ((ppre ++ [q]).map (storedPair strtod)))) ∧
      parse strtod (objectDocument sp ppre q [44, 125]) d
        = .ok (.object (insertAll [] 0 ((ppre ++ [q]).map (storedPair strtod)))) ∧
      (∃ loc, parse strtod (objectDocument sp ppre q (blankText gap ++ c2 :: t2)) d
        = .error ⟨loc, .expectedSeparatorObject⟩) ∧
      (∀ (s : Separator) (ws : List Blank), s.valid = true → (∀ b ∈ ws, b.valid = true) →
        (s.isComment = true → ws = []) →
        parse strtod (arrayDocument pre zl (trailingSeparator gap s ws ++ [93])) d
          = .ok (.array ((pre ++ [zl]).map (numberOf strtod)))) ∧
      (∀ (s : Separator) (ws : List Blank), s.valid = true → (∀ b ∈ ws, b.valid = true) →
        parse strtod (objectDocument sp ppre q (trailingSeparator gap s ws ++ [125])) d
          = .ok (.object (insertAll [] 0 ((ppre ++ [q]).map (storedPair strtod))))) ∧
      parse strtod [91, 49, 32, 47, 47, 32, 99, 10, 32, 93] 8
        = .error (error ⟨2, 1⟩ .unexpectedCharacterForIdentifier) := by
  have hpre' : ∀ z ∈ pre, z.natAbs < 2 ^ 53 := fun z hz => hpre z (by simp [hz])
  have hzl : zl.natAbs < 2 ^ 53 := hpre zl (by simp)
  have hppre' : ∀ p ∈ ppre, p.2.natAbs < 2 ^ 53 := fun p hp => hppre p (by simp [hp])
  have hq : q.2.natAbs < 2 ^ 53 := hppre q (by simp)
  refine ⟨?_, ?_, ?_, ?_, ?_, ?_, ?_, ?_, rfl⟩
  · exact parse_arrayDocument_ok strtod pre zl [93] d hd hpre' (fun g loc arr =>
      parseArrayLoop_lastElement strtod zl (d - 1) (by omega) hzl [] (Or.inl rfl) g loc arr)
  · exact parse_arrayDocument_ok strtod pre zl [44, 93] d hd hpre' (fun g loc arr =>
      parseArrayLoop_lastElement strtod zl (d - 1) (by omega) hzl [44] (Or.inr rfl) g loc arr)
  · exact parse_arrayDocument_error strtod pre zl _ d _ hd hpre' (fun g loc arr =>
      parseArrayLoop_missingSeparator strtod zl (d - 1) (by omega) hzl gap c1 t1 hgap hc1 h93
        hstop1 g loc arr)
  · exact parse_objectDocument_ok strtod sp hsp ppre q [125] d hd hppre' hkeys
      (fun g loc obj index => parseKeyValuePairsAfterKey_lastPair strtod sp hsp q.2 (d - 1)
        (by omega) hq [] (Or.inl rfl) g loc q.1 obj index)
  · exact parse_objectDocument_ok strtod sp hsp ppre q [44, 125] d hd hppre' hkeys
      (fun g loc obj index => parseKeyValuePairsAfterKey_lastPair strtod sp hsp q.2 (d - 1)
        (by omega) hq [44] (Or.inr rfl) g loc q.1 obj index)
  · exact parse_objectDocument_error strtod sp hsp ppre q _ d _ hd hppre' hkeys
      (fun g loc obj index => parseKeyValuePairsAfterKey_missingSeparator strtod sp hsp q.2
        (d - 1) (by omega) hq gap c2 t2 hgap hc2 h125 hstop2 g loc q.1 obj index)
  · intro s ws hs hws hc
    exact parse_arrayDocument_ok strtod pre zl _ d hd hpre' (fun g loc arr =>
      parseArrayLoop_lastTrailing strtod zl (d - 1) (by omega) hzl gap s ws hgap hs hws hc
        g loc arr)
  · intro s ws hs hws
    exact parse_objectDocument_ok strtod sp hsp ppre q _ d hd hppre' hkeys
      (fun g loc obj index => parseKeyValuePairsAfterKey_lastTrailing strtod sp hsp q.2 (d - 1)
        (by omega) hq gap s ws hgap hs hws g loc q.1 obj index)

/-- C15 on the documents of the claim: `[1]` and `[1,]` parse to the same
Array and `[1 2]` fails; `{a: 1}` and `{a: 1,}` parse to the same Object and
`{a: 1 b: 2}` fails. With a blank and a line comment as the trailing
separator, `[1 // c`, newline, `]` parses to the same Array and `{a: 1 // c`,
newline, blank, `}` to the same Object, and with two newlines both do; the
array with a blank between the comment and `]` fails. -/
theorem separator_rules_witness :
    parse (fun t => t) [91, 49, 93] 8 = .ok (.array [.number [49, 101, 48]]) ∧
      parse (fun t => t) [91, 49, 44, 93] 8 = .ok (.array [.number [49, 101, 48]]) ∧
      (∃ loc, parse (fun t => t) [91, 49, 32, 50, 93] 8
        = .error ⟨loc, .expectedSeparatorArray⟩) ∧
      parse (fun t => t) [123, 97, 58, 32, 49, 125] 8
        = .ok (.object [⟨[97], 0, .number [49, 101, 48]⟩]) ∧
      parse (fun t => t) [123, 97, 58, 32, 49, 44, 125] 8
        = .ok (.object [⟨[97], 0, .number [49, 101, 48]⟩]) ∧
      (∃ loc, parse (fun t => t) [123, 97, 58, 32, 49, 32, 98, 58, 32, 50, 125] 8
        = .error ⟨loc, .expectedSeparatorObject⟩) ∧
      parse (fun t => t) [91, 49, 32, 47, 47, 32, 99, 10, 93] 8
        = .ok (.array [.number [49, 101, 48]]) ∧
      parse (fun t => t) [91, 49, 32, 10, 10, 93] 8
        = .ok (.array [.number [49, 101, 48]]) ∧
      parse (fun t => t) [123, 97, 58, 32, 49, 32, 47, 47, 32, 99, 10, 32, 125] 8
        = .ok (.object [⟨[97], 0, .number [49, 101, 48]⟩]) ∧
      parse (fun t => t) [123, 97, 58, 32, 49, 32, 13, 10, 10, 125] 8
        = .ok (.object [⟨[97], 0, .number [49, 101, 48]⟩]) ∧
      parse (fun t => t) [91, 49, 32, 47, 47, 32, 99, 10, 32, 93] 8
        = .error (error ⟨2, 1⟩ .unexpectedCharacterForIdentifier) :=
  have h := separator_rules (fun t => t) [] 1 [] ([97], 1) [32] [.byte 32] 50 [93] 98
    [58, 32, 50, 125] 8 (by decide) (by decide) (by decide) (by decide) (Or.inr rfl)
    (by decide) (by decide) (by decide) (by decide) (by decide) (by decide) (by decide)
  ⟨h.1, h.2.1, h.2.2.1, h.2.2.2.1, h.2.2.2.2.1, h.2.2.2.2.2.1,
    h.2.2.2.2.2.2.1 (.comment [32, 99]) [] (by decide) (by decide) (by decide),
    h.2.2.2.2.2.2.1 .newline [.byte 10] (by decide) (by decide) (by decide),
    h.2.2.2.2.2.2.2.1 (.comment [32, 99]) [.byte 32] (by decide) (by decide),
    h.2.2.2.2.2.2.2.1 .crlf [.byte 10] (by decide) (by decide),
    h.2.2.2.2.2.2.2.2⟩

/-! ## C18: error reporting -/

theorem Reader.getN_succ_get (n : Nat) : ∀ r : Reader,
    (Reader.getN n r).get.2 = Reader.getN (n + 1) r := by
  induction n with
  | zero => intro r; rfl
  | succ n ih => intro r; exact ih r.get.2

theorem Reader.Reaches.refl (r : Reader) : r.Reaches r := ⟨0, rfl⟩

theorem Reader.Reaches.get {r0 r : Reader} (h : r0.Reaches r) : r0.Reaches r.get.2 := by
  obtain ⟨n, rfl⟩ := h
  exact ⟨n + 1, Reader.getN_succ_get n r0⟩

theorem Reader.Reaches.loc {r0 r : Reader} (h : r0.Reaches r)
    (h0 : 1 ≤ r0.loc.line ∧ 1 ≤ r0.loc.ch) : 1 ≤ r.loc.line ∧ 1 ≤ r.loc.ch := by
  obtain ⟨n, rfl⟩ := h
  induction n generalizing r0 with
  | zero => exact h0
  | succ n ih =>
    apply ih
    simp only [Reader.get]
    split_ifs <;> simp only [] <;> omega

theorem Tracks.error {α : Type} {r0 r : Reader} (rdr : α → Reader) (k : ErrorKind)
    (h : r0.Reaches r) : Tracks r0 rdr (.error (error r.loc k)) := ⟨r, h, rfl⟩

theorem Tracks.forward {α β : Type} {r0 : Reader} {rdr : α → Reader} (rdr' : β → Reader)
    {e : ParseError} (h : Tracks r0 rdr (.error e)) : Tracks r0 rdr' (.error e) := h

theorem skipBlockCommentLoop_tracks (r0 : Reader) (fuel : Nat) :
    ∀ r, r0.Reaches r → Tracks r0 id (skipBlockCommentLoop fuel r) := by
  induction fuel with
  | zero => intro r _; trivial
  | succ f ih =>
    intro r hr
    rw [skipBlockCommentLoop]
    split
    · exact Tracks.error id _ hr.get
    · split
      · exact hr.get.get
      · exact ih _ hr.get

theorem skipBlockComment_tracks (r0 r : Reader) (hr : r0.Reaches r) :
    Tracks r0 id (skipBlockComment r) :=
  skipBlockCommentLoop_tracks r0 _ _ hr.get.get

theorem skipLineCommentLoop_tracks (r0 : Reader) (fuel : Nat) :
    ∀ r, r0.Reaches r → Tracks r0 id (skipLineCommentLoop fuel r) := by
  induction fuel with
  | zero => intro r _; trivial
  | succ f ih =>
    intro r hr
    rw [skipLineCommentLoop]
    split
    · exact hr.get
    · exact ih _ hr.get

theorem skipWhitespaceLoop_tracks (r0 : Reader) (fuel : Nat) :
    ∀ r, r0.Reaches r → Tracks r0 id (skipWhitespaceLoop fuel r) := by
  induction fuel with
  | zero => intro r _; trivial
  | succ f ih =>
    intro r hr
    rw [skipWhitespaceLoop]
    split
    · exact ih _ hr.get
    · split
      · have h1 := skipLineCommentLoop_tracks r0 r.get.2.get.2.fuel _ hr.get.get
        generalize skipLineCommentLoop r.get.2.get.2.fuel r.get.2.get.2 = res at h1
        rcases res with r1 | e | _
        · exact ih _ h1
        · exact h1
        · trivial
      · split
        · have h1 := skipBlockComment_tracks r0 r hr
          generalize skipBlockComment r = res at h1
          rcases res with r1 | e | _
          · exact ih _ h1
          · exact h1
          · trivial
        · exact hr

theorem skipWhitespace_tracks (r0 r : Reader) (hr : r0.Reaches r) :
    Tracks r0 id (skipWhitespace r) := skipWhitespaceLoop_tracks r0 _ r hr

theorem skipSpaceLoop_tracks (r0 : Reader) (fuel : Nat) :
    ∀ r, r0.Reaches r → Tracks r0 id (skipSpaceLoop fuel r) := by
  induction fuel with
  | zero => intro r _; trivial
  | succ f ih =>
    intro r hr
    rw [skipSpaceLoop]
    split
    · exact ih _ hr.get
    · split
      · have h1 := skipBlockComment_tracks r0 r hr
        generalize skipBlockComment r = res at h1
        rcases res with r1 | e | _
        · exact ih _ h1
        · exact h1
        · trivial
      · exact hr

theorem skipSpace_tracks (r0 r : Reader) (hr : r0.Reaches r) :
    Tracks r0 id (skipSpace r) := skipSpaceLoop_tracks r0 _ r hr

theorem skipSep_tracks (r0 r : Reader) (hr : r0.Reaches r) :
    Tracks r0 Prod.snd (skipSep r) := by
  unfold skipSep
  have h1 := skipSpace_tracks r0 r hr
  generalize skipSpace r = res at h1
  rcases res with r1 | e | _
  · have hr1 : r0.Reaches r1 := h1
    simp only
    split
    · have h2 := skipWhitespace_tracks r0 _ hr1.get
      generalize skipWhitespace r1.get.2 = res at h2
      rcases res with r2 | e | _
      · exact h2
      · exact h2
      · trivial
    · split
      · have h2 := skipWhitespace_tracks r0 _ hr1.get.get
        generalize skipWhitespace r1.get.2.get.2 = res at h2
        rcases res with r2 | e | _
        · exact h2
        · exact h2
        · trivial
      · split
        · have h2 := skipLineCommentLoop_tracks r0 r1.get.2.get.2.fuel _ hr1.get.get
          generalize skipLineCommentLoop r1.get.2.get.2.fuel r1.get.2.get.2 = res at h2
          rcases res with r2 | e | _
          · exact h2
          · exact h2
          · trivial
        · exact h1
  · exact h1
  · trivial

theorem parseHex_tracks (r0 : Reader) (n : Nat) :
    ∀ r num, r0.Reaches r → Tracks r0 Prod.snd (parseHex n r num) := by
  induction n with
  | zero => intro r num hr; exact hr
  | succ n ih =>
    intro r num hr
    rw [parseHex]
    split
    · exact Tracks.error _ _ hr.get
    · split
      · exact ih _ _ hr.get
      · split
        · exact ih _ _ hr.get
        · split
          · exact ih _ _ hr.get
          · exact Tracks.error _ _ hr

theorem parseIdentifierLoop_tracks (r0 : Reader) (fuel : Nat) :
    ∀ r ident, r0.Reaches r → Tracks r0 Prod.snd (parseIdentifierLoop fuel r ident) := by
  induction fuel with
  | zero => intro r ident _; trivial
  | succ f ih =>
    intro r ident hr
    rw [parseIdentifierLoop]
    split
    · exact hr.get
    · split
      · exact ih _ _ hr.get
      · exact hr.get

theorem parseIdentifier_tracks (r0 r : Reader) (hr : r0.Reaches r) :
    Tracks r0 Prod.snd (parseIdentifier r) := by
  unfold parseIdentifier
  split
  · exact Tracks.error _ _ hr
  · split
    · exact parseIdentifierLoop_tracks r0 _ _ _ hr
    · exact Tracks.error _ _ hr

theorem parseStringEscape_tracks (r0 r : Reader) (str : List Nat) (hr : r0.Reaches r) :
    Tracks r0 Prod.snd (parseStringEscape r str) := by
  unfold parseStringEscape
  split
  · exact Tracks.error _ _ hr.get
  · split
    · exact hr.get
    · split
      · have h1 := parseHex_tracks r0 2 r.get.2 0 hr.get
        generalize parseHex 2 r.get.2 0 = res at h1
        rcases res with ⟨⟨num, r1⟩⟩ | e | _
        · exact h1
        · exact h1
        · trivial
      · split
        · have h1 := parseHex_tracks r0 4 r.get.2 0 hr.get
          generalize parseHex 4 r.get.2 0 = res at h1
          rcases res with ⟨⟨num, r1⟩⟩ | e | _
          · simp only
            split
            · exact Tracks.error _ _ hr.get
            · exact h1
          · exact h1
          · trivial
        · split
          · have h1 := parseHex_tracks r0 6 r.get.2 0 hr.get
            generalize parseHex 6 r.get.2 0 = res at h1
            rcases res with ⟨⟨num, r1⟩⟩ | e | _
            · simp only
              split
              · exact Tracks.error _ _ hr.get
              · exact h1
            · exact h1
            · trivial
          · exact Tracks.error _ _ hr.get

theorem parseStringLoop_tracks (r0 : Reader) (fuel : Nat) :
    ∀ r str, r0.Reaches r → Tracks r0 Prod.snd (parseStringLoop fuel r str) := by
  induction fuel with
  | zero => intro r str _; trivial
  | succ f ih =>
    intro r str hr
    rw [parseStringLoop]
    split
    · exact Tracks.error _ _ hr.get
    · split
      · exact hr.get
      · split
        · have h1 := parseStringEscape_tracks r0 r.get.2 str hr.get
          generalize parseStringEscape r.get.2 str = res at h1
          rcases res with ⟨⟨str1, r1⟩⟩ | e | _
          · exact ih _ _ h1
          · exact h1
          · trivial
        · exact ih _ _ hr.get

theorem parseString_tracks (r0 r : Reader) (hr : r0.Reaches r) :
    Tracks r0 Prod.snd (parseString r) := parseStringLoop_tracks r0 _ _ _ hr.get

theorem parseBinaryStringLoop_tracks (r0 : Reader) (fuel : Nat) :
    ∀ r bytes, r0.Reaches r → Tracks r0 Prod.snd (parseBinaryStringLoop fuel r bytes) := by
  induction fuel with
  | zero => intro r bytes _; trivial
  | succ f ih =>
    intro r bytes hr
    rw [parseBinaryStringLoop]
    split
    · exact Tracks.error _ _ hr.get
    · split
      · exact hr.get
      · split
        · split
          · exact Tracks.error _ _ hr.get.get
          · split
            · have h1 := parseHex_tracks r0 2 r.get.2.get.2 0 hr.get.get
              generalize parseHex 2 r.get.2.get.2 0 = res at h1
              rcases res with ⟨⟨num, r1⟩⟩ | e | _
              · exact ih _ _ h1
              · exact h1
              · trivial
            · split
              · exact ih _ _ hr.get.get
              · exact Tracks.error _ _ hr.get.get
        · split
          · exact Tracks.error _ _ hr
          · exact ih _ _ hr.get

theorem parseBinaryString_tracks (r0 r : Reader) (hr : r0.Reaches r) :
    Tracks r0 Prod.snd (parseBinaryString r) :=
  parseBinaryStringLoop_tracks r0 _ _ _ hr.get.get

theorem countHashes_tracks (r0 : Reader) (fuel : Nat) :
    ∀ r hashes, r0.Reaches r → Tracks r0 (fun a => a.2.2) (countHashes fuel r hashes) := by
  induction fuel with
  | zero => intro r hashes _; trivial
  | succ f ih =>
    intro r hashes hr
    rw [countHashes]
    split
    · exact ih _ _ hr.get
    · exact hr.get

theorem parseRawStringLoop_tracks (r0 : Reader) (hashes fuel : Nat) :
    ∀ r str hashState, r0.Reaches r →
      Tracks r0 Prod.snd (parseRawStringLoop hashes fuel r str hashState) := by
  induction fuel with
  | zero => intro r str hashState _; trivial
  | succ f ih =>
    intro r str hashState hr
    rw [parseRawStringLoop]
    split
    · exact Tracks.error _ _ hr.get
    · simp only
      split_ifs <;> first | exact hr.get | exact ih _ _ _ hr.get

theorem parseRawString_tracks (r0 r : Reader) (hr : r0.Reaches r) :
    Tracks r0 Prod.snd (parseRawString r) := by
  unfold parseRawString
  have h1 := countHashes_tracks r0 r.get.2.fuel r.get.2 0 hr.get
  generalize countHashes r.get.2.fuel r.get.2 0 = res at h1
  rcases res with ⟨⟨hashes, ch, r1⟩⟩ | e | _
  · have hr1 : r0.Reaches r1 := h1
    simp only
    split
    · exact Tracks.error _ _ hr1
    · exact parseRawStringLoop_tracks r0 _ _ _ _ _ hr1
  · exact h1
  · trivial

theorem parseIntegerLoop_tracks (r0 : Reader) (radix fuel : Nat) :
    ∀ r num, r0.Reaches r → Tracks r0 Prod.snd (parseIntegerLoop radix fuel r num) := by
  induction fuel with
  | zero => intro r num _; trivial
  | succ f ih =>
    intro r num hr
    rw [parseIntegerLoop]
    split
    · exact hr
    · split
      · exact ih _ _ hr.get
      · split
        · exact hr
        · split
          · exact hr
          · exact ih _ _ hr.get

theorem parseInteger_tracks (r0 r : Reader) (radix : Nat) (hr : r0.Reaches r) :
    Tracks r0 Prod.snd (parseInteger r radix) := by
  unfold parseInteger
  split
  · exact Tracks.error _ _ hr
  · split
    · exact Tracks.error _ _ hr
    · exact parseIntegerLoop_tracks r0 _ _ _ _ hr.get

theorem parseFractionLoop_tracks (r0 : Reader) (fuel : Nat) :
    ∀ r fractional, r0.Reaches r →
      Tracks r0 Prod.snd (parseFractionLoop fuel r fractional) := by
  induction fuel with
  | zero => intro r fractional _; trivial
  | succ f ih =>
    intro r fractional hr
    rw [parseFractionLoop]
    split
    · exact hr
    · split
      · exact ih _ _ hr.get
      · split
        · exact ih _ _ hr.get
        · exact hr

theorem parseFraction_tracks (r0 r : Reader) (hr : r0.Reaches r) :
    Tracks r0 Prod.snd (parseFraction r) := by
  unfold parseFraction
  split
  · exact Tracks.error _ _ hr.get
  · split
    · exact parseFractionLoop_tracks r0 _ _ _ hr.get
    · exact Tracks.error _ _ hr.get

theorem parseExponent_tracks (r0 r : Reader) (hr : r0.Reaches r) :
    Tracks r0 Prod.snd (parseExponent r) := by
  unfold parseExponent
  have hr' : r0.Reaches
      (if r.get.2.peek = some 45 ∨ r.get.2.peek = some 43 then r.get.2.get.2 else r.get.2) := by
    split
    · exact hr.get.get
    · exact hr.get
  have h1 := parseInteger_tracks r0 _ 10 hr'
  generalize parseInteger
    (if r.get.2.peek = some 45 ∨ r.get.2.peek = some 43 then r.get.2.get.2 else r.get.2) 10
    = res at h1
  rcases res with ⟨⟨exponent, r1⟩⟩ | e | _
  · exact h1
  · exact h1
  · trivial

theorem parseNumber_tracks {F : Type} (strtod : List Nat → F) (r0 r : Reader)
    (hr : r0.Reaches r) : Tracks r0 Prod.snd (parseNumber strtod r) := by
  unfold parseNumber
  simp only
  have hr1 : r0.Reaches (if r.peek = some 45 ∨ r.peek = some 43 then r.get.2 else r) := by
    split
    · exact hr.get
    · exact hr
  generalize (if r.peek = some 45 ∨ r.peek = some 43 then r.get.2 else r) = r1 at hr1 ⊢
  have hr2 : r0.Reaches (if numberRadix r1 = 10 then r1 else r1.get.2.get.2) := by
    split
    · exact hr1
    · exact hr1.get.get
  generalize (if numberRadix r1 = 10 then r1 else r1.get.2.get.2) = r2 at hr2 ⊢
  have h3 : Tracks r0 Prod.snd
      (if r2.peek ≠ some 46 then parseInteger r2 (numberRadix r1) else .ok (.fin 0, r2)) := by
    split
    · exact parseInteger_tracks r0 r2 _ hr2
    · exact hr2
  generalize (if r2.peek ≠ some 46 then parseInteger r2 (numberRadix r1) else .ok (.fin 0, r2))
    = res3 at h3
  rcases res3 with ⟨⟨integral, r3⟩⟩ | e | _
  · have hr3 : r0.Reaches r3 := h3
    simp only
    have h4 : Tracks r0 Prod.snd
        (if numberRadix r1 = 10 ∧ r3.peek = some 46 then parseFraction r3
          else .ok ([], r3)) := by
      split
      · exact parseFraction_tracks r0 r3 hr3
      · exact hr3
    generalize (if numberRadix r1 = 10 ∧ r3.peek = some 46 then parseFraction r3
      else .ok ([], r3)) = res4 at h4
    rcases res4 with ⟨⟨fractional, r4⟩⟩ | e | _
    · have hr4 : r0.Reaches r4 := h4
      simp only
      have h5 : Tracks r0 Prod.snd
          (if numberRadix r1 = 10 ∧ (r4.peek = some 101 ∨ r4.peek = some 69) then
            parseExponent r4 else .ok ((false, .fin 0), r4)) := by
        split
        · exact parseExponent_tracks r0 r4 hr4
        · exact hr4
      generalize (if numberRadix r1 = 10 ∧ (r4.peek = some 101 ∨ r4.peek = some 69) then
        parseExponent r4 else .ok ((false, .fin 0), r4)) = res5 at h5
      rcases res5 with ⟨⟨⟨exponentNegative, exponent⟩, r5⟩⟩ | e | _
      · have hr5 : r0.Reaches r5 := h5
        simp only
        split_ifs <;> first | exact Tracks.error _ _ hr | exact hr5
      · exact h5
      · trivial
    · exact h4
    · trivial
  · exact h3
  · trivial

theorem parseKey_tracks (r0 r : Reader) (hr : r0.Reaches r) :
    Tracks r0 Prod.snd (parseKey r) := by
  unfold parseKey
  split
  · exact parseString_tracks r0 r hr
  · exact parseIdentifier_tracks r0 r hr

theorem keywordValue_cases {F : Type} (loc : Location) (ident : List Nat) :
    (∃ v : Value F, keywordValue loc ident = .ok v) ∨
      ∃ k, (keywordValue loc ident : Result (Value F)) = .error (error loc k) := by
  unfold keywordValue
  split_ifs
  · exact Or.inl ⟨_, rfl⟩
  · exact Or.inl ⟨_, rfl⟩
  · exact Or.inl ⟨_, rfl⟩
  · exact Or.inr ⟨_, rfl⟩
  · exact Or.inr ⟨_, rfl⟩

theorem keywordValue_tracks {F : Type} (r0 r r2 : Reader) (ident : List Nat)
    (hr : r0.Reaches r) (hr2 : r0.Reaches r2) :
    Tracks r0 Prod.snd
      (match (keywordValue r.loc ident : Result (Value F)) with
        | .ok v => .ok (v, r2)
        | .error e => .error e
        | .outOfFuel => .outOfFuel) := by
  rcases keywordValue_cases (F := F) r.loc ident with ⟨v, hv⟩ | ⟨k, hk⟩
  · rw [hv]; exact hr2
  · rw [hk]; exact Tracks.error _ _ hr

theorem parser_tracks {F : Type} (strtod : List Nat → F) (r0 : Reader) (fuel : Nat) :
    (∀ r key obj index depth, r0.Reaches r →
        Tracks r0 Prod.snd (parseKeyValuePairsAfterKey strtod fuel r key obj index depth)) ∧
      (∀ r depth, r0.Reaches r → Tracks r0 Prod.snd (parseKeyValuePairs strtod fuel r depth)) ∧
      (∀ r depth, r0.Reaches r → Tracks r0 Prod.snd (parseObject strtod fuel r depth)) ∧
      (∀ r arr depth, r0.Reaches r →
        Tracks r0 Prod.snd (parseArrayLoop strtod fuel r arr depth)) ∧
      (∀ r depth, r0.Reaches r → Tracks r0 Prod.snd (parseArray strtod fuel r depth)) ∧
      (∀ r depth tl, r0.Reaches r → Tracks r0 Prod.snd (parseValue strtod fuel r depth tl)) := by
  induction fuel with
  | zero =>
    refine ⟨?_, ?_, ?_, ?_, ?_, ?_⟩
    · intro r key obj index depth _; rw [parseKeyValuePairsAfterKey]; trivial
    · intro r depth _; rw [parseKeyValuePairs]; trivial
    · intro r depth _; rw [parseObject]; trivial
    · intro r arr depth _; rw [parseArrayLoop]; trivial
    · intro r depth _; rw [parseArray]; trivial
    · intro r depth tl _; rw [parseValue]; trivial
  | succ f ih =>
    obtain ⟨ihAfter, ihPairs, ihObject, ihLoop, ihArray, ihValue⟩ := ih
    refine ⟨?_, ?_, ?_, ?_, ?_, ?_⟩
    · intro r key obj index depth hr
      rw [parseKeyValuePairsAfterKey]
      split
      · exact Tracks.error _ _ hr
      · have h1 := skipWhitespace_tracks r0 _ hr.get
        generalize skipWhitespace r.get.2 = res at h1
        rcases res with r1 | e | _
        · have hr1 : r0.Reaches r1 := h1
          simp only
          have h2 := ihValue r1 depth false hr1
          generalize parseValue strtod f r1 depth false = res at h2
          rcases res with ⟨⟨val, r2⟩⟩ | e | _
          · have hr2 : r0.Reaches r2 := h2
            simp only
            have h3 := skipSep_tracks r0 r2 hr2
            generalize skipSep r2 = res at h3
            rcases res with ⟨⟨hasSep, r3⟩⟩ | e | _
            · have hr3 : r0.Reaches r3 := h3
              simp only
              have h4 := skipWhitespace_tracks r0 r3 hr3
              generalize skipWhitespace r3 = res at h4
              rcases res with r4 | e | _
              · have hr4 : r0.Reaches r4 := h4
                simp only
                split
                · exact hr4
                · split
                  · exact Tracks.error _ _ hr4
                  · have h5 := parseKey_tracks r0 r4 hr4
                    generalize parseKey r4 = res at h5
                    rcases res with ⟨⟨key1, r5⟩⟩ | e | _
                    · have hr5 : r0.Reaches r5 := h5
                      simp only
                      have h6 := skipWhitespace_tracks r0 r5 hr5
                      generalize skipWhitespace r5 = res at h6
                      rcases res with r6 | e | _
                      · exact ihAfter r6 _ _ _ _ h6
                      · exact h6
                      · trivial
                    · exact h5
                    · trivial
              · exact h4
              · trivial
            · exact h3
            · trivial
          · exact h2
          · trivial
        · exact h1
        · trivial
    · intro r depth hr
      rw [parseKeyValuePairs]
      have h1 := parseKey_tracks r0 r hr
      generalize parseKey r = res at h1
      rcases res with ⟨⟨key, r1⟩⟩ | e | _
      · have hr1 : r0.Reaches r1 := h1
        simp only
        have h2 := skipWhitespace_tracks r0 r1 hr1
        generalize skipWhitespace r1 = res at h2
        rcases res with r2 | e | _
        · exact ihAfter r2 _ _ _ _ h2
        · exact h2
        · trivial
      · exact h1
      · trivial
    · intro r depth hr
      rw [parseObject]
      split
      · exact Tracks.error _ _ hr
      · have h1 := skipWhitespace_tracks r0 _ hr.get
        generalize skipWhitespace r.get.2 = res at h1
        rcases res with r1 | e | _
        · have hr1 : r0.Reaches r1 := h1
          simp only
          split
          · exact hr1.get
          · have h2 := ihPairs r1 depth hr1
            generalize parseKeyValuePairs strtod f r1 depth = res at h2
            rcases res with ⟨⟨obj, r2⟩⟩ | e | _
            · have hr2 : r0.Reaches r2 := h2
              simp only
              have h3 := skipWhitespace_tracks r0 r2 hr2
              generalize skipWhitespace r2 = res at h3
              rcases res with r3 | e | _
              · have hr3 : r0.Reaches r3 := h3
                simp only
                split
                · exact Tracks.error _ _ hr3
                · exact hr3.get
              · exact h3
              · trivial
            · exact h2
            · trivial
        · exact h1
        · trivial
    · intro r arr depth hr
      rw [parseArrayLoop]
      have h1 := ihValue r depth false hr
      generalize parseValue strtod f r depth false = res at h1
      rcases res with ⟨⟨val, r1⟩⟩ | e | _
      · have hr1 : r0.Reaches r1 := h1
        simp only
        have h2 := skipSep_tracks r0 r1 hr1
        generalize skipSep r1 = res at h2
        rcases res with ⟨⟨hasSep, r2⟩⟩ | e | _
        · have hr2 : r0.Reaches r2 := h2
          simp only
          split
          · exact hr2.get
          · split
            · exact Tracks.error _ _ hr2
            · split
              · exact Tracks.error _ _ hr2
              · exact ihLoop r2 _ _ hr2
        · exact h2
        · trivial
      · exact h1
      · trivial
    · intro r depth hr
      rw [parseArray]
      split
      · exact Tracks.error _ _ hr
      · have h1 := skipWhitespace_tracks r0 _ hr.get
        generalize skipWhitespace r.get.2 = res at h1
        rcases res with r1 | e | _
        · have hr1 : r0.Reaches r1 := h1
          simp only
          split
          · exact hr1.get
          · exact ihLoop r1 _ _ hr1
        · exact h1
        · trivial
    · intro r depth tl hr
      rw [parseValue]
      by_cases h0 : depth ≤ 0
      · rw [if_pos h0]; exact Tracks.error _ _ hr
      rw [if_neg h0]
      by_cases h1 : r.peek = none
      · rw [if_pos h1]; exact Tracks.error _ _ hr
      rw [if_neg h1]
      by_cases h2 : r.peek = some 91
      · rw [if_pos h2]
        have h := ihArray r (depth - 1) hr
        generalize parseArray strtod f r (depth - 1) = res at h
        rcases res with ⟨⟨arr, r1⟩⟩ | e | _
        · exact h
        · exact h
        · trivial
      rw [if_neg h2]
      by_cases h3 : r.peek = some 123
      · rw [if_pos h3]
        have h := ihObject r (depth - 1) hr
        generalize parseObject strtod f r (depth - 1) = res at h
        rcases res with ⟨⟨obj, r1⟩⟩ | e | _
        · exact h
        · exact h
        · trivial
      rw [if_neg h3]
      by_cases h4 : r.peek = some 34
      · rw [if_pos h4]
        have h := parseString_tracks r0 r hr
        generalize parseString r = res at h
        rcases res with ⟨⟨ident, r1⟩⟩ | e | _
        · have hr1 : r0.Reaches r1 := h
          cases tl with
          | false => exact hr1
          | true =>
            simp only [if_true]
            have h2 := skipWhitespace_tracks r0 r1 hr1
            generalize skipWhitespace r1 = res at h2
            rcases res with r2 | e | _
            · have hr2 : r0.Reaches r2 := h2
              simp only
              split
              · have h3 := ihAfter r2 ident [] 0 (depth - 1) hr2
                generalize parseKeyValuePairsAfterKey strtod f r2 ident [] 0 (depth - 1)
                  = res at h3
                rcases res with ⟨⟨obj, r3⟩⟩ | e | _
                · exact h3
                · exact h3
                · trivial
              · exact hr2
            · exact h2
            · trivial
        · exact h
        · trivial
      rw [if_neg h4]
      by_cases h6 : r.peek = some 114 ∧ (r.peek2 = some 34 ∨ r.peek2 = some 35)
      · rw [if_pos h6]
        have h := parseRawString_tracks r0 r hr
        generalize parseRawString r = res at h
        rcases res with ⟨⟨str, r1⟩⟩ | e | _
        · exact h
        · exact h
        · trivial
      rw [if_neg h6]
      by_cases h7 : (r.peek.any fun ch => 48 ≤ ch ∧ ch ≤ 57) ∨ r.peek = some 46 ∨
          r.peek = some 43 ∨ r.peek = some 45
      · rw [if_pos h7]
        have h := parseNumber_tracks strtod r0 r hr
        generalize parseNumber strtod r = res at h
        rcases res with ⟨⟨num, r1⟩⟩ | e | _
        · exact h
        · exact h
        · trivial
      rw [if_neg h7]
      by_cases h8 : r.peek = some 98 ∧ r.peek2 = some 34
      · rw [if_pos h8]
        have h := parseBinaryString_tracks r0 r hr
        generalize parseBinaryString r = res at h
        rcases res with ⟨⟨bytes, r1⟩⟩ | e | _
        · exact h
        · exact h
        · trivial
      rw [if_neg h8]
      have h := parseIdentifier_tracks r0 r hr
      generalize parseIdentifier r = res at h
      rcases res with ⟨⟨ident, r1⟩⟩ | e | _
      · have hr1 : r0.Reaches r1 := h
        cases tl with
        | false => exact keywordValue_tracks r0 r r1 ident hr hr1
        | true =>
          simp only [if_true]
          have h2 := skipWhitespace_tracks r0 r1 hr1
          generalize skipWhitespace r1 = res at h2
          rcases res with r2 | e | _
          · have hr2 : r0.Reaches r2 := h2
            simp only
            split
            · have h3 := ihAfter r2 ident [] 0 (depth - 1) hr2
              generalize parseKeyValuePairsAfterKey strtod f r2 ident [] 0 (depth - 1)
                = res at h3
              rcases res with ⟨⟨obj, r3⟩⟩ | e | _
              · exact h3
              · exact h3
              · trivial
            · exact keywordValue_tracks r0 r r2 ident hr hr2
          · exact h2
          · trivial
      · exact h
      · trivial

theorem parse_tracks {F : Type} (strtod : List Nat → F) (input : List Nat) (d : Int) :
    Tracks (Reader.init input) (fun _ => Reader.init input) (parse strtod input d) := by
  have hr := Reader.Reaches.refl (Reader.init input)
  unfold parse
  have h1 := skipWhitespace_tracks _ _ hr
  generalize skipWhitespace (Reader.init input) = res at h1
  rcases res with r | e | _
  · have hr1 : (Reader.init input).Reaches r := h1
    simp only
    have h2 := (parser_tracks strtod (Reader.init input) (parseFuel input.length)).2.2.2.2.2
      r d true hr1
    generalize parseValue strtod (parseFuel input.length) r d true = res at h2
    rcases res with ⟨⟨v, r1⟩⟩ | e | _
    · have hr2 : (Reader.init input).Reaches r1 := h2
      simp only
      have h3 := skipWhitespace_tracks _ _ hr2
      generalize skipWhitespace r1 = res at h3
      rcases res with r2 | e | _
      · have hr3 : (Reader.init input).Reaches r2 := h3
        simp only
        split
        · exact Tracks.error _ _ hr3
        · exact hr
      · exact h3
      · trivial
    · exact h2
    · trivial
  · exact h1
  · trivial

/-! ## C22: strings written and read again -/

theorem serializeString_eq (s : List Nat) :
    serializeString s = 34 :: (s.flatMap stringEscape ++ [34]) := by
  have h : ∀ ch : Nat, (if ch = 34 ∨ ch = 92 then [92, ch]
      else if ch = 10 then [92, 110]
      else if ch = 13 then [92, 114]
      else if ch = 9 then [92, 116]
      else [ch]) = stringEscape ch := by
    intro ch
    by_cases h34 : ch = 34
    · subst h34; rfl
    by_cases h92 : ch = 92
    · subst h92; rfl
    by_cases h10 : ch = 10
    · subst h10; rfl
    by_cases h13 : ch = 13
    · subst h13; rfl
    by_cases h9 : ch = 9
    · subst h9; rfl
    simp only [h34, h92, h10, h13, h9, or_self, if_false]
    unfold stringEscape
    split <;> first | contradiction | rfl
  simp only [serializeString, h, List.singleton_append, List.cons_append, List.nil_append]

theorem parseStringLoop_escaped_byte (ch : Nat) (fuel : Nat) (rest str : List Nat)
    (loc : Location) :
    parseStringLoop (fuel + 1) ⟨stringEscape ch ++ rest, loc⟩ str
      = parseStringLoop fuel ⟨rest, loc.after (stringEscape ch)⟩ (str ++ [ch]) := by
  by_cases h34 : ch = 34
  · subst h34
    rw [parseStringLoop]
    simp [stringEscape, Reader.get_cons, parseStringEscape, parseStringEscapeChar,
      Location.after]
  by_cases h92 : ch = 92
  · subst h92
    rw [parseStringLoop]
    simp [stringEscape, Reader.get_cons, parseStringEscape, parseStringEscapeChar,
      Location.after]
  by_cases h10 : ch = 10
  · subst h10
    rw [parseStringLoop]
    simp [stringEscape, Reader.get_cons, parseStringEscape, parseStringEscapeChar,
      Location.after]
  by_cases h13 : ch = 13
  · subst h13
    rw [parseStringLoop]
    simp [stringEscape, Reader.get_cons, parseStringEscape, parseStringEscapeChar,
      Location.after]
  by_cases h9 : ch = 9
  · subst h9
    rw [parseStringLoop]
    simp [stringEscape, Reader.get_cons, parseStringEscape, parseStringEscapeChar,
      Location.after]
  have hraw : stringEscape ch = [ch] := by
    unfold stringEscape
    split <;> first | contradiction | rfl
  rw [hraw, parseStringLoop]
  simp [Reader.get_cons, h34, h92, Location.after]

theorem parseStringLoop_escaped (s : List Nat) :
    ∀ (fuel : Nat) (rest str : List Nat) (loc : Location),
      parseStringLoop (fuel + s.length) ⟨s.flatMap stringEscape ++ rest, loc⟩ str
        = parseStringLoop fuel ⟨rest, loc.after (s.flatMap stringEscape)⟩ (str ++ s) := by
  induction s with
  | nil => intro fuel rest str loc; simp [Location.after]
  | cons ch s ih =>
    intro fuel rest str loc
    have e : fuel + (ch :: s).length = (fuel + s.length) + 1 := by simp; omega
    rw [e, List.flatMap_cons, List.append_assoc, parseStringLoop_escaped_byte,
      ih fuel rest _ _, Location.after_append]
    simp

theorem length_flatMap_stringEscape (s : List Nat) :
    s.length ≤ (s.flatMap stringEscape).length := by
  induction s with
  | nil => simp
  | cons ch s ih =>
    have h : 1 ≤ (stringEscape ch).length := by
      unfold stringEscape
      split <;> simp
    simp only [List.flatMap_cons, List.length_append, List.length_cons]
    omega

theorem parseString_serializeString (s rest : List Nat) (loc : Location) :
    ∃ loc', parseString ⟨serializeString s ++ rest, loc⟩ = .ok (s, ⟨rest, loc'⟩) := by
  have hlen := length_flatMap_stringEscape s
  obtain ⟨f, hf⟩ : ∃ f, (s.flatMap stringEscape ++ 34 :: rest).length + 1
      = (f + 1) + s.length :=
    ⟨(s.flatMap stringEscape).length - s.length + (rest.length + 1), by
      simp only [List.length_append, List.length_cons]; omega⟩
  refine ⟨((loc.next 34).after (s.flatMap stringEscape)).next 34, ?_⟩
  rw [serializeString_eq]
  unfold parseString
  simp only [List.cons_append, List.append_assoc, List.singleton_append, Reader.get_cons,
    Reader.fuel, List.nil_append]
  rw [hf, parseStringLoop_escaped s (f + 1) (34 :: rest) [] _, parseStringLoop]
  simp [Reader.get_cons]

/-- C22. String serialization round trip. For every byte sequence `s`,
`serializeString` writes a quote, then for each byte its escape (a backslash
in front of the quote and the backslash, `\n`, `\r`, `\t` for newline,
carriage return and tab, every other byte raw, control bytes, NUL and bytes
above 127 included), then a quote; `parseString` reads this text back as
exactly `s`, whatever follows it, and as a document it parses to the String
`s` when `maxDepth ≥ 1`. -/
theorem string_serialization_round_trip {F : Type} (strtod : List Nat → F) (s rest : List Nat)
    (loc : Location) (d : Int) (hd : 1 ≤ d) :
    serializeString s = 34 :: (s.flatMap stringEscape ++ [34]) ∧
      (∀ c, c ≠ 34 → c ≠ 92 → c ≠ 10 → c ≠ 13 → c ≠ 9 → stringEscape c = [c]) ∧
      (∃ loc', parseString ⟨serializeString s ++ rest, loc⟩ = .ok (s, ⟨rest, loc'⟩)) ∧
      parse strtod (serializeString s) d = .ok (.string s) := by
  refine ⟨serializeString_eq s, ?_, parseString_serializeString s rest loc, ?_⟩
  · intro c h34 h92 h10 h13 h9
    unfold stringEscape
    split <;> first | contradiction | rfl
  · obtain ⟨loc', hp⟩ := parseString_serializeString s [] ⟨1, 1⟩
    rw [List.append_nil] at hp
    have hcons : serializeString s = 34 :: (s.flatMap stringEscape ++ [34]) :=
      serializeString_eq s
    rw [hcons] at hp ⊢
    apply parse_of_parseValue_ok strtod 34 _ d _ loc' (by decide)
    have hd' : ¬ d ≤ 0 := by omega
    obtain ⟨f, hf⟩ : ∃ f, parseFuel (34 :: (s.flatMap stringEscape ++ [34])).length = f + 1 :=
      ⟨parseFuel (34 :: (s.flatMap stringEscape ++ [34])).length - 1, by simp [parseFuel]⟩
    rw [hf, parseValue]
    simp [hd', Reader.peek, hp, skipWhitespace_nil]

/-- C22 on the five escaped bytes and on NUL, a control byte, 0xFF and a
non-ASCII byte: the text written parses back to the same bytes. -/
theorem string_serialization_round_trip_witness :
    parse (fun t => t) (serializeString [34, 92, 10, 13, 9, 0, 1, 255, 195, 65]) 1
        = .ok (.string [34, 92, 10, 13, 9, 0, 1, 255, 195, 65]) ∧
      serializeString [34, 92, 10, 13, 9, 0, 1, 255, 195, 65]
        = [34, 92, 34, 92, 92, 92, 110, 92, 114, 92, 116, 0, 1, 255, 195, 65, 34] :=
  have h := string_serialization_round_trip (fun t => t) [34, 92, 10, 13, 9, 0, 1, 255, 195, 65]
    [] ⟨1, 1⟩ 1 (by decide)
  ⟨h.2.2.2, h.1⟩

/-! ## C23: byte strings written and read again -/

theorem parse_binaryDocument_items {F : Type} (strtod : List Nat → F)
    (items : List BinaryItem) (d : Int) (hd : 1 ≤ d) (hv : ∀ it ∈ items, it.valid = true) :
    parse strtod (binaryDocument (items.flatMap BinaryItem.text ++ [34])) d
      = .ok (.bstring (items.map BinaryItem.byte)) := by
  have hlen := BinaryItem.length_flatMap_text items
  apply parse_of_parseValue_ok strtod 98 _ d _
    (((⟨1, 1⟩ : Location).right 2).after (items.flatMap BinaryItem.text ++ [34])) (by decide)
  obtain ⟨f, hf⟩ : ∃ f, (items.flatMap BinaryItem.text ++ [34]).length + 1
      = (f + 1) + items.length :=
    ⟨(items.flatMap BinaryItem.text).length - items.length + 1, by
      simp only [List.length_append, List.length_cons, List.length_nil]; omega⟩
  refine (parseValue_binary_start strtod
    (4 * (binaryDocument (items.flatMap BinaryItem.text ++ [34])).length + 3) _ ⟨1, 1⟩ d true
    hd).trans ?_
  rw [hf, parseBinaryStringLoop_items items (f + 1) [34] [] _ hv, parseBinaryStringLoop]
  simp [Reader.get_cons, Location.after_append, Location.after]

theorem serializeBString_eq (b : List Nat) :
    serializeBString b = binaryDocument (b.flatMap byteEscape ++ [34]) := by
  have h : ∀ ch : Nat, (if ch ≥ 32 ∧ ch < 127 then [ch]
      else [92, 120, hexAlphabet (ch >>> 4), hexAlphabet (ch &&& 0x0f)]) = byteEscape ch := by
    intro ch
    have h1 : ch >>> 4 = ch / 16 := by rw [Nat.shiftRight_eq_div_pow]
    have h2 : ch &&& 0x0f = ch % 16 := by
      have := Nat.and_pow_two_sub_one_eq_mod ch 4
      simpa using this
    have h3 : ∀ n, hexAlphabet n = digitChar false n := by
      intro n; simp [hexAlphabet, digitChar]
    unfold byteEscape
    rw [h1, h2, h3, h3]
    by_cases hp : 32 ≤ ch ∧ ch ≤ 126
    · rw [if_pos hp, if_pos ⟨hp.1, by omega⟩]
    · rw [if_neg hp, if_neg (fun hq => hp ⟨hq.1, by omega⟩)]
  simp only [serializeBString, h, binaryDocument, List.cons_append, List.nil_append,
    List.append_assoc]

theorem byteEscape_eq_text (ch : Nat) : byteEscape ch = (writtenItem ch).text := by
  unfold byteEscape writtenItem
  split_ifs <;> rfl

theorem writtenItem_byte (ch : Nat) (h : ch < 256) : (writtenItem ch).byte = ch := by
  unfold writtenItem
  split_ifs
  · rfl
  · simp only [BinaryItem.byte, digitValue,
      charValue_digitChar false (ch / 16) (by omega),
      charValue_digitChar false (ch % 16) (by omega), Option.getD_some]
    omega

theorem writtenItem_valid (ch : Nat) (h : ch < 256) (h34 : ch ≠ 34) (h92 : ch ≠ 92) :
    (writtenItem ch).valid = true := by
  unfold writtenItem
  split_ifs with hp
  · simp only [BinaryItem.valid, Bool.and_eq_true, decide_eq_true_eq, bne_iff_ne, ne_eq]
    exact ⟨⟨by omega, h34⟩, h92⟩
  · simp only [BinaryItem.valid, charValue_digitChar false (ch / 16) (by omega),
      charValue_digitChar false (ch % 16) (by omega), Option.isSome_some, Bool.and_self]

theorem serializeBString_items (b : List Nat) :
    serializeBString b
      = binaryDocument ((b.map writtenItem).flatMap BinaryItem.text ++ [34]) := by
  rw [serializeBString_eq]
  congr 2
  induction b with
  | nil => rfl
  | cons ch b ih => simp [List.flatMap_cons, byteEscape_eq_text, ih]

/-- C23 fails on the code. `serializeBString` writes printable ASCII raw and
every other byte as `\x` with two hex digits, the quote (0x22) and the
backslash (0x5C) among the raw ones: the byte string holding one quote is
written as `b"""`, which does not parse, the one holding one backslash as
`b"\"`, which does not parse either, and the one holding a backslash and `n`
as `b"\n"`, which parses to the single byte 0x0A. For byte sequences without
these two bytes the text written parses back to the same bytes. -/
theorem byte_string_round_trip_breaks {F : Type} (strtod : List Nat → F) :
    serializeBString [34] = [98, 34, 34, 34] ∧
      parse strtod (serializeBString [34]) 8 = .error (error ⟨1, 4⟩ .trailingGarbage) ∧
      serializeBString [92] = [98, 34, 92, 34] ∧
      parse strtod (serializeBString [92]) 8 = .error (error ⟨1, 6⟩ .unexpectedEOF) ∧
      serializeBString [92, 110] = [98, 34, 92, 110, 34] ∧
      parse strtod (serializeBString [92, 110]) 8 = .ok (.bstring [10]) ∧
      (∀ b : List Nat, serializeBString b = binaryDocument (b.flatMap byteEscape ++ [34])) ∧
      (∀ (b : List Nat) (d : Int), 1 ≤ d → (∀ c ∈ b, c < 256 ∧ c ≠ 34 ∧ c ≠ 92) →
        parse strtod (serializeBString b) d = .ok (.bstring b)) := by
  refine ⟨rfl, rfl, rfl, rfl, rfl, rfl, serializeBString_eq, ?_⟩
  intro b d hd hb
  rw [serializeBString_items, parse_binaryDocument_items strtod _ d hd]
  · congr 2
    rw [List.map_map]
    conv_rhs => rw [← List.map_id b]
    apply List.map_congr_left
    intro c hc
    exact writtenItem_byte c (hb c hc).1
  · intro it hit
    obtain ⟨c, hc, rfl⟩ := List.mem_map.mp hit
    exact writtenItem_valid c (hb c hc).1 (hb c hc).2.1 (hb c hc).2.2

/-- C23 at concrete inputs: the bytes 0, 65, 127, 255 are written as
`b"\x00A\x7f\xff"` and read back, while the byte string with one quote is
not read back. -/
theorem byte_string_round_trip_breaks_witness :
    parse (fun t => t) (serializeBString [0, 65, 127, 255]) 1
        = .ok (.bstring [0, 65, 127, 255]) ∧
      parse (fun t => t) (serializeBString [34]) 8
        = .error (error ⟨1, 4⟩ .trailingGarbage) :=
  have h := byte_string_round_trip_breaks (fun t => t)
  ⟨h.2.2.2.2.2.2.2 [0, 65, 127, 255] 1 (by decide) (by decide), h.2.1⟩

/-! ## C21: Unicode escapes and UTF-8 -/

theorem and_mask_shiftRight (n k w : Nat) :
    (n &&& ((2 ^ w - 1) <<< k)) >>> k = n / 2 ^ k % 2 ^ w := by
  rw [← Nat.shiftRight_eq_div_pow]
  apply Nat.eq_of_testBit_eq
  intro i
  simp only [Nat.testBit_shiftRight, Nat.testBit_and, Nat.testBit_shiftLeft,
    Nat.testBit_mod_two_pow, Nat.testBit_two_pow_sub_one]
  by_cases h : i < w <;> simp [h]

theorem or_lead (a b i : Nat) (h : b < 2 ^ i) : (2 ^ i * a) ||| b = 2 ^ i * a + b :=
  (Nat.mul_add_lt_is_or h a).symm

/-- The bytes of `writeUTF8` in arithmetic: the masks keep 3, 4, 5 and 6 bits. -/
theorem writeUTF8_eq (num : Nat) :
    writeUTF8 num =
      if num ≥ 0x10000 then
        [0xF0 + num / 262144 % 8, 0x80 + num / 4096 % 64, 0x80 + num / 64 % 64, 0x80 + num % 64]
      else if num ≥ 0x0800 then
        [0xE0 + num / 4096 % 16, 0x80 + num / 64 % 64, 0x80 + num % 64]
      else if num ≥ 0x0080 then [0xC0 + num / 64 % 32, 0x80 + num % 64]
      else [num % 256] := by
  have m18 : (num &&& 0x1c0000) >>> 18 = num / 262144 % 8 := and_mask_shiftRight num 18 3
  have m12 : (num &&& 0x03f000) >>> 12 = num / 4096 % 64 := and_mask_shiftRight num 12 6
  have m6 : (num &&& 0x000fc0) >>> 6 = num / 64 % 64 := and_mask_shiftRight num 6 6
  have m0 : (num &&& 0x00003f) >>> 0 = num % 64 := by
    have := and_mask_shiftRight num 0 6
    simpa using this
  have n12 : (num &&& 0x00f000) >>> 12 = num / 4096 % 16 := and_mask_shiftRight num 12 4
  have n6 : (num &&& 0x0007c0) >>> 6 = num / 64 % 32 := and_mask_shiftRight num 6 5
  have o80 : ∀ x, x < 64 → 0x80 ||| x = 0x80 + x := fun x h => or_lead 2 x 6 h
  have of0 : ∀ x, x < 8 → 0xf0 ||| x = 0xf0 + x := fun x h => or_lead 30 x 3 h
  have oe0 : ∀ x, x < 16 → 0xe0 ||| x = 0xe0 + x := fun x h => or_lead 14 x 4 h
  have oc0 : ∀ x, x < 32 → 0xc0 ||| x = 0xc0 + x := fun x h => or_lead 6 x 5 h
  unfold writeUTF8
  rw [m18, m12, m6, m0, n12, n6, o80 _ (Nat.mod_lt _ (by decide)),
    o80 _ (Nat.mod_lt _ (by decide)), o80 _ (Nat.mod_lt _ (by decide)),
    of0 _ (Nat.mod_lt _ (by decide)), oe0 _ (Nat.mod_lt _ (by decide)),
    oc0 _ (Nat.mod_lt _ (by decide))]
  have e1 : (0xf0 + num / 262144 % 8) % 256 = 0xF0 + num / 262144 % 8 := by omega
  have e2 : (0x80 + num / 4096 % 64) % 256 = 0x80 + num / 4096 % 64 := by omega
  have e3 : (0x80 + num / 64 % 64) % 256 = 0x80 + num / 64 % 64 := by omega
  have e4 : (0x80 + num % 64) % 256 = 0x80 + num % 64 := by omega
  have e5 : (0xe0 + num / 4096 % 16) % 256 = 0xE0 + num / 4096 % 16 := by omega
  have e6 : (0xc0 + num / 64 % 32) % 256 = 0xC0 + num / 64 % 32 := by omega
  rw [e1, e2, e3, e4, e5, e6]

/-- Below `2 ^ 21` the bytes `writeUTF8` appends are the UTF-8 byte pattern. -/
theorem writeUTF8_eq_utf8Encode (cp : Nat) (h : cp < 0x200000) :
    writeUTF8 cp = utf8Encode cp := by
  rw [writeUTF8_eq]
  unfold utf8Encode
  by_cases h1 : cp ≥ 0x10000
  · have a : ¬ cp < 0x80 := by omega
    have b : ¬ cp < 0x800 := by omega
    have c : ¬ cp < 0x10000 := by omega
    have e : cp / 262144 % 8 = cp / 262144 := by omega
    simp only [h1, a, b, c, if_true, if_false, e]
  by_cases h2 : cp ≥ 0x0800
  · have a : ¬ cp < 0x80 := by omega
    have b : ¬ cp < 0x800 := by omega
    have c : cp < 0x10000 := by omega
    have e : cp / 4096 % 16 = cp / 4096 := by omega
    simp only [h1, h2, a, b, c, if_true, if_false, e]
  by_cases h3 : cp ≥ 0x0080
  · have a : ¬ cp < 0x80 := by omega
    have b : cp < 0x800 := by omega
    have e : cp / 64 % 32 = cp / 64 := by omega
    simp only [h1, h2, h3, a, b, if_true, if_false, e]
  · have a : cp < 0x80 := by omega
    have e : cp % 256 = cp := by omega
    simp only [h1, h2, h3, a, if_true, if_false, e]

/-- A code point that is no surrogate and at most `0x10FFFF` is what its
UTF-8 encoding decodes to. -/
theorem utf8Decode_utf8Encode (cp : Nat) (hmax : cp ≤ 0x10FFFF)
    (hns : ¬ (0xD800 ≤ cp ∧ cp ≤ 0xDFFF)) : utf8Decode (utf8Encode cp) = some cp := by
  unfold utf8Encode
  by_cases h1 : cp < 0x80
  · simp only [h1, if_true, utf8Decode]
  by_cases h2 : cp < 0x800
  · simp only [h1, h2, if_true, if_false, utf8Decode, isContinuation]
    have c1 : 0xC0 ≤ 0xC0 + cp / 64 ∧ 0xC0 + cp / 64 < 0xE0
        ∧ (decide (0x80 ≤ 0x80 + cp % 64) && decide (0x80 + cp % 64 < 0xC0)) = true := by
      refine ⟨by omega, by omega, ?_⟩
      simp only [Bool.and_eq_true, decide_eq_true_eq]
      omega
    have e : (0xC0 + cp / 64 - 0xC0) * 64 + (0x80 + cp % 64 - 0x80) = cp := by omega
    rw [if_pos c1, e, if_pos (by omega)]
  by_cases h3 : cp < 0x10000
  · simp only [h1, h2, h3, if_true, if_false, utf8Decode, isContinuation]
    have c1 : 0xE0 ≤ 0xE0 + cp / 4096 ∧ 0xE0 + cp / 4096 < 0xF0
        ∧ (decide (0x80 ≤ 0x80 + cp / 64 % 64) && decide (0x80 + cp / 64 % 64 < 0xC0)) = true
        ∧ (decide (0x80 ≤ 0x80 + cp % 64) && decide (0x80 + cp % 64 < 0xC0)) = true := by
      refine ⟨by omega, by omega, ?_, ?_⟩ <;>
        simp only [Bool.and_eq_true, decide_eq_true_eq] <;> omega
    have e : (0xE0 + cp / 4096 - 0xE0) * 4096 + (0x80 + cp / 64 % 64 - 0x80) * 64
        + (0x80 + cp % 64 - 0x80) = cp := by omega
    rw [if_pos c1, e, if_pos ⟨by omega, hns⟩]
  · simp only [h1, h2, h3, if_false, utf8Decode, isContinuation]
    have c1 : 0xF0 ≤ 0xF0 + cp / 262144 ∧ 0xF0 + cp / 262144 < 0xF8
        ∧ (decide (0x80 ≤ 0x80 + cp / 4096 % 64) && decide (0x80 + cp / 4096 % 64 < 0xC0))
          = true
        ∧ (decide (0x80 ≤ 0x80 + cp / 64 % 64) && decide (0x80 + cp / 64 % 64 < 0xC0)) = true
        ∧ (decide (0x80 ≤ 0x80 + cp % 64) && decide (0x80 + cp % 64 < 0xC0)) = true := by
      refine ⟨by omega, by omega, ?_, ?_, ?_⟩ <;>
        simp only [Bool.and_eq_true, decide_eq_true_eq] <;> omega
    have e : (0xF0 + cp / 262144 - 0xF0) * 262144 + (0x80 + cp / 4096 % 64 - 0x80) * 4096
        + (0x80 + cp / 64 % 64 - 0x80) * 64 + (0x80 + cp % 64 - 0x80) = cp := by omega
    rw [if_pos c1, e, if_pos ⟨by omega, hmax⟩]

/-- Bits 21 and up of the number never reach the bytes `writeUTF8` appends. -/
theorem writeUTF8_drops_high_bits (num : Nat) (h : 0x10000 ≤ num % 0x200000) :
    writeUTF8 num = writeUTF8 (num % 0x200000) := by
  rw [writeUTF8_eq, writeUTF8_eq]
  have a : num ≥ 0x10000 := le_trans h (Nat.mod_le _ _)
  have b : num % 0x200000 ≥ 0x10000 := h
  rw [if_pos a, if_pos b]
  have e1 : num % 0x200000 / 262144 % 8 = num / 262144 % 8 := by omega
  have e2 : num % 0x200000 / 4096 % 64 = num / 4096 % 64 := by omega
  have e3 : num % 0x200000 / 64 % 64 = num / 64 % 64 := by omega
  have e4 : num % 0x200000 % 64 = num % 64 := by omega
  rw [e1, e2, e3, e4]

theorem hexDigitsValue_lt (hs : List Nat) : hexDigitsValue hs < 16 ^ hs.length := by
  have hstep : ∀ h : Nat, (charValue (some h)).getD 0 < 16 := by
    intro h
    cases hv : charValue (some h) with
    | none => simp
    | some v => exact (charValue_lt h v hv).1
  have key : ∀ (l : List Nat) (acc : Nat),
      l.foldl (fun acc h => acc * 16 + (charValue (some h)).getD 0) acc
        < (acc + 1) * 16 ^ l.length := by
    intro l
    induction l with
    | nil => intro acc; simp
    | cons h l ih =>
      intro acc
      have h1 := ih (acc * 16 + (charValue (some h)).getD 0)
      have h2 := hstep h
      rw [List.foldl_cons]
      refine lt_of_lt_of_le h1 ?_
      rw [List.length_cons, pow_succ, Nat.mul_comm (16 ^ l.length) 16, ← Nat.mul_assoc]
      exact Nat.mul_le_mul_right _ (by omega)
  have := key hs 0
  simpa [hexDigitsValue] using this

theorem parseStringEscape_unicode (u : Nat) (hs rest str : List Nat) (loc : Location)
    (hu : (u = 117 ∧ hs.length = 4) ∨ (u = 85 ∧ hs.length = 6))
    (hhex : ∀ h ∈ hs, (charValue (some h)).isSome = true)
    (hns : ¬ (0xD800 ≤ hexDigitsValue hs ∧ hexDigitsValue hs ≤ 0xDFFF)) :
    parseStringEscape ⟨u :: hs ++ rest, loc⟩ str
      = .ok (str ++ writeUTF8 (hexDigitsValue hs), ⟨rest, (loc.next u).right hs.length⟩) := by
  have hacc := hexAccumulate_eq hs (hu.imp (fun h => h.2) (fun h => h.2)) hhex
  rcases hu with ⟨rfl, hlen⟩ | ⟨rfl, hlen⟩
  · have h4 := parseHex_digits hs rest (loc.next 117) 0 hhex
    rw [hacc] at h4
    rw [hlen] at h4 ⊢
    unfold parseStringEscape
    simp only [Reader.get_cons, List.cons_append, show parseStringEscapeChar 117 = none from rfl,
      h4]
    simp [hns]
  · have h6 := parseHex_digits hs rest (loc.next 85) 0 hhex
    rw [hacc] at h6
    rw [hlen] at h6 ⊢
    unfold parseStringEscape
    simp only [Reader.get_cons, List.cons_append, show parseStringEscapeChar 85 = none from rfl,
      h6]
    simp [hns]

theorem parse_escapeDocument {F : Type} (strtod : List Nat → F) (pre hs post : List Nat)
    (u : Nat) (d : Int) (hd : 1 ≤ d)
    (hpre : ∀ b ∈ pre, b ≠ 34 ∧ b ≠ 92) (hpost : ∀ b ∈ post, b ≠ 34 ∧ b ≠ 92)
    (hu : (u = 117 ∧ hs.length = 4) ∨ (u = 85 ∧ hs.length = 6))
    (hhex : ∀ h ∈ hs, (charValue (some h)).isSome = true)
    (hns : ¬ (0xD800 ≤ hexDigitsValue hs ∧ hexDigitsValue hs ≤ 0xDFFF)) :
    parse strtod (escapeDocument pre u hs post) d
      = .ok (.string (pre ++ writeUTF8 (hexDigitsValue hs) ++ post)) := by
  have hd' : ¬ d ≤ 0 := by omega
  unfold escapeDocument
  apply parse_of_parseValue_ok strtod 34 _ d _
    (((((Location.next ⟨1, 1⟩ 34).after pre).next 92).next u).right hs.length
      |>.after post |>.next 34) (by decide)
  obtain ⟨f, hf⟩ : ∃ f, parseFuel (34 :: (pre ++ 92 :: u :: (hs ++ (post ++ [34])))).length
      = f + 1 := ⟨_, by simp [parseFuel]; rfl⟩
  have hlen : (pre ++ 92 :: u :: (hs ++ (post ++ [34]))).length + 1
      = ((hs.length + 2) + post.length + 1 + 1) + pre.length := by
    simp; omega
  have hloop := parseStringLoop_plain pre ((hs.length + 2) + post.length + 1 + 1)
    (92 :: u :: (hs ++ (post ++ [34]))) [] (Location.next ⟨1, 1⟩ 34) hpre
  have hesc := parseStringEscape_unicode u hs (post ++ [34]) ([] ++ pre)
    (((Location.next ⟨1, 1⟩ 34).after pre).next 92) hu hhex hns
  rw [List.cons_append] at hesc
  have hlen2 : hs.length + 2 + post.length + 1 = (hs.length + 2 + 1) + post.length := by omega
  have hloop2 := parseStringLoop_plain post (hs.length + 2 + 1) [34]
    ([] ++ pre ++ writeUTF8 (hexDigitsValue hs))
    (((((Location.next ⟨1, 1⟩ 34).after pre).next 92).next u).right hs.length) hpost
  rw [hf, parseValue]
  simp only [hd', Reader.peek, List.head?_cons, if_false, reduceCtorEq, if_true,
    Option.some.injEq, Nat.reduceEqDiff, parseString, Reader.get_cons, Reader.fuel]
  rw [hlen, hloop, parseStringLoop]
  simp only [Reader.get_cons, Nat.reduceEqDiff, if_false, if_true, hesc]
  rw [hlen2, hloop2, parseStringLoop]
  simp [Reader.get_cons, skipWhitespace_nil]

/-- C21. Unicode escapes and UTF-8. In a quoted string with plain text around
one escape `\u` with four hex digits or `\U` with six hex digits that write a
value outside the surrogate range, the parse succeeds when `maxDepth ≥ 1` and
the bytes appended for the escape are those of `writeUTF8` at the value
written. A `\u` escape writes at most `0xFFFF`. For every value up to
`0x10FFFF` that is no surrogate, the bytes of `writeUTF8` are the UTF-8
encoding and decode back to the value. A `\U` escape is accepted above
`0x10FFFF` as well, where `writeUTF8` keeps the low 21 bits only: the
documents `"\UFFFFFF"` and `"\U1FFFFF"` both parse to the bytes
`F7 BF BF BF`, and `"\U110000"` parses to `F4 90 80 80`; neither byte sequence
decodes as UTF-8, so the code point written is not given back. -/
theorem unicode_escape_utf8 {F : Type} (strtod : List Nat → F) :
    (∀ (pre hs post : List Nat) (u : Nat) (d : Int), 1 ≤ d →
        (∀ b ∈ pre, b ≠ 34 ∧ b ≠ 92) → (∀ b ∈ post, b ≠ 34 ∧ b ≠ 92) →
        ((u = 117 ∧ hs.length = 4) ∨ (u = 85 ∧ hs.length = 6)) →
        (∀ h ∈ hs, (charValue (some h)).isSome = true) →
        ¬ (0xD800 ≤ hexDigitsValue hs ∧ hexDigitsValue hs ≤ 0xDFFF) →
        parse strtod (escapeDocument pre u hs post) d
          = .ok (.string (pre ++ writeUTF8 (hexDigitsValue hs) ++ post))) ∧
      (∀ hs : List Nat, hs.length = 4 → hexDigitsValue hs ≤ 0xFFFF) ∧
      (∀ cp : Nat, cp ≤ 0x10FFFF → ¬ (0xD800 ≤ cp ∧ cp ≤ 0xDFFF) →
        writeUTF8 cp = utf8Encode cp ∧ utf8Decode (writeUTF8 cp) = some cp) ∧
      (∀ num : Nat, 0x10000 ≤ num % 0x200000 → writeUTF8 num = writeUTF8 (num % 0x200000)) ∧
      parse strtod [34, 92, 85, 70, 70, 70, 70, 70, 70, 34] 8
        = .ok (.string [0xF7, 0xBF, 0xBF, 0xBF]) ∧
      parse strtod [34, 92, 85, 49, 70, 70, 70, 70, 70, 34] 8
        = .ok (.string [0xF7, 0xBF, 0xBF, 0xBF]) ∧
      utf8Decode [0xF7, 0xBF, 0xBF, 0xBF] = none ∧
      parse strtod [34, 92, 85, 49, 49, 48, 48, 48, 48, 34] 8
        = .ok (.string [0xF4, 0x90, 0x80, 0x80]) ∧
      utf8Decode [0xF4, 0x90, 0x80, 0x80] = none := by
  refine ⟨?_, ?_, ?_, writeUTF8_drops_high_bits, ?_, ?_, by decide, ?_, by decide⟩
  · intro pre hs post u d hd hpre hpost hu hhex hns
    exact parse_escapeDocument strtod pre hs post u d hd hpre hpost hu hhex hns
  · intro hs hlen
    have h := hexDigitsValue_lt hs
    rw [hlen] at h
    omega
  · intro cp hmax hns
    have e := writeUTF8_eq_utf8Encode cp (by omega)
    exact ⟨e, by rw [e]; exact utf8Decode_utf8Encode cp hmax hns⟩
  · exact parse_escapeDocument strtod [] [70, 70, 70, 70, 70, 70] [] 85 8 (by decide) (by simp)
      (by simp) (Or.inr ⟨rfl, rfl⟩) (by decide) (by decide)
  · exact parse_escapeDocument strtod [] [49, 70, 70, 70, 70, 70] [] 85 8 (by decide) (by simp)
      (by simp) (Or.inr ⟨rfl, rfl⟩) (by decide) (by decide)
  · exact parse_escapeDocument strtod [] [49, 49, 48, 48, 48, 48] [] 85 8 (by decide) (by simp)
      (by simp) (Or.inr ⟨rfl, rfl⟩) (by decide) (by decide)

/-- C21 on the documents `"\u20AC"` and `"\U01F600"`: they parse to the bytes
`E2 82 AC` and `F0 9F 98 80`, which decode to the code points written, while
`"\UFFFFFF"` parses to bytes that do not decode. -/
theorem unicode_escape_utf8_witness :
    parse (fun t => t) [34, 92, 117, 50, 48, 65, 67, 34] 1 = .ok (.string [0xE2, 0x82, 0xAC]) ∧
      utf8Decode [0xE2, 0x82, 0xAC] = some 0x20AC ∧
      parse (fun t => t) [34, 92, 85, 48, 49, 70, 54, 48, 48, 34] 1
        = .ok (.string [0xF0, 0x9F, 0x98, 0x80]) ∧
      utf8Decode [0xF0, 0x9F, 0x98, 0x80] = some 0x1F600 ∧
      parse (fun t => t) [34, 92, 85, 70, 70, 70, 70, 70, 70, 34] 8
        = .ok (.string [0xF7, 0xBF, 0xBF, 0xBF]) ∧
      utf8Decode [0xF7, 0xBF, 0xBF, 0xBF] = none :=
  have h := unicode_escape_utf8 (fun t : List Nat => t)
  ⟨h.1 [] [50, 48, 65, 67] [] 117 1 (by decide) (by simp) (by simp) (Or.inl ⟨rfl, rfl⟩)
      (by decide) (by decide),
    (h.2.2.1 0x20AC (by decide) (by decide)).2,
    h.1 [] [48, 49, 70, 54, 48, 48] [] 85 1 (by decide) (by simp) (by simp) (Or.inr ⟨rfl, rfl⟩)
      (by decide) (by decide),
    (h.2.2.1 0x1F600 (by decide) (by decide)).2,
    h.2.2.2.2.1, h.2.2.2.2.2.2.1⟩

/-! ## C24: Base64 export -/

theorem b64Value_b64Char (k : Nat) (h : k < 64) : b64Value (b64Char k) = some k := by
  interval_cases k <;> rfl

theorem b64Sextets_eq (a b c : Nat) (ha : a < 256) (hb : b < 256) (hc : c < 256) :
    b64Sextets [a, b, c] = [a / 4, a % 4 * 16 + b / 16, b % 16 * 4 + c / 64, c % 64] := by
  have m0 : (a &&& 0xfc) >>> 2 = a / 4 % 64 := and_mask_shiftRight a 2 6
  have m1 : a &&& 0x03 = a % 4 := by
    have := Nat.and_pow_two_sub_one_eq_mod a 2
    simpa using this
  have m2 : (b &&& 0xf0) >>> 4 = b / 16 % 16 := and_mask_shiftRight b 4 4
  have m3 : b &&& 0x0f = b % 16 := by
    have := Nat.and_pow_two_sub_one_eq_mod b 4
    simpa using this
  have m4 : (c &&& 0xc0) >>> 6 = c / 64 % 4 := and_mask_shiftRight c 6 2
  have m5 : c &&& 0x3f = c % 64 := by
    have := Nat.and_pow_two_sub_one_eq_mod c 6
    simpa using this
  simp only [b64Sextets, List.getD_cons_zero, List.getD_cons_succ, m0, m1, m2, m3, m4, m5,
    Nat.shiftLeft_eq]
  congr 1
  · omega
  congr 1
  · omega
  congr 1
  · omega
  congr 1
  omega

theorem b64Char_ne_pad (k : Nat) (h : k < 64) : b64Char k ≠ 61 := by
  intro e
  have hv := b64Value_b64Char k h
  rw [e] at hv
  have hn : b64Value 61 = none := by decide
  rw [hn] at hv
  cases hv

theorem printB64Loop_group (a b c x y z : Nat) (rest os : List Nat) :
    printB64Loop (a :: b :: c :: rest) [x, y, z] 0 os
      = printB64Loop rest [a, b, c] 0 (os ++ (b64Sextets [a, b, c]).map b64Char) := by
  simp [printB64Loop, List.set]

theorem printB64_eq_rest (bs : List Nat) :
    printB64 bs = printB64Rest (printB64Loop bs [0, 0, 0] 0 []).1
      (printB64Loop bs [0, 0, 0] 0 []).2.1 (printB64Loop bs [0, 0, 0] 0 []).2.2 := rfl

/-- The loop and the block after it write the standard encoding after what
was written before. -/
theorem printB64Loop_eq_b64Encode : ∀ (bs : List Nat) (x y z : Nat) (os : List Nat),
    (∀ c ∈ bs, c < 256) →
    printB64Rest (printB64Loop bs [x, y, z] 0 os).1 (printB64Loop bs [x, y, z] 0 os).2.1
      (printB64Loop bs [x, y, z] 0 os).2.2 = os ++ b64Encode bs
  | [], x, y, z, os, _ => by simp [printB64Loop, printB64Rest, b64Encode]
  | [a], x, y, z, os, h => by
    have ha : a < 256 := h a (by simp)
    have hs := b64Sextets_eq a 0 0 ha (by decide) (by decide)
    simp only [Nat.zero_div, Nat.add_zero, Nat.zero_mod, Nat.zero_mul] at hs
    simp [printB64Loop, printB64Rest, b64Encode, List.set, List.range', hs,
      List.replicate]
  | [a, b], x, y, z, os, h => by
    have ha : a < 256 := h a (by simp)
    have hb : b < 256 := h b (by simp)
    have hs := b64Sextets_eq a b 0 ha hb (by decide)
    simp only [Nat.zero_div, Nat.add_zero, Nat.zero_mod, Nat.zero_mul] at hs
    simp [printB64Loop, printB64Rest, b64Encode, List.set, List.range', hs,
      List.replicate]
  | a :: b :: c :: rest, x, y, z, os, h => by
    have ha : a < 256 := h a (by simp)
    have hb : b < 256 := h b (by simp)
    have hc : c < 256 := h c (by simp)
    have hrest : ∀ c ∈ rest, c < 256 := fun c hc => h c (by simp [hc])
    rw [printB64Loop_group, printB64Loop_eq_b64Encode rest a b c _ hrest,
      b64Sextets_eq a b c ha hb hc]
    simp [b64Encode]

theorem printB64_eq_b64Encode (bs : List Nat) (h : ∀ c ∈ bs, c < 256) :
    printB64 bs = b64Encode bs := by
  rw [printB64_eq_rest, printB64Loop_eq_b64Encode bs 0 0 0 [] h]
  rfl

theorem b64Encode_length : ∀ bs : List Nat, (b64Encode bs).length = 4 * ((bs.length + 2) / 3)
  | [] => rfl
  | [_] => by simp [b64Encode]
  | [_, _] => by simp [b64Encode]
  | a :: b :: c :: rest => by
    have ih := b64Encode_length rest
    simp only [b64Encode, List.length_cons, ih]
    omega

/-- The standard encoding is alphabet characters followed by the padding. -/
theorem b64Encode_shape : ∀ bs : List Nat, (∀ c ∈ bs, c < 256) →
    ∃ body : List Nat, b64Encode bs = body ++ List.replicate ((3 - bs.length % 3) % 3) 61
      ∧ ∀ c ∈ body, ∃ k, k < 64 ∧ c = b64Char k
  | [], _ => ⟨[], rfl, by simp⟩
  | [a], h => by
    have ha : a < 256 := h a (by simp)
    refine ⟨[b64Char (a / 4), b64Char (a % 4 * 16)], rfl, ?_⟩
    intro c hc
    simp only [List.mem_cons, List.mem_singleton, List.not_mem_nil, or_false] at hc
    rcases hc with rfl | rfl
    · exact ⟨a / 4, by omega, rfl⟩
    · exact ⟨a % 4 * 16, by omega, rfl⟩
  | [a, b], h => by
    have ha : a < 256 := h a (by simp)
    have hb : b < 256 := h b (by simp)
    refine ⟨[b64Char (a / 4), b64Char (a % 4 * 16 + b / 16), b64Char (b % 16 * 4)], rfl, ?_⟩
    intro c hc
    simp only [List.mem_cons, List.mem_singleton, List.not_mem_nil, or_false] at hc
    rcases hc with rfl | rfl | rfl
    · exact ⟨a / 4, by omega, rfl⟩
    · exact ⟨a % 4 * 16 + b / 16, by omega, rfl⟩
    · exact ⟨b % 16 * 4, by omega, rfl⟩
  | a :: b :: c :: rest, h => by
    have ha : a < 256 := h a (by simp)
    have hb : b < 256 := h b (by simp)
    have hc : c < 256 := h c (by simp)
    obtain ⟨body, he, hbody⟩ := b64Encode_shape rest (fun c hc => h c (by simp [hc]))
    refine ⟨b64Char (a / 4) :: b64Char (a % 4 * 16 + b / 16) :: b64Char (b % 16 * 4 + c / 64)
      :: b64Char (c % 64) :: body, ?_, ?_⟩
    · have hl : (a :: b :: c :: rest).length % 3 = rest.length % 3 := by
        simp only [List.length_cons]
        omega
      rw [hl, b64Encode, he]
      rfl
    · intro ch hch
      simp only [List.mem_cons] at hch
      rcases hch with rfl | rfl | rfl | rfl | hch
      · exact ⟨a / 4, by omega, rfl⟩
      · exact ⟨a % 4 * 16 + b / 16, by omega, rfl⟩
      · exact ⟨b % 16 * 4 + c / 64, by omega, rfl⟩
      · exact ⟨c % 64, by omega, rfl⟩
      · exact hbody ch hch

theorem b64Decode_b64Encode : ∀ bs : List Nat, (∀ c ∈ bs, c < 256) →
    b64Decode (b64Encode bs) = some bs
  | [], _ => rfl
  | [a], h => by
    have ha : a < 256 := h a (by simp)
    simp only [b64Encode, b64Decode, b64Value_b64Char (a / 4) (by omega),
      b64Value_b64Char (a % 4 * 16) (by omega), and_self, if_true]
    rw [if_pos (by omega)]
    congr 2
    omega
  | [a, b], h => by
    have ha : a < 256 := h a (by simp)
    have hb : b < 256 := h b (by simp)
    have hne : b64Char (b % 16 * 4) ≠ 61 := b64Char_ne_pad _ (by omega)
    simp only [b64Encode, b64Decode, b64Value_b64Char (a / 4) (by omega),
      b64Value_b64Char (a % 4 * 16 + b / 16) (by omega),
      b64Value_b64Char (b % 16 * 4) (by omega), hne, and_self, and_true, false_and, and_false,
      if_true, if_false, true_and]
    rw [if_pos (by omega)]
    congr 2
    · omega
    congr 1
    omega
  | a :: b :: c :: rest, h => by
    have ha : a < 256 := h a (by simp)
    have hb : b < 256 := h b (by simp)
    have hc : c < 256 := h c (by simp)
    have ih := b64Decode_b64Encode rest (fun c hc => h c (by simp [hc]))
    have hne : b64Char (c % 64) ≠ 61 := b64Char_ne_pad _ (by omega)
    simp only [b64Encode, b64Decode, b64Value_b64Char (a / 4) (by omega),
      b64Value_b64Char (a % 4 * 16 + b / 16) (by omega),
      b64Value_b64Char (b % 16 * 4 + c / 64) (by omega),
      b64Value_b64Char (c % 64) (by omega), hne, ih, and_self, and_true, false_and, and_false,
      if_true, if_false, true_and]
    congr 2
    · omega
    congr 1
    · omega
    congr 1
    omega

theorem b64Char_range (k : Nat) (h : k < 64) :
    (65 ≤ b64Char k ∧ b64Char k ≤ 90) ∨ (97 ≤ b64Char k ∧ b64Char k ≤ 122)
      ∨ (48 ≤ b64Char k ∧ b64Char k ≤ 57) ∨ b64Char k = 43 ∨ b64Char k = 47 := by
  interval_cases k <;> decide

/-- C24. Base64 export. For every sequence `bs` of bytes, `printB64` writes
the standard padded Base64 encoding of it: `4 * ceil(n / 3)` characters for
`n` bytes, which are characters of `A-Z a-z 0-9 + /` followed by zero, one or
two `=` at the end and nowhere else, and which the standard decoder reads
back as `bs`; `printJSON` puts this text between quotes. -/
theorem base64_export (bs : List Nat) (h : ∀ c ∈ bs, c < 256) :
    (printB64 bs).length = 4 * ((bs.length + 2) / 3) ∧
      (∃ body : List Nat,
        printB64 bs = body ++ List.replicate ((3 - bs.length % 3) % 3) 61 ∧
          ∀ c ∈ body, (65 ≤ c ∧ c ≤ 90) ∨ (97 ≤ c ∧ c ≤ 122) ∨ (48 ≤ c ∧ c ≤ 57)
            ∨ c = 43 ∨ c = 47) ∧
      printB64 bs = b64Encode bs ∧
      b64Decode (printB64 bs) = some bs ∧
      printJSONBString bs = 34 :: (b64Encode bs ++ [34]) := by
  have he := printB64_eq_b64Encode bs h
  refine ⟨?_, ?_, he, ?_, ?_⟩
  · rw [he, b64Encode_length]
  · obtain ⟨body, hb, hbody⟩ := b64Encode_shape bs h
    refine ⟨body, by rw [he, hb], ?_⟩
    intro c hc
    obtain ⟨k, hk, rfl⟩ := hbody c hc
    exact b64Char_range k hk
  · rw [he, b64Decode_b64Encode bs h]
  · rw [printJSONBString, he]

/-- C24 on the bytes of `Ma`: the two bytes are written as `TWE=`, which
decodes to them. -/
theorem base64_export_witness :
    printB64 [77, 97] = [84, 87, 69, 61] ∧ b64Decode (printB64 [77, 97]) = some [77, 97]
      ∧ (printB64 [77, 97]).length = 4 :=
  have h := base64_export [77, 97] (by decide)
  ⟨by decide, h.2.2.2.1, h.1⟩

/-! ## C25: termination -/

theorem Reader.length_get (r : Reader) : r.get.2.input.length = r.input.length - 1 := by
  simp [Reader.get]

theorem Reader.length_pos_of_peek {r : Reader} {c : Nat} (h : r.peek = some c) :
    1 ≤ r.input.length := by
  cases r with
  | mk input loc =>
    cases input with
    | nil => simp [Reader.peek] at h
    | cons a i => simp

theorem Reader.length_pos_of_get {r : Reader} {c : Nat} (h : r.get.1 = some c) :
    1 ≤ r.input.length := Reader.length_pos_of_peek (r := r) h

theorem Reader.length_pos_of_peek_ne {r : Reader} (h : ¬ r.peek = none) :
    1 ≤ r.input.length := by
  cases hp : r.peek with
  | none => exact absurd hp h
  | some c => exact Reader.length_pos_of_peek hp

theorem Stops.mono {α : Type} {rdr : α → Reader} {k : α → Nat} {m m' : Nat} {res : Result α}
    (h : Stops rdr k m res) (hm : m ≤ m') : Stops rdr k m' res := by
  cases res with
  | ok a => exact le_trans h hm
  | error e => trivial
  | outOfFuel => exact h

theorem Stops.ne_outOfFuel {α : Type} {rdr : α → Reader} {k : α → Nat} {m : Nat}
    {res : Result α} (h : Stops rdr k m res) : res ≠ .outOfFuel := by
  intro e
  rw [e] at h
  exact h

theorem skipBlockCommentLoop_stops (fuel : Nat) :
    ∀ r : Reader, r.input.length + 1 ≤ fuel →
      Stops id (fun _ => 0) r.input.length (skipBlockCommentLoop fuel r) := by
  induction fuel with
  | zero => intro r h; omega
  | succ f ih =>
    intro r hf
    rw [skipBlockCommentLoop]
    split
    next => trivial
    next ch hch =>
      have hpos := Reader.length_pos_of_get hch
      have hlen := Reader.length_get r
      split
      next =>
        have hlen2 := Reader.length_get r.get.2
        show r.get.2.get.2.input.length + 0 ≤ r.input.length
        omega
      next => exact (ih r.get.2 (by omega)).mono (by omega)

theorem skipBlockCommentLoop_fuel (r : Reader) :
    Stops id (fun _ => 0) r.input.length (skipBlockCommentLoop r.fuel r) :=
  skipBlockCommentLoop_stops _ r (le_refl _)

theorem skipBlockComment_stops (r : Reader) :
    Stops id (fun _ => 0) r.input.length (skipBlockComment r) := by
  have h1 := Reader.length_get r
  have h2 := Reader.length_get r.get.2
  exact (skipBlockCommentLoop_fuel r.get.2.get.2).mono (by omega)

theorem skipLineCommentLoop_stops (fuel : Nat) :
    ∀ r : Reader, r.input.length + 1 ≤ fuel →
      Stops id (fun _ => 0) r.input.length (skipLineCommentLoop fuel r) := by
  induction fuel with
  | zero => intro r h; omega
  | succ f ih =>
    intro r hf
    have hlen := Reader.length_get r
    rw [skipLineCommentLoop]
    split
    next =>
      show r.get.2.input.length + 0 ≤ r.input.length
      omega
    next h =>
      have hpos : 1 ≤ r.input.length := by
        apply Reader.length_pos_of_peek_ne
        intro hn
        exact h (Or.inr hn)
      exact (ih r.get.2 (by omega)).mono (by omega)

theorem skipLineCommentLoop_fuel (r : Reader) :
    Stops id (fun _ => 0) r.input.length (skipLineCommentLoop r.fuel r) :=
  skipLineCommentLoop_stops _ r (le_refl _)

theorem skipWhitespaceLoop_stops (fuel : Nat) :
    ∀ r : Reader, r.input.length + 1 ≤ fuel →
      Stops id (fun _ => 0) r.input.length (skipWhitespaceLoop fuel r) := by
  induction fuel with
  | zero => intro r h; omega
  | succ f ih =>
    intro r hf
    have hlen := Reader.length_get r
    have hlen2 := Reader.length_get r.get.2
    rw [skipWhitespaceLoop]
    split
    next h =>
      have hpos : 1 ≤ r.input.length := by
        rcases h with h | h | h | h <;> exact Reader.length_pos_of_peek h
      exact (ih r.get.2 (by omega)).mono (by omega)
    next =>
      split
      next h =>
        have hpos := Reader.length_pos_of_peek h.1
        have h1 := skipLineCommentLoop_fuel r.get.2.get.2
        generalize skipLineCommentLoop r.get.2.get.2.fuel r.get.2.get.2 = res at h1
        rcases res with r1 | e | _
        · have hr1 : r1.input.length + 0 ≤ r.get.2.get.2.input.length := h1
          exact (ih r1 (by omega)).mono (by omega)
        · trivial
        · exact False.elim h1
      next =>
        split
        next h =>
          have hpos := Reader.length_pos_of_peek h.1
          have h1 := skipBlockCommentLoop_fuel r.get.2.get.2
          unfold skipBlockComment
          generalize skipBlockCommentLoop r.get.2.get.2.fuel r.get.2.get.2 = res at h1
          rcases res with r1 | e | _
          · have hr1 : r1.input.length + 0 ≤ r.get.2.get.2.input.length := h1
            exact (ih r1 (by omega)).mono (by omega)
          · trivial
          · exact False.elim h1
        next =>
          show r.input.length + 0 ≤ r.input.length
          omega

theorem skipWhitespace_stops (r : Reader) :
    Stops id (fun _ => 0) r.input.length (skipWhitespace r) :=
  skipWhitespaceLoop_stops _ r (le_refl _)

theorem skipSpaceLoop_stops (fuel : Nat) :
    ∀ r : Reader, r.input.length + 1 ≤ fuel →
      Stops id (fun _ => 0) r.input.length (skipSpaceLoop fuel r) := by
  induction fuel with
  | zero => intro r h; omega
  | succ f ih =>
    intro r hf
    have hlen := Reader.length_get r
    have hlen2 := Reader.length_get r.get.2
    rw [skipSpaceLoop]
    split
    next h =>
      have hpos : 1 ≤ r.input.length := by
        rcases h with h | h <;> exact Reader.length_pos_of_peek h
      exact (ih r.get.2 (by omega)).mono (by omega)
    next =>
      split
      next h =>
        have hpos := Reader.length_pos_of_peek h.1
        have h1 := skipBlockCommentLoop_fuel r.get.2.get.2
        unfold skipBlockComment
        generalize skipBlockCommentLoop r.get.2.get.2.fuel r.get.2.get.2 = res at h1
        rcases res with r1 | e | _
        · have hr1 : r1.input.length + 0 ≤ r.get.2.get.2.input.length := h1
          exact (ih r1 (by omega)).mono (by omega)
        · trivial
        · exact False.elim h1
      next =>
        show r.input.length + 0 ≤ r.input.length
        omega

theorem skipSpace_stops (r : Reader) :
    Stops id (fun _ => 0) r.input.length (skipSpace r) :=
  skipSpaceLoop_stops _ r (le_refl _)

/-- A separator found by `skipSep` is at least one byte that was read. -/
theorem skipSep_stops (r : Reader) :
    Stops Prod.snd (fun a => a.1.toNat) r.input.length (skipSep r) := by
  unfold skipSep
  have h1 := skipSpace_stops r
  generalize skipSpace r = res at h1
  rcases res with r1 | e | _
  · have hr1 : r1.input.length + 0 ≤ r.input.length := h1
    have hlen := Reader.length_get r1
    have hlen2 := Reader.length_get r1.get.2
    simp only
    split
    next h =>
      have hpos : 1 ≤ r1.input.length := by
        rcases h with h | h <;> exact Reader.length_pos_of_peek h
      have h2 := skipWhitespace_stops r1.get.2
      generalize skipWhitespace r1.get.2 = res at h2
      rcases res with r2 | e | _
      · have hr2 : r2.input.length + 0 ≤ r1.get.2.input.length := h2
        show r2.input.length + 1 ≤ r.input.length
        omega
      · trivial
      · exact False.elim h2
    next =>
      split
      next h =>
        have hpos := Reader.length_pos_of_peek h.1
        have h2 := skipWhitespace_stops r1.get.2.get.2
        generalize skipWhitespace r1.get.2.get.2 = res at h2
        rcases res with r2 | e | _
        · have hr2 : r2.input.length + 0 ≤ r1.get.2.get.2.input.length := h2
          show r2.input.length + 1 ≤ r.input.length
          omega
        · trivial
        · exact False.elim h2
      next =>
        split
        next h =>
          have hpos := Reader.length_pos_of_peek h.1
          have h2 := skipLineCommentLoop_fuel r1.get.2.get.2
          generalize skipLineCommentLoop r1.get.2.get.2.fuel r1.get.2.get.2 = res at h2
          rcases res with r2 | e | _
          · have hr2 : r2.input.length + 0 ≤ r1.get.2.get.2.input.length := h2
            show r2.input.length + 1 ≤ r.input.length
            omega
          · trivial
          · exact False.elim h2
        next =>
          show r1.input.length + 0 ≤ r.input.length
          omega
  · trivial
  · exact False.elim h1

theorem parseHex_stops (n : Nat) :
    ∀ (r : Reader) (num : Nat),
      Stops Prod.snd (fun _ => 0) r.input.length (parseHex n r num) := by
  induction n with
  | zero => intro r num; exact le_refl _
  | succ n ih =>
    intro r num
    have hlen := Reader.length_get r
    rw [parseHex]
    split
    next => trivial
    next =>
      split
      next => exact (ih _ _).mono (by omega)
      next =>
        split
        next => exact (ih _ _).mono (by omega)
        next =>
          split
          next => exact (ih _ _).mono (by omega)
          next => trivial

theorem parseIdentifierLoop_stops (fuel : Nat) :
    ∀ (r : Reader) (ident : List Nat), r.input.length + 1 ≤ fuel →
      Stops Prod.snd (fun _ => 0) r.input.length (parseIdentifierLoop fuel r ident) := by
  induction fuel with
  | zero => intro r ident h; omega
  | succ f ih =>
    intro r ident hf
    have hlen := Reader.length_get r
    rw [parseIdentifierLoop]
    split
    next =>
      show r.get.2.input.length + 0 ≤ r.input.length
      omega
    next nx hnx =>
      have hpos := Reader.length_pos_of_peek hnx
      split
      next => exact (ih _ _ (by omega)).mono (by omega)
      next =>
        show r.get.2.input.length + 0 ≤ r.input.length
        omega

theorem parseIdentifier_stops (r : Reader) :
    Stops Prod.snd (fun _ => 0) r.input.length (parseIdentifier r) := by
  unfold parseIdentifier
  split
  next => trivial
  next =>
    split
    next => exact parseIdentifierLoop_stops _ r [] (le_refl _)
    next => trivial

theorem parseStringEscape_stops (r : Reader) (str : List Nat) :
    Stops Prod.snd (fun _ => 0) r.input.length (parseStringEscape r str) := by
  have hlen := Reader.length_get r
  unfold parseStringEscape
  split
  next => trivial
  next =>
    split
    next =>
      show r.get.2.input.length + 0 ≤ r.input.length
      omega
    next =>
      split
      next =>
        have h1 := parseHex_stops 2 r.get.2 0
        generalize parseHex 2 r.get.2 0 = res at h1
        rcases res with ⟨⟨num, r1⟩⟩ | e | _
        · have hr1 : r1.input.length + 0 ≤ r.get.2.input.length := h1
          show r1.input.length + 0 ≤ r.input.length
          omega
        · trivial
        · exact False.elim h1
      next =>
        split
        next =>
          have h1 := parseHex_stops 4 r.get.2 0
          generalize parseHex 4 r.get.2 0 = res at h1
          rcases res with ⟨⟨num, r1⟩⟩ | e | _
          · have hr1 : r1.input.length + 0 ≤ r.get.2.input.length := h1
            simp only
            split
            next => trivial
            next =>
              show r1.input.length + 0 ≤ r.input.length
              omega
          · trivial
          · exact False.elim h1
        next =>
          split
          next =>
            have h1 := parseHex_stops 6 r.get.2 0
            generalize parseHex 6 r.get.2 0 = res at h1
            rcases res with ⟨⟨num, r1⟩⟩ | e | _
            · have hr1 : r1.input.length + 0 ≤ r.get.2.input.length := h1
              simp only
              split
              next => trivial
              next =>
                show r1.input.length + 0 ≤ r.input.length
                omega
            · trivial
            · exact False.elim h1
          next => trivial

theorem parseStringLoop_stops (fuel : Nat) :
    ∀ (r : Reader) (str : List Nat), r.input.length + 1 ≤ fuel →
      Stops Prod.snd (fun _ => 0) r.input.length (parseStringLoop fuel r str) := by
  induction fuel with
  | zero => intro r str h; omega
  | succ f ih =>
    intro r str hf
    have hlen := Reader.length_get r
    rw [parseStringLoop]
    split
    next => trivial
    next ch hch =>
      have hpos := Reader.length_pos_of_get hch
      split
      next =>
        show r.get.2.input.length + 0 ≤ r.input.length
        omega
      next =>
        split
        next =>
          have h1 := parseStringEscape_stops r.get.2 str
          generalize parseStringEscape r.get.2 str = res at h1
          rcases res with ⟨⟨str1, r1⟩⟩ | e | _
          · have hr1 : r1.input.length + 0 ≤ r.get.2.input.length := h1
            exact (ih r1 str1 (by omega)).mono (by omega)
          · trivial
          · exact False.elim h1
        next => exact (ih _ _ (by omega)).mono (by omega)

theorem parseString_stops (r : Reader) :
    Stops Prod.snd (fun _ => 0) r.input.length (parseString r) := by
  have hlen := Reader.length_get r
  exact (parseStringLoop_stops _ r.get.2 [] (le_refl _)).mono (by omega)

theorem parseBinaryStringLoop_stops (fuel : Nat) :
    ∀ (r : Reader) (bytes : List Nat), r.input.length + 1 ≤ fuel →
      Stops Prod.snd (fun _ => 0) r.input.length (parseBinaryStringLoop fuel r bytes) := by
  induction fuel with
  | zero => intro r bytes h; omega
  | succ f ih =>
    intro r bytes hf
    have hlen := Reader.length_get r
    have hlen2 := Reader.length_get r.get.2
    rw [parseBinaryStringLoop]
    split
    next => trivial
    next ch hch =>
      have hpos := Reader.length_pos_of_get hch
      split
      next =>
        show r.get.2.input.length + 0 ≤ r.input.length
        omega
      next =>
        split
        next =>
          split
          next => trivial
          next =>
            split
            next =>
              have h1 := parseHex_stops 2 r.get.2.get.2 0
              generalize parseHex 2 r.get.2.get.2 0 = res at h1
              rcases res with ⟨⟨num, r1⟩⟩ | e | _
              · have hr1 : r1.input.length + 0 ≤ r.get.2.get.2.input.length := h1
                exact (ih r1 _ (by omega)).mono (by omega)
              · trivial
              · exact False.elim h1
            next =>
              split
              next => exact (ih _ _ (by omega)).mono (by omega)
              next => trivial
        next =>
          split
          next => trivial
          next => exact (ih _ _ (by omega)).mono (by omega)

theorem parseBinaryString_stops (r : Reader) :
    Stops Prod.snd (fun _ => 0) r.input.length (parseBinaryString r) := by
  have hlen := Reader.length_get r
  have hlen2 := Reader.length_get r.get.2
  exact (parseBinaryStringLoop_stops _ r.get.2.get.2 [] (le_refl _)).mono (by omega)

theorem countHashes_stops (fuel : Nat) :
    ∀ (r : Reader) (hashes : Nat), r.input.length + 1 ≤ fuel →
      Stops (fun a => a.2.2) (fun _ => 0) r.input.length (countHashes fuel r hashes) := by
  induction fuel with
  | zero => intro r hashes h; omega
  | succ f ih =>
    intro r hashes hf
    have hlen := Reader.length_get r
    rw [countHashes]
    split
    next h =>
      have hpos := Reader.length_pos_of_get h
      exact (ih _ _ (by omega)).mono (by omega)
    next =>
      show r.get.2.input.length + 0 ≤ r.input.length
      omega

theorem parseRawStringLoop_stops (hashes fuel : Nat) :
    ∀ (r : Reader) (str : List Nat) (hashState : Int), r.input.length + 1 ≤ fuel →
      Stops Prod.snd (fun _ => 0) r.input.length
        (parseRawStringLoop hashes fuel r str hashState) := by
  induction fuel with
  | zero => intro r str hashState h; omega
  | succ f ih =>
    intro r str hashState hf
    have hlen := Reader.length_get r
    rw [parseRawStringLoop]
    split
    next => trivial
    next ch hch =>
      have hpos := Reader.length_pos_of_get hch
      have hok : Stops Prod.snd (fun _ => 0) r.input.length
          (.ok ((str ++ [ch]).take ((str ++ [ch]).length - hashes - 1), r.get.2)
            : Result (List Nat × Reader)) := by
        show r.get.2.input.length + 0 ≤ r.input.length
        omega
      simp only
      split_ifs <;> first
        | exact hok
        | exact (ih _ _ _ (by omega)).mono (by omega)

theorem parseRawString_stops (r : Reader) :
    Stops Prod.snd (fun _ => 0) r.input.length (parseRawString r) := by
  have hlen := Reader.length_get r
  unfold parseRawString
  have h1 := countHashes_stops r.get.2.fuel r.get.2 0 (le_refl _)
  generalize countHashes r.get.2.fuel r.get.2 0 = res at h1
  rcases res with ⟨⟨hashes, ch, r1⟩⟩ | e | _
  · have hr1 : r1.input.length + 0 ≤ r.get.2.input.length := h1
    simp only
    split
    next => trivial
    next => exact (parseRawStringLoop_stops _ _ r1 [] (-1) (le_refl _)).mono (by omega)
  · trivial
  · exact False.elim h1

theorem parseIntegerLoop_stops (radix fuel : Nat) :
    ∀ (r : Reader) (num : Dbl), r.input.length + 1 ≤ fuel →
      Stops Prod.snd (fun _ => 0) r.input.length (parseIntegerLoop radix fuel r num) := by
  induction fuel with
  | zero => intro r num h; omega
  | succ f ih =>
    intro r num hf
    have hlen := Reader.length_get r
    rw [parseIntegerLoop]
    split
    next => exact le_refl _
    next hne =>
      have hpos := Reader.length_pos_of_peek_ne hne
      split
      next => exact (ih _ _ (by omega)).mono (by omega)
      next =>
        split
        next => exact le_refl _
        next =>
          split
          next => exact le_refl _
          next => exact (ih _ _ (by omega)).mono (by omega)

theorem parseInteger_stops (r : Reader) (radix : Nat) :
    Stops Prod.snd (fun _ => 0) r.input.length (parseInteger r radix) := by
  have hlen := Reader.length_get r
  unfold parseInteger
  split
  next => trivial
  next =>
    split
    next => trivial
    next => exact (parseIntegerLoop_stops _ _ r.get.2 _ (le_refl _)).mono (by omega)

theorem parseFractionLoop_stops (fuel : Nat) :
    ∀ (r : Reader) (fractional : List Nat), r.input.length + 1 ≤ fuel →
      Stops Prod.snd (fun _ => 0) r.input.length (parseFractionLoop fuel r fractional) := by
  induction fuel with
  | zero => intro r fractional h; omega
  | succ f ih =>
    intro r fractional hf
    have hlen := Reader.length_get r
    rw [parseFractionLoop]
    split
    next => exact le_refl _
    next ch hch =>
      have hpos := Reader.length_pos_of_peek hch
      split
      next => exact (ih _ _ (by omega)).mono (by omega)
      next =>
        split
        next => exact (ih _ _ (by omega)).mono (by omega)
        next => exact le_refl _

theorem parseFraction_stops (r : Reader) :
    Stops Prod.snd (fun _ => 0) r.input.length (parseFraction r) := by
  have hlen := Reader.length_get r
  unfold parseFraction
  split
  next => trivial
  next =>
    split
    next => exact (parseFractionLoop_stops _ r.get.2 _ (le_refl _)).mono (by omega)
    next => trivial

theorem parseExponent_stops (r : Reader) :
    Stops Prod.snd (fun _ => 0) r.input.length (parseExponent r) := by
  have hlen := Reader.length_get r
  have hlen2 := Reader.length_get r.get.2
  unfold parseExponent
  have hr' : (if r.get.2.peek = some 45 ∨ r.get.2.peek = some 43 then r.get.2.get.2
      else r.get.2).input.length ≤ r.input.length := by
    split <;> omega
  have h1 := parseInteger_stops
    (if r.get.2.peek = some 45 ∨ r.get.2.peek = some 43 then r.get.2.get.2 else r.get.2) 10
  generalize (if r.get.2.peek = some 45 ∨ r.get.2.peek = some 43 then r.get.2.get.2
    else r.get.2) = r' at hr' h1
  generalize parseInteger r' 10 = res at h1
  rcases res with ⟨⟨exponent, r1⟩⟩ | e | _
  · have hr1 : r1.input.length + 0 ≤ r'.input.length := h1
    show r1.input.length + 0 ≤ r.input.length
    omega
  · trivial
  · exact False.elim h1

theorem parseNumber_stops {F : Type} (strtod : List Nat → F) (r : Reader) :
    Stops Prod.snd (fun _ => 0) r.input.length (parseNumber strtod r) := by
  have hlen := Reader.length_get r
  unfold parseNumber
  simp only
  have hr1 : (if r.peek = some 45 ∨ r.peek = some 43 then r.get.2 else r).input.length
      ≤ r.input.length := by
    split <;> omega
  generalize (if r.peek = some 45 ∨ r.peek = some 43 then r.get.2 else r) = r1 at hr1 ⊢
  have hr2 : (if numberRadix r1 = 10 then r1 else r1.get.2.get.2).input.length
      ≤ r.input.length := by
    have a := Reader.length_get r1
    have b := Reader.length_get r1.get.2
    split <;> omega
  generalize (if numberRadix r1 = 10 then r1 else r1.get.2.get.2) = r2 at hr2 ⊢
  have h3 : Stops Prod.snd (fun _ => 0) r.input.length
      (if r2.peek ≠ some 46 then parseInteger r2 (numberRadix r1) else .ok (.fin 0, r2)) := by
    split
    · exact (parseInteger_stops r2 _).mono hr2
    · show r2.input.length + 0 ≤ r.input.length
      omega
  generalize (if r2.peek ≠ some 46 then parseInteger r2 (numberRadix r1) else .ok (.fin 0, r2))
    = res3 at h3
  rcases res3 with ⟨⟨integral, r3⟩⟩ | e | _
  · have hr3 : r3.input.length + 0 ≤ r.input.length := h3
    simp only
    have h4 : Stops Prod.snd (fun _ => 0) r.input.length
        (if numberRadix r1 = 10 ∧ r3.peek = some 46 then parseFraction r3
          else .ok ([], r3)) := by
      split
      · exact (parseFraction_stops r3).mono (by omega)
      · exact hr3
    generalize (if numberRadix r1 = 10 ∧ r3.peek = some 46 then parseFraction r3
      else .ok ([], r3)) = res4 at h4
    rcases res4 with ⟨⟨fractional, r4⟩⟩ | e | _
    · have hr4 : r4.input.length + 0 ≤ r.input.length := h4
      simp only
      have h5 : Stops Prod.snd (fun _ => 0) r.input.length
          (if numberRadix r1 = 10 ∧ (r4.peek = some 101 ∨ r4.peek = some 69) then
            parseExponent r4 else .ok ((false, .fin 0), r4)) := by
        split
        · exact (parseExponent_stops r4).mono (by omega)
        · exact hr4
      generalize (if numberRadix r1 = 10 ∧ (r4.peek = some 101 ∨ r4.peek = some 69) then
        parseExponent r4 else .ok ((false, .fin 0), r4)) = res5 at h5
      rcases res5 with ⟨⟨⟨exponentNegative, exponent⟩, r5⟩⟩ | e | _
      · have hr5 : r5.input.length + 0 ≤ r.input.length := h5
        simp only
        split_ifs <;> trivial
      · trivial
      · exact False.elim h5
    · trivial
    · exact False.elim h4
  · trivial
  · exact False.elim h3

theorem parseKey_stops (r : Reader) :
    Stops Prod.snd (fun _ => 0) r.input.length (parseKey r) := by
  unfold parseKey
  split
  · exact parseString_stops r
  · exact parseIdentifier_stops r

theorem keywordValue_stops {F : Type} (loc : Location) (r2 : Reader) (ident : List Nat)
    (m : Nat) (h : r2.input.length ≤ m) :
    Stops Prod.snd (fun _ => 0) m
      (match (keywordValue loc ident : Result (Value F)) with
        | .ok v => .ok (v, r2)
        | .error e => .error e
        | .outOfFuel => .outOfFuel) := by
  rcases keywordValue_cases (F := F) loc ident with ⟨v, hv⟩ | ⟨k, hk⟩
  · rw [hv]; exact h
  · rw [hk]; trivial

/-- With four units of fuel for every byte still to read (and a few more),
no call in the mutual recursion of `parseValue` runs out of fuel, and a
successful call leaves no more bytes than it was given. -/
theorem parser_stops {F : Type} (strtod : List Nat → F) (fuel : Nat) :
    (∀ r key obj index depth, 4 * r.input.length + 3 ≤ fuel →
        Stops Prod.snd (fun _ => 0) r.input.length
          (parseKeyValuePairsAfterKey strtod fuel r key obj index depth)) ∧
      (∀ r depth, 4 * r.input.length + 4 ≤ fuel →
        Stops Prod.snd (fun _ => 0) r.input.length (parseKeyValuePairs strtod fuel r depth)) ∧
      (∀ r depth, 4 * r.input.length + 3 ≤ fuel →
        Stops Prod.snd (fun _ => 0) r.input.length (parseObject strtod fuel r depth)) ∧
      (∀ r arr depth, 4 * r.input.length + 5 ≤ fuel →
        Stops Prod.snd (fun _ => 0) r.input.length (parseArrayLoop strtod fuel r arr depth)) ∧
      (∀ r depth, 4 * r.input.length + 3 ≤ fuel →
        Stops Prod.snd (fun _ => 0) r.input.length (parseArray strtod fuel r depth)) ∧
      (∀ r depth tl, 4 * r.input.length + 4 ≤ fuel →
        Stops Prod.snd (fun _ => 0) r.input.length (parseValue strtod fuel r depth tl)) := by
  induction fuel with
  | zero =>
    refine ⟨?_, ?_, ?_, ?_, ?_, ?_⟩
    · intro r key obj index depth h; omega
    · intro r depth h; omega
    · intro r depth h; omega
    · intro r arr depth h; omega
    · intro r depth h; omega
    · intro r depth tl h; omega
  | succ f ih =>
    obtain ⟨ihAfter, ihPairs, ihObject, ihLoop, ihArray, ihValue⟩ := ih
    refine ⟨?_, ?_, ?_, ?_, ?_, ?_⟩
    · intro r key obj index depth hf
      have hlen := Reader.length_get r
      rw [parseKeyValuePairsAfterKey]
      split
      next => trivial
      next hcolon =>
        have hpos : 1 ≤ r.input.length :=
          Reader.length_pos_of_peek (c := 58) (not_not.mp hcolon)
        have h1 := skipWhitespace_stops r.get.2
        generalize skipWhitespace r.get.2 = res at h1
        rcases res with r1 | e | _
        · have hr1 : r1.input.length + 0 ≤ r.get.2.input.length := h1
          simp only
          have h2 := ihValue r1 depth false (by omega)
          generalize parseValue strtod f r1 depth false = res at h2
          rcases res with ⟨⟨val, r2⟩⟩ | e | _
          · have hr2 : r2.input.length + 0 ≤ r1.input.length := h2
            simp only
            have h3 := skipSep_stops r2
            generalize skipSep r2 = res at h3
            rcases res with ⟨⟨hasSep, r3⟩⟩ | e | _
            · have hr3 : r3.input.length + hasSep.toNat ≤ r2.input.length := h3
              simp only
              have h4 := skipWhitespace_stops r3
              generalize skipWhitespace r3 = res at h4
              rcases res with r4 | e | _
              · have hr4 : r4.input.length + 0 ≤ r3.input.length := h4
                simp only
                split
                next =>
                  show r4.input.length + 0 ≤ r.input.length
                  omega
                next =>
                  split
                  next => trivial
                  next =>
                    have h5 := parseKey_stops r4
                    generalize parseKey r4 = res at h5
                    rcases res with ⟨⟨key1, r5⟩⟩ | e | _
                    · have hr5 : r5.input.length + 0 ≤ r4.input.length := h5
                      simp only
                      have h6 := skipWhitespace_stops r5
                      generalize skipWhitespace r5 = res at h6
                      rcases res with r6 | e | _
                      · have hr6 : r6.input.length + 0 ≤ r5.input.length := h6
                        exact (ihAfter r6 _ _ _ _ (by omega)).mono (by omega)
                      · trivial
                      · exact False.elim h6
                    · trivial
                    · exact False.elim h5
              · trivial
              · exact False.elim h4
            · trivial
            · exact False.elim h3
          · trivial
          · exact False.elim h2
        · trivial
        · exact False.elim h1
    · intro r depth hf
      rw [parseKeyValuePairs]
      have h1 := parseKey_stops r
      generalize parseKey r = res at h1
      rcases res with ⟨⟨key, r1⟩⟩ | e | _
      · have hr1 : r1.input.length + 0 ≤ r.input.length := h1
        simp only
        have h2 := skipWhitespace_stops r1
        generalize skipWhitespace r1 = res at h2
        rcases res with r2 | e | _
        · have hr2 : r2.input.length + 0 ≤ r1.input.length := h2
          exact (ihAfter r2 _ _ _ _ (by omega)).mono (by omega)
        · trivial
        · exact False.elim h2
      · trivial
      · exact False.elim h1
    · intro r depth hf
      have hlen := Reader.length_get r
      rw [parseObject]
      split
      next => trivial
      next hbrace =>
        have hpos : 1 ≤ r.input.length :=
          Reader.length_pos_of_peek (c := 123) (not_not.mp hbrace)
        have h1 := skipWhitespace_stops r.get.2
        generalize skipWhitespace r.get.2 = res at h1
        rcases res with r1 | e | _
        · have hr1 : r1.input.length + 0 ≤ r.get.2.input.length := h1
          have hlen1 := Reader.length_get r1
          simp only
          split
          next =>
            show r1.get.2.input.length + 0 ≤ r.input.length
            omega
          next =>
            have h2 := ihPairs r1 depth (by omega)
            generalize parseKeyValuePairs strtod f r1 depth = res at h2
            rcases res with ⟨⟨obj, r2⟩⟩ | e | _
            · have hr2 : r2.input.length + 0 ≤ r1.input.length := h2
              simp only
              have h3 := skipWhitespace_stops r2
              generalize skipWhitespace r2 = res at h3
              rcases res with r3 | e | _
              · have hr3 : r3.input.length + 0 ≤ r2.input.length := h3
                have hlen3 := Reader.length_get r3
                simp only
                split
                next => trivial
                next =>
                  show r3.get.2.input.length + 0 ≤ r.input.length
                  omega
              · trivial
              · exact False.elim h3
            · trivial
            · exact False.elim h2
        · trivial
        · exact False.elim h1
    · intro r arr depth hf
      rw [parseArrayLoop]
      have h1 := ihValue r depth false (by omega)
      generalize parseValue strtod f r depth false = res at h1
      rcases res with ⟨⟨val, r1⟩⟩ | e | _
      · have hr1 : r1.input.length + 0 ≤ r.input.length := h1
        simp only
        have h2 := skipSep_stops r1
        generalize skipSep r1 = res at h2
        rcases res with ⟨⟨hasSep, r2⟩⟩ | e | _
        · have hr2 : r2.input.length + hasSep.toNat ≤ r1.input.length := h2
          have hlen2 := Reader.length_get r2
          simp only
          split
          next =>
            show r2.get.2.input.length + 0 ≤ r.input.length
            omega
          next =>
            split
            next => trivial
            next =>
              split
              next => trivial
              next hsep =>
                have hs : hasSep.toNat = 1 := by
                  cases hasSep with
                  | false => exact absurd rfl hsep
                  | true => rfl
                exact (ihLoop r2 _ _ (by omega)).mono (by omega)
        · trivial
        · exact False.elim h2
      · trivial
      · exact False.elim h1
    · intro r depth hf
      have hlen := Reader.length_get r
      rw [parseArray]
      split
      next => trivial
      next hbracket =>
        have hpos : 1 ≤ r.input.length :=
          Reader.length_pos_of_peek (c := 91) (not_not.mp hbracket)
        have h1 := skipWhitespace_stops r.get.2
        generalize skipWhitespace r.get.2 = res at h1
        rcases res with r1 | e | _
        · have hr1 : r1.input.length + 0 ≤ r.get.2.input.length := h1
          have hlen1 := Reader.length_get r1
          simp only
          split
          next =>
            show r1.get.2.input.length + 0 ≤ r.input.length
            omega
          next => exact (ihLoop r1 _ _ (by omega)).mono (by omega)
        · trivial
        · exact False.elim h1
    · intro r depth tl hf
      rw [parseValue]
      by_cases h0 : depth ≤ 0
      · rw [if_pos h0]; trivial
      rw [if_neg h0]
      by_cases h1 : r.peek = none
      · rw [if_pos h1]; trivial
      rw [if_neg h1]
      by_cases h2 : r.peek = some 91
      · rw [if_pos h2]
        have h := ihArray r (depth - 1) (by omega)
        generalize parseArray strtod f r (depth - 1) = res at h
        rcases res with ⟨⟨arr, r1⟩⟩ | e | _
        · exact h
        · trivial
        · exact False.elim h
      rw [if_neg h2]
      by_cases h3 : r.peek = some 123
      · rw [if_pos h3]
        have h := ihObject r (depth - 1) (by omega)
        generalize parseObject strtod f r (depth - 1) = res at h
        rcases res with ⟨⟨obj, r1⟩⟩ | e | _
        · exact h
        · trivial
        · exact False.elim h
      rw [if_neg h3]
      by_cases h4 : r.peek = some 34
      · rw [if_pos h4]
        have h := parseString_stops r
        generalize parseString r = res at h
        rcases res with ⟨⟨ident, r1⟩⟩ | e | _
        · have hr1 : r1.input.length + 0 ≤ r.input.length := h
          cases tl with
          | false => exact hr1
          | true =>
            simp only [if_true]
            have h2 := skipWhitespace_stops r1
            generalize skipWhitespace r1 = res at h2
            rcases res with r2 | e | _
            · have hr2 : r2.input.length + 0 ≤ r1.input.length := h2
              simp only
              split
              · have h3 := (ihAfter r2 ident [] 0 (depth - 1) (by omega)).mono
                  (show r2.input.length ≤ r.input.length by omega)
                generalize parseKeyValuePairsAfterKey strtod f r2 ident [] 0 (depth - 1)
                  = res at h3
                rcases res with ⟨⟨obj, r3⟩⟩ | e | _
                · exact h3
                · trivial
                · exact False.elim h3
              · show r2.input.length + 0 ≤ r.input.length
                omega
            · trivial
            · exact False.elim h2
        · trivial
        · exact False.elim h
      rw [if_neg h4]
      by_cases h6 : r.peek = some 114 ∧ (r.peek2 = some 34 ∨ r.peek2 = some 35)
      · rw [if_pos h6]
        have h := parseRawString_stops r
        generalize parseRawString r = res at h
        rcases res with ⟨⟨str, r1⟩⟩ | e | _
        · exact h
        · trivial
        · exact False.elim h
      rw [if_neg h6]
      by_cases h7 : (r.peek.any fun ch => 48 ≤ ch ∧ ch ≤ 57) ∨ r.peek = some 46 ∨
          r.peek = some 43 ∨ r.peek = some 45
      · rw [if_pos h7]
        have h := parseNumber_stops strtod r
        generalize parseNumber strtod r = res at h
        rcases res with ⟨⟨num, r1⟩⟩ | e | _
        · exact h
        · trivial
        · exact False.elim h
      rw [if_neg h7]
      by_cases h8 : r.peek = some 98 ∧ r.peek2 = some 34
      · rw [if_pos h8]
        have h := parseBinaryString_stops r
        generalize parseBinaryString r = res at h
        rcases res with ⟨⟨bytes, r1⟩⟩ | e | _
        · exact h
        · trivial
        · exact False.elim h
      rw [if_neg h8]
      have h := parseIdentifier_stops r
      generalize parseIdentifier r = res at h
      rcases res with ⟨⟨ident, r1⟩⟩ | e | _
      · have hr1 : r1.input.length + 0 ≤ r.input.length := h
        cases tl with
        | false => exact keywordValue_stops r.loc r1 ident _ (by omega)
        | true =>
          simp only [if_true]
          have h2 := skipWhitespace_stops r1
          generalize skipWhitespace r1 = res at h2
          rcases res with r2 | e | _
          · have hr2 : r2.input.length + 0 ≤ r1.input.length := h2
            simp only
            split
            · have h3 := (ihAfter r2 ident [] 0 (depth - 1) (by omega)).mono
                (show r2.input.length ≤ r.input.length by omega)
              generalize parseKeyValuePairsAfterKey strtod f r2 ident [] 0 (depth - 1)
                = res at h3
              rcases res with ⟨⟨obj, r3⟩⟩ | e | _
              · exact h3
              · trivial
              · exact False.elim h3
            · exact keywordValue_stops r.loc r2 ident _ (by omega)
          · trivial
          · exact False.elim h2
      · trivial
      · exact False.elim h

theorem parse_stops {F : Type} (strtod : List Nat → F) (input : List Nat) (d : Int) :
    parse strtod input d ≠ .outOfFuel := by
  unfold parse
  have h1 := skipWhitespace_stops (Reader.init input)
  generalize skipWhitespace (Reader.init input) = res at h1
  rcases res with r | e | _
  · have hr1 : r.input.length + 0 ≤ input.length := h1
    simp only
    have h2 := (parser_stops strtod (parseFuel input.length)).2.2.2.2.2 r d true
      (by unfold parseFuel; omega)
    generalize parseValue strtod (parseFuel input.length) r d true = res at h2
    rcases res with ⟨⟨v, r1⟩⟩ | e | _
    · simp only
      have h3 := skipWhitespace_stops r1
      generalize skipWhitespace r1 = res at h3
      rcases res with r2 | e | _
      · simp only
        split <;> simp
      · simp
      · exact False.elim h3
    · simp
    · exact False.elim h2
  · simp
  · exact False.elim h1

theorem heightList_le {F : Type} (n : Nat) :
    ∀ a : List (Value F), (∀ v ∈ a, v.height ≤ n) → heightList a ≤ n
  | [], _ => by simp [heightList]
  | v :: vs, h => by
    have h1 := h v (by simp)
    have h2 := heightList_le n vs (fun w hw => h w (by simp [hw]))
    simp only [heightList]
    exact max_le h1 h2

theorem heightEntries_le {F : Type} (n : Nat) :
    ∀ o : List (Entry (Value F)), (∀ e ∈ o, e.value.height ≤ n) → heightEntries o ≤ n
  | [], _ => by simp [heightEntries]
  | e :: es, h => by
    have h1 := h e (by simp)
    have h2 := heightEntries_le n es (fun w hw => h w (by simp [hw]))
    simp only [heightEntries]
    exact max_le h1 h2

theorem height_array_le {F : Type} (a : List (Value F)) (depth : Int) (hd : ¬ depth ≤ 0)
    (h : ∀ v ∈ a, (v.height : Int) ≤ depth - 1) :
    ((Value.array a).height : Int) ≤ depth := by
  have hn : ((depth - 1).toNat : Int) = depth - 1 := Int.toNat_of_nonneg (by omega)
  have h1 := heightList_le (depth - 1).toNat a (fun v hv => by
    have := h v hv
    omega)
  simp only [Value.height]
  omega

theorem height_object_le {F : Type} (o : List (Entry (Value F))) (depth : Int)
    (hd : ¬ depth ≤ 0) (h : ∀ e ∈ o, (e.value.height : Int) ≤ depth - 1) :
    ((Value.object o).height : Int) ≤ depth := by
  have hn : ((depth - 1).toNat : Int) = depth - 1 := Int.toNat_of_nonneg (by omega)
  have h1 := heightEntries_le (depth - 1).toNat o (fun e he => by
    have := h e he
    omega)
  simp only [Value.height]
  omega

theorem Object.set_forall {V : Type} (P : V → Prop) (key : List Nat) (index : Nat) (v : V)
    (hv : P v) : ∀ obj : List (Entry V), (∀ e ∈ obj, P e.value) →
      ∀ e ∈ Object.set obj key index v, P e.value
  | [], _ => by
    intro e he
    simp only [Object.set, List.mem_singleton] at he
    rw [he]
    exact hv
  | e0 :: rest, h => by
    intro e he
    simp only [Object.set] at he
    split at he
    · simp only [List.mem_cons] at he
      rcases he with rfl | he
      · exact hv
      · exact h e (by simp [he])
    · simp only [List.mem_cons] at he
      rcases he with rfl | he
      · exact h e (by simp)
      · exact Object.set_forall P key index v hv rest (fun w hw => h w (by simp [hw])) e he

theorem keywordValue_height {F : Type} (loc : Location) (r2 : Reader) (ident : List Nat)
    (depth : Int) (hd : ¬ depth ≤ 0) :
    Result.Holds (fun a : Value F × Reader => (a.1.height : Int) ≤ depth)
      (match (keywordValue loc ident : Result (Value F)) with
        | .ok v => .ok (v, r2)
        | .error e => .error e
        | .outOfFuel => .outOfFuel) := by
  unfold keywordValue
  split_ifs
  · show ((Value.null : Value F).height : Int) ≤ depth
    simp only [Value.height]; omega
  · show ((Value.bool true : Value F).height : Int) ≤ depth
    simp only [Value.height]; omega
  · show ((Value.bool false : Value F).height : Int) ≤ depth
    simp only [Value.height]; omega
  · trivial
  · trivial

/-- The value a call in the mutual recursion of `parseValue` returns is
nested no deeper than the depth the call was given. -/
theorem parser_height {F : Type} (strtod : List Nat → F) (fuel : Nat) :
    (∀ r key obj index depth, (∀ e ∈ obj, ((e.value : Value F).height : Int) ≤ depth) →
        Result.Holds (fun a => ∀ e ∈ a.1, ((e.value : Value F).height : Int) ≤ depth)
          (parseKeyValuePairsAfterKey strtod fuel r key obj index depth)) ∧
      (∀ r depth,
        Result.Holds (fun a => ∀ e ∈ a.1, ((e.value : Value F).height : Int) ≤ depth)
          (parseKeyValuePairs strtod fuel r depth)) ∧
      (∀ r depth,
        Result.Holds (fun a => ∀ e ∈ a.1, ((e.value : Value F).height : Int) ≤ depth)
          (parseObject strtod fuel r depth)) ∧
      (∀ r arr depth, (∀ v ∈ arr, ((v : Value F).height : Int) ≤ depth) →
        Result.Holds (fun a => ∀ v ∈ a.1, ((v : Value F).height : Int) ≤ depth)
          (parseArrayLoop strtod fuel r arr depth)) ∧
      (∀ r depth,
        Result.Holds (fun a => ∀ v ∈ a.1, ((v : Value F).height : Int) ≤ depth)
          (parseArray strtod fuel r depth)) ∧
      (∀ r depth tl,
        Result.Holds (fun a => ((a.1 : Value F).height : Int) ≤ depth)
          (parseValue strtod fuel r depth tl)) := by
  induction fuel with
  | zero =>
    refine ⟨?_, ?_, ?_, ?_, ?_, ?_⟩
    · intro r key obj index depth _; rw [parseKeyValuePairsAfterKey]; trivial
    · intro r depth; rw [parseKeyValuePairs]; trivial
    · intro r depth; rw [parseObject]; trivial
    · intro r arr depth _; rw [parseArrayLoop]; trivial
    · intro r depth; rw [parseArray]; trivial
    · intro r depth tl; rw [parseValue]; trivial
  | succ f ih =>
    obtain ⟨ihAfter, ihPairs, ihObject, ihLoop, ihArray, ihValue⟩ := ih
    refine ⟨?_, ?_, ?_, ?_, ?_, ?_⟩
    · intro r key obj index depth hobj
      rw [parseKeyValuePairsAfterKey]
      split
      next => trivial
      next =>
        generalize skipWhitespace r.get.2 = res
        rcases res with r1 | e | _
        · simp only
          have h2 := ihValue r1 depth false
          generalize parseValue strtod f r1 depth false = res at h2
          rcases res with ⟨⟨val, r2⟩⟩ | e | _
          · have hval : (val.height : Int) ≤ depth := h2
            have hset := Object.set_forall (fun v : Value F => (v.height : Int) ≤ depth)
              key index val hval obj hobj
            simp only
            generalize skipSep r2 = res
            rcases res with ⟨⟨hasSep, r3⟩⟩ | e | _
            · simp only
              generalize skipWhitespace r3 = res
              rcases res with r4 | e | _
              · simp only
                split
                next => exact hset
                next =>
                  split
                  next => trivial
                  next =>
                    generalize parseKey r4 = res
                    rcases res with ⟨⟨key1, r5⟩⟩ | e | _
                    · simp only
                      generalize skipWhitespace r5 = res
                      rcases res with r6 | e | _
                      · exact ihAfter r6 _ _ _ _ hset
                      · trivial
                      · trivial
                    · trivial
                    · trivial
              · trivial
              · trivial
            · trivial
            · trivial
          · trivial
          · trivial
        · trivial
        · trivial
    · intro r depth
      rw [parseKeyValuePairs]
      generalize parseKey r = res
      rcases res with ⟨⟨key, r1⟩⟩ | e | _
      · simp only
        generalize skipWhitespace r1 = res
        rcases res with r2 | e | _
        · exact ihAfter r2 _ _ _ _ (by simp)
        · trivial
        · trivial
      · trivial
      · trivial
    · intro r depth
      rw [parseObject]
      split
      next => trivial
      next =>
        generalize skipWhitespace r.get.2 = res
        rcases res with r1 | e | _
        · simp only
          split
          next =>
            show ∀ e ∈ ([] : List (Entry (Value F))), ((e.value).height : Int) ≤ depth
            simp
          next =>
            have h2 := ihPairs r1 depth
            generalize parseKeyValuePairs strtod f r1 depth = res at h2
            rcases res with ⟨⟨obj, r2⟩⟩ | e | _
            · simp only
              generalize skipWhitespace r2 = res
              rcases res with r3 | e | _
              · simp only
                split
                next => trivial
                next => exact h2
              · trivial
              · trivial
            · trivial
            · trivial
        · trivial
        · trivial
    · intro r arr depth harr
      rw [parseArrayLoop]
      have h1 := ihValue r depth false
      generalize parseValue strtod f r depth false = res at h1
      rcases res with ⟨⟨val, r1⟩⟩ | e | _
      · have hval : (val.height : Int) ≤ depth := h1
        have happ : ∀ v ∈ arr ++ [val], (v.height : Int) ≤ depth := by
          intro v hv
          simp only [List.mem_append, List.mem_singleton] at hv
          rcases hv with hv | rfl
          · exact harr v hv
          · exact hval
        simp only
        generalize skipSep r1 = res
        rcases res with ⟨⟨hasSep, r2⟩⟩ | e | _
        · simp only
          split
          next => exact happ
          next =>
            split
            next => trivial
            next =>
              split
              next => trivial
              next => exact ihLoop r2 _ _ happ
        · trivial
        · trivial
      · trivial
      · trivial
    · intro r depth
      rw [parseArray]
      split
      next => trivial
      next =>
        generalize skipWhitespace r.get.2 = res
        rcases res with r1 | e | _
        · simp only
          split
          next =>
            show ∀ v ∈ ([] : List (Value F)), (v.height : Int) ≤ depth
            simp
          next => exact ihLoop r1 _ _ (by simp)
        · trivial
        · trivial
    · intro r depth tl
      rw [parseValue]
      by_cases h0 : depth ≤ 0
      · rw [if_pos h0]; trivial
      rw [if_neg h0]
      by_cases h1 : r.peek = none
      · rw [if_pos h1]; trivial
      rw [if_neg h1]
      by_cases h2 : r.peek = some 91
      · rw [if_pos h2]
        have h := ihArray r (depth - 1)
        generalize parseArray strtod f r (depth - 1) = res at h
        rcases res with ⟨⟨arr, r1⟩⟩ | e | _
        · exact height_array_le arr depth h0 h
        · trivial
        · trivial
      rw [if_neg h2]
      by_cases h3 : r.peek = some 123
      · rw [if_pos h3]
        have h := ihObject r (depth - 1)
        generalize parseObject strtod f r (depth - 1) = res at h
        rcases res with ⟨⟨obj, r1⟩⟩ | e | _
        · exact height_object_le obj depth h0 h
        · trivial
        · trivial
      rw [if_neg h3]
      have hscalar : ∀ s : List Nat, ((Value.string s : Value F).height : Int) ≤ depth := by
        intro s
        simp only [Value.height]
        omega
      by_cases h4 : r.peek = some 34
      · rw [if_pos h4]
        generalize parseString r = res
        rcases res with ⟨⟨ident, r1⟩⟩ | e | _
        · cases tl with
          | false => exact hscalar ident
          | true =>
            simp only [if_true]
            generalize skipWhitespace r1 = res
            rcases res with r2 | e | _
            · simp only
              split
              · have h3 := ihAfter r2 ident [] 0 (depth - 1) (by simp)
                generalize parseKeyValuePairsAfterKey strtod f r2 ident [] 0 (depth - 1)
                  = res at h3
                rcases res with ⟨⟨obj, r3⟩⟩ | e | _
                · exact height_object_le obj depth h0 h3
                · trivial
                · trivial
              · exact hscalar ident
            · trivial
            · trivial
        · trivial
        · trivial
      rw [if_neg h4]
      by_cases h6 : r.peek = some 114 ∧ (r.peek2 = some 34 ∨ r.peek2 = some 35)
      · rw [if_pos h6]
        generalize parseRawString r = res
        rcases res with ⟨⟨str, r1⟩⟩ | e | _
        · exact hscalar str
        · trivial
        · trivial
      rw [if_neg h6]
      by_cases h7 : (r.peek.any fun ch => 48 ≤ ch ∧ ch ≤ 57) ∨ r.peek = some 46 ∨
          r.peek = some 43 ∨ r.peek = some 45
      · rw [if_pos h7]
        generalize parseNumber strtod r = res
        rcases res with ⟨⟨num, r1⟩⟩ | e | _
        · show ((Value.number num : Value F).height : Int) ≤ depth
          simp only [Value.height]
          omega
        · trivial
        · trivial
      rw [if_neg h7]
      by_cases h8 : r.peek = some 98 ∧ r.peek2 = some 34
      · rw [if_pos h8]
        generalize parseBinaryString r = res
        rcases res with ⟨⟨bytes, r1⟩⟩ | e | _
        · show ((Value.bstring bytes : Value F).height : Int) ≤ depth
          simp only [Value.height]
          omega
        · trivial
        · trivial
      rw [if_neg h8]
      generalize parseIdentifier r = res
      rcases res with ⟨⟨ident, r1⟩⟩ | e | _
      · cases tl with
        | false => exact keywordValue_height r.loc r1 ident depth h0
        | true =>
          simp only [if_true]
          generalize skipWhitespace r1 = res
          rcases res with r2 | e | _
          · simp only
            split
            · have h3 := ihAfter r2 ident [] 0 (depth - 1) (by simp)
              generalize parseKeyValuePairsAfterKey strtod f r2 ident [] 0 (depth - 1)
                = res at h3
              rcases res with ⟨⟨obj, r3⟩⟩ | e | _
              · exact height_object_le obj depth h0 h3
              · trivial
              · trivial
            · exact keywordValue_height r.loc r2 ident depth h0
          · trivial
          · trivial
      · trivial
      · trivial

theorem parse_height {F : Type} (strtod : List Nat → F) (input : List Nat) (d : Int)
    (v : Value F) (h : parse strtod input d = .ok v) : (v.height : Int) ≤ d := by
  unfold parse at h
  generalize skipWhitespace (Reader.init input) = res at h
  rcases res with r | e | _
  · simp only at h
    have h2 := (parser_height strtod (parseFuel input.length)).2.2.2.2.2 r d true
    generalize parseValue strtod (parseFuel input.length) r d true = res at h h2
    rcases res with ⟨⟨v1, r1⟩⟩ | e | _
    · have hv1 : (v1.height : Int) ≤ d := h2
      simp only at h
      generalize skipWhitespace r1 = res at h
      rcases res with r2 | e | _
      · simp only at h
        split at h
        · cases h
        · cases h
          exact hv1
      · cases h
      · cases h
    · cases h
    · cases h
  · cases h
  · cases h

/-- C25. Termination. For every input and every `maxDepth`, `parse` returns
success or failure: the fuel that stands for the loops and the recursion is
never used up. Each of the whitespace, comment, separator, string, number and
identifier productions returns with the fuel of one unit per byte left to
read (and one more), so each of their loop iterations has read a byte or
stopped, and leaves no more bytes than it was given; a separator found by
`skipSep` is at least one byte read, which is what an iteration of the array
and object loops reads at least. `parseValue` returns whenever it has four
units of fuel per byte left (and four more), which is what `parse` gives it.
The recursion is bounded by `maxDepth`: `parseValue` fails at once with the
nesting limit error when its depth is zero or less, and a value that `parse`
returns is nested at most `maxDepth` deep. -/
theorem parse_terminates {F : Type} (strtod : List Nat → F) (input : List Nat)
    (maxDepth : Int) :
    ((∃ v, parse strtod input maxDepth = .ok v) ∨
        (∃ e, parse strtod input maxDepth = .error e)) ∧
      (∀ r : Reader, Stops id (fun _ => 0) r.input.length (skipWhitespace r)) ∧
      (∀ r : Reader, Stops id (fun _ => 0) r.input.length (skipBlockComment r)) ∧
      (∀ r : Reader, Stops id (fun _ => 0) r.input.length (skipSpace r)) ∧
      (∀ r : Reader, Stops Prod.snd (fun a => a.1.toNat) r.input.length (skipSep r)) ∧
      (∀ r : Reader, Stops Prod.snd (fun _ => 0) r.input.length (parseString r)) ∧
      (∀ r : Reader, Stops Prod.snd (fun _ => 0) r.input.length (parseRawString r)) ∧
      (∀ r : Reader, Stops Prod.snd (fun _ => 0) r.input.length (parseBinaryString r)) ∧
      (∀ r : Reader, Stops Prod.snd (fun _ => 0) r.input.length (parseIdentifier r)) ∧
      (∀ r : Reader, Stops Prod.snd (fun _ => 0) r.input.length (parseNumber strtod r)) ∧
      (∀ (fuel : Nat) (r : Reader) (depth : Int) (topLevel : Bool),
        4 * r.input.length + 4 ≤ fuel →
          Stops Prod.snd (fun _ => 0) r.input.length
            (parseValue strtod fuel r depth topLevel)) ∧
      (∀ (fuel : Nat) (r : Reader) (depth : Int) (topLevel : Bool), depth ≤ 0 →
        parseValue strtod (fuel + 1) r depth topLevel = .error (error r.loc .nestingLimit)) ∧
      (∀ v : Value F, parse strtod input maxDepth = .ok v → (v.height : Int) ≤ maxDepth) := by
  refine ⟨?_, skipWhitespace_stops, skipBlockComment_stops, skipSpace_stops, skipSep_stops,
    parseString_stops, parseRawString_stops, parseBinaryString_stops, parseIdentifier_stops,
    parseNumber_stops strtod, ?_, ?_, parse_height strtod input maxDepth⟩
  · have h := parse_stops strtod input maxDepth
    cases hp : parse strtod input maxDepth with
    | ok v => exact Or.inl ⟨v, rfl⟩
    | error e => exact Or.inr ⟨e, rfl⟩
    | outOfFuel => exact absurd hp h
  · intro fuel r depth topLevel hf
    exact (parser_stops strtod fuel).2.2.2.2.2 r depth topLevel hf
  · intro fuel r depth topLevel hd
    exact parseValue_depth_zero strtod fuel r depth topLevel hd

/-! ## C18: the error sink -/

theorem skipBlockCommentLoop_run (fuel : Nat) : ∀ (r : Reader) (err : Sink),
    WithSink.skipBlockCommentLoop fuel r err = (skipBlockCommentLoop fuel r).run err := by
  induction fuel with
  | zero => intro r err; rfl
  | succ f ih =>
    intro r err
    rw [WithSink.skipBlockCommentLoop, skipBlockCommentLoop]
    split
    · simp [*, Result.run, error]
    · split <;> simp [*, Result.run]

theorem skipBlockComment_run (r : Reader) (err : Sink) :
    WithSink.skipBlockComment r err = (skipBlockComment r).run err :=
  skipBlockCommentLoop_run _ _ _

theorem skipLineCommentLoop_run (fuel : Nat) : ∀ (r : Reader) (err : Sink),
    WithSink.skipLineCommentLoop fuel r err = (skipLineCommentLoop fuel r).run err := by
  induction fuel with
  | zero => intro r err; rfl
  | succ f ih =>
    intro r err
    rw [WithSink.skipLineCommentLoop, skipLineCommentLoop]
    split <;> simp [*, Result.run]

theorem skipWhitespaceLoop_run (fuel : Nat) : ∀ (r : Reader) (err : Sink),
    WithSink.skipWhitespaceLoop fuel r err = (skipWhitespaceLoop fuel r).run err := by
  induction fuel with
  | zero => intro r err; rfl
  | succ f ih =>
    intro r err
    rw [WithSink.skipWhitespaceLoop, skipWhitespaceLoop]
    simp only [skipLineCommentLoop_run, skipBlockComment_run]
    split_ifs
    · exact ih _ _
    · cases skipLineCommentLoop r.get.2.get.2.fuel r.get.2.get.2 with
      | ok r1 => exact ih _ _
      | error e => rfl
      | outOfFuel => rfl
    · cases skipBlockComment r with
      | ok r1 => exact ih _ _
      | error e => rfl
      | outOfFuel => rfl
    · rfl

theorem skipWhitespace_run (r : Reader) (err : Sink) :
    WithSink.skipWhitespace r err = (skipWhitespace r).run err :=
  skipWhitespaceLoop_run _ _ _

theorem skipSpaceLoop_run (fuel : Nat) : ∀ (r : Reader) (err : Sink),
    WithSink.skipSpaceLoop fuel r err = (skipSpaceLoop fuel r).run err := by
  induction fuel with
  | zero => intro r err; rfl
  | succ f ih =>
    intro r err
    rw [WithSink.skipSpaceLoop, skipSpaceLoop]
    simp only [skipBlockComment_run]
    split_ifs
    · exact ih _ _
    · cases skipBlockComment r with
      | ok r1 => exact ih _ _
      | error e => rfl
      | outOfFuel => rfl
    · rfl

theorem skipSpace_run (r : Reader) (err : Sink) :
    WithSink.skipSpace r err = (skipSpace r).run err :=
  skipSpaceLoop_run _ _ _

theorem skipSep_run (r : Reader) (err : Sink) :
    WithSink.skipSep r err = (skipSep r).run err := by
  unfold WithSink.skipSep skipSep
  simp only [skipSpace_run, skipWhitespace_run, skipLineCommentLoop_run]
  cases skipSpace r with
  | error e => rfl
  | outOfFuel => rfl
  | ok r1 =>
    simp only [Result.run]
    split_ifs
    · cases skipWhitespace r1.get.2 with
      | ok r2 => rfl
      | error e => rfl
      | outOfFuel => rfl
    · cases skipWhitespace r1.get.2.get.2 with
      | ok r2 => rfl
      | error e => rfl
      | outOfFuel => rfl
    · cases skipLineCommentLoop r1.get.2.get.2.fuel r1.get.2.get.2 with
      | ok r2 => rfl
      | error e => rfl
      | outOfFuel => rfl
    · rfl

theorem parseHex_run (n : Nat) : ∀ (r : Reader) (num : Nat) (err : Sink),
    WithSink.parseHex n r num err = (parseHex n r num).run err := by
  induction n with
  | zero => intro r num err; rfl
  | succ n ih =>
    intro r num err
    rw [WithSink.parseHex, parseHex]
    cases r.get.1 with
    | none => rfl
    | some ch =>
      simp only
      split_ifs
      · exact ih _ _ _
      · exact ih _ _ _
      · exact ih _ _ _
      · rfl

theorem parseIdentifierLoop_run (fuel : Nat) : ∀ (r : Reader) (ident : List Nat) (err : Sink),
    WithSink.parseIdentifierLoop fuel r ident err = (parseIdentifierLoop fuel r ident).run err := by
  induction fuel with
  | zero => intro r ident err; rfl
  | succ f ih =>
    intro r ident err
    rw [WithSink.parseIdentifierLoop, parseIdentifierLoop]
    cases r.get.2.peek with
    | none => rfl
    | some nx =>
      simp only
      split_ifs
      · exact ih _ _ _
      · rfl

theorem parseIdentifier_run (r : Reader) (err : Sink) :
    WithSink.parseIdentifier r err = (parseIdentifier r).run err := by
  unfold WithSink.parseIdentifier parseIdentifier
  cases r.peek with
  | none => rfl
  | some ch =>
    simp only
    split_ifs
    · exact parseIdentifierLoop_run _ _ _ _
    · rfl

theorem parseStringEscape_run (r : Reader) (str : List Nat) (err : Sink) :
    WithSink.parseStringEscape r str err = (parseStringEscape r str).run err := by
  unfold WithSink.parseStringEscape parseStringEscape
  simp only [parseHex_run]
  cases r.get.1 with
  | none => rfl
  | some ch =>
    simp only
    cases parseStringEscapeChar ch with
    | some c => rfl
    | none =>
      simp only
      split_ifs
      · cases parseHex 2 r.get.2 0 with
        | ok a => rfl
        | error e => rfl
        | outOfFuel => rfl
      · cases parseHex 4 r.get.2 0 with
        | ok a =>
          simp only [Result.run]
          split_ifs <;> rfl
        | error e => rfl
        | outOfFuel => rfl
      · cases parseHex 6 r.get.2 0 with
        | ok a =>
          simp only [Result.run]
          split_ifs <;> rfl
        | error e => rfl
        | outOfFuel => rfl
      · rfl

theorem parseStringLoop_run (fuel : Nat) : ∀ (r : Reader) (str : List Nat) (err : Sink),
    WithSink.parseStringLoop fuel r str err = (parseStringLoop fuel r str).run err := by
  induction fuel with
  | zero => intro r str err; rfl
  | succ f ih =>
    intro r str err
    rw [WithSink.parseStringLoop, parseStringLoop]
    simp only [parseStringEscape_run]
    cases r.get.1 with
    | none => rfl
    | some ch =>
      simp only
      split_ifs
      · rfl
      · cases parseStringEscape r.get.2 str with
        | ok a => exact ih _ _ _
        | error e => rfl
        | outOfFuel => rfl
      · exact ih _ _ _

theorem parseString_run (r : Reader) (err : Sink) :
    WithSink.parseString r err = (parseString r).run err :=
  parseStringLoop_run _ _ _ _

theorem parseBinaryStringLoop_run (fuel : Nat) :
    ∀ (r : Reader) (bytes : List Nat) (err : Sink),
      WithSink.parseBinaryStringLoop fuel r bytes err
        = (parseBinaryStringLoop fuel r bytes).run err := by
  induction fuel with
  | zero => intro r bytes err; rfl
  | succ f ih =>
    intro r bytes err
    rw [WithSink.parseBinaryStringLoop, parseBinaryStringLoop]
    simp only [parseHex_run]
    cases r.get.1 with
    | none => rfl
    | some ch =>
      simp only
      split_ifs
      · rfl
      · cases r.get.2.get.1 with
        | none => rfl
        | some ch2 =>
          simp only
          split_ifs
          · cases parseHex 2 r.get.2.get.2 0 with
            | ok a => exact ih _ _ _
            | error e => rfl
            | outOfFuel => rfl
          · cases parseStringEscapeChar ch2 with
            | some c => exact ih _ _ _
            | none => rfl
      · rfl
      · exact ih _ _ _

theorem parseBinaryString_run (r : Reader) (err : Sink) :
    WithSink.parseBinaryString r err = (parseBinaryString r).run err :=
  parseBinaryStringLoop_run _ _ _ _

theorem countHashes_run (fuel : Nat) : ∀ (r : Reader) (hashes : Nat) (err : Sink),
    WithSink.countHashes fuel r hashes err = (countHashes fuel r hashes).run err := by
  induction fuel with
  | zero => intro r hashes err; rfl
  | succ f ih =>
    intro r hashes err
    rw [WithSink.countHashes, countHashes]
    split_ifs
    · exact ih _ _ _
    · rfl

theorem parseRawStringLoop_run (hashes fuel : Nat) :
    ∀ (r : Reader) (str : List Nat) (hashState : Int) (err : Sink),
      WithSink.parseRawStringLoop hashes fuel r str hashState err
        = (parseRawStringLoop hashes fuel r str hashState).run err := by
  induction fuel with
  | zero => intro r str hashState err; rfl
  | succ f ih =>
    intro r str hashState err
    rw [WithSink.parseRawStringLoop, parseRawStringLoop]
    cases r.get.1 with
    | none => rfl
    | some ch =>
      simp only
      split_ifs <;> first | rfl | exact ih _ _ _ _

theorem parseRawString_run (r : Reader) (err : Sink) :
    WithSink.parseRawString r err = (parseRawString r).run err := by
  unfold WithSink.parseRawString parseRawString
  simp only [countHashes_run]
  cases countHashes r.get.2.fuel r.get.2 0 with
  | error e => rfl
  | outOfFuel => rfl
  | ok a =>
    simp only [Result.run]
    split_ifs
    · rfl
    · exact parseRawStringLoop_run _ _ _ _ _ _

theorem parseIntegerLoop_run (radix fuel : Nat) : ∀ (r : Reader) (num : Dbl) (err : Sink),
    WithSink.parseIntegerLoop radix fuel r num err
      = (parseIntegerLoop radix fuel r num).run err := by
  induction fuel with
  | zero => intro r num err; rfl
  | succ f ih =>
    intro r num err
    rw [WithSink.parseIntegerLoop, parseIntegerLoop]
    split_ifs
    · rfl
    · exact ih _ _ _
    · cases charValue r.peek with
      | none => rfl
      | some digit =>
        simp only
        split_ifs
        · rfl
        · exact ih _ _ _

theorem parseInteger_run (r : Reader) (radix : Nat) (err : Sink) :
    WithSink.parseInteger r radix err = (parseInteger r radix).run err := by
  unfold WithSink.parseInteger parseInteger
  cases charValue r.peek with
  | none => rfl
  | some digit =>
    simp only
    split_ifs
    · rfl
    · exact parseIntegerLoop_run _ _ _ _ _

theorem parseFractionLoop_run (fuel : Nat) :
    ∀ (r : Reader) (fractional : List Nat) (err : Sink),
      WithSink.parseFractionLoop fuel r fractional err
        = (parseFractionLoop fuel r fractional).run err := by
  induction fuel with
  | zero => intro r fractional err; rfl
  | succ f ih =>
    intro r fractional err
    rw [WithSink.parseFractionLoop, parseFractionLoop]
    cases r.peek with
    | none => rfl
    | some ch =>
      simp only
      split_ifs
      · exact ih _ _ _
      · exact ih _ _ _
      · rfl

theorem parseFraction_run (r : Reader) (err : Sink) :
    WithSink.parseFraction r err = (parseFraction r).run err := by
  unfold WithSink.parseFraction parseFraction
  cases r.get.2.peek with
  | none => rfl
  | some ch =>
    simp only
    split_ifs
    · exact parseFractionLoop_run _ _ _ _
    · rfl

theorem parseExponent_run (r : Reader) (err : Sink) :
    WithSink.parseExponent r err = (parseExponent r).run err := by
  unfold WithSink.parseExponent parseExponent
  simp only [parseInteger_run]
  cases parseInteger
    (if r.get.2.peek = some 45 ∨ r.get.2.peek = some 43 then r.get.2.get.2 else r.get.2) 10 with
  | ok a => rfl
  | error e => rfl
  | outOfFuel => rfl

theorem parseKey_run (r : Reader) (err : Sink) :
    WithSink.parseKey r err = (parseKey r).run err := by
  unfold WithSink.parseKey parseKey
  split_ifs
  · exact parseString_run r err
  · exact parseIdentifier_run r err

theorem keywordValue_run {F : Type} (loc : Location) (ident : List Nat) (err : Sink) :
    (WithSink.keywordValue loc ident err : Outcome (Value F))
      = (keywordValue loc ident).run err := by
  unfold WithSink.keywordValue keywordValue
  split_ifs <;> rfl

theorem Result.run_ok {α : Type} (a : α) (err : Sink) :
    (Result.ok a).run err = .ret a err := rfl

theorem parseNumber_run {F : Type} (strtod : List Nat → F) (r : Reader) (err : Sink) :
    WithSink.parseNumber strtod r err = (parseNumber strtod r).run err := by
  unfold WithSink.parseNumber parseNumber
  simp only [parseInteger_run, parseFraction_run, parseExponent_run]
  generalize (if r.peek = some 45 ∨ r.peek = some 43 then r.get.2 else r) = r1
  generalize (if numberRadix r1 = 10 then r1 else r1.get.2.get.2) = r2
  have h3 : (if r2.peek ≠ some 46 then (parseInteger r2 (numberRadix r1)).run err
      else Outcome.ret (Dbl.fin 0, r2) err)
      = (if r2.peek ≠ some 46 then parseInteger r2 (numberRadix r1)
          else .ok (.fin 0, r2)).run err := by
    split_ifs <;> rfl
  rw [h3]
  generalize (if r2.peek ≠ some 46 then parseInteger r2 (numberRadix r1)
    else .ok (.fin 0, r2)) = res3
  rcases res3 with ⟨⟨integral, r3⟩⟩ | e | _
  · simp only [Result.run_ok]
    have h4 : (if numberRadix r1 = 10 ∧ r3.peek = some 46 then
          (parseFraction r3).run err
        else Outcome.ret ([], r3) err)
        = (if numberRadix r1 = 10 ∧ r3.peek = some 46 then parseFraction r3
            else .ok ([], r3)).run err := by
      split_ifs <;> rfl
    rw [h4]
    generalize (if numberRadix r1 = 10 ∧ r3.peek = some 46 then parseFraction r3
      else .ok ([], r3)) = res4
    rcases res4 with ⟨⟨fractional, r4⟩⟩ | e | _
    · simp only [Result.run_ok]
      have h5 : (if numberRadix r1 = 10 ∧ (r4.peek = some 101 ∨ r4.peek = some 69) then
            (parseExponent r4).run err
          else Outcome.ret ((false, Dbl.fin 0), r4) err)
          = (if numberRadix r1 = 10 ∧ (r4.peek = some 101 ∨ r4.peek = some 69) then
              parseExponent r4 else .ok ((false, .fin 0), r4)).run err := by
        split_ifs <;> rfl
      rw [h5]
      generalize (if numberRadix r1 = 10 ∧ (r4.peek = some 101 ∨ r4.peek = some 69) then
        parseExponent r4 else .ok ((false, .fin 0), r4)) = res5
      rcases res5 with ⟨⟨⟨exponentNegative, exponent⟩, r5⟩⟩ | e | _
      · simp only [Result.run_ok]
        split_ifs <;> rfl
      · rfl
      · rfl
    · rfl
    · rfl
  · rfl
  · rfl

/-- The parser with the sink and the parser without it agree on every call
of the mutual recursion of `parseValue`: the one fails exactly where the
other reports an error, and then the sink holds what `error` wrote for that
error. -/
theorem parser_run {F : Type} (strtod : List Nat → F) (fuel : Nat) :
    (∀ r key obj index depth err,
        WithSink.parseKeyValuePairsAfterKey strtod fuel r key obj index depth err
          = (parseKeyValuePairsAfterKey strtod fuel r key obj index depth).run err) ∧
      (∀ r depth err, WithSink.parseKeyValuePairs strtod fuel r depth err
        = (parseKeyValuePairs strtod fuel r depth).run err) ∧
      (∀ r depth err, WithSink.parseObject strtod fuel r depth err
        = (parseObject strtod fuel r depth).run err) ∧
      (∀ r arr depth err, WithSink.parseArrayLoop strtod fuel r arr depth err
        = (parseArrayLoop strtod fuel r arr depth).run err) ∧
      (∀ r depth err, WithSink.parseArray strtod fuel r depth err
        = (parseArray strtod fuel r depth).run err) ∧
      (∀ r depth tl err, WithSink.parseValue strtod fuel r depth tl err
        = (parseValue strtod fuel r depth tl).run err) := by
  induction fuel with
  | zero =>
    refine ⟨?_, ?_, ?_, ?_, ?_, ?_⟩
    · intro r key obj index depth err
      rw [WithSink.parseKeyValuePairsAfterKey, parseKeyValuePairsAfterKey]; rfl
    · intro r depth err; rw [WithSink.parseKeyValuePairs, parseKeyValuePairs]; rfl
    · intro r depth err; rw [WithSink.parseObject, parseObject]; rfl
    · intro r arr depth err; rw [WithSink.parseArrayLoop, parseArrayLoop]; rfl
    · intro r depth err; rw [WithSink.parseArray, parseArray]; rfl
    · intro r depth tl err; rw [WithSink.parseValue, parseValue]; rfl
  | succ f ih =>
    obtain ⟨ihAfter, ihPairs, ihObject, ihLoop, ihArray, ihValue⟩ := ih
    refine ⟨?_, ?_, ?_, ?_, ?_, ?_⟩
    · intro r key obj index depth err
      rw [WithSink.parseKeyValuePairsAfterKey, parseKeyValuePairsAfterKey]
      simp only [skipWhitespace_run, skipSep_run, parseKey_run, ihValue, ihAfter]
      split_ifs
      · rfl
      · rcases skipWhitespace r.get.2 with r1 | e | _
        · simp only [Result.run_ok]
          rcases parseValue strtod f r1 depth false with ⟨⟨val, r2⟩⟩ | e | _
          · simp only [Result.run_ok]
            rcases skipSep r2 with ⟨⟨hasSep, r3⟩⟩ | e | _
            · simp only [Result.run_ok]
              rcases skipWhitespace r3 with r4 | e | _
              · simp only [Result.run_ok]
                split_ifs
                · rfl
                · rfl
                · rcases parseKey r4 with ⟨⟨key1, r5⟩⟩ | e | _
                  · simp only [Result.run_ok]
                    rcases skipWhitespace r5 with r6 | e | _
                    · rfl
                    · rfl
                    · rfl
                  · rfl
                  · rfl
              · rfl
              · rfl
            · rfl
            · rfl
          · rfl
          · rfl
        · rfl
        · rfl
    · intro r depth err
      rw [WithSink.parseKeyValuePairs, parseKeyValuePairs]
      simp only [skipWhitespace_run, parseKey_run, ihAfter]
      rcases parseKey r with ⟨⟨key, r1⟩⟩ | e | _
      · simp only [Result.run_ok]
        rcases skipWhitespace r1 with r2 | e | _
        · rfl
        · rfl
        · rfl
      · rfl
      · rfl
    · intro r depth err
      rw [WithSink.parseObject, parseObject]
      simp only [skipWhitespace_run, ihPairs]
      split_ifs
      · rfl
      · rcases skipWhitespace r.get.2 with r1 | e | _
        · simp only [Result.run_ok]
          split_ifs
          · rfl
          · rcases parseKeyValuePairs strtod f r1 depth with ⟨⟨obj, r2⟩⟩ | e | _
            · simp only [Result.run_ok]
              rcases skipWhitespace r2 with r3 | e | _
              · simp only [Result.run_ok]
                split_ifs <;> rfl
              · rfl
              · rfl
            · rfl
            · rfl
        · rfl
        · rfl
    · intro r arr depth err
      rw [WithSink.parseArrayLoop, parseArrayLoop]
      simp only [skipSep_run, ihValue, ihLoop]
      rcases parseValue strtod f r depth false with ⟨⟨val, r1⟩⟩ | e | _
      · simp only [Result.run_ok]
        rcases skipSep r1 with ⟨⟨hasSep, r2⟩⟩ | e | _
        · simp only [Result.run_ok]
          split_ifs <;> rfl
        · rfl
        · rfl
      · rfl
      · rfl
    · intro r depth err
      rw [WithSink.parseArray, parseArray]
      simp only [skipWhitespace_run, ihLoop]
      split_ifs
      · rfl
      · rcases skipWhitespace r.get.2 with r1 | e | _
        · simp only [Result.run_ok]
          split_ifs <;> rfl
        · rfl
        · rfl
    · intro r depth tl err
      rw [WithSink.parseValue, parseValue]
      simp only [skipWhitespace_run, parseString_run, parseRawString_run, parseNumber_run,
        parseBinaryString_run, parseIdentifier_run, keywordValue_run, ihArray, ihObject,
        ihAfter]
      by_cases h0 : depth ≤ 0
      · rw [if_pos h0, if_pos h0]; rfl
      rw [if_neg h0, if_neg h0]
      by_cases h1 : r.peek = none
      · rw [if_pos h1, if_pos h1]; rfl
      rw [if_neg h1, if_neg h1]
      by_cases h2 : r.peek = some 91
      · rw [if_pos h2, if_pos h2]
        rcases parseArray strtod f r (depth - 1) with ⟨⟨arr, r1⟩⟩ | e | _ <;> rfl
      rw [if_neg h2, if_neg h2]
      by_cases h3 : r.peek = some 123
      · rw [if_pos h3, if_pos h3]
        rcases parseObject strtod f r (depth - 1) with ⟨⟨obj, r1⟩⟩ | e | _ <;> rfl
      rw [if_neg h3, if_neg h3]
      by_cases h4 : r.peek = some 34
      · rw [if_pos h4, if_pos h4]
        rcases parseString r with ⟨⟨ident, r1⟩⟩ | e | _
        · simp only [Result.run_ok]
          cases tl with
          | false => rfl
          | true =>
            simp only [if_true]
            rcases skipWhitespace r1 with r2 | e | _
            · simp only [Result.run_ok]
              split_ifs
              · rcases parseKeyValuePairsAfterKey strtod f r2 ident [] 0 (depth - 1)
                  with ⟨⟨obj, r3⟩⟩ | e | _ <;> rfl
              · rfl
            · rfl
            · rfl
        · rfl
        · rfl
      rw [if_neg h4, if_neg h4]
      by_cases h6 : r.peek = some 114 ∧ (r.peek2 = some 34 ∨ r.peek2 = some 35)
      · rw [if_pos h6, if_pos h6]
        rcases parseRawString r with ⟨⟨str, r1⟩⟩ | e | _ <;> rfl
      rw [if_neg h6, if_neg h6]
      by_cases h7 : (r.peek.any fun ch => 48 ≤ ch ∧ ch ≤ 57) ∨ r.peek = some 46 ∨
          r.peek = some 43 ∨ r.peek = some 45
      · rw [if_pos h7, if_pos h7]
        rcases parseNumber strtod r with ⟨⟨num, r1⟩⟩ | e | _ <;> rfl
      rw [if_neg h7, if_neg h7]
      by_cases h8 : r.peek = some 98 ∧ r.peek2 = some 34
      · rw [if_pos h8, if_pos h8]
        rcases parseBinaryString r with ⟨⟨bytes, r1⟩⟩ | e | _ <;> rfl
      rw [if_neg h8, if_neg h8]
      rcases parseIdentifier r with ⟨⟨ident, r1⟩⟩ | e | _
      · simp only [Result.run_ok]
        cases tl with
        | false =>
          rcases (keywordValue r.loc ident : Result (Value F)) with v | e | _ <;> rfl
        | true =>
          simp only [if_true]
          rcases skipWhitespace r1 with r2 | e | _
          · simp only [Result.run_ok]
            split_ifs
            · rcases parseKeyValuePairsAfterKey strtod f r2 ident [] 0 (depth - 1)
                with ⟨⟨obj, r3⟩⟩ | e | _ <;> rfl
            · rcases (keywordValue r.loc ident : Result (Value F)) with v | e | _ <;> rfl
          · rfl
          · rfl
      · rfl
      · rfl

theorem parse_run {F : Type} (strtod : List Nat → F) (input : List Nat) (d : Int)
    (err : Sink) : WithSink.parse strtod input d err = (parse strtod input d).run err := by
  unfold WithSink.parse parse
  simp only [skipWhitespace_run, (parser_run strtod _).2.2.2.2.2]
  rcases skipWhitespace (Reader.init input) with r | e | _
  · simp only [Result.run_ok]
    rcases parseValue strtod (parseFuel input.length) r d true with ⟨⟨v, r1⟩⟩ | e | _
    · simp only [Result.run_ok]
      rcases skipWhitespace r1 with r2 | e | _
      · simp only [Result.run_ok]
        split_ifs <;> rfl
      · rfl
      · rfl
    · rfl
    · rfl
  · rfl
  · rfl

theorem Sink.error_text (err : Sink) (loc : Location) (what : ErrorKind) (t : String)
    (h : err.text = some t) :
    err.error loc what
      = ⟨some (toString loc.line ++ ":" ++ toString loc.ch ++ ": " ++ what.what),
          err.writes + 1⟩ := by
  unfold Sink.error
  rw [h]

theorem Sink.error_null (err : Sink) (loc : Location) (what : ErrorKind)
    (h : err.text = none) : err.error loc what = err := by
  unfold Sink.error
  rw [h]

/-- What `parse` with the sink does: it returns `true` and the sink is the one
it was given, or it returns `false` and the sink is the one it was given
after one call of `error` at the location of the reader after some calls of
`get`. -/
theorem parse_sink {F : Type} (strtod : List Nat → F) (input : List Nat) (d : Int)
    (err : Sink) :
    (∃ v, WithSink.parse strtod input d err = .ret v err) ∨
      (∃ loc what, WithSink.parse strtod input d err = .fail (err.error loc what) ∧
        (∃ n, loc = (Reader.getN n (Reader.init input)).loc) ∧ 1 ≤ loc.line ∧ 1 ≤ loc.ch) := by
  rw [parse_run]
  have hstop := parse_stops strtod input d
  have ht := parse_tracks strtod input d
  cases hp : parse strtod input d with
  | ok v => exact Or.inl ⟨v, rfl⟩
  | outOfFuel => exact absurd hp hstop
  | error e =>
    rw [hp] at ht
    obtain ⟨r, hr, hloc⟩ := ht
    have hgood := hr.loc (by simp [Reader.init])
    rw [← hloc] at hgood
    obtain ⟨n, hn⟩ := hr
    exact Or.inr ⟨e.loc, e.what, rfl, ⟨n, by rw [hloc, hn]⟩, hgood.1, hgood.2⟩

/-- C18. Error reporting. The parser is embedded with the parameter
`String *err` of the source threaded through every function, `error` being
the one place that assigns to it. For every input, `maxDepth` and sink,
`parse` returns. When it returns `true` the sink is left as it was. When it
returns `false` the sink is what one call of `error` made of it, at a
location that is the location of the reader after some number of `get` calls
on the input, with line and column at least 1: a null sink stays null, and a
sink that is present then holds the line, a colon, the column, a colon and a
blank, and the message, and has been assigned once. So for a sink that is
present, `parse` returns `false` if and only if it has assigned to the sink.
The outcome agrees with the parser that is embedded without the sink. -/
theorem error_reporting {F : Type} (strtod : List Nat → F) (input : List Nat) (d : Int)
    (err : Sink) :
    ((∃ v, WithSink.parse strtod input d err = .ret v err) ∨
        (∃ loc what, WithSink.parse strtod input d err = .fail (err.error loc what) ∧
          (∃ n, loc = (Reader.getN n (Reader.init input)).loc) ∧ 1 ≤ loc.line ∧ 1 ≤ loc.ch ∧
          (err.text = none → err.error loc what = err) ∧
          (∀ t, err.text = some t →
            (err.error loc what).text
                = some (toString loc.line ++ ":" ++ toString loc.ch ++ ": " ++ what.what) ∧
              (err.error loc what).writes = err.writes + 1))) ∧
      (∀ t, err.text = some t →
        ((WithSink.parse strtod input d err).returned = false ↔
          ((WithSink.parse strtod input d err).sinkAfter err).writes = err.writes + 1)) ∧
      ((WithSink.parse strtod input d err).returned = true →
        (WithSink.parse strtod input d err).sinkAfter err = err) ∧
      (err.text = none → (WithSink.parse strtod input d err).sinkAfter err = err) ∧
      WithSink.parse strtod input d err = (parse strtod input d).run err := by
  have hs := parse_sink strtod input d err
  refine ⟨?_, ?_, ?_, ?_, parse_run strtod input d err⟩
  · rcases hs with ⟨v, hv⟩ | ⟨loc, what, hf, hn, hl, hc⟩
    · exact Or.inl ⟨v, hv⟩
    · refine Or.inr ⟨loc, what, hf, hn, hl, hc, Sink.error_null err loc what, ?_⟩
      intro t ht
      rw [Sink.error_text err loc what t ht]
      exact ⟨rfl, rfl⟩
  · intro t ht
    rcases hs with ⟨v, hv⟩ | ⟨loc, what, hf, -⟩
    · rw [hv]
      simp [Outcome.returned, Outcome.sinkAfter]
    · rw [hf, Sink.error_text err loc what t ht]
      simp [Outcome.returned, Outcome.sinkAfter]
  · intro hret
    rcases hs with ⟨v, hv⟩ | ⟨loc, what, hf, -⟩
    · rw [hv]; rfl
    · rw [hf] at hret
      simp [Outcome.returned] at hret
  · intro hnull
    rcases hs with ⟨v, hv⟩ | ⟨loc, what, hf, -⟩
    · rw [hv]; rfl
    · rw [hf]
      exact Sink.error_null err loc what hnull

/-- C18 on the documents `1 2` and `1` with an empty string as the sink: the
first parse returns `false` and the sink holds
`1:3: Trailing garbage after document` after one assignment, the second
returns `true` and leaves the sink alone; with a null sink the first parse
returns `false` and the sink stays null. -/
theorem error_reporting_witness :
    (WithSink.parse (fun t => t) [49, 32, 50] 8 ⟨some "", 0⟩).returned = false ∧
      ((WithSink.parse (fun t => t) [49, 32, 50] 8 ⟨some "", 0⟩).sinkAfter ⟨some "", 0⟩).writes
        = 1 ∧
      WithSink.parse (fun t => t) [49, 32, 50] 8 ⟨some "", 0⟩
        = .fail ⟨some "1:3: Trailing garbage after document", 1⟩ ∧
      WithSink.parse (fun t => t) [49] 8 ⟨some "", 0⟩
        = .ret (.number [49, 101, 48]) ⟨some "", 0⟩ ∧
      (WithSink.parse (fun t => t) [49, 32, 50] 8 ⟨none, 0⟩).sinkAfter ⟨none, 0⟩ = ⟨none, 0⟩ :=
  have h := error_reporting (fun t => t) [49, 32, 50] 8 ⟨some "", 0⟩
  have h0 := error_reporting (fun t => t) [49, 32, 50] 8 ⟨none, 0⟩
  have hm : Sink.error ⟨some "", 0⟩ ⟨1, 3⟩ .trailingGarbage
      = ⟨some "1:3: Trailing garbage after document", 1⟩ := by decide
  ⟨rfl, (h.2.1 "" rfl).mp rfl, h.2.2.2.2.trans (congrArg Outcome.fail hm),
    (error_reporting (fun t => t) [49] 8 ⟨some "", 0⟩).2.2.2.2.trans rfl, h0.2.2.2.1 rfl⟩

end Mason
